import Mathlib

/-!
The program chap: command layer, extension engine, anchor chain lister, Python block finder

A shallow embedding of parts of the post-mortem analyser chap (src/Commands/Runner.h,
src/Allocations/ExtendedVisitor.h, src/Allocations/AnchorChainLister.h,
src/Allocations/Iterators, src/Python/BlockAllocationFinder.h) and theorems about them.

Conventions: a std::string is the list of its bytes (natural numbers); std::string::npos is
none; loops that the source does not bound take a fuel argument and give none when it runs
out; machine integers are natural numbers reduced modulo 2^w where the source can wrap.
-/

namespace chap

namespace Commands

/-- A command line is a sequence of bytes (the chars of a std::string). -/
abbrev Line := List Nat

/-- Tokens is std::vector<std::string>. -/
abbrev Tokens := List Line

/-- The bytes of an ASCII string literal. -/
def bytesOf (s : String) : Line := s.toList.map Char.toNat

def SPACE : Nat := 0x20
def TAB : Nat := 0x09
def HASH : Nat := 0x23
def BACKSLASH : Nat := 0x5c
def SLASH : Nat := 0x2f

/-- First index i with pos <= i whose byte satisfies p; none stands for npos.
The counter i is the index of the head of the remaining list. -/
def findFrom (p : Nat → Bool) : Line → Nat → Nat → Option Nat
  | [], _, _ => none
  | c :: cs, i, pos => if pos ≤ i && p c then some i else findFrom p cs (i + 1) pos

/-- Model of std::string::find(c): index of the first occurrence of c. -/
def find (s : Line) (c : Nat) : Option Nat := findFrom (fun b => b == c) s 0 0

/-- Model of std::string::find_first_of(chars, pos); an argument npos gives npos. -/
def find_first_of (s : Line) (chars : List Nat) : Option Nat → Option Nat
  | none => none
  | some pos => findFrom (fun b => chars.contains b) s 0 pos

/-- Model of std::string::find_first_not_of(chars, pos); an argument npos gives npos. -/
def find_first_not_of (s : Line) (chars : List Nat) : Option Nat → Option Nat
  | none => none
  | some pos => findFrom (fun b => !chars.contains b) s 0 pos

/-- The condition of the loops at lines 99 and 135: a non-breaking space at pos. -/
def nbspAt (s : Line) (pos : Nat) : Bool :=
  s[pos]? == some 0xc2 && decide (pos + 1 < s.length) && s[pos + 1]? == some 0xa0

/-- The condition of the loop at line 122: the byte 0xc2 at pos, followed by a byte
other than 0xa0. -/
def otherC2At (s : Line) (pos : Nat) : Bool :=
  s[pos]? == some 0xc2 && decide (pos + 1 < s.length) && s[pos + 1]? != some 0xa0

/-- The loops at lines 99-102 and 135-138: while a non-breaking space is at pos,
continue the search for a non-blank two bytes further.  None is fuel exhaustion. -/
def skipNbsp (s : Line) : Nat → Option Nat → Option (Option Nat)
  | _, none => some none
  | fuel, some pos =>
    if nbspAt s pos then
      match fuel with
      | 0 => none
      | n + 1 => skipNbsp s n (find_first_not_of s [SPACE, TAB] (some (pos + 2)))
    else some (some pos)

/-- The loop at lines 122-129: while 0xc2 followed by something other than 0xa0 is at
pos, continue the search for a separator two bytes further. -/
def skipOtherC2 (s : Line) : Nat → Option Nat → Option (Option Nat)
  | _, none => some none
  | fuel, some pos =>
    if otherC2At s pos then
      match fuel with
      | 0 => none
      | n + 1 => skipOtherC2 s n (find_first_of s [SPACE, TAB, 0xc2] (some (pos + 2)))
    else some (some pos)

/-- Model of std::string(cmdLine, tokenPos, n) where n is npos or pos - tokenPos. -/
def substr (s : Line) (tokenPos : Nat) : Option Nat → Line
  | none => s.drop tokenPos
  | some pos => (s.drop tokenPos).take (pos - tokenPos)

/-- The do-while loop at lines 119-139; pos is the position of the first byte of the
next token.  None is fuel exhaustion. -/
def tokenLoop (s : Line) (fuel : Nat) : Nat → Nat → Tokens → Option Tokens
  | 0, _, _ => none
  | n + 1, tokenPos, tokens =>
    match skipOtherC2 s fuel (find_first_of s [SPACE, TAB, 0xc2] (some tokenPos)) with
    | none => none
    | some pos =>
      let tokens1 := tokens ++ [substr s tokenPos pos]
      match skipNbsp s fuel (find_first_not_of s [SPACE, TAB] pos) with
      | none => none
      | some none => some tokens1
      | some (some pos1) => tokenLoop s fuel n pos1 tokens1


/-- One entry of the script context (LineInfo.h): a script path and the number of the
line last read from it. -/
structure LineInfo where
  _path : Line
  _line : Nat
deriving DecidableEq, Repr

/-- ScriptContext is std::vector<LineInfo>; back() is the last element. -/
abbrev ScriptContext := List LineInfo

/-- The state of class Input.  Each stream of _inputStack is given by the lines still to
be read from it, the top of the stack first; the bottom stream stands for the terminal,
which ReadLine reads through replxx_input. -/
structure Input where
  _scriptContext : ScriptContext
  _inputStack : List (List Line)
deriving DecidableEq, Repr

/-- The body of the loop at line 82 for one line that was read (lines 83-142).  The
result is none when a loop runs out of fuel, else the tokens and whether GetTokens
returns (true) or reads the next line (false).
For an empty line the source reads cmdLine[size() - 1] out of range; the model takes
that byte not to be a backslash. -/
def processLine (fuel : Nat) (tokens : Tokens) (cmdLine : Line) : Option (Bool × Tokens) :=
  let checkNextLine : Bool := cmdLine.getLast? == some BACKSLASH
  let cmdLine1 := if checkNextLine then cmdLine.dropLast else cmdLine
  let cmdLine2 := match find cmdLine1 HASH with
    | some commentPos => cmdLine1.take commentPos
    | none => cmdLine1
  match skipNbsp cmdLine2 fuel (find_first_not_of cmdLine2 [SPACE, TAB] (some 0)) with
  | none => none
  | some none =>
    if tokens.isEmpty || checkNextLine then some (false, tokens) else some (true, tokens)
  | some (some pos) =>
    match tokenLoop cmdLine2 fuel fuel pos tokens with
    | none => none
    | some tokens1 => some (!checkNextLine, tokens1)

/-- The loop at line 82 over the lines of the top stream.  The result holds the tokens,
the number of lines read and the lines left in the stream, or none for them when
ReadLine failed (end of the stream). -/
def readLoop (fuel : Nat) : List Line → Nat → Tokens → Option (Tokens × Nat × Option (List Line))
  | [], k, tokens => some (tokens, k, none)
  | cmdLine :: rest, k, tokens =>
    match processLine fuel tokens cmdLine with
    | none => none
    | some (true, tokens1) => some (tokens1, k + 1, some rest)
    | some (false, tokens1) => readLoop fuel rest (k + 1) tokens1

/-- The effect of k executions of _scriptContext.back()._line++ (line 92). -/
def bumpLine (k : Nat) (sc : ScriptContext) : ScriptContext :=
  match sc.getLast? with
  | none => sc
  | some li => sc.dropLast ++ [{ li with _line := li._line + k }]

/-- Model of Input::GetTokens (lines 77-160): the tokens of the next statement and the
state of the input afterwards; none when a loop runs out of fuel. -/
def Input.GetTokens (fuel : Nat) (inp : Input) : Option (Tokens × Input) :=
  match inp._inputStack with
  | [] => some ([], inp)
  | top :: below =>
    match readLoop fuel top 0 [] with
    | none => none
    | some (tokens, k, some rest) =>
      some (tokens, { _scriptContext := bumpLine k inp._scriptContext,
                      _inputStack := rest :: below })
    | some (tokens, k, none) =>
      some (tokens, { _scriptContext := (bumpLine k inp._scriptContext).dropLast,
                      _inputStack := below })

/-- Space and tab, the separators of the claim about ASCII lines. -/
def isBlank (b : Nat) : Bool := b == SPACE || b == TAB

/-- The maximal runs of bytes other than space and tab of a line, in order (the words
of the specification about the tokens of a line). -/
def maximalRuns (s : Line) : Tokens :=
  (s.splitOnP isBlank).filter (fun t => !t.isEmpty)

end Commands

namespace Commands

def QUOTE : Nat := 0x22
def NEWLINE : Nat := 0x0a

/-- The decimal digits of a number, as written through std::dec. -/
def decimal (n : Nat) : Line := (Nat.toDigits 10 n).map Char.toNat

/-- The lower-case hexadecimal digits of a number, as written through std::hex. -/
def hexadecimal (n : Nat) : Line := (Nat.toDigits 16 n).map Char.toNat

/-- The state of class Error: the script context it refers to, the pending flag, and the
text written to std::cerr through it so far, one entry for each statement that writes. -/
structure Error where
  _scriptContext : ScriptContext
  _contextWritePending : Bool
  cerr : List Line
deriving DecidableEq, Repr

/-- Model of Error::SetContextWritePending. -/
def Error.SetContextWritePending (e : Error) : Error :=
  { e with _contextWritePending := true }

/-- The text of lines 337-343: the script context, innermost script first. -/
def errorContextText : List LineInfo → Line
  | [] => []
  | it :: outer =>
    bytesOf "Error at line " ++ decimal it._line ++ bytesOf " of " ++ it._path
      ++ (outer.map (fun o =>
            [NEWLINE] ++ bytesOf " called from line " ++ decimal o._line ++ bytesOf " of "
              ++ o._path)).flatten
      ++ [NEWLINE]

/-- Model of Error::FlushPendingErrorContext (lines 332-347). -/
def Error.FlushPendingErrorContext (e : Error) : Error :=
  if e._contextWritePending then
    { e with
      cerr := if e._scriptContext.isEmpty then e.cerr
              else e.cerr ++ [errorContextText e._scriptContext.reverse],
      _contextWritePending := false }
  else e

/-- Model of one statement error << v1 << v2 << ...: the pending context is flushed by the
first operand and msg, the concatenation of the operands, is written. -/
def Error.write (e : Error) (msg : Line) : Error :=
  let e1 := e.FlushPendingErrorContext
  { e1 with cerr := e1.cerr ++ [msg] }

/-- The order of std::string (operator<): lexicographic on the bytes. -/
def strLess : Line → Line → Bool
  | [], [] => false
  | [], _ :: _ => true
  | _ :: _, [] => false
  | a :: as, b :: bs => if a < b then true else if b < a then false else strLess as bs

/-- The type std::map<std::string, std::vector<std::string>> of _switchedArguments: the
entries, in ascending order of the keys. -/
abbrev SwitchMap := List (Line × List Line)

/-- Model of std::map::find: the value stored for a key, none for end(). -/
def mapFind : SwitchMap → Line → Option (List Line)
  | [], _ => none
  | (k1, v) :: m, k => if k1 = k then some v else mapFind m k

/-- Insertion of a key that is not present, at its place in the order. -/
def mapInsert : SwitchMap → Line → List Line → SwitchMap
  | [], k, v => [(k, v)]
  | (k1, v1) :: m, k, v =>
    if strLess k k1 then (k, v) :: (k1, v1) :: m else (k1, v1) :: mapInsert m k v

/-- Model of _switchedArguments[switchName].push_back(token): operator[] finds the entry
of the key or inserts an empty one. -/
def mapPushBack (m : SwitchMap) (switchName : Line) (token : Line) : SwitchMap :=
  match mapFind m switchName with
  | some _ => m.map (fun e => if e.1 = switchName then (e.1, e.2 ++ [token]) else e)
  | none => mapInsert m switchName [token]

/-- The state of class Context (lines 664-676), without the references to Input and
Output. -/
structure Context where
  _error : Error
  _redirectPrefix : Line
  _hasIllFormedSwitch : Bool
  _tokens : Tokens
  _positionalArguments : List Line
  _switchedArguments : SwitchMap
  _redirectPath : Line
deriving DecidableEq, Repr

/-- The variables of the loop of the constructor of Context (lines 376-409). -/
structure CtorState where
  switchName : Line
  argNum : Nat
  _error : Error
  _hasIllFormedSwitch : Bool
  _positionalArguments : List Line
  _switchedArguments : SwitchMap
deriving DecidableEq, Repr

/-- The message of lines 389 and 417. -/
def expectedArgumentMsg (switchName : Line) : Line :=
  bytesOf "Expected argument for switch " ++ switchName ++ [NEWLINE]

/-- The body of the loop of the constructor of Context for one token (lines 380-408). -/
def ctorStep (st : CtorState) (token : Line) : CtorState :=
  if find token SLASH == some 0 then
    let st1 : CtorState :=
      if !st.switchName.isEmpty then
        { st with _error := st._error.write (expectedArgumentMsg st.switchName),
                  _hasIllFormedSwitch := true }
      else if st.argNum == 0 then
        { st with _error := st._error.write
                    (bytesOf "No switches are allowed before the command name." ++ [NEWLINE]),
                  _hasIllFormedSwitch := true }
      else st
    let switchName := token.drop 1
    let st2 : CtorState :=
      if switchName.isEmpty then
        { st1 with _error := st1._error.write
                     (bytesOf "An unexpected empty switch name was found." ++ [NEWLINE]),
                   _hasIllFormedSwitch := true }
      else st1
    { st2 with switchName := switchName, argNum := st.argNum + 1 }
  else if st.switchName.isEmpty then
    { st with _positionalArguments := st._positionalArguments ++ [token],
              argNum := st.argNum + 1 }
  else
    { st with _switchedArguments := mapPushBack st._switchedArguments st.switchName token,
              switchName := [],
              argNum := st.argNum + 1 }

/-- The constructor of Context after the call of GetTokens (lines 375-419). -/
def Context.ofTokens (tokens : Tokens) (error : Error) (redirectPath0 : Line) : Context :=
  let st0 : CtorState :=
    { switchName := [], argNum := 0, _error := error.SetContextWritePending,
      _hasIllFormedSwitch := false, _positionalArguments := [], _switchedArguments := [] }
  let st := tokens.foldl ctorStep st0
  let st1 : CtorState :=
    if !st.switchName.isEmpty then
      { st with _error := st._error.write (expectedArgumentMsg st.switchName),
                _hasIllFormedSwitch := true }
    else st
  { _error := st1._error, _redirectPrefix := redirectPath0,
    _hasIllFormedSwitch := st1._hasIllFormedSwitch, _tokens := tokens,
    _positionalArguments := st1._positionalArguments,
    _switchedArguments := st1._switchedArguments, _redirectPath := [] }

/-- Model of the constructor Context::Context (lines 367-420): the tokens of the next
statement are read from the input; none when GetTokens runs out of fuel. -/
def Context.new (fuel : Nat) (input : Input) (error : Error) (redirectPath0 : Line) :
    Option (Context × Input) :=
  match input.GetTokens fuel with
  | none => none
  | some (tokens, input1) => some (Context.ofTokens tokens error redirectPath0, input1)

/-- Model of Context::HasIllFormedSwitch. -/
def Context.HasIllFormedSwitch (c : Context) : Bool := c._hasIllFormedSwitch

/-- Model of Context::GetNumArguments (lines 557-561). -/
def Context.GetNumArguments (c : Context) (switchName : Line) : Nat :=
  match mapFind c._switchedArguments switchName with
  | none => 0
  | some v => v.length

/-- Model of Context::Argument (lines 563-570); emptyToken is the empty string. -/
def Context.Argument (c : Context) (switchName : Line) (index : Nat) : Line :=
  match mapFind c._switchedArguments switchName with
  | none => []
  | some v => v.getD index []

/-- The arguments recorded for a switch name: Argument(switchName, i) for i below
GetNumArguments(switchName). -/
def Context.arguments (c : Context) (switchName : Line) : List Line :=
  (List.range (c.GetNumArguments switchName)).map (fun i => c.Argument switchName i)

/-- The result of Context::ParseBooleanSwitch: the value returned, the value of the
reference argument afterwards, and the error stream. -/
structure BooleanSwitchResult where
  result : Bool
  value : Bool
  _error : Error
deriving DecidableEq, Repr

/-- The loop of Context::ParseBooleanSwitch over the arguments of the switch (lines
624-654): none with the error stream when the function returns false from inside the
loop, else the final returnValue. -/
def booleanSwitchLoop (switchName : Line) (error : Error) :
    List Line → Bool → Bool → Except Error Bool
  | [], returnValue, _ => .ok returnValue
  | argument :: rest, returnValue, returnValueSet =>
    if argument = bytesOf "true" then
      if returnValueSet then
        if !returnValue then
          .error (error.write (bytesOf "Conflicting arguments to multiple /" ++ switchName
            ++ bytesOf " switches." ++ [NEWLINE]))
        else booleanSwitchLoop switchName error rest returnValue returnValueSet
      else booleanSwitchLoop switchName error rest true true
    else if argument = bytesOf "false" then
      if returnValueSet then
        if returnValue then
          .error (error.write (bytesOf "Conflicting arguments to multiple /" ++ switchName
            ++ bytesOf " switches." ++ [NEWLINE]))
        else booleanSwitchLoop switchName error rest returnValue returnValueSet
      else booleanSwitchLoop switchName error rest false true
    else
      .error (error.write (bytesOf "Unexpected argument " ++ [QUOTE] ++ argument ++ [QUOTE]
        ++ bytesOf " to /" ++ switchName ++ bytesOf " switch." ++ [NEWLINE]))

/-- Model of Context::ParseBooleanSwitch (lines 616-657). -/
def Context.ParseBooleanSwitch (c : Context) (switchName : Line) (value : Bool) :
    BooleanSwitchResult :=
  match mapFind c._switchedArguments switchName with
  | none => { result := true, value := value, _error := c._error }
  | some args =>
    match booleanSwitchLoop switchName c._error args value false with
    | .error e => { result := false, value := value, _error := e }
    | .ok returnValue => { result := true, value := returnValue, _error := c._error }

/-- Whether a token begins with '/'. -/
def beginsWithSlash (t : Line) : Bool := t.head? == some SLASH

/-- The tokens that do not begin with '/' and do not immediately follow a token
beginning with '/' (the words of the specification); prev is the token before the list,
if any. -/
def plainTokens : Option Line → Tokens → List Line
  | _, [] => []
  | prev, t :: ts =>
    (if !beginsWithSlash t && !(prev.any beginsWithSlash) then [t] else [])
      ++ plainTokens (some t) ts

/-- The tokens that immediately follow an occurrence of the token "/s" (the words of
the specification); prev is the token before the list, if any. -/
def followersOf (s : Line) : Option Line → Tokens → List Line
  | _, [] => []
  | prev, t :: ts =>
    (if prev = some (SLASH :: s) then [t] else []) ++ followersOf s (some t) ts

/-- The relation between the pending switch name and the token before the next one. -/
def ctorRel (st : CtorState) (prev : Option Line) : Prop :=
  (st.switchName = [] ∧ prev.any beginsWithSlash = false) ∨
  (st.switchName ≠ [] ∧ prev = some (SLASH :: st.switchName))

/-- Every entry of the switch map holds at least one argument. -/
def mapNonempty (m : SwitchMap) : Prop := ∀ k v, mapFind m k = some v → v ≠ []

end Commands

namespace Allocations

open Commands

/-- One operand written to Commands::Output through operator<<, or one call of a
describer that writes to it: text is a string literal of the source, str the value of a
string variable.  A number is written in the base the stream is in, which the
manipulators std::hex and std::dec select. -/
inductive OutputItem where
  | text (s : Line)
  | str (s : Line)
  | num (n : Nat)
  | hex
  | dec
  | describeInModule (address : Nat)
  | describeStack (address : Nat)
deriving DecidableEq, Repr

/-- The value one past the largest size_t. -/
def SIZE_LIMIT : Nat := 2 ^ 64

/-- The collaborators of AnchorChainLister that are not part of AnchorChainLister.h: the
signature directory, the anchor directory and the size of an Offset in bytes. -/
structure ListerEnv where
  IsMapped : Nat → Bool
  SignatureName : Nat → Line
  AnchorName : Nat → Line
  sizeofOffset : Nat

/-- The state of an AnchorChainLister (lines 160-172) with the output written so far. -/
structure AnchorChainLister where
  _anchoree : Nat
  _numStaticAnchorChainsShown : Nat
  _numStackAnchorChainsShown : Nat
  _numRegisterAnchorChainsShown : Nat
  _numDirectStaticAnchorChainsShown : Nat
  _numDirectStackAnchorChainsShown : Nat
  _numDirectRegisterAnchorChainsShown : Nat
  output : List OutputItem
deriving DecidableEq, Repr

/-- The constructor of AnchorChainLister (lines 16-36). -/
def AnchorChainLister.new (anchoree : Nat) : AnchorChainLister :=
  { _anchoree := anchoree,
    _numStaticAnchorChainsShown := 0, _numStackAnchorChainsShown := 0,
    _numRegisterAnchorChainsShown := 0, _numDirectStaticAnchorChainsShown := 0,
    _numDirectStackAnchorChainsShown := 0, _numDirectRegisterAnchorChainsShown := 0,
    output := [] }

/-- Model of ShowSignatureIfPresent (lines 174-186): the items written; image is the
first Offset of the image of the allocation. -/
def ShowSignatureIfPresent (env : ListerEnv) (size image : Nat) : List OutputItem :=
  if size ≥ env.sizeofOffset then
    let signature := image
    if env.IsMapped signature then
      [.text (bytesOf " with signature "), .num signature]
        ++ (let name := env.SignatureName signature
            if !name.isEmpty then [.text (bytesOf "("), .str name, .text (bytesOf ")")]
            else [])
    else []
  else []

/-- Model of VisitStaticAnchorChainHeader (lines 38-75). -/
def AnchorChainLister.VisitStaticAnchorChainHeader (env : ListerEnv) (l : AnchorChainLister)
    (staticAddrs : List Nat) (address size image : Nat) : Bool × AnchorChainLister :=
  let isDirect : Bool := address == l._anchoree
  if !isDirect && (decide (l._numDirectStaticAnchorChainsShown > 0)
      || l._numStaticAnchorChainsShown == 10) then
    (true, l)
  else
    let out1 : List OutputItem :=
      [.text (bytesOf "The allocation at 0x"), .hex, .num l._anchoree,
       .text (bytesOf " appears to be ")]
    let out2 : List OutputItem :=
      if isDirect then [.text (bytesOf "directly statically anchored." ++ [NEWLINE])]
      else
        [.text (bytesOf "indirectly statically anchored" ++ [NEWLINE]
           ++ bytesOf "via anchor point 0x"), .num address]
          ++ ShowSignatureIfPresent env size image ++ [.text (bytesOf "." ++ [NEWLINE])]
    let out3 : List OutputItem :=
      (staticAddrs.map (fun staticAddr =>
        [OutputItem.describeInModule staticAddr,
         .text (bytesOf "Static address 0x"), .num staticAddr]
        ++ (let name := env.AnchorName staticAddr
            if !name.isEmpty then [.text (bytesOf " ("), .str name, .text (bytesOf ")")]
            else [])
        ++ [.text (bytesOf " references"),
            .text (if isDirect then bytesOf " 0x" else bytesOf " anchor point 0x"),
            .num address,
            .text (if isDirect then bytesOf "." ++ [NEWLINE] else [NEWLINE])])).flatten
    (false,
     { l with
       output := l.output ++ out1 ++ out2 ++ out3,
       _numStaticAnchorChainsShown := (l._numStaticAnchorChainsShown + 1) % SIZE_LIMIT,
       _numDirectStaticAnchorChainsShown :=
         if isDirect then (l._numDirectStaticAnchorChainsShown + 1) % SIZE_LIMIT
         else l._numDirectStaticAnchorChainsShown })

/-- Model of VisitStackAnchorChainHeader (lines 77-111). -/
def AnchorChainLister.VisitStackAnchorChainHeader (env : ListerEnv) (l : AnchorChainLister)
    (stackAddrs : List Nat) (address size image : Nat) : Bool × AnchorChainLister :=
  let isDirect : Bool := address == l._anchoree
  if !isDirect && (decide (l._numDirectStackAnchorChainsShown > 0)
      || l._numStackAnchorChainsShown == 10) then
    (true, l)
  else
    let out1 : List OutputItem :=
      [.text (bytesOf "The allocation at 0x"), .hex, .num l._anchoree,
       .text (bytesOf " appears to be ")]
    let out2 : List OutputItem :=
      if isDirect then
        [.text (bytesOf "directly anchored from" ++ [NEWLINE] ++ bytesOf "at least one stack."
           ++ [NEWLINE])]
      else
        [.text (bytesOf "indirectly anchored from" ++ [NEWLINE]
           ++ bytesOf "at least one stack via anchor point 0x"), .num address]
          ++ ShowSignatureIfPresent env size image ++ [.text (bytesOf "." ++ [NEWLINE])]
    let out3 : List OutputItem :=
      (stackAddrs.map (fun stackAddr =>
        [OutputItem.describeStack stackAddr,
         .text (bytesOf "Stack address 0x"), .hex, .num stackAddr,
         .text (bytesOf " references"),
         .text (if isDirect then bytesOf " 0x" else bytesOf " anchor point 0x"),
         .num address,
         .text (if isDirect then bytesOf "." ++ [NEWLINE] else [NEWLINE])])).flatten
    (false,
     { l with
       output := l.output ++ out1 ++ out2 ++ out3,
       _numStackAnchorChainsShown := (l._numStackAnchorChainsShown + 1) % SIZE_LIMIT,
       _numDirectStackAnchorChainsShown :=
         if isDirect then (l._numDirectStackAnchorChainsShown + 1) % SIZE_LIMIT
         else l._numDirectStackAnchorChainsShown })

/-- Model of VisitRegisterAnchorChainHeader (lines 113-147); an anchor is a thread
number and a register name. -/
def AnchorChainLister.VisitRegisterAnchorChainHeader (env : ListerEnv)
    (l : AnchorChainLister) (anchors : List (Nat × Line)) (address size image : Nat) :
    Bool × AnchorChainLister :=
  let isDirect : Bool := address == l._anchoree
  if !isDirect && (decide (l._numDirectRegisterAnchorChainsShown > 0)
      || l._numRegisterAnchorChainsShown == 10) then
    (true, l)
  else
    let out1 : List OutputItem :=
      [.text (bytesOf "The allocation at 0x"), .hex, .num l._anchoree,
       .text (bytesOf " appears to be ")]
    let out2 : List OutputItem :=
      if isDirect then
        [.text (bytesOf "directly anchored from" ++ [NEWLINE]
           ++ bytesOf "at least one register." ++ [NEWLINE])]
      else
        [.text (bytesOf "indirectly anchored from" ++ [NEWLINE]
           ++ bytesOf "at least one register via anchor point 0x"), .num address]
          ++ ShowSignatureIfPresent env size image ++ [.text (bytesOf "." ++ [NEWLINE])]
    let out3 : List OutputItem :=
      (anchors.map (fun it =>
        [OutputItem.text (bytesOf "Register "), .str it.2, .text (bytesOf " for thread "),
         .dec, .num it.1, .text (bytesOf " references"),
         .text (if isDirect then bytesOf " 0x" else bytesOf " anchor point 0x"),
         .hex, .num address,
         .text (if isDirect then bytesOf "." ++ [NEWLINE] else [NEWLINE])])).flatten
    (false,
     { l with
       output := l.output ++ out1 ++ out2 ++ out3,
       _numRegisterAnchorChainsShown := (l._numRegisterAnchorChainsShown + 1) % SIZE_LIMIT,
       _numDirectRegisterAnchorChainsShown :=
         if isDirect then (l._numDirectRegisterAnchorChainsShown + 1) % SIZE_LIMIT
         else l._numDirectRegisterAnchorChainsShown })

/-- Model of VisitChainLink (lines 149-157). -/
def AnchorChainLister.VisitChainLink (env : ListerEnv) (l : AnchorChainLister)
    (address size image : Nat) : Bool × AnchorChainLister :=
  (false,
   { l with
     output := l.output ++ [.text (bytesOf "which references 0x"), .hex, .num address]
       ++ (if address != l._anchoree then ShowSignatureIfPresent env size image else [])
       ++ [.text [NEWLINE]] })

/-- The three kinds of anchor. -/
inductive AnchorKind where
  | static
  | stack
  | register
deriving DecidableEq, Repr

/-- One call of a header function of the visitor, with its arguments. -/
inductive HeaderVisit where
  | static (staticAddrs : List Nat) (address size image : Nat)
  | stack (stackAddrs : List Nat) (address size image : Nat)
  | register (anchors : List (Nat × Line)) (address size image : Nat)
deriving DecidableEq, Repr

/-- The kind of anchor of a header visit. -/
def HeaderVisit.kind : HeaderVisit → AnchorKind
  | .static _ _ _ _ => .static
  | .stack _ _ _ _ => .stack
  | .register _ _ _ _ => .register

/-- The address of the head of the chain of a header visit. -/
def HeaderVisit.address : HeaderVisit → Nat
  | .static _ a _ _ => a
  | .stack _ a _ _ => a
  | .register _ a _ _ => a

/-- A header is direct when the head of the chain is the anchoree. -/
def HeaderVisit.isDirect (v : HeaderVisit) (anchoree : Nat) : Bool := v.address == anchoree

/-- The call of the header function that a visit stands for. -/
def AnchorChainLister.visitHeader (env : ListerEnv) (l : AnchorChainLister) :
    HeaderVisit → Bool × AnchorChainLister
  | .static addrs a s i => l.VisitStaticAnchorChainHeader env addrs a s i
  | .stack addrs a s i => l.VisitStackAnchorChainHeader env addrs a s i
  | .register anchors a s i => l.VisitRegisterAnchorChainHeader env anchors a s i

/-- The state of the lister after a sequence of header visits. -/
def AnchorChainLister.after (env : ListerEnv) (l : AnchorChainLister) :
    List HeaderVisit → AnchorChainLister
  | [] => l
  | v :: vs => AnchorChainLister.after env (l.visitHeader env v).2 vs

/-- The values returned by a sequence of header visits, in order. -/
def AnchorChainLister.results (env : ListerEnv) (l : AnchorChainLister) :
    List HeaderVisit → List Bool
  | [] => []
  | v :: vs => (l.visitHeader env v).1 :: AnchorChainLister.results env (l.visitHeader env v).2 vs

/-- The number of headers of a kind that a sequence of visits reports (the call returns
false); onlyIndirect restricts the count to indirect headers. -/
def AnchorChainLister.numReported (env : ListerEnv) (l : AnchorChainLister) (k : AnchorKind)
    (onlyIndirect : Bool) : List HeaderVisit → Nat
  | [] => 0
  | v :: vs =>
    (if v.kind = k ∧ (l.visitHeader env v).1 = false
        ∧ (onlyIndirect = true → v.isDirect l._anchoree = false) then 1 else 0)
      + AnchorChainLister.numReported env (l.visitHeader env v).2 k onlyIndirect vs

/-- The counter of the chains shown of a kind. -/
def AnchorChainLister.shown (l : AnchorChainLister) : AnchorKind → Nat
  | .static => l._numStaticAnchorChainsShown
  | .stack => l._numStackAnchorChainsShown
  | .register => l._numRegisterAnchorChainsShown

/-- The counter of the direct chains shown of a kind. -/
def AnchorChainLister.directShown (l : AnchorChainLister) : AnchorKind → Nat
  | .static => l._numDirectStaticAnchorChainsShown
  | .stack => l._numDirectStackAnchorChainsShown
  | .register => l._numDirectRegisterAnchorChainsShown

/-- The number of direct headers of a kind in a sequence of visits. -/
def numDirectHeaders (k : AnchorKind) (anchoree : Nat) (vs : List HeaderVisit) : Nat :=
  (vs.filter (fun v => decide (v.kind = k) && v.isDirect anchoree)).length

/-- The number of lines "Static address ..." in an output. -/
def numStaticAddressLines (out : List OutputItem) : Nat :=
  out.count (.text (bytesOf "Static address 0x"))

/-- An environment in which no signature is mapped and no anchor has a name, with
Offsets of 8 bytes. -/
def plainListerEnv : ListerEnv :=
  { IsMapped := fun _ => false, SignatureName := fun _ => [], AnchorName := fun _ => [],
    sizeofOffset := 8 }

end Allocations

namespace Python

open Commands Allocations

/-- What the model of BlockAllocationFinder stops on: an exception of the reader for an
address that is not mapped, behaviour the language leaves undefined, or a loop that is
still running when its fuel is used up. -/
inductive Fault where
  | notMapped
  | divisionByZero
  | vectorIndexOutOfRange
  | outOfFuel
deriving DecidableEq, Repr

/-- The process image as the Reader of VirtualAddressMap.h sees it: the 32-bit value and
the Offset stored at an address, none where the address is not mapped. -/
structure Memory where
  u32At : Nat → Option Nat
  offsetAt : Nat → Option Nat

/-- Model of Reader::ReadU32(address, defaultValue). -/
def Memory.ReadU32 (m : Memory) (address defaultValue : Nat) : Nat :=
  (m.u32At address).getD defaultValue

/-- Model of Reader::ReadOffset(address, defaultValue). -/
def Memory.ReadOffsetOr (m : Memory) (address defaultValue : Nat) : Nat :=
  (m.offsetAt address).getD defaultValue

/-- Model of Reader::ReadOffset(address), which throws NotMapped. -/
def Memory.ReadOffset (m : Memory) (address : Nat) : Except Fault Nat :=
  match m.offsetAt address with
  | some v => .ok v
  | none => .error .notMapped

/-- What the finder takes from the InfrastructureFinder (lines 26-30), the process
image, and the number of bytes of an Offset (4 or 8). -/
structure FinderEnv where
  memory : Memory
  sizeofOffset : Nat
  _arenaStructArray : Nat
  _arenaStructSize : Nat
  _arenaSize : Nat
  _poolSize : Nat
  _activeIndices : List Nat

/-- The number of values of the type Offset: arithmetic on Offsets is modulo this. -/
def FinderEnv.limit (env : FinderEnv) : Nat := 2 ^ (8 * env.sizeofOffset)

/-- Subtraction of Offsets, which wraps around. -/
def FinderEnv.sub (env : FinderEnv) (a b : Nat) : Nat := (a + env.limit - b % env.limit) % env.limit

/-- Addition of Offsets, which wraps around. -/
def FinderEnv.add (env : FinderEnv) (a b : Nat) : Nat := (a + b) % env.limit

/-- Multiplication of Offsets, which wraps around. -/
def FinderEnv.mul (env : FinderEnv) (a b : Nat) : Nat := (a * b) % env.limit

/-- The operation a & ~(b - 1) on Offsets. -/
def FinderEnv.alignDown (env : FinderEnv) (a b : Nat) : Nat :=
  a &&& ((env.limit - 1) ^^^ (env.sub b 1))

/-- The variables of a BlockAllocationFinder (lines 118-131) and the text written to
std::cerr; _itActiveIndices is the position of the iterator in _activeIndices.  Members
that the constructor leaves uninitialised start as 0 or false. -/
structure BlockAllocationFinder where
  _itActiveIndices : Nat
  _blockUsedInPool : List Bool
  _arena : Nat
  _firstPool : Nat
  _poolsLimit : Nat
  _pool : Nat
  _blockSize : Nat
  _block : Nat
  _blockIndex : Nat
  _blocksLimit : Nat
  _allocationAddress : Nat
  _allocationSize : Nat
  _allocationIsUsed : Bool
  cerr : List OutputItem
deriving DecidableEq, Repr

/-- Assignment to an element of std::vector<bool>; an index past the end is undefined
behaviour. -/
def setUsed (v : List Bool) (i : Nat) (b : Bool) : Except Fault (List Bool) :=
  if i < v.length then .ok (v.set i b) else .error .vectorIndexOutOfRange

/-- The loops at lines 192-197: count elements, from index i on, are set. -/
def setUsedRange (b : Bool) : Nat → Nat → List Bool → Except Fault (List Bool)
  | 0, _, v => .ok v
  | count + 1, i, v =>
    match setUsed v i b with
    | .error e => .error e
    | .ok v1 => setUsedRange b count (i + 1) v1

/-- The walk of the free list at lines 198-207, from the entry freeBlock on: the flags
and the text written to std::cerr at the end of the walk. -/
def walkFreeList (env : FinderEnv) (pool block blockSize blocksLimit : Nat) :
    Nat → Nat → List Bool → List OutputItem → Except Fault (List Bool × List OutputItem)
  | fuel, freeBlock, v, cerr =>
    if freeBlock = 0 then .ok (v, cerr)
    else if freeBlock < block ∨ freeBlock ≥ blocksLimit then
      .ok (v, cerr ++ [.text (bytesOf "Warning: probable corrupt free list found for pool at 0x"),
        .hex, .num pool,
        .text (bytesOf "." ++ [NEWLINE] ++ bytesOf "Free status cannot be trusted for this pool."
          ++ [NEWLINE])])
    else
      match fuel with
      | 0 => .error .outOfFuel
      | n + 1 =>
        match setUsed v ((env.sub freeBlock block) / blockSize) false with
        | .error e => .error e
        | .ok v1 =>
          walkFreeList env pool block blockSize blocksLimit n
            (env.memory.ReadOffsetOr freeBlock 0) v1 cerr

/-- Model of AdvanceToFirstBlockOfPool (lines 163-212): the value returned and the
state. -/
def AdvanceToFirstBlockOfPool (env : FinderEnv) (fuel : Nat) (f : BlockAllocationFinder) :
    Except Fault (Bool × BlockAllocationFinder) :=
  if env.memory.ReadU32 f._pool 0 = 0 then .ok (false, f)
  else
    let blockSize :=
      env.sub env._poolSize (env.memory.ReadU32 (env.add f._pool 0x2c) 0 % env.limit)
    let f1 := { f with _blockSize := blockSize }
    if blockSize = env._poolSize then .ok (false, f1)
    else
      let block := env.add f._pool 0x30
      if blockSize = 0 then .error .divisionByZero
      else
        let numBlocks := (env.sub env._poolSize 0x30) / blockSize
        let blocksLimit := env.add block (env.mul blockSize numBlocks)
        let nextInPool :=
          env.memory.ReadU32 (env.add f._pool (4 * env.sizeofOffset + 2 * 4)) 0 % env.limit
        let numBlocksEverUsed0 := (env.sub nextInPool 0x30) / blockSize
        let corrupt : Bool :=
          decide (nextInPool < 0x30) || decide (numBlocksEverUsed0 > numBlocks)
            || decide (nextInPool ≠ env.add 0x30 (env.mul numBlocksEverUsed0 blockSize))
        let cerr1 :=
          if corrupt then
            f.cerr ++ [.text (bytesOf "Warning: Probable corruption in header for python pool at 0x"),
              .hex, .num f._pool, .text [NEWLINE]]
          else f.cerr
        let numBlocksEverUsed := if corrupt then numBlocks else numBlocksEverUsed0
        match setUsedRange true numBlocksEverUsed 0 f._blockUsedInPool with
        | .error e => .error e
        | .ok v1 =>
          match setUsedRange false (numBlocks - numBlocksEverUsed) numBlocksEverUsed v1 with
          | .error e => .error e
          | .ok v2 =>
            match walkFreeList env f._pool block blockSize blocksLimit fuel
              (env.memory.ReadOffsetOr (env.add f._pool 8) 0) v2 cerr1 with
            | .error e => .error e
            | .ok (v3, cerr2) =>
              match v3[0]? with
              | none => .error .vectorIndexOutOfRange
              | some used0 =>
                .ok (true,
                  { f1 with
                    _blockIndex := 0, _block := block, _blocksLimit := blocksLimit,
                    _blockUsedInPool := v3, cerr := cerr2,
                    _allocationAddress := block, _allocationSize := blockSize,
                    _allocationIsUsed := used0 })

/-- Model of AdvanceToFirstAllocationForPool (lines 139-154). -/
def AdvanceToFirstAllocationForPool (env : FinderEnv) (fuel : Nat) (f : BlockAllocationFinder) :
    Except Fault BlockAllocationFinder :=
  match AdvanceToFirstBlockOfPool env fuel f with
  | .error e => .error e
  | .ok (true, f1) => .ok f1
  | .ok (false, f1) =>
    .ok { f1 with _allocationAddress := f1._pool, _allocationSize := env._poolSize,
                  _allocationIsUsed := false }

/-- Model of AdvanceToFirstAllocationOfArena (lines 156-161). -/
def AdvanceToFirstAllocationOfArena (env : FinderEnv) (fuel : Nat) (f : BlockAllocationFinder) :
    Except Fault BlockAllocationFinder :=
  let firstPool := env.alignDown (env.add f._arena (env.sub env._poolSize 1)) env._poolSize
  let poolsLimit := env.alignDown (env.add f._arena env._arenaSize) env._poolSize
  AdvanceToFirstAllocationForPool env fuel
    { f with _firstPool := firstPool, _poolsLimit := poolsLimit, _pool := firstPool }

/-- Model of AdvanceToNextAllocationOfArena (lines 214-236): the value returned and the
state. -/
def AdvanceToNextAllocationOfArena (env : FinderEnv) (fuel : Nat) (f : BlockAllocationFinder) :
    Except Fault (Bool × BlockAllocationFinder) :=
  let tryBlock : Option (Except Fault (Bool × BlockAllocationFinder)) × BlockAllocationFinder :=
    if f._allocationSize ≠ env._poolSize then
      let f1 := { f with _block := env.add f._block f._blockSize,
                         _blockIndex := (f._blockIndex + 1) % SIZE_LIMIT }
      if f1._block < f1._blocksLimit then
        match f1._blockUsedInPool[f1._blockIndex]? with
        | none => (some (.error .vectorIndexOutOfRange), f1)
        | some used =>
          (some (.ok (true, { f1 with _allocationAddress := f1._block,
                                      _allocationSize := f1._blockSize,
                                      _allocationIsUsed := used })), f1)
      else (none, f1)
    else (none, f)
  match tryBlock with
  | (some r, _) => r
  | (none, f1) =>
    let f2 := { f1 with _pool := env.add f1._pool env._poolSize }
    if f2._pool < f2._poolsLimit then
      match AdvanceToFirstAllocationForPool env fuel f2 with
      | .error e => .error e
      | .ok f3 => .ok (true, f3)
    else .ok (false, f2)

/-- Model of the constructor of BlockAllocationFinder (lines 20-45). -/
def BlockAllocationFinder.new (env : FinderEnv) (fuel : Nat) : Except Fault BlockAllocationFinder :=
  let f0 : BlockAllocationFinder :=
    { _itActiveIndices := 0, _blockUsedInPool := [], _arena := 0, _firstPool := 0,
      _poolsLimit := 0, _pool := 0, _blockSize := 0, _block := 0, _blockIndex := 0,
      _blocksLimit := 0, _allocationAddress := 0, _allocationSize := 0,
      _allocationIsUsed := false, cerr := [] }
  match env._activeIndices[0]? with
  | none => .ok f0
  | some index =>
    let maxBlocksInPool := (env.sub env._poolSize 0x30) / env.sizeofOffset
    match env.memory.ReadOffset (env.add env._arenaStructArray (env.mul env._arenaStructSize index))
      with
    | .error e => .error e
    | .ok arena =>
      AdvanceToFirstAllocationOfArena env fuel
        { f0 with _blockUsedInPool := List.replicate maxBlocksInPool true, _arena := arena }

/-- Model of Finished (line 52). -/
def BlockAllocationFinder.Finished (env : FinderEnv) (f : BlockAllocationFinder) : Bool :=
  f._itActiveIndices == env._activeIndices.length

/-- Model of NextAddress (line 62). -/
def BlockAllocationFinder.NextAddress (f : BlockAllocationFinder) : Nat := f._allocationAddress

/-- Model of NextSize (line 69). -/
def BlockAllocationFinder.NextSize (f : BlockAllocationFinder) : Nat := f._allocationSize

/-- Model of NextIsUsed (line 75). -/
def BlockAllocationFinder.NextIsUsed (f : BlockAllocationFinder) : Bool := f._allocationIsUsed

/-- Model of Advance (lines 79-100). -/
def BlockAllocationFinder.Advance (env : FinderEnv) (fuel : Nat) (f : BlockAllocationFinder) :
    Except Fault BlockAllocationFinder :=
  if f._itActiveIndices ≠ env._activeIndices.length then
    match AdvanceToNextAllocationOfArena env fuel f with
    | .error e => .error e
    | .ok (true, f1) => .ok f1
    | .ok (false, f1) =>
      let f2 := { f1 with _itActiveIndices := f1._itActiveIndices + 1 }
      match env._activeIndices[f2._itActiveIndices]? with
      | none => .ok f2
      | some index =>
        match env.memory.ReadOffset
          (env.add env._arenaStructArray (env.mul env._arenaStructSize index)) with
        | .error e => .error e
        | .ok arena => AdvanceToFirstAllocationOfArena env fuel { f2 with _arena := arena }
  else .ok f

/-- Model of MinRequestSize (lines 105-107). -/
def BlockAllocationFinder.MinRequestSize (env : FinderEnv) (size : Nat) : Nat :=
  env.add (env.sub size env.sizeofOffset) 1

/-- An allocation as the finder reports it: NextAddress, NextSize, NextIsUsed and the
pool the finder is in. -/
structure Reported where
  address : Nat
  size : Nat
  used : Bool
  pool : Nat
deriving DecidableEq, Repr

/-- The first n allocations that a finder reports from a state on, each read before the
call of Advance, up to the end or a fault. -/
def reportedFrom (env : FinderEnv) (fuel : Nat) : Nat → BlockAllocationFinder → List Reported
  | 0, _ => []
  | n + 1, f =>
    if f.Finished env then []
    else
      { address := f.NextAddress, size := f.NextSize, used := f.NextIsUsed, pool := f._pool }
        :: (match f.Advance env fuel with
            | .error _ => []
            | .ok f1 => reportedFrom env fuel n f1)

/-- The first n allocations reported by a new finder. -/
def reportedAllocations (env : FinderEnv) (fuel n : Nat) : List Reported :=
  match BlockAllocationFinder.new env fuel with
  | .error _ => []
  | .ok f => reportedFrom env fuel n f

/-- A memory given by the list of its mapped 32-bit values and the list of its mapped
Offsets. -/
def memoryOf (u32s offsets : List (Nat × Nat)) : Memory :=
  { u32At := fun a => (u32s.find? (fun e => e.1 == a)).map (fun e => e.2),
    offsetAt := fun a => (offsets.find? (fun e => e.1 == a)).map (fun e => e.2) }

/-- An image with one arena at 0x200000 of 64 pools of 0x1000 bytes whose first pool has
a header with the count 1, the value 0x10 at offset 0x2c, hence blocks of 0xff0 bytes,
the value 0x30 at offset 0x28 and an empty free list; the other pools are not in use. -/
def oversizedBlockEnv : FinderEnv :=
  { memory := memoryOf [(0x200000, 1), (0x20002c, 0x10), (0x200028, 0x30)]
      [(0x100000, 0x200000), (0x200008, 0)],
    sizeofOffset := 8, _arenaStructArray := 0x100000, _arenaStructSize := 0x30,
    _arenaSize := 0x40000, _poolSize := 0x1000, _activeIndices := [0] }

/-- The image of oversizedBlockEnv with the value 0x2000 at offset 0x2c of the first pool
header, so that the block size wraps around to 2^64 - 0x1000. -/
def wrappedBlockEnv : FinderEnv :=
  { oversizedBlockEnv with
    memory := memoryOf [(0x200000, 1), (0x20002c, 0x2000), (0x200028, 0x30)]
      [(0x100000, 0x200000), (0x200008, 0)] }

end Python

namespace Allocations

open Commands

def AT_SIGN : Nat := 0x40
def EQUALS : Nat := 0x3d
def MINUS : Nat := 0x2d
def TILDE : Nat := 0x7e
def LESS : Nat := 0x3c
def GREATER : Nat := 0x3e

/-- The class [[:xdigit:]] in the classic locale. -/
def isXDigit (c : Nat) : Bool :=
  (0x30 ≤ c && c ≤ 0x39) || (0x41 ≤ c && c ≤ 0x46) || (0x61 ≤ c && c ≤ 0x66)

/-- The class \w in the classic locale: letters, digits and the underscore. -/
def isWordChar (c : Nat) : Bool :=
  (0x30 ≤ c && c ≤ 0x39) || (0x41 ≤ c && c ≤ 0x5a) || (0x61 ≤ c && c ≤ 0x7a) || c == 0x5f

/-- The regular expressions that the extension rule syntax needs: a literal string, a
greedy star or plus of a character class, sequence, alternative, a greedy optional part
and a numbered capture group. -/
inductive Regex where
  | lit (s : Line)
  | star (p : Nat → Bool)
  | plus (p : Nat → Bool)
  | seq (a b : Regex)
  | alt (a b : Regex)
  | opt (a : Regex)
  | group (n : Nat) (a : Regex)

/-- The sub-matches of std::smatch: the text of each group, empty for a group that did
not take part in the match. -/
abbrev Captures := Nat → Line

/-- A greedy star of a character class in front of the continuation k: the longest run
is tried first, then shorter ones. -/
def matchStar (p : Nat → Bool) (k : Line → Option Captures) : Line → Option Captures
  | [] => k []
  | c :: cs =>
    if p c then
      match matchStar p k cs with
      | some r => some r
      | none => k (c :: cs)
    else k (c :: cs)

/-- Whether s starts with the literal t; the rest of s after it. -/
def stripLiteral : Line → Line → Option Line
  | [], s => some s
  | _ :: _, [] => none
  | t :: ts, c :: cs => if t = c then stripLiteral ts cs else none

/-- The backtracking matcher of the ECMAScript grammar of std::regex: r is matched at
the start of s and the continuation k is given the rest of the input and the captures;
the first alternative, in the order of priority, on which k succeeds is the result. -/
def matchRegex : Regex → Line → Captures → (Line → Captures → Option Captures) → Option Captures
  | .lit t, s, caps, k =>
    match stripLiteral t s with
    | some rest => k rest caps
    | none => none
  | .star p, s, caps, k => matchStar p (fun rest => k rest caps) s
  | .plus p, s, caps, k =>
    match s with
    | [] => none
    | c :: cs => if p c then matchStar p (fun rest => k rest caps) cs else none
  | .seq a b, s, caps, k => matchRegex a s caps (fun rest caps1 => matchRegex b rest caps1 k)
  | .alt a b, s, caps, k =>
    match matchRegex a s caps k with
    | some r => some r
    | none => matchRegex b s caps k
  | .opt a, s, caps, k =>
    match matchRegex a s caps k with
    | some r => some r
    | none => k s caps
  | .group n a, s, caps, k =>
    matchRegex a s caps (fun rest caps1 =>
      k rest (fun i => if i = n then s.take (s.length - rest.length) else caps1 i))

/-- Model of std::regex_match: the whole of s has to be matched. -/
def regex_match (r : Regex) (s : Line) : Option Captures :=
  matchRegex r s (fun _ => []) (fun rest caps => if rest.isEmpty then some caps else none)

/-- The regular expression of lines 72-76:
([^@]*)(@([[:xdigit:]]+))?((->)|(~>)|(<-))([^@=]*)(@([[:xdigit:]]+))?(=>(\w+))? -/
def extensionRegex : Regex :=
  .seq (.group 1 (.star (fun c => c != AT_SIGN)))
  (.seq (.opt (.group 2 (.seq (.lit [AT_SIGN]) (.group 3 (.plus isXDigit)))))
  (.seq (.group 4 (.alt (.group 5 (.lit [MINUS, GREATER]))
                   (.alt (.group 6 (.lit [TILDE, GREATER]))
                         (.group 7 (.lit [LESS, MINUS])))))
  (.seq (.group 8 (.star (fun c => c != AT_SIGN && c != EQUALS)))
  (.seq (.opt (.group 9 (.seq (.lit [AT_SIGN]) (.group 10 (.plus isXDigit)))))
        (.opt (.group 11 (.seq (.lit [EQUALS, GREATER]) (.group 12 (.plus isWordChar)))))))))

/-- The strings that a regular expression matches. -/
def Regex.Matches : Regex → Line → Prop
  | .lit t, s => s = t
  | .star p, s => ∀ c ∈ s, p c = true
  | .plus p, s => s ≠ [] ∧ ∀ c ∈ s, p c = true
  | .seq a b, s => ∃ s1 s2, s = s1 ++ s2 ∧ a.Matches s1 ∧ b.Matches s2
  | .alt a b, s => a.Matches s ∨ b.Matches s
  | .opt a, s => a.Matches s ∨ s = []
  | .group _ a, s => a.Matches s

/-- An optional offset of a rule: nothing, or '@' and a non-empty run of hex digits. -/
def IsOptionalOffset (s : Line) : Prop :=
  s = [] ∨ ∃ h, s = AT_SIGN :: h ∧ h ≠ [] ∧ ∀ c ∈ h, isXDigit c = true

/-- The shape [member][@hex](->|~>|<-)[ext][@hex][=>label] of an extension rule, in the
words of the specification: member without '@', ext without '@' or '=', hex a non-empty
run of hex digits, label a non-empty run of word characters. -/
def HasRuleShape (s : Line) : Prop :=
  ∃ member off1 arrow ext off2 label,
    s = member ++ off1 ++ arrow ++ ext ++ off2 ++ label
    ∧ AT_SIGN ∉ member
    ∧ IsOptionalOffset off1
    ∧ (arrow = [MINUS, GREATER] ∨ arrow = [TILDE, GREATER] ∨ arrow = [LESS, MINUS])
    ∧ (AT_SIGN ∉ ext ∧ EQUALS ∉ ext)
    ∧ IsOptionalOffset off2
    ∧ (label = [] ∨ ∃ w, label = EQUALS :: GREATER :: w ∧ w ≠ [] ∧ ∀ c ∈ w, isWordChar c = true)

end Allocations

namespace Allocations

open Commands

/-- What ExtendedVisitor uses of a SignatureChecker (SignatureChecker.h): the two flags
read by the constructor, the names for its messages, and Check as a predicate on the
index of the allocation. -/
structure SignatureChecker where
  UnrecognizedSignature : Bool
  UnrecognizedPattern : Bool
  GetSignature : Line
  GetPatternName : Line
  Check : Nat → Bool

/-- What ExtendedVisitor uses of an allocation of the Directory. -/
structure Allocation where
  Address : Nat
  Size : Nat
  IsUsed : Bool
deriving DecidableEq, Repr

/-- What ExtendedVisitor uses of the Graph: the lists of outgoing and incoming edges of
an allocation and IsLeaked. -/
structure Graph where
  GetOutgoing : Nat → List Nat
  GetIncoming : Nat → List Nat
  IsLeaked : Nat → Bool

/-- What ExtendedVisitor uses of the ProcessImage and of the registries: the directory,
the address map (the number of bytes mapped at an address and the Offset stored there),
the graph and the edge predicates, each absent for a null pointer, the tag holder, the
construction of a SignatureChecker from a name, and the number of bytes of an Offset. -/
structure ProcessImage where
  sizeofOffset : Nat
  allocations : List Allocation
  AllocationIndexOf : Nat → Nat
  mappedBytes : Nat → Nat
  offsetAt : Nat → Nat
  GetAllocationGraph : Option Graph
  GetEdgeIsTainted : Option (Nat → Nat → Bool)
  GetEdgeIsFavored : Option (Nat → Nat → Bool)
  SupportsFavoredReferences : Nat → Bool
  makeSignatureChecker : Line → SignatureChecker

/-- The number of values of the type Offset. -/
def ProcessImage.offsetLimit (image : ProcessImage) : Nat := 2 ^ (8 * image.sizeofOffset)

/-- Model of Directory::NumAllocations. -/
def ProcessImage.NumAllocations (image : ProcessImage) : Nat := image.allocations.length

/-- The struct Specification (lines 548-567). -/
structure Specification where
  _offsetInMember : Nat
  _offsetInExtension : Nat
  _useOffsetInMember : Bool
  _useOffsetInExtension : Bool
  _referenceIsOutgoing : Bool
  _extensionMustBeLeaked : Bool
  _memberSignature : Line
  _extensionSignature : Line
  _baseState : Nat
  _newState : Nat
deriving DecidableEq, Repr

/-- The struct Rule (lines 568-595). -/
structure Rule where
  _offsetInMember : Nat
  _offsetInExtension : Nat
  _useOffsetInMember : Bool
  _useOffsetInExtension : Bool
  _referenceIsOutgoing : Bool
  _extensionMustBeLeaked : Bool
  _memberSignatureChecker : SignatureChecker
  _extensionSignatureChecker : SignatureChecker
  _baseState : Nat
  _newState : Nat

/-- The constructor of Rule (lines 569-583). -/
def Rule.ofSpecification (image : ProcessImage) (spec : Specification) : Rule :=
  { _offsetInMember := spec._offsetInMember,
    _offsetInExtension := spec._offsetInExtension,
    _useOffsetInMember := spec._useOffsetInMember,
    _useOffsetInExtension := spec._useOffsetInExtension,
    _referenceIsOutgoing := spec._referenceIsOutgoing,
    _extensionMustBeLeaked := spec._extensionMustBeLeaked,
    _memberSignatureChecker := image.makeSignatureChecker spec._memberSignature,
    _extensionSignatureChecker := image.makeSignatureChecker spec._extensionSignature,
    _baseState := spec._baseState,
    _newState := spec._newState }

/-- The value of a hexadecimal digit. -/
def hexDigitValue (c : Nat) : Nat :=
  if 0x30 ≤ c ∧ c ≤ 0x39 then c - 0x30
  else if 0x41 ≤ c ∧ c ≤ 0x46 then c - 0x41 + 10
  else c - 0x61 + 10

/-- Model of is >> std::hex >> v for a size_t v and a string of hexadecimal digits, as
in lines 97-99: the value, or none when the extraction fails because the value does not
fit in a size_t. -/
def parseHexSizeT (digits : Line) : Option Nat :=
  let v := digits.foldl (fun a c => 16 * a + hexDigitValue c) 0
  if v < SIZE_LIMIT then some v else none

/-- The variables of the loop over the /extend arguments (lines 83-137). -/
structure ParseState where
  specifications : List Specification
  _stateLabels : List Line
  labelToStateNumber : List (Line × Nat)
  error : Error
  _hasErrors : Bool

/-- The message of lines 86-87. -/
def illFormedMsg (extensionRule : Line) : Line :=
  bytesOf "Extension specification " ++ [QUOTE] ++ extensionRule ++ [QUOTE]
    ++ bytesOf " is ill formed." ++ [NEWLINE]

/-- The body of the loop over the /extend arguments for one argument (lines 84-136). -/
def parseRule (st : ParseState) (extensionRule : Line) : ParseState :=
  match regex_match extensionRegex extensionRule with
  | none =>
    { st with error := st.error.write (illFormedMsg extensionRule), _hasErrors := true }
  | some extensionSmatch =>
    let useOffsetInMember : Bool := decide ((extensionSmatch 3).length > 0)
    let parsedMember := parseHexSizeT (extensionSmatch 3)
    let st1 : ParseState :=
      if useOffsetInMember && parsedMember.isNone then
        { st with
          error := st.error.write (bytesOf "Offset in member " ++ [QUOTE] ++ extensionSmatch 3
            ++ bytesOf " is not well formed as hexadecimal." ++ [NEWLINE]),
          _hasErrors := true }
      else st
    let useOffsetInExtension : Bool := decide ((extensionSmatch 10).length > 0)
    let parsedExtension := parseHexSizeT (extensionSmatch 10)
    let st2 : ParseState :=
      if useOffsetInExtension && parsedExtension.isNone then
        { st1 with
          error := st1.error.write (bytesOf "Offset in extension " ++ [QUOTE]
            ++ extensionSmatch 10 ++ bytesOf " is not well formed as hexadecimal."
            ++ [NEWLINE]),
          _hasErrors := true }
      else st1
    let stateLabel := extensionSmatch 12
    let found := st2.labelToStateNumber.lookup stateLabel
    let stateIndex := found.getD st2.labelToStateNumber.length
    let spec : Specification :=
      { _offsetInMember := if useOffsetInMember then parsedMember.getD 0 else 0,
        _offsetInExtension := if useOffsetInExtension then parsedExtension.getD 0 else 0,
        _useOffsetInMember := useOffsetInMember,
        _useOffsetInExtension := useOffsetInExtension,
        _referenceIsOutgoing :=
          decide ((extensionSmatch 5).length > 0) || decide ((extensionSmatch 6).length > 0),
        _extensionMustBeLeaked := decide ((extensionSmatch 6).length > 0),
        _memberSignature := extensionSmatch 1,
        _extensionSignature := extensionSmatch 8,
        _baseState := 0,
        _newState := stateIndex }
    { st2 with
      specifications := st2.specifications ++ [spec],
      _stateLabels := if found.isSome then st2._stateLabels else st2._stateLabels ++ [stateLabel],
      labelToStateNumber :=
        if found.isSome then st2.labelToStateNumber
        else st2.labelToStateNumber ++ [(stateLabel, stateIndex)] }

/-- The statement v[i]++ on a vector of counters. -/
def incrementAt (v : List Nat) (i : Nat) : List Nat := v.set i (v.getD i 0 + 1)

/-- The loop of lines 147-162: a specification whose member signature is a state label
gets that state as base state and loses the signature; _stateToBase counts the
specifications of each base state. -/
def assignBaseStates (labelToStateNumber : List (Line × Nat)) :
    List Specification → List Nat → List Specification × List Nat
  | [], stateToBase => ([], stateToBase)
  | spec :: rest, stateToBase =>
    let found :=
      if !spec._memberSignature.isEmpty then labelToStateNumber.lookup spec._memberSignature
      else none
    match found with
    | some baseState =>
      let r := assignBaseStates labelToStateNumber rest (incrementAt stateToBase baseState)
      ({ spec with _baseState := baseState, _memberSignature := [] } :: r.1, r.2)
    | none =>
      let r := assignBaseStates labelToStateNumber rest (incrementAt stateToBase 0)
      (spec :: r.1, r.2)

/-- The loop of lines 165-167, from index i on for count entries: counts become
limits. -/
def countsToLimits : Nat → Nat → List Nat → List Nat
  | 0, _, v => v
  | count + 1, i, v => countsToLimits count (i + 1) (v.set i (v.getD i 0 + v.getD (i - 1) 0))

/-- The loop of lines 178-181 over the specifications in reverse order: specs holds the
specifications with indices below its length, last first as the loop meets them. -/
def placeRules : List Specification → List Nat → List Nat → List Nat × List Nat
  | [], stateToBase, ruleIndexToArgumentIndex => (stateToBase, ruleIndexToArgumentIndex)
  | spec :: before, stateToBase, ruleIndexToArgumentIndex =>
    let i := before.length
    let base := (stateToBase.getD spec._baseState 0 + SIZE_LIMIT - 1) % SIZE_LIMIT
    placeRules before (stateToBase.set spec._baseState base)
      (ruleIndexToArgumentIndex.set base i)

/-- The messages and the flag that lines 196-223 add for one rule. -/
def checkRule (allowMissingSignatures : Bool) (rule : Rule) (acc : Error × Bool) : Error × Bool :=
  let a1 : Error × Bool :=
    if rule._memberSignatureChecker.UnrecognizedSignature && !allowMissingSignatures then
      (acc.1.write (bytesOf "Member signature " ++ [QUOTE]
        ++ rule._memberSignatureChecker.GetSignature ++ [QUOTE]
        ++ bytesOf " is not recognized." ++ [NEWLINE]), true)
    else acc
  let a2 : Error × Bool :=
    if rule._memberSignatureChecker.UnrecognizedPattern then
      (a1.1.write (bytesOf "Member pattern " ++ [QUOTE]
        ++ rule._memberSignatureChecker.GetPatternName ++ [QUOTE]
        ++ bytesOf " is not recognized." ++ [NEWLINE]), true)
    else a1
  let a3 : Error × Bool :=
    if rule._extensionSignatureChecker.UnrecognizedSignature && !allowMissingSignatures then
      (a2.1.write (bytesOf "Extension signature " ++ [QUOTE]
        ++ rule._extensionSignatureChecker.GetSignature ++ [QUOTE]
        ++ bytesOf " is not recognized." ++ [NEWLINE]), true)
    else a2
  if rule._extensionSignatureChecker.UnrecognizedPattern then
    (a3.1.write (bytesOf "Extension pattern " ++ [QUOTE]
      ++ rule._extensionSignatureChecker.GetPatternName ++ [QUOTE]
      ++ bytesOf " is not recognized." ++ [NEWLINE]), true)
  else a3

/-- The message of lines 238-239. -/
def noBaseRuleMsg : Line :=
  bytesOf "None of the extension rules can be applied to the set to be extended." ++ [NEWLINE]

/-- The members of an ExtendedVisitor that its constructor sets (lines 616-634), and the
error stream of the context after the construction. -/
structure ExtendedVisitor where
  _isEnabled : Bool
  _hasErrors : Bool
  _graph : Option Graph
  _rules : List Rule
  _stateToBase : List Nat
  _commentExtensions : Bool
  _skipTaintedReferences : Bool
  _skipUnfavoredReferences : Bool
  _stateLabels : List Line
  error : Error

/-- The state of a new ExtendedVisitor before the body of its constructor (lines
36-50). -/
def ExtendedVisitor.initial (context : Context) : ExtendedVisitor :=
  { _isEnabled := false, _hasErrors := false, _graph := none, _rules := [],
    _stateToBase := [], _commentExtensions := false, _skipTaintedReferences := false,
    _skipUnfavoredReferences := false, _stateLabels := [], error := context._error }

/-- The variables of the loop over the /extend arguments before the loop (lines 78-82):
the state 0 has the empty label. -/
def ParseState.initial (error : Error) (hasErrors : Bool) : ParseState :=
  { specifications := [], _stateLabels := [[]], labelToStateNumber := [([], 0)],
    error := error, _hasErrors := hasErrors }

/-- Lines 56-137 of the constructor: the boolean switches are parsed, then every /extend
argument.  The result holds the variables of the loop and the values of
_commentExtensions, _skipTaintedReferences and _skipUnfavoredReferences. -/
def ExtendedVisitor.parseArguments (context : Context) (image : ProcessImage) :
    ParseState × Bool × Bool × Bool :=
  let b1 := context.ParseBooleanSwitch (bytesOf "commentExtensions") false
  let context1 := { context with _error := b1._error }
  let b2 : BooleanSwitchResult :=
    if image.GetEdgeIsTainted.isSome then
      context1.ParseBooleanSwitch (bytesOf "skipTaintedReferences") false
    else { result := true, value := false, _error := context1._error }
  let context2 := { context1 with _error := b2._error }
  let b3 : BooleanSwitchResult :=
    if image.GetEdgeIsFavored.isSome then
      context2.ParseBooleanSwitch (bytesOf "skipUnfavoredReferences") false
    else { result := true, value := false, _error := context2._error }
  let p0 := ParseState.initial b3._error (!b1.result || !b2.result || !b3.result)
  ((context.arguments (bytesOf "extend")).foldl parseRule p0, b1.value, b2.value, b3.value)

/-- The value of a Specification after its default constructor (lines 549-556). -/
def Specification.initial : Specification :=
  { _offsetInMember := 0, _offsetInExtension := 0, _useOffsetInMember := false,
    _useOffsetInExtension := false, _referenceIsOutgoing := true,
    _extensionMustBeLeaked := false, _memberSignature := [], _extensionSignature := [],
    _baseState := 0, _newState := 0 }

/-- Lines 145-181 of the constructor: the specifications with their base states, the
final _stateToBase and ruleIndexToArgumentIndex. -/
def orderRules (p : ParseState) : List Specification × List Nat × List Nat :=
  let numStates := p.labelToStateNumber.length
  let counted := assignBaseStates p.labelToStateNumber p.specifications
    (List.replicate (numStates + 1) 0)
  let limits := countsToLimits numStates 1 counted.2
  let placed := placeRules counted.1.reverse limits (List.replicate counted.1.length 0)
  (counted.1, placed.1, placed.2)

/-- Lines 56-224 of the constructor, for at least one /extend argument: the state of
the ExtendedVisitor before the test of line 225. -/
def ExtendedVisitor.compile (context : Context) (image : ProcessImage)
    (allowMissingSignatures : Bool) : ExtendedVisitor :=
  let parsed := ExtendedVisitor.parseArguments context image
  let p := parsed.1
  let ordered := orderRules p
  let specifications := ordered.1
  let rules := (List.range specifications.length).map (fun i =>
    Rule.ofSpecification image
      (specifications.getD (ordered.2.2.getD i 0) Specification.initial))
  let checked := rules.foldl (fun acc rule => checkRule allowMissingSignatures rule acc)
    (p.error, p._hasErrors)
  { ExtendedVisitor.initial context with
    _hasErrors := checked.2, _rules := rules, _stateToBase := ordered.2.1,
    _commentExtensions := parsed.2.1, _skipTaintedReferences := parsed.2.2.1,
    _skipUnfavoredReferences := parsed.2.2.2, _stateLabels := p._stateLabels,
    error := checked.1 }

/-- Model of the constructor of ExtendedVisitor (lines 32-247).  The result is none
when _rules[0] is read (line 226) while there is no rule, which is undefined behaviour. -/
def ExtendedVisitor.new (context : Context) (image : ProcessImage)
    (allowMissingSignatures : Bool) : Option ExtendedVisitor :=
  if context.GetNumArguments (bytesOf "extend") = 0 then some (ExtendedVisitor.initial context)
  else
    let v1 := ExtendedVisitor.compile context image allowMissingSignatures
    if !v1._hasErrors then
      match v1._rules[0]? with
      | none => none
      | some rule0 =>
        if rule0._baseState ≠ 0 then
          some { v1 with error := v1.error.write noBaseRuleMsg, _hasErrors := true }
        else
          some { v1 with _isEnabled := true, _graph := image.GetAllocationGraph,
                         _hasErrors := image.GetAllocationGraph.isNone }
    else some v1

/-- Model of IsEnabled (line 249). -/
def ExtendedVisitor.IsEnabled (v : ExtendedVisitor) : Bool := v._isEnabled

/-- Model of HasErrors (line 250). -/
def ExtendedVisitor.HasErrors (v : ExtendedVisitor) : Bool := v._hasErrors

/-- The index that the specification i gets among the rules when the base states of the
specifications are bs: the number of specifications with a smaller base state plus the
number of earlier specifications with the same base state. -/
def rulePosition (bs : List Nat) (i : Nat) : Nat :=
  bs.countP (fun b => decide (b < bs.getD i 0)) + (bs.take i).count (bs.getD i 0)

/-- The accepted extension rules of a command, in the order of the /extend arguments,
with the base states that lines 147-162 give them. -/
def acceptedRules (context : Context) (image : ProcessImage) : List Specification :=
  (orderRules (ExtendedVisitor.parseArguments context image).1).1

/-- A graph without edges in which nothing is leaked. -/
def emptyGraph : Graph :=
  { GetOutgoing := fun _ => [], GetIncoming := fun _ => [], IsLeaked := fun _ => false }

/-- A process image without allocations and edge predicates, with Offsets of 8 bytes, in
which every signature is recognized; the graph is given. -/
def plainProcessImage (graph : Option Graph) : ProcessImage :=
  { sizeofOffset := 8, allocations := [], AllocationIndexOf := fun _ => 0,
    mappedBytes := fun _ => 0, offsetAt := fun _ => 0, GetAllocationGraph := graph,
    GetEdgeIsTainted := none, GetEdgeIsFavored := none,
    SupportsFavoredReferences := fun _ => false,
    makeSignatureChecker := fun s =>
      { UnrecognizedSignature := false, UnrecognizedPattern := false, GetSignature := s,
        GetPatternName := s, Check := fun _ => true } }

/-- The context of a command line given by its tokens, with an empty error stream. -/
def contextOf (tokens : List String) : Context :=
  Context.ofTokens (tokens.map bytesOf) ⟨[], false, []⟩ []

end Allocations

namespace Allocations

open Commands

/-- The enum RuleCheckProgress (line 253). -/
inductive RuleCheckProgress where
  | NEW_RULE
  | NO_EDGES_CHECKED
  | IN_PROGRESS
  | RULE_DONE
deriving DecidableEq, Repr

/-- The struct ExtensionContext (lines 254-269).  The pointer _pNextCandidate is given
by the candidates from it to the end of the edge list it points into. -/
structure ExtensionContext where
  _memberIndex : Nat
  _ruleIndex : Nat
  _numCandidatesLeft : Nat
  _ruleCheckProgress : RuleCheckProgress
  _pNextCandidate : List Nat
deriving DecidableEq, Repr

/-- The local variables of Visit (lines 304-312), the visited set shared between the
calls, the calls of visitor.Visit made so far, in order, and the output written.  The
pointers pNextCandidate and pPastCandidates are given by the candidates between them;
memberAllocation is the allocation of the directory at memberIndex. -/
structure VisitState where
  memberIndex : Nat
  state : Nat
  ruleIndex : Nat
  numCandidatesLeft : Nat
  ruleIndexLimit : Nat
  pNextCandidate : List Nat
  ruleCheckProgress : RuleCheckProgress
  extensionContexts : List ExtensionContext
  visited : List Nat
  visits : List Nat
  output : List OutputItem
deriving DecidableEq, Repr

/-- How one pass through the body of the loop of Visit ends: with the next pass, with
the return from Visit, or with undefined behaviour (an index out of range). -/
inductive StepResult where
  | next (st : VisitState)
  | done (st : VisitState)
  | fault (st : VisitState)
deriving DecidableEq, Repr

/-- Model of AllocationHasAlignedPointer (lines 596-615). -/
def AllocationHasAlignedPointer (image : ProcessImage) (allocation : Allocation)
    (address : Nat) : Bool :=
  let base := allocation.Address
  let numBytesFound := image.mappedBytes base
  let size := allocation.Size
  let bytesToCheck := if numBytesFound < size then numBytesFound else size
  (List.range (bytesToCheck / image.sizeofOffset)).any
    (fun k => image.offsetAt (base + k * image.sizeofOffset) == address)

/-- The tests of lines 411-460 on the offsets of a rule: whether they reject the
candidate. -/
def offsetsReject (image : ProcessImage) (rule : Rule) (memberAllocation : Allocation)
    (candidateAllocation : Allocation) : Bool :=
  if rule._useOffsetInExtension then
    if (rule._offsetInExtension + image.sizeofOffset) % SIZE_LIMIT
        > candidateAllocation.Size then true
    else if rule._referenceIsOutgoing then
      !rule._useOffsetInMember
        && !AllocationHasAlignedPointer image memberAllocation
              ((candidateAllocation.Address + rule._offsetInExtension) % image.offsetLimit)
    else
      let numBytesFound := image.mappedBytes
        ((candidateAllocation.Address + rule._offsetInExtension) % image.offsetLimit)
      let memberAddress := memberAllocation.Address
      if numBytesFound < image.sizeofOffset then true
      else
        let pointerInCandidate := image.offsetAt
          ((candidateAllocation.Address + rule._offsetInExtension) % image.offsetLimit)
        if rule._useOffsetInMember then
          pointerInCandidate ≠ (memberAddress + rule._offsetInMember) % SIZE_LIMIT
        else
          decide (pointerInCandidate < memberAddress)
            || decide (pointerInCandidate
                ≥ (memberAddress + memberAllocation.Size) % image.offsetLimit)
  else
    rule._useOffsetInMember && !rule._referenceIsOutgoing
      && !AllocationHasAlignedPointer image candidateAllocation
            ((memberAllocation.Address + rule._offsetInMember) % image.offsetLimit)

/-- The tests of lines 402-475 on a candidate, none of which has an effect: whether the
candidate passes all of them; none when a test dereferences a null pointer (_graph,
_edgeIsTainted or _edgeIsFavored). -/
def candidatePasses (v : ExtendedVisitor) (image : ProcessImage) (rule : Rule)
    (memberIndex : Nat) (memberAllocation : Allocation) (candidateIndex : Nat)
    (candidateAllocation : Allocation) : Option Bool :=
  match (if rule._extensionMustBeLeaked then v._graph.map (fun g => !g.IsLeaked candidateIndex)
         else some false) with
  | none => none
  | some true => some false
  | some false =>
    if !candidateAllocation.IsUsed
        || !rule._extensionSignatureChecker.Check candidateIndex then some false
    else if offsetsReject image rule memberAllocation candidateAllocation then some false
    else
      match (if v._skipTaintedReferences then
               image.GetEdgeIsTainted.map (fun tainted =>
                 if rule._referenceIsOutgoing then tainted memberIndex candidateIndex
                 else tainted candidateIndex memberIndex)
             else some false) with
      | none => none
      | some true => some false
      | some false =>
        match (if v._skipUnfavoredReferences then
                 image.GetEdgeIsFavored.map (fun favored =>
                   if rule._referenceIsOutgoing then
                     image.SupportsFavoredReferences candidateIndex
                       && !favored memberIndex candidateIndex
                   else
                     image.SupportsFavoredReferences memberIndex
                       && !favored candidateIndex memberIndex)
               else some false) with
        | none => none
        | some true => some false
        | some false => some true

/-- The comment lines of lines 477-488 for a reference between member and candidate. -/
def referenceComment (rule : Rule) (memberAllocation candidateAllocation : Allocation) :
    List OutputItem :=
  [.hex, .text (bytesOf "# Allocation at 0x"), .num memberAllocation.Address,
   .text (if rule._referenceIsOutgoing then bytesOf " references allocation at 0x"
          else bytesOf " is referenced by allocation at 0x"),
   .num candidateAllocation.Address, .text (bytesOf "." ++ [NEWLINE])]

/-- The comment lines of lines 490-499 for a candidate that was already visited. -/
def alreadyVisitedComment (v : ExtendedVisitor) (rule : Rule) (candidateAllocation : Allocation) :
    List OutputItem :=
  [.text (bytesOf "# Allocation at 0x"), .num candidateAllocation.Address,
   .text (bytesOf " was already visited." ++ [NEWLINE])]
  ++ (if rule._newState ≠ 0 then
        [.text (bytesOf "# Allocation at 0x"), .num candidateAllocation.Address,
         .text (bytesOf " would have been extended in state "),
         .str (v._stateLabels.getD rule._newState []), .text (bytesOf "." ++ [NEWLINE])]
      else [])
  ++ [.text [NEWLINE]]

/-- The comment lines of lines 502-507 for a change of state. -/
def newStateComment (v : ExtendedVisitor) (rule : Rule) (candidateAllocation : Allocation) :
    List OutputItem :=
  if rule._newState ≠ 0 then
    [.text (bytesOf "# Allocation at 0x"), .num candidateAllocation.Address,
     .text (bytesOf " will be extended in state "),
     .str (v._stateLabels.getD rule._newState []), .text (bytesOf "." ++ [NEWLINE])]
  else []

/-- Lines 397-543 of the loop of Visit: the candidate found for the rule is checked and,
when it passes and was not visited, it is visited and becomes the member. -/
def extendTo (v : ExtendedVisitor) (image : ProcessImage) (rule : Rule)
    (memberAllocation : Allocation) (candidateIndex : Nat) (candidateAllocation : Allocation)
    (st : VisitState) : StepResult :=
  let alreadyVisited := st.visited.contains candidateIndex
  if !v._commentExtensions && alreadyVisited then .next st
  else
  match candidatePasses v image rule st.memberIndex memberAllocation candidateIndex
      candidateAllocation with
  | none => .fault st
  | some false => .next st
  | some true =>
    let out1 :=
      if v._commentExtensions then
        st.output ++ referenceComment rule memberAllocation candidateAllocation
      else st.output
    if v._commentExtensions && alreadyVisited then
      .next { st with output := out1 ++ alreadyVisitedComment v rule candidateAllocation }
    else
      let out2 :=
        if v._commentExtensions then out1 ++ newStateComment v rule candidateAllocation
        else out1
      let contexts :=
        if st.ruleCheckProgress ≠ .RULE_DONE ∨ (st.ruleIndex + 1) % SIZE_LIMIT ≠ st.ruleIndexLimit
        then
          { _memberIndex := st.memberIndex, _ruleIndex := st.ruleIndex,
            _numCandidatesLeft := st.numCandidatesLeft,
            _ruleCheckProgress := st.ruleCheckProgress,
            _pNextCandidate := st.pNextCandidate } :: st.extensionContexts
        else st.extensionContexts
      let state := rule._newState
      match v._stateToBase[state]?, v._stateToBase[state + 1]? with
      | some ruleIndex, some ruleIndexLimit =>
        .next { st with
          output := out2,
          extensionContexts := contexts,
          memberIndex := candidateIndex,
          visited := candidateIndex :: st.visited,
          visits := st.visits ++ [candidateIndex],
          state := state,
          ruleIndex :=
            if ruleIndex ≠ ruleIndexLimit then ruleIndex
            else (ruleIndex + SIZE_LIMIT - 1) % SIZE_LIMIT,
          ruleIndexLimit := ruleIndexLimit,
          ruleCheckProgress := if ruleIndex ≠ ruleIndexLimit then .NEW_RULE else .RULE_DONE }
      | _, _ =>
        .fault { st with
          output := out2,
          extensionContexts := contexts,
          memberIndex := candidateIndex,
          visited := candidateIndex :: st.visited,
          visits := st.visits ++ [candidateIndex],
          state := state }

/-- Line 380 of the loop of Visit: with no edge checked yet, the number of candidates
left is the length of the edge list. -/
def countCandidates (st : VisitState) : VisitState :=
  if st.ruleCheckProgress = .NO_EDGES_CHECKED then
    { st with numCandidatesLeft := st.pNextCandidate.length }
  else st

/-- Lines 379-395 of the loop of Visit and what follows: the next candidate of the edge
list is taken. -/
def takeCandidate (v : ExtendedVisitor) (image : ProcessImage) (rule : Rule)
    (memberAllocation : Allocation) (st : VisitState) : StepResult :=
  let st1 := countCandidates st
  if st.ruleCheckProgress = .NO_EDGES_CHECKED ∧ st1.numCandidatesLeft = 0 then
    .next { st1 with ruleCheckProgress := .RULE_DONE }
  else
    match st1.pNextCandidate with
    | [] => .fault st1
    | candidateIndex :: rest =>
      let numCandidatesLeft := (st1.numCandidatesLeft + SIZE_LIMIT - 1) % SIZE_LIMIT
      match image.allocations[candidateIndex]? with
      | none => .fault st1
      | some candidateAllocation =>
        extendTo v image rule memberAllocation candidateIndex candidateAllocation
          { st1 with
            numCandidatesLeft := numCandidatesLeft,
            pNextCandidate := rest,
            ruleCheckProgress := if numCandidatesLeft = 0 then .RULE_DONE else .IN_PROGRESS }

/-- The test of lines 340-345: whether the rule does not apply to the member. -/
def memberRejected (image : ProcessImage) (rule : Rule) (memberIndex : Nat)
    (memberAllocation : Allocation) : Bool :=
  !rule._memberSignatureChecker.Check memberIndex
    || (rule._useOffsetInMember
        && decide ((rule._offsetInMember
              + (if rule._referenceIsOutgoing then image.sizeofOffset else 1)) % SIZE_LIMIT
            > memberAllocation.Size))

/-- Lines 351-369 of the loop of Visit and what follows: an outgoing rule with an offset
in the member reads the candidate from the member. -/
def followOffset (v : ExtendedVisitor) (image : ProcessImage) (rule : Rule)
    (memberAllocation : Allocation) (st : VisitState) : StepResult :=
  let st1 := { st with ruleCheckProgress := .RULE_DONE }
  let address := (memberAllocation.Address + rule._offsetInMember) % image.offsetLimit
  if image.mappedBytes address < image.sizeofOffset then .next st1
  else
    let target := image.offsetAt address
    let candidateIndex := image.AllocationIndexOf target
    if candidateIndex = image.NumAllocations then .next st1
    else
      match image.allocations[candidateIndex]? with
      | none => .fault st1
      | some candidateAllocation =>
        if rule._useOffsetInExtension
            && target ≠ (candidateAllocation.Address + rule._offsetInExtension) % SIZE_LIMIT then
          .next st1
        else extendTo v image rule memberAllocation candidateIndex candidateAllocation st1

/-- Lines 371-377 of the loop of Visit and what follows: the edges of the member in the
direction of the rule become the candidates. -/
def followEdges (v : ExtendedVisitor) (image : ProcessImage) (rule : Rule)
    (memberAllocation : Allocation) (st : VisitState) : StepResult :=
  match v._graph with
  | none => .fault st
  | some graph =>
    takeCandidate v image rule memberAllocation
      { st with
        pNextCandidate :=
          if rule._referenceIsOutgoing then graph.GetOutgoing st.memberIndex
          else graph.GetIncoming st.memberIndex,
        ruleCheckProgress := .NO_EDGES_CHECKED }

/-- Lines 336-395 of the loop of Visit and what follows, for a rule check that is not
done: the rule at ruleIndex is applied to the member. -/
def applyRule (v : ExtendedVisitor) (image : ProcessImage) (st : VisitState) : StepResult :=
  match v._rules[st.ruleIndex]?, image.allocations[st.memberIndex]? with
  | some rule, some memberAllocation =>
    if st.ruleCheckProgress = .NEW_RULE then
      if memberRejected image rule st.memberIndex memberAllocation then
        .next { st with ruleCheckProgress := .RULE_DONE }
      else if rule._referenceIsOutgoing && rule._useOffsetInMember then
        followOffset v image rule memberAllocation st
      else followEdges v image rule memberAllocation st
    else takeCandidate v image rule memberAllocation st
  | _, _ => .fault st

/-- Lines 320-331 of the loop of Visit: the context on top of the stack is resumed. -/
def resumeContext (v : ExtendedVisitor) (extensionContext : ExtensionContext)
    (rest : List ExtensionContext) (st : VisitState) : StepResult :=
  let st1 := { st with
    memberIndex := extensionContext._memberIndex,
    ruleIndex := extensionContext._ruleIndex,
    numCandidatesLeft := extensionContext._numCandidatesLeft,
    ruleCheckProgress := extensionContext._ruleCheckProgress,
    pNextCandidate := extensionContext._pNextCandidate,
    extensionContexts := rest }
  match v._rules[st1.ruleIndex]? with
  | none => .fault st1
  | some rule =>
    match v._stateToBase[rule._baseState + 1]? with
    | none => .fault st1
    | some ruleIndexLimit =>
      .next { st1 with state := rule._baseState, ruleIndexLimit := ruleIndexLimit }

/-- One pass through the body of the loop of Visit (lines 315-543). -/
def visitStep (v : ExtendedVisitor) (image : ProcessImage) (st : VisitState) : StepResult :=
  if st.ruleCheckProgress = .RULE_DONE then
    let ruleIndex := (st.ruleIndex + 1) % SIZE_LIMIT
    if ruleIndex = st.ruleIndexLimit then
      match st.extensionContexts with
      | [] => .done { st with ruleIndex := ruleIndex }
      | extensionContext :: rest =>
        resumeContext v extensionContext rest { st with ruleIndex := ruleIndex }
    else
      applyRule v image { st with ruleIndex := ruleIndex, ruleCheckProgress := .NEW_RULE }
  else applyRule v image st

/-- The passes through the loop of Visit, at most fuel of them: the result after the
last of them. -/
def visitLoop (v : ExtendedVisitor) (image : ProcessImage) : Nat → VisitState → StepResult
  | 0, st => .next st
  | fuel + 1, st =>
    match visitStep v image st with
    | .next st1 => visitLoop v image fuel st1
    | r => r

/-- What the calls of Visit share and leave behind: the visited set, the calls of
visitor.Visit made so far, in order, and the output. -/
structure VisitLog where
  visited : List Nat
  visits : List Nat
  output : List OutputItem
deriving DecidableEq, Repr

/-- Model of ExtendedVisitor::Visit (lines 272-545) with at most fuel passes through its
loop.  The results next and fault hold the state in which the model stops: the loop
still running, or undefined behaviour. -/
def ExtendedVisitor.Visit (v : ExtendedVisitor) (image : ProcessImage) (fuel : Nat)
    (memberIndex : Nat) (log : VisitLog) : StepResult :=
  let st0 : VisitState :=
    { memberIndex := memberIndex, state := 0, ruleIndex := 0, numCandidatesLeft := 0,
      ruleIndexLimit := 0, pNextCandidate := [], ruleCheckProgress := .NEW_RULE,
      extensionContexts := [], visited := log.visited, visits := log.visits,
      output := log.output }
  if !v._isEnabled then .done { st0 with visits := st0.visits ++ [memberIndex] }
  else if log.visited.contains memberIndex then
    .done { st0 with
      output :=
        if v._commentExtensions then
          match image.allocations[memberIndex]? with
          | some allocation =>
            st0.output ++ [.text (bytesOf "# Base set member at 0x"), .hex,
              .num allocation.Address,
              .text (bytesOf " was already visited via an extension rule."
                ++ [NEWLINE, NEWLINE])]
          | none => st0.output
        else st0.output }
  else
    let st1 := { st0 with visited := memberIndex :: st0.visited,
                          visits := st0.visits ++ [memberIndex] }
    match v._stateToBase[0]?, v._stateToBase[1]? with
    | some ruleIndex, some ruleIndexLimit =>
      visitLoop v image fuel { st1 with ruleIndex := ruleIndex, ruleIndexLimit := ruleIndexLimit }
    | _, _ => .fault st1

/-- The state in which a pass or a call ends. -/
def StepResult.state : StepResult → VisitState
  | .next st => st
  | .done st => st
  | .fault st => st

/-- What a call of Visit leaves behind. -/
def StepResult.log (r : StepResult) : VisitLog :=
  { visited := r.state.visited, visits := r.state.visits, output := r.state.output }

/-- A sequence of calls of Visit that share the visited set, each with at most fuel
passes through its loop; the sequence stops with the first call that does not return. -/
def ExtendedVisitor.visitAll (v : ExtendedVisitor) (image : ProcessImage) (fuel : Nat) :
    List Nat → VisitLog → VisitLog
  | [], log => log
  | memberIndex :: rest, log =>
    match v.Visit image fuel memberIndex log with
    | .done st =>
      ExtendedVisitor.visitAll v image fuel rest
        { visited := st.visited, visits := st.visits, output := st.output }
    | r => r.log

/-- A graph of three allocations on a cycle, 0 -> 1 -> 2 -> 0, with the edge 0 -> 2 and a
fourth allocation without edges. -/
def cycleGraph : Graph :=
  { GetOutgoing := fun i => if i = 0 then [1, 2] else if i = 1 then [2] else if i = 2 then [0]
      else [],
    GetIncoming := fun i => if i = 0 then [2] else if i = 1 then [0] else if i = 2 then [0, 1]
      else [],
    IsLeaked := fun _ => false }

/-- A process image with four used allocations of 0x20 bytes and the graph cycleGraph. -/
def cycleImage : ProcessImage :=
  { plainProcessImage (some cycleGraph) with
    allocations := [⟨0x1000, 0x20, true⟩, ⟨0x2000, 0x20, true⟩, ⟨0x3000, 0x20, true⟩,
      ⟨0x4000, 0x20, true⟩] }

/-- The enabled ExtendedVisitor for the single rule "->" on cycleImage. -/
def outgoingVisitor : ExtendedVisitor :=
  { _isEnabled := true, _hasErrors := false, _graph := some cycleGraph,
    _rules := [Rule.ofSpecification cycleImage Specification.initial],
    _stateToBase := [0, 1], _commentExtensions := false, _skipTaintedReferences := false,
    _skipUnfavoredReferences := false, _stateLabels := [[]], error := ⟨[], false, []⟩ }

/-- The calls of visitor.Visit made between two logs are orderly: the later log holds the
calls of the earlier one followed by calls for distinct indices, none of which was in the
visited set of the earlier log, and the visited set has grown by just these indices. -/
def VisitedOnce (before after : VisitLog) : Prop :=
  ∃ added : List Nat, after.visits = before.visits ++ added ∧ added.Nodup
    ∧ (∀ i ∈ added, i ∉ before.visited)
    ∧ ∀ i, i ∈ after.visited ↔ i ∈ before.visited ∨ i ∈ added

/-- The log of a state of the loop of Visit. -/
def VisitState.log (st : VisitState) : VisitLog :=
  { visited := st.visited, visits := st.visits, output := st.output }

end Allocations

namespace Python

open Commands Allocations

/-- The entries of the free list of a pool that the walk of lines 198-207 visits, from
the entry freeBlock on: the walk ends at the entry 0 and at the first entry that is not
the address of a byte of a block; none when more than fuel entries are visited. -/
def freeListEntries (env : FinderEnv) (block blocksLimit : Nat) : Nat → Nat → Option (List Nat)
  | fuel, freeBlock =>
    if freeBlock = 0 then some []
    else if freeBlock < block ∨ freeBlock ≥ blocksLimit then some []
    else
      match fuel with
      | 0 => none
      | n + 1 =>
        (freeListEntries env block blocksLimit n (env.memory.ReadOffsetOr freeBlock 0)).map
          (fun entries => freeBlock :: entries)

/-- The state of a finder that is about to report the block i of a pool whose blocks
start at block and whose flags are v. -/
def AtBlock (env : FinderEnv) (f : BlockAllocationFinder)
    (pool block blockSize numBlocks : Nat) (v : List Bool) (i : Nat) : Prop :=
  f._pool = pool ∧ f._blockSize = blockSize ∧ f._block = block + i * blockSize
    ∧ f._blockIndex = i ∧ f._blocksLimit = block + numBlocks * blockSize
    ∧ f._blockUsedInPool = v ∧ f._allocationAddress = block + i * blockSize
    ∧ f._allocationSize = blockSize ∧ v[i]? = some f._allocationIsUsed
    ∧ f.Finished env = false

/-- An image with one arena at 0x200000 whose first pool has blocks of 0x100 bytes (the
value 0xf00 at offset 0x2c), the value 0x31 at offset 0x28, which is not 0x30 plus a
whole number of blocks, and a free list that holds the second block only. -/
def corruptHeaderEnv : FinderEnv :=
  { memory := memoryOf [(0x200000, 1), (0x20002c, 0xf00), (0x200028, 0x31)]
      [(0x100000, 0x200000), (0x200008, 0x200130), (0x200130, 0)],
    sizeofOffset := 8, _arenaStructArray := 0x100000, _arenaStructSize := 0x30,
    _arenaSize := 0x40000, _poolSize := 0x1000, _activeIndices := [0] }

/-- The finder for corruptHeaderEnv when the constructor calls
AdvanceToFirstBlockOfPool for the first pool. -/
def corruptHeaderFinder : BlockAllocationFinder :=
  { _itActiveIndices := 0, _blockUsedInPool := List.replicate 506 true, _arena := 0x200000,
    _firstPool := 0x200000, _poolsLimit := 0x240000, _pool := 0x200000, _blockSize := 0,
    _block := 0, _blockIndex := 0, _blocksLimit := 0, _allocationAddress := 0,
    _allocationSize := 0, _allocationIsUsed := false, cerr := [] }

end Python

namespace Commands

/-- The line s with some of its spaces replaced by the two bytes 0xC2 0xA0 of a
non-breaking space (the words of the specification): the byte at position i is replaced
when it is a space and the mask holds true at i. -/
def replaceSpaces : Line → List Bool → Line
  | [], _ => []
  | b :: s, [] => b :: s
  | b :: s, m :: ms => (if m && b == SPACE then [0xc2, 0xa0] else [b]) ++ replaceSpaces s ms

/-- The part of a line that is split into tokens: the line without the backslash at its
end, if it has one, up to the first '#'. -/
def lineBody (s : Line) : Line :=
  (if s.getLast? == some BACKSLASH then s.dropLast else s).takeWhile (fun b => b != HASH)

end Commands

namespace Commands

/-- The words of the specification about ill-formed switches: the first token begins
with '/', or some token is exactly "/", or some token beginning with '/' with a
non-empty name is the last token or is immediately followed by another token beginning
with '/'. -/
def IllFormedBySpec (tokens : Tokens) : Prop :=
  (∃ t, tokens.head? = some t ∧ beginsWithSlash t = true)
  ∨ [SLASH] ∈ tokens
  ∨ ∃ i t, tokens[i]? = some t ∧ beginsWithSlash t = true ∧ t ≠ [SLASH]
      ∧ (i + 1 = tokens.length ∨ ∃ u, tokens[i + 1]? = some u ∧ beginsWithSlash u = true)

/-- The switch name that is pending after a token: the name of the switch when the
token begins with '/', else none. -/
def pendingName : Option Line → Line
  | none => []
  | some t => if beginsWithSlash t then t.drop 1 else []

/-- Whether the constructor of Context finds an ill-formed switch in the tokens that
follow the token prev; first tells whether the tokens start the list. -/
def illAfter : Option Line → Bool → Tokens → Bool
  | prev, _, [] => !(pendingName prev).isEmpty
  | prev, first, t :: ts =>
    (beginsWithSlash t && (!(pendingName prev).isEmpty || first || (t.drop 1).isEmpty))
      || illAfter (some t) false ts

end Commands

namespace Commands

/-- Model of class Output (lines 170-189): the paths of the files on _outputStack above
std::cout, the top first, and the text written so far, each with the path of the file it
went to (none for std::cout). -/
structure Output where
  _outputStack : List Line
  written : List (Option Line × Line)
deriving DecidableEq, Repr

/-- What the model takes from the file system: whether a path can be opened for writing
(lines 177-178), the text of strerror(errno) after a failure (line 478), if there is
one, and the lines of the script at a path, if it can be opened (lines 35-36). -/
structure FileSystem where
  canOpen : Line → Bool
  openFailCause : Option Line
  script : Line → Option (List Line)

/-- Model of Output::PushTarget (lines 174-184). -/
def Output.PushTarget (fs : FileSystem) (out : Output) (outputPath : Line) : Bool × Output :=
  if fs.canOpen outputPath then
    (true, { out with _outputStack := outputPath :: out._outputStack })
  else (false, out)

/-- Model of Output::PopTarget (lines 185-188). -/
def Output.PopTarget (out : Output) : Output :=
  { out with _outputStack := out._outputStack.drop 1 }

/-- Model of one statement output << v1 << v2 << ...: the text goes to the top of the
stack. -/
def Output.write (out : Output) (text : Line) : Output :=
  { out with written := out.written ++ [(out._outputStack.head?, text)] }

/-- Model of Context::SetRedirectPathBySuffix (lines 429-437). -/
def Context.SetRedirectPathBySuffix (c : Context) : Bool × Context :=
  let suffix := c.Argument (bytesOf "redirectSuffix") 0
  if !suffix.isEmpty then
    (true, { c with _redirectPath := c._redirectPath ++ bytesOf "." ++ suffix })
  else (false, c)

/-- The loop of lines 440-443 over the positional arguments from the index i on. -/
def appendPositionals : Nat → List Line → Line → Line
  | _, [], path => path
  | i, p :: ps, path =>
    appendPositionals (i + 1) ps (path ++ (if i == 0 then bytesOf "." else bytesOf "_") ++ p)

/-- The loop of lines 445-456 over the entries of _switchedArguments. -/
def appendSwitches : SwitchMap → Line → Line
  | [], path => path
  | (name, arguments) :: m, path =>
    appendSwitches m
      (arguments.foldl (fun pa argument => pa ++ bytesOf ":" ++ argument)
        (path ++ bytesOf "::" ++ name))

/-- Model of Context::SetRedirectPathByArguments (lines 439-457). -/
def Context.SetRedirectPathByArguments (c : Context) : Context :=
  { c with
    _redirectPath :=
      appendSwitches c._switchedArguments
        (appendPositionals 0 c._positionalArguments c._redirectPath) }

/-- Lines 461-474 of Context::StartRedirect: the path that is given to PushTarget. -/
def Context.redirectTarget (c : Context) : Line :=
  let c1 := { c with _redirectPath := c._redirectPrefix }
  let bySuffix := c1.SetRedirectPathBySuffix
  let c2 := if !bySuffix.1 then bySuffix.2.SetRedirectPathByArguments else bySuffix.2
  if c2._redirectPath.length > 255 then c2._redirectPath.take 255 else c2._redirectPath

/-- Model of Context::StartRedirect (lines 459-485): the context and the output
afterwards. -/
def Context.StartRedirect (fs : FileSystem) (c : Context) (out : Output) : Context × Output :=
  if c._redirectPath.isEmpty then
    let path := c.redirectTarget
    match out.PushTarget fs path with
    | (true, out1) => ({ c with _redirectPath := path }, out1)
    | (false, out1) =>
      let error1 := c._error.write (bytesOf "Failed to open " ++ path
        ++ bytesOf " for writing." ++ [NEWLINE])
      let error2 : Error :=
        match fs.openFailCause with
        | some cause => { error1 with cerr := error1.cerr ++ [cause ++ [NEWLINE]] }
        | none => error1
      ({ c with _error := error2, _redirectPath := [] }, out1)
  else (c, out)

/-- Model of Context::IsRedirected (line 659). -/
def Context.IsRedirected (c : Context) : Bool := !c._redirectPath.isEmpty

/-- The file name of the specification for a command without /redirectSuffix, before the
truncation: the prefix, then "." and the positional arguments joined by "_", then for
each switch name "::" and the name followed by ":" and the argument for each of its
arguments. -/
def redirectNameBySpec (redirectPrefix : Line) (positionals : List Line)
    (switches : SwitchMap) : Line :=
  redirectPrefix ++ bytesOf "." ++ (bytesOf "_").intercalate positionals
    ++ (switches.map (fun e =>
          bytesOf "::" ++ e.1 ++ (e.2.map (fun a => bytesOf ":" ++ a)).flatten)).flatten

/-- A file system in which every path can be opened for writing and no script exists. -/
def writableFileSystem : FileSystem :=
  { canOpen := fun _ => true, openFailCause := none, script := fun _ => none }

/-- The entries of a switch map are in ascending order of their names. -/
def mapSorted (m : SwitchMap) : Prop :=
  m.Pairwise (fun a b => strLess a.1 b.1 = true)

end Commands

namespace Commands

/-- Model of Context::TokenAt (lines 488-494); emptyToken is the empty string. -/
def Context.TokenAt (c : Context) (tokenIndex : Nat) : Line := c._tokens.getD tokenIndex []

/-- Model of Context::GetNumTokens (line 487). -/
def Context.GetNumTokens (c : Context) : Nat := c._tokens.length

/-- Model of Input::TerminateAllScripts (lines 49-55): all streams but the bottom one are
popped and the script context is cleared. -/
def Input.TerminateAllScripts (inp : Input) : Input :=
  { _scriptContext := [],
    _inputStack := inp._inputStack.drop (inp._inputStack.length - 1) }

/-- Model of Input::IsDone (line 161). -/
def Input.IsDone (inp : Input) : Bool := inp._inputStack.isEmpty

/-- Model of Input::IsInScript (line 163). -/
def Input.IsInScript (inp : Input) : Bool := decide (inp._inputStack.length > 1)

/-- Model of Input::StartScript (lines 32-48): the value returned, the input, and the
text written to std::cerr. -/
def Input.StartScript (fs : FileSystem) (inp : Input) (inputPath : Line) :
    Bool × Input × List Line :=
  match fs.script inputPath with
  | none =>
    (false, inp,
      [bytesOf "Failed to open script " ++ [QUOTE] ++ inputPath ++ [QUOTE] ++ bytesOf "."
        ++ [NEWLINE]]
      ++ (match fs.openFailCause with
          | some cause => [cause ++ [NEWLINE]]
          | none => []))
  | some lines =>
    (true,
      { _scriptContext := inp._scriptContext ++ [{ _path := inputPath, _line := 0 }],
        _inputStack := lines :: inp._inputStack },
      [])

/-- What a command or a callback works on: the context of the command line, the output,
and the rest of the state of the program, of a type W that the model does not look
into.  The error stream is the one of the context. -/
structure Scope (W : Type) where
  context : Context
  output : Output
  world : W

/-- The type CommandCallback (lines 697-699): the callback is given the check-only flag
and returns the number of tokens it accepts, or none when it throws
CommandInterruptedException. -/
abbrev CommandCallback (W : Type) := Scope W → Bool → Option Nat × Scope W

/-- The members of class Command (lines 679-695) that the Runner calls; the Bool is false
when the call throws CommandInterruptedException. -/
structure Command (W : Type) where
  Run : Scope W → Bool × Scope W
  ShowHelpMessage : Scope W → Bool × Scope W

/-- The state of class Runner (lines 937-945); the script context is the one of _input,
and world is the rest of the state of the program. -/
structure Runner (W : Type) where
  _redirectPrefix : Line
  _redirect : Bool
  _input : Input
  _output : Output
  _error : Error
  _commandCallbacks : List (Line × List (CommandCallback W))
  _commands : List (Line × Command W)
  _preCommandCallback : Option (W → Bool × W)
  world : W

/-- Model of std::map::find for the maps of the Runner. -/
def findByName {α : Type} (m : List (Line × α)) (name : Line) : Option α :=
  (m.find? (fun e => e.1 == name)).map (fun e => e.2)

/-- Insertion into a std::map of a key that is not present, at its place in the order. -/
def insertByName {α : Type} : List (Line × α) → Line → α → List (Line × α)
  | [], k, v => [(k, v)]
  | (k1, v1) :: m, k, v =>
    if strLess k k1 then (k, v) :: (k1, v1) :: m else (k1, v1) :: insertByName m k v

/-- Model of Runner::Runner (lines 703-708) for an input with the given lines on the
terminal. -/
def Runner.new {W : Type} (redirectPrefix : Line) (terminal : List Line) (world : W) :
    Runner W :=
  { _redirectPrefix := redirectPrefix, _redirect := false,
    _input := { _scriptContext := [], _inputStack := [terminal] },
    _output := { _outputStack := [], written := [] },
    _error := { _scriptContext := [], _contextWritePending := false, cerr := [] },
    _commandCallbacks := [], _commands := [], _preCommandCallback := none, world := world }

/-- Model of Runner::AddCommand for a callback (lines 744-747). -/
def Runner.AddCallback {W : Type} (r : Runner W) (commandName : Line)
    (commandCallback : CommandCallback W) : Runner W :=
  match findByName r._commandCallbacks commandName with
  | some _ =>
    { r with _commandCallbacks := r._commandCallbacks.map (fun e =>
        if e.1 == commandName then (e.1, e.2 ++ [commandCallback]) else e) }
  | none =>
    { r with _commandCallbacks := insertByName r._commandCallbacks commandName [commandCallback] }

/-- Model of Runner::AddCommand for a Command (lines 749-754), whose GetName gives
name. -/
def Runner.AddCommand {W : Type} (r : Runner W) (name : Line) (command : Command W) :
    Runner W :=
  match findByName r._commands name with
  | some _ =>
    { r with _error := { r._error with cerr := r._error.cerr ++
        [bytesOf "Warning: Attempted to declare " ++ name ++ bytesOf " multiple times."
          ++ [NEWLINE]] } }
  | none => { r with _commands := insertByName r._commands name command }

/-- What RunCommands executes for a command line: a callback, given by its index in the
list of its command name, in check-only mode with the value it returns or in non-check
mode, the pre-command callback, the Run of a Command, or its ShowHelpMessage. -/
inductive Executed where
  | check (index : Nat) (accepted : Option Nat)
  | callback (index : Nat)
  | preCommand
  | command (name : Line)
  | commandHelp (name : Line)
deriving DecidableEq, Repr

/-- The state inside the try block of RunCommands: the scope, the input, the redirect
flag, what was executed so far, and whether CommandInterruptedException was thrown. -/
structure Body (W : Type) where
  scope : Scope W
  input : Input
  redirect : Bool
  executed : List Executed
  interrupted : Bool

/-- The variables of the loop of lines 877-885 over the callbacks of a command name. -/
structure CheckState (W : Type) where
  scope : Scope W
  mostTokensAccepted : Nat
  itBest : Option Nat
  executed : List Executed
  interrupted : Bool

/-- The loop of lines 877-885 from the callback with the given index on. -/
def checkLoop {W : Type} : List (CommandCallback W) → Nat → CheckState W → CheckState W
  | [], _, st => st
  | itCheck :: rest, index, st =>
    match itCheck st.scope true with
    | (none, scope1) =>
      { st with scope := scope1, executed := st.executed ++ [.check index none],
                interrupted := true }
    | (some numTokensAccepted, scope1) =>
      let st1 : CheckState W :=
        { st with scope := scope1,
                  executed := st.executed ++ [.check index (some numTokensAccepted)] }
      checkLoop rest (index + 1)
        (if numTokensAccepted > st1.mostTokensAccepted then
          { st1 with mostTokensAccepted := numTokensAccepted, itBest := some index }
        else st1)

/-- Model of Runner::ShowHelpMessage (lines 765-773). -/
def showHelpMessage {W : Type} (commands : List (Line × Command W)) (out : Output) : Output :=
  let out1 := out.write (bytesOf "Supported commands are:" ++ [NEWLINE] ++ bytesOf "help"
    ++ [NEWLINE] ++ bytesOf "redirect" ++ [NEWLINE] ++ bytesOf "source" ++ [NEWLINE])
  let out2 := commands.foldl (fun o e => o.write (e.1 ++ [NEWLINE])) out1
  out2.write (bytesOf "Use " ++ [QUOTE] ++ bytesOf "help <command-name>" ++ [QUOTE]
    ++ bytesOf " for help on a specific command." ++ [NEWLINE])

/-- The scope with a text written through the Error of the Runner. -/
def Scope.error {W : Type} (s : Scope W) (msg : Line) : Scope W :=
  { s with context := { s.context with _error := s.context._error.write msg } }

/-- The scope after Context::StartRedirect. -/
def Scope.StartRedirect {W : Type} (fs : FileSystem) (s : Scope W) : Scope W :=
  { s with context := (s.context.StartRedirect fs s.output).1,
           output := (s.context.StartRedirect fs s.output).2 }

/-- The body after Input::TerminateAllScripts: the Error refers to the script context,
which is cleared. -/
def Body.TerminateAllScripts {W : Type} (b : Body W) : Body W :=
  { b with
    input := b.input.TerminateAllScripts,
    scope := { b.scope with context := { b.scope.context with
      _error := { b.scope.context._error with _scriptContext := [] } } } }

/-- Model of Runner::HandleHelpCommand (lines 775-806). -/
def handleHelpCommand {W : Type} (commands : List (Line × Command W)) (b : Body W) : Body W :=
  let context := b.scope.context
  if context.GetNumTokens = 1 then
    { b with scope := { b.scope with output := showHelpMessage commands b.scope.output } }
  else
    let topic := context.TokenAt 1
    if topic = bytesOf "redirect" then
      let out1 := b.scope.output.write
        (bytesOf "Use " ++ [QUOTE] ++ bytesOf "redirect on" ++ [QUOTE]
          ++ bytesOf " to enable redirection of output to separate files per command."
          ++ [NEWLINE])
      let out2 := out1.write
        (bytesOf "Use " ++ [QUOTE] ++ bytesOf "redirect off" ++ [QUOTE]
          ++ bytesOf " to disable redirection of output to separate files per"
          ++ [NEWLINE] ++ bytesOf "command." ++ [NEWLINE])
      { b with scope := { b.scope with output := out2 } }
    else if topic = bytesOf "source" then
      let out1 := b.scope.output.write
        (bytesOf "Use " ++ [QUOTE] ++ bytesOf "source <path>" ++ [QUOTE]
          ++ bytesOf " to run commands from the specified file." ++ [NEWLINE])
      { b with scope := { b.scope with output := out1 } }
    else if topic = bytesOf "help" then
      let out1 := b.scope.output.write
        (bytesOf "Use " ++ [QUOTE] ++ bytesOf "help <command-name>" ++ [QUOTE]
          ++ bytesOf " for help on the specified command." ++ [NEWLINE])
      let out2 := out1.write
        (bytesOf "Use " ++ [QUOTE] ++ bytesOf "help" ++ [QUOTE]
          ++ bytesOf " with no arguments to see the following:" ++ [NEWLINE])
      { b with scope := { b.scope with output := showHelpMessage commands out2 } }
    else
      match findByName commands topic with
      | none =>
        let out1 := b.scope.output.write
          ([QUOTE] ++ topic ++ [QUOTE] ++ bytesOf " is not a valid command name." ++ [NEWLINE])
        { b with scope := { b.scope with output := showHelpMessage commands out1 } }
      | some command =>
        let called := command.ShowHelpMessage b.scope
        { b with scope := called.2, executed := b.executed ++ [.commandHelp topic],
                 interrupted := !called.1 }

/-- Model of Runner::HandleRedirectCommand (lines 808-818). -/
def handleRedirectCommand {W : Type} (b : Body W) : Body W :=
  let argument := b.scope.context.TokenAt 1
  if b.scope.context.GetNumTokens ≠ 2
      ∨ ¬ (argument = bytesOf "on" ∨ argument = bytesOf "off") then
    { b with scope := b.scope.error (bytesOf "usage:  redirect on|off" ++ [NEWLINE]) }
  else { b with redirect := decide (argument = bytesOf "on") }

/-- Model of Runner::HandleSourceCommand (lines 820-827). -/
def handleSourceCommand {W : Type} (fs : FileSystem) (b : Body W) : Body W :=
  if b.scope.context.GetNumTokens ≠ 2 then
    let scope1 := b.scope.error (bytesOf "usage:  source <chap-command-file-path>" ++ [NEWLINE])
    { b with scope := scope1 }
  else
    let started := b.input.StartScript fs (b.scope.context.TokenAt 1)
    { b with
      input := started.2.1,
      scope := { b.scope with context := { b.scope.context with
        _error := { b.scope.context._error with
          _scriptContext := started.2.1._scriptContext,
          cerr := b.scope.context._error.cerr ++ started.2.2 } } } }

/-- Lines 909-926 of RunCommands: the Command of the name is looked up and run. -/
def runCommandObject {W : Type} (fs : FileSystem) (r : Runner W) (command : Line)
    (hasIllFormedSwitch redirectStarted : Bool) (b : Body W) : Body W :=
  match findByName r._commands command with
  | none =>
    let scope1 := b.scope.error
      (bytesOf "Command " ++ command ++ bytesOf " is not recognized" ++ [NEWLINE])
    let scope2 := scope1.error
      (bytesOf "Type " ++ [QUOTE] ++ bytesOf "help" ++ [QUOTE] ++ bytesOf " to get help."
        ++ [NEWLINE])
    { b with scope := scope2 }
  | some c =>
    let scope1 :=
      if (b.redirect || !(b.scope.context.Argument (bytesOf "redirectSuffix") 0).isEmpty)
          && !redirectStarted then
        b.scope.StartRedirect fs
      else b.scope
    if !hasIllFormedSwitch then
      let pre : Bool × Scope W × List Executed :=
        match r._preCommandCallback with
        | none => (true, scope1, b.executed)
        | some callback =>
          ((callback scope1.world).1, { scope1 with world := (callback scope1.world).2 },
            b.executed ++ [.preCommand])
      if pre.1 then
        let called := c.Run pre.2.1
        { b with scope := called.2, executed := pre.2.2 ++ [.command command],
                 interrupted := !called.1 }
      else { b with scope := pre.2.1, executed := pre.2.2, interrupted := true }
    else { b with scope := scope1 }

/-- Lines 875-885 of RunCommands: the check-only calls of the callbacks of a command
name. -/
def checkAll {W : Type} (callbacks : List (CommandCallback W)) (b : Body W) : CheckState W :=
  checkLoop callbacks 0
    { scope := b.scope, mostTokensAccepted := 0, itBest := none, executed := b.executed,
      interrupted := false }

/-- Lines 890-902 of RunCommands: the redirection for a callback. -/
def redirectForCallback {W : Type} (fs : FileSystem) (b : Body W) : Body W :=
  if b.redirect then { b with scope := b.scope.StartRedirect fs } else b

/-- Lines 903-926 of RunCommands: the callback itBest is executed when it accepts every
token or at least two, else the Command of the name is looked up. -/
def runBest {W : Type} (fs : FileSystem) (r : Runner W) (command : Line)
    (hasIllFormedSwitch : Bool) (callbacks : List (CommandCallback W))
    (mostTokensAccepted : Nat) (itBest : Option Nat) (redirectStarted : Bool) (b : Body W) :
    Body W :=
  if mostTokensAccepted = b.scope.context.GetNumTokens ∨ mostTokensAccepted ≥ 2 then
    match itBest.bind (fun i => (callbacks[i]?).map (fun cb => (i, cb))) with
    | none => b
    | some (i, best) =>
      let called := best b.scope false
      { b with scope := called.2, executed := b.executed ++ [.callback i],
               interrupted := called.1.isNone }
  else runCommandObject fs r command hasIllFormedSwitch redirectStarted b

/-- The state after the message of line 887 and the call of TerminateAllScripts. -/
def unknownCommand {W : Type} (command : Line) (b : Body W) : Body W :=
  Body.TerminateAllScripts
    { b with scope := b.scope.error (bytesOf "unknown command " ++ command ++ [NEWLINE]) }

/-- Lines 871-927 of RunCommands: a command other than help, redirect and source. -/
def runRegistered {W : Type} (fs : FileSystem) (r : Runner W) (command : Line)
    (hasIllFormedSwitch : Bool) (b : Body W) : Body W :=
  match findByName r._commandCallbacks command with
  | none => runCommandObject fs r command hasIllFormedSwitch false b
  | some callbacks =>
    let checked := checkAll callbacks b
    let b1 : Body W := { b with scope := checked.scope, executed := checked.executed }
    if checked.interrupted then { b1 with interrupted := true }
    else if checked.mostTokensAccepted = 0 then
      runCommandObject fs r command hasIllFormedSwitch false (unknownCommand command b1)
    else
      runBest fs r command hasIllFormedSwitch callbacks checked.mostTokensAccepted
        checked.itBest b1.redirect (redirectForCallback fs b1)

/-- The result of one pass through the loop of RunCommands (lines 840-933): the Runner
afterwards, whether RunCommands returned, the Context that was made for the command
line, and what was executed for it. -/
structure Pass (W : Type) where
  runner : Runner W
  returned : Bool
  context : Context
  executed : List Executed

/-- The end of a pass: the destructor of the Context (lines 422-427), the catch clause
when the exception was thrown (lines 928-932), and the state of the Runner.  The Error
refers to the script context of the Runner (line 937), which is the one of _input. -/
def finishPass {W : Type} (r : Runner W) (b : Body W) (returned : Bool) (context : Context) :
    Pass W :=
  let output1 :=
    if !b.scope.context._redirectPath.isEmpty then
      b.scope.output.PopTarget.write (bytesOf "Wrote results to "
        ++ b.scope.context._redirectPath ++ [NEWLINE])
    else b.scope.output
  let b1 : Body W :=
    if b.interrupted then
      ({ b with scope := b.scope.error ([NEWLINE] ++ bytesOf "The command was interrupted."
          ++ [NEWLINE]) } : Body W).TerminateAllScripts
    else b
  { runner := { r with _redirect := b1.redirect, _input := b1.input, _output := output1,
                       _error := { b1.scope.context._error with
                         _scriptContext := b1.input._scriptContext },
                       world := b1.scope.world },
    returned := returned, context := context, executed := b1.executed }

/-- The try block of RunCommands (lines 843-927) for the Context made from the tokens
that GetTokens read, which left the input input1: whether RunCommands returns, and the
state at the end of the block. -/
def Runner.tryBlock {W : Type} (fs : FileSystem) (r : Runner W) (context : Context)
    (input1 : Input) : Bool × Body W :=
  let hasIllFormedSwitch := context.HasIllFormedSwitch
  let b : Body W :=
    { scope := { context := context, output := r._output, world := r.world },
      input := input1, redirect := r._redirect, executed := [], interrupted := false }
  if hasIllFormedSwitch && find (context.TokenAt 0) SLASH == some 0 then (false, b)
  else
    let command := context.TokenAt 0
    if command.isEmpty then
      if input1.IsDone then (true, { b with scope := b.scope.error [NEWLINE] })
      else (false, b)
    else if command = bytesOf "help" then (false, handleHelpCommand r._commands b)
    else if command = bytesOf "redirect" then (false, handleRedirectCommand b)
    else if command = bytesOf "source" then (false, handleSourceCommand fs b)
    else (false, runRegistered fs r command hasIllFormedSwitch b)

/-- One pass through the loop of RunCommands (lines 840-933); none when GetTokens runs
out of fuel. -/
def Runner.pass {W : Type} (fs : FileSystem) (fuel : Nat) (r : Runner W) : Option (Pass W) :=
  match r._input.GetTokens fuel with
  | none => none
  | some (tokens, input1) =>
    let context := Context.ofTokens tokens
      { r._error with _scriptContext := input1._scriptContext } r._redirectPrefix
    let done := r.tryBlock fs context input1
    some (finishPass r done.2 done.1 context)

/-- Model of Runner::RunCommands (lines 833-935): passes through the loop until it
returns; none when the fuel runs out. -/
def Runner.RunCommands {W : Type} (fs : FileSystem) (fuel : Nat) :
    Nat → Runner W → Option (Runner W × List (List Executed))
  | 0, _ => none
  | n + 1, r =>
    match r.pass fs fuel with
    | none => none
    | some p =>
      if p.returned then some (p.runner, [p.executed])
      else
        match Runner.RunCommands fs fuel n p.runner with
        | none => none
        | some (r1, log) => some (r1, p.executed :: log)

/-- The events of the check-only calls of the callbacks with the indexes from k on that
return the given numbers of tokens. -/
def checkEvents (k : Nat) (results : List Nat) : List Executed :=
  (results.enumFrom k).map (fun jm => Executed.check jm.1 (some jm.2))

/-- A callback that accepts every token of the command line and does nothing else. -/
def acceptAll : CommandCallback Unit := fun s _ => (some s.context.GetNumTokens, s)

/-- A callback that accepts at most the given number of leading tokens. -/
def acceptUpTo (n : Nat) : CommandCallback Unit :=
  fun s _ => (some (min n s.context.GetNumTokens), s)

/-- A Command that does nothing. -/
def idleCommand : Command Unit :=
  { Run := fun s => (true, s), ShowHelpMessage := fun s => (true, s) }

/-- A Runner with one callback under the name x that accepts every token, reading the
line "x /s" from the terminal. -/
def callbackRunner : Runner Unit :=
  (Runner.new [] [bytesOf "x /s"] ()).AddCallback (bytesOf "x") acceptAll

/-- The invariant of the loop of lines 877-885 after the check-only calls with the
given results: they are logged after the events base, mostTokensAccepted bounds them, and
itBest is the first callback that returned mostTokensAccepted, or end() when that is 0. -/
def CheckInv {W : Type} (base : List Executed) (results : List Nat) (st : CheckState W) :
    Prop :=
  st.executed = base ++ checkEvents 0 results
    ∧ (∀ m ∈ results, m ≤ st.mostTokensAccepted)
    ∧ ((st.itBest = none ∧ st.mostTokensAccepted = 0)
        ∨ ∃ i, st.itBest = some i ∧ results[i]? = some st.mostTokensAccepted
            ∧ 0 < st.mostTokensAccepted
            ∧ ∀ j m, j < i → results[j]? = some m → m < st.mostTokensAccepted)

/-- The words of the specification about the callback that is executed, for a command
name with count callbacks, in the order of registration: every one of them was called in
check-only mode and returned a number of tokens, then the callback with the index i was
called in non-check mode and nothing else was executed; the number n that this callback
accepts is not 0, no callback accepts more, and every callback registered before it
accepts less. -/
def ExecutesBest (count : Nat) (executed : List Executed) (i : Nat) : Prop :=
  ∃ (results : List Nat) (n : Nat), results.length = count
    ∧ executed = checkEvents 0 results ++ [.callback i]
    ∧ results[i]? = some n ∧ 0 < n
    ∧ (∀ (j m : Nat), results[j]? = some m → m ≤ n)
    ∧ (∀ (j m : Nat), j < i → results[j]? = some m → m < n)

/-- A Runner with three callbacks under the name x, of which the first accepts one token
and the other two accept every token, reading the line "x a b" from the terminal. -/
def tieRunner : Runner Unit :=
  (((Runner.new [] [bytesOf "x a b"] ()).AddCallback (bytesOf "x") (acceptUpTo 1)).AddCallback
    (bytesOf "x") acceptAll).AddCallback (bytesOf "x") acceptAll

/-- The pass of tieRunner for its line. -/
def tiePass : Pass Unit := (tieRunner.pass writableFileSystem 10).get (by decide)

/-- A file system in which the script "s" holds the lines "foo /s", "x" and "foo". -/
def scriptFileSystem : FileSystem :=
  { canOpen := fun _ => true, openFailCause := none,
    script := fun path =>
      if path = bytesOf "s" then some [bytesOf "foo /s", bytesOf "x", bytesOf "foo"]
      else none }

/-- A Runner with the Command foo and with one callback under the name x that accepts no
token, reading the lines "source s" and "foo" from the terminal. -/
def scriptRunner : Runner Unit :=
  ((Runner.new [] [bytesOf "source s", bytesOf "foo"] ()).AddCallback (bytesOf "x")
    (acceptUpTo 0)).AddCommand (bytesOf "foo") idleCommand

/-- The Runner scriptRunner after the pass for the line "source s": the script is
active. -/
def scriptRunner1 : Runner Unit :=
  ((scriptRunner.pass scriptFileSystem 10).get (by decide)).runner

/-- The pass of scriptRunner1 for the line "foo /s" of the script. -/
def scriptPass2 : Pass Unit := (scriptRunner1.pass scriptFileSystem 10).get (by decide)

/-- The pass for the line "x" of the script, which follows the line "foo /s". -/
def scriptPass3 : Pass Unit := (scriptPass2.runner.pass scriptFileSystem 10).get (by decide)

end Commands

namespace Allocations

open Commands

/-- The index of the rule that a pass through the loop of Visit works on (lines 315-336):
after a rule is done it is the next index. -/
def stepRuleIndex (st : VisitState) : Nat :=
  if st.ruleCheckProgress = .RULE_DONE then (st.ruleIndex + 1) % SIZE_LIMIT else st.ruleIndex

/-- A command line with three extension rules, of which the second applies in the state
s that the first one leads to, and the first and the third apply in the base state. -/
def orderContext : Context :=
  contextOf ["list", "used", "/extend", "a->b=>s", "/extend", "s->c", "/extend", "->d"]

end Allocations

namespace Allocations

open Commands

/-- The message of lines 198-200 and 212-214 for a signature that is not recognized, and
of lines 205-207 and 219-221 for a pattern; side is "Member" or "Extension" and kind is
"signature" or "pattern". -/
def notRecognizedMsg (side kind : String) (name : Line) : Line :=
  bytesOf side ++ bytesOf " " ++ bytesOf kind ++ bytesOf " " ++ [QUOTE] ++ name ++ [QUOTE]
    ++ bytesOf " is not recognized." ++ [NEWLINE]

/-- A process image in which the signature nosuch and the pattern %nosuch are not
recognized, and every other name is. -/
def unknownNamesImage : ProcessImage :=
  { plainProcessImage (some emptyGraph) with
    makeSignatureChecker := fun s =>
      { UnrecognizedSignature := s == bytesOf "nosuch",
        UnrecognizedPattern := s == bytesOf "%nosuch",
        GetSignature := s, GetPatternName := s.drop 1, Check := fun _ => true } }

/-- A command line with one extension rule, whose extension side names the pattern
%nosuch. -/
def unknownPatternContext : Context := contextOf ["list", "used", "/extend", "->%nosuch"]

/-- A command line with one extension rule, whose extension side names the signature
nosuch. -/
def unknownSignatureContext : Context := contextOf ["list", "used", "/extend", "->nosuch"]

end Allocations

namespace Allocations

open Commands

/-- The state of Visit when it enters its loop (lines 301-312) for the seed memberIndex,
with the values ruleIndex and ruleIndexLimit read from _stateToBase. -/
def visitStart (memberIndex ruleIndex ruleIndexLimit : Nat) (log : VisitLog) : VisitState :=
  { memberIndex := memberIndex, state := 0, ruleIndex := ruleIndex, numCandidatesLeft := 0,
    ruleIndexLimit := ruleIndexLimit, pNextCandidate := [], ruleCheckProgress := .NEW_RULE,
    extensionContexts := [], visited := memberIndex :: log.visited,
    visits := log.visits ++ [memberIndex], output := log.output }

/-- The edges of a member that a rule follows: the outgoing edges for an outgoing rule,
else the incoming edges (lines 371 and 375). -/
def edgesOf (v : ExtendedVisitor) (rule : Rule) (memberIndex : Nat) : List Nat :=
  match v._graph with
  | none => []
  | some graph =>
    if rule._referenceIsOutgoing then graph.GetOutgoing memberIndex
    else graph.GetIncoming memberIndex

/-- While the edges of a member are checked for a rule, the candidates left are the rest
of the list of the edges of the member that the rule follows. -/
def CandidatesFrom (v : ExtendedVisitor) (memberIndex ruleIndex : Nat)
    (progress : RuleCheckProgress) (pNextCandidate : List Nat) : Prop :=
  progress = .IN_PROGRESS ∨ progress = .NO_EDGES_CHECKED →
    ∃ rule, v._rules[ruleIndex]? = some rule
      ∧ pNextCandidate <:+ edgesOf v rule memberIndex

/-- The invariant of the loop of Visit on the candidates of the member and of the
contexts on the stack. -/
def EdgeInv (v : ExtendedVisitor) (st : VisitState) : Prop :=
  CandidatesFrom v st.memberIndex st.ruleIndex st.ruleCheckProgress st.pNextCandidate
    ∧ ∀ c ∈ st.extensionContexts,
        CandidatesFrom v c._memberIndex c._ruleIndex c._ruleCheckProgress c._pNextCandidate

/-- A pass through the loop of Visit that ends with r extends from the member of the
state st to the candidate c by the rule: both are allocations of the directory, the
candidate passes the tests of lines 402-475 and was not visited, it becomes the member,
in the new state of the rule, and it is an edge of the member in the direction of the
rule or, for an outgoing rule with an offset in the member, the allocation of the address
read at that offset. -/
def ExtensionBy (v : ExtendedVisitor) (image : ProcessImage) (st : VisitState) (rule : Rule)
    (c : Nat) (r : StepResult) : Prop :=
  ∃ ma ca, image.allocations[st.memberIndex]? = some ma ∧ image.allocations[c]? = some ca
    ∧ candidatePasses v image rule st.memberIndex ma c ca = some true
    ∧ st.visited.contains c = false
    ∧ r.state.memberIndex = c ∧ r.state.state = rule._newState
    ∧ (c ∈ edgesOf v rule st.memberIndex
        ∨ (rule._referenceIsOutgoing = true ∧ rule._useOffsetInMember = true
            ∧ c = image.AllocationIndexOf
                (image.offsetAt ((ma.Address + rule._offsetInMember) % image.offsetLimit))))

/-- A graph of three allocations with the edges 0 -> 1 and 0 -> 2, in which the
allocation 2 is leaked. -/
def markedGraph : Graph :=
  { GetOutgoing := fun i => if i = 0 then [1, 2] else [],
    GetIncoming := fun i => if i = 1 then [0] else if i = 2 then [0] else [],
    IsLeaked := fun i => i == 2 }

/-- A process image with three used allocations of 0x20 bytes and the graph markedGraph,
in which the edge 0 -> 1 is tainted. -/
def markedImage : ProcessImage :=
  { plainProcessImage (some markedGraph) with
    allocations := [⟨0x1000, 0x20, true⟩, ⟨0x2000, 0x20, true⟩, ⟨0x3000, 0x20, true⟩],
    GetEdgeIsTainted := some (fun a b => a == 0 && b == 1) }

set_option maxRecDepth 100000 in
/-- The visitor that the constructor makes on markedImage for the rule "~>". -/
def leakedVisitor : ExtendedVisitor :=
  (ExtendedVisitor.new (contextOf ["list", "used", "/extend", "~>"]) markedImage false).get
    (by decide)

set_option maxRecDepth 100000 in
/-- The visitor that the constructor makes on markedImage for the rule "->" with
/skipTaintedReferences true. -/
def untaintedVisitor : ExtendedVisitor :=
  (ExtendedVisitor.new
    (contextOf ["list", "used", "/extend", "->", "/skipTaintedReferences", "true"])
    markedImage false).get (by decide)

end Allocations

namespace Allocations

open Commands

/-- What the anchor point iterators use of the Graph: the two predicates on allocation
indices. -/
structure Iterators.AnchorGraph where
  IsExternalAnchorPoint : Nat → Bool
  IsThreadOnlyAnchorPoint : Nat → Bool

/-- The loop of Next (ExternalAnchorPoints.h lines 61-64, ThreadOnlyAnchorPoints.h lines
56-59): from index on, the first index that is numAllocations or for which the predicate
of the graph holds; none when the fuel runs out.  The constructor starts at 0, so that
++_index stays at or below numAllocations and does not wrap around. -/
def Iterators.skipLoop (isAnchorPoint : Nat → Bool) (numAllocations : Nat) :
    Nat → Nat → Option Nat
  | 0, _ => none
  | fuel + 1, index =>
    if index ≠ numAllocations ∧ !isAnchorPoint index then
      Iterators.skipLoop isAnchorPoint numAllocations fuel (index + 1)
    else some index

/-- The variables of an ExternalAnchorPoints iterator (ExternalAnchorPoints.h lines
72-76), without the reference to the directory, which Next does not use. -/
structure Iterators.ExternalAnchorPoints where
  _index : Nat
  _numAllocations : Nat
  _allocationGraph : Iterators.AnchorGraph

/-- Model of the constructor of ExternalAnchorPoints (lines 53-59). -/
def Iterators.ExternalAnchorPoints.new (numAllocations : Nat)
    (allocationGraph : Iterators.AnchorGraph) : Iterators.ExternalAnchorPoints :=
  { _index := 0, _numAllocations := numAllocations, _allocationGraph := allocationGraph }

/-- Model of ExternalAnchorPoints::Factory::MakeIterator (lines 20-31); allocationGraph
is the result of GetAllocationGraph, none for a null pointer, and numAllocations that of
NumAllocations. -/
def Iterators.ExternalAnchorPoints.MakeIterator (allocationGraph : Option Iterators.AnchorGraph)
    (numAllocations : Nat) : Option Iterators.ExternalAnchorPoints :=
  match allocationGraph with
  | none => none
  | some graph => some (Iterators.ExternalAnchorPoints.new numAllocations graph)

/-- Model of ExternalAnchorPoints::Next (lines 60-70): the value returned and the
iterator afterwards; none when the loop runs out of fuel. -/
def Iterators.ExternalAnchorPoints.Next (fuel : Nat) (it : Iterators.ExternalAnchorPoints) :
    Option (Nat × Iterators.ExternalAnchorPoints) :=
  match Iterators.skipLoop it._allocationGraph.IsExternalAnchorPoint it._numAllocations fuel
      it._index with
  | none => none
  | some index =>
    some (index,
      { it with _index := if index ≠ it._numAllocations then index + 1 else index })

/-- The values returned by k successive calls of ExternalAnchorPoints::Next. -/
def Iterators.ExternalAnchorPoints.nextCalls (fuel : Nat) :
    Nat → Iterators.ExternalAnchorPoints → Option (List Nat)
  | 0, _ => some []
  | k + 1, it =>
    match it.Next fuel with
    | none => none
    | some (next, it1) =>
      (Iterators.ExternalAnchorPoints.nextCalls fuel k it1).map (fun rest => next :: rest)

/-- The variables of a ThreadOnlyAnchorPoints iterator (ThreadOnlyAnchorPoints.h lines
67-71), without the reference to the directory, which Next does not use. -/
structure Iterators.ThreadOnlyAnchorPoints where
  _index : Nat
  _numAllocations : Nat
  _allocationGraph : Iterators.AnchorGraph

/-- Model of the constructor of ThreadOnlyAnchorPoints (lines 48-54). -/
def Iterators.ThreadOnlyAnchorPoints.new (numAllocations : Nat)
    (allocationGraph : Iterators.AnchorGraph) : Iterators.ThreadOnlyAnchorPoints :=
  { _index := 0, _numAllocations := numAllocations, _allocationGraph := allocationGraph }

/-- Model of ThreadOnlyAnchorPoints::Factory::MakeIterator (lines 18-28). -/
def Iterators.ThreadOnlyAnchorPoints.MakeIterator
    (allocationGraph : Option Iterators.AnchorGraph) (numAllocations : Nat) :
    Option Iterators.ThreadOnlyAnchorPoints :=
  match allocationGraph with
  | none => none
  | some graph => some (Iterators.ThreadOnlyAnchorPoints.new numAllocations graph)

/-- Model of ThreadOnlyAnchorPoints::Next (lines 55-65): the value returned and the
iterator afterwards; none when the loop runs out of fuel. -/
def Iterators.ThreadOnlyAnchorPoints.Next (fuel : Nat)
    (it : Iterators.ThreadOnlyAnchorPoints) : Option (Nat × Iterators.ThreadOnlyAnchorPoints) :=
  match Iterators.skipLoop it._allocationGraph.IsThreadOnlyAnchorPoint it._numAllocations fuel
      it._index with
  | none => none
  | some index =>
    some (index,
      { it with _index := if index ≠ it._numAllocations then index + 1 else index })

/-- The values returned by k successive calls of ThreadOnlyAnchorPoints::Next. -/
def Iterators.ThreadOnlyAnchorPoints.nextCalls (fuel : Nat) :
    Nat → Iterators.ThreadOnlyAnchorPoints → Option (List Nat)
  | 0, _ => some []
  | k + 1, it =>
    match it.Next fuel with
    | none => none
    | some (next, it1) =>
      (Iterators.ThreadOnlyAnchorPoints.nextCalls fuel k it1).map (fun rest => next :: rest)

/-- A graph over five allocations in which 1 and 3 are external anchor points and 0 and
4 are anchor points of threads only. -/
def Iterators.sampleAnchorGraph : Iterators.AnchorGraph :=
  { IsExternalAnchorPoint := fun i => i == 1 || i == 3,
    IsThreadOnlyAnchorPoint := fun i => i == 0 || i == 4 }

end Allocations

namespace Commands

/-- Whether a byte is white space in the C locale (isspace). -/
def isSpaceByte (b : Nat) : Bool := b == 0x20 || (0x09 ≤ b && b ≤ 0x0d)

/-- Model of is >> std::hex >> v for an unsigned v of limit values, followed by the test
!is.fail() && is.eof() (lines 535-539): the value when the test holds.  The extraction
skips white space, accepts a sign and after it a prefix 0x or 0X, and takes hexadecimal
digits as long as there are any; it fails when it has found no digit or when the value
does not fit in v; a minus sign negates the value modulo limit.  The end of the stream
is reached when nothing follows the digits. -/
def parseHexStream (limit : Nat) (s : Line) : Option Nat :=
  let s1 := s.dropWhile isSpaceByte
  let signed : Bool × Line :=
    match s1 with
    | 0x2d :: r => (true, r)
    | 0x2b :: r => (false, r)
    | _ => (false, s1)
  let based : Bool × Line :=
    match signed.2 with
    | 0x30 :: 0x78 :: r => (false, r)
    | 0x30 :: 0x58 :: r => (false, r)
    | 0x30 :: r => (true, r)
    | _ => (false, signed.2)
  let digits := based.2.takeWhile Allocations.isXDigit
  let rest := based.2.dropWhile Allocations.isXDigit
  let result := digits.foldl (fun a c => 16 * a + Allocations.hexDigitValue c) 0
  if digits.isEmpty && !based.1 then none
  else if result ≥ limit then none
  else if !rest.isEmpty then none
  else some (if signed.1 then (limit - result) % limit else result)

/-- Model of Context::GetNumPositionals (line 526). -/
def Context.GetNumPositionals (c : Context) : Nat := c._positionalArguments.length

/-- Model of Context::Positional (lines 527-533); emptyToken is the empty string. -/
def Context.Positional (c : Context) (index : Nat) : Line := c._positionalArguments.getD index []

/-- Model of Context::ParsePositional (lines 535-559) for a value of limit values (2^64
for uint64_t, 2^32 for uint32_t): the value stored when the function returns true. -/
def Context.ParsePositional (c : Context) (limit : Nat) (index : Nat) : Option Nat :=
  match c._positionalArguments[index]? with
  | none => none
  | some token => parseHexStream limit token

end Commands

namespace Allocations

open Commands

/-- The variables of an Incoming iterator (Incoming.h lines 90-95), without the
references to the directory and the graph; _pNextIncoming is the list of the indices from
_pNextIncoming up to _pPastIncoming. -/
structure Iterators.Incoming where
  _index : Nat
  _numAllocations : Nat
  _pNextIncoming : List Nat
deriving DecidableEq, Repr

/-- Model of the constructor of Incoming (lines 67-74). -/
def Iterators.Incoming.new (graph : Graph) (index numAllocations : Nat) : Iterators.Incoming :=
  { _index := index, _numAllocations := numAllocations,
    _pNextIncoming := graph.GetIncoming index }

/-- Model of Incoming::Factory::MakeIterator (lines 18-47): the iterator, none for a null
pointer, and the error stream of the context afterwards. -/
def Iterators.Incoming.MakeIterator (context : Context) (image : ProcessImage) :
    Option Iterators.Incoming × Error :=
  let numAllocations := image.NumAllocations
  if context.GetNumPositionals < 3 then
    (none, context._error.write
      (bytesOf "No address was specified for the target allocation." ++ [NEWLINE]))
  else
    match context.ParsePositional image.offsetLimit 2 with
    | none =>
      (none, context._error.write
        (context.Positional 2 ++ bytesOf " is not a valid address." ++ [NEWLINE]))
    | some address =>
      let index := image.AllocationIndexOf address
      if index = numAllocations then
        (none, context._error.write
          (context.Positional 2 ++ bytesOf " is not part of an allocation." ++ [NEWLINE]))
      else
        match image.GetAllocationGraph with
        | none => (none, context._error)
        | some allocationGraph =>
          (some (Iterators.Incoming.new allocationGraph index numAllocations), context._error)

/-- The loop of Incoming::Next (lines 76-86) over the indices left: the value returned
and the indices left afterwards; none when abort() is called, for an index at which the
directory has no allocation. -/
def Iterators.incomingLoop (image : ProcessImage) (numAllocations : Nat) :
    List Nat → Option (Nat × List Nat)
  | [] => some (numAllocations, [])
  | index :: rest =>
    match image.allocations[index]? with
    | none => none
    | some allocation =>
      if allocation.IsUsed then some (index, rest)
      else Iterators.incomingLoop image numAllocations rest

/-- Model of Incoming::Next (lines 75-87): the value returned and the iterator
afterwards; none when abort() is called. -/
def Iterators.Incoming.Next (image : ProcessImage) (it : Iterators.Incoming) :
    Option (Nat × Iterators.Incoming) :=
  match Iterators.incomingLoop image it._numAllocations it._pNextIncoming with
  | none => none
  | some (next, rest) => some (next, { it with _pNextIncoming := rest })

/-- The values returned by k successive calls of Incoming::Next. -/
def Iterators.Incoming.nextCalls (image : ProcessImage) :
    Nat → Iterators.Incoming → Option (List Nat)
  | 0, _ => some []
  | k + 1, it =>
    match it.Next image with
    | none => none
    | some (next, it1) =>
      (Iterators.Incoming.nextCalls image k it1).map (fun rest => next :: rest)

/-- Whether the directory has a used allocation at an index. -/
def Iterators.usedAt (image : ProcessImage) (index : Nat) : Bool :=
  match image.allocations[index]? with
  | none => false
  | some allocation => allocation.IsUsed

/-- A process image with four allocations of 0x20 bytes, of which the allocation 2 is
free, in which the allocations 1, 2 and 3 refer to the allocation 0; the address 0x1000
is taken to be in the allocation 0 and every other address in none. -/
def Iterators.referencedImage : ProcessImage :=
  { plainProcessImage
      (some { GetOutgoing := fun i => if i = 0 then [] else [0],
              GetIncoming := fun i => if i = 0 then [3, 2, 1] else [],
              IsLeaked := fun _ => false }) with
    allocations := [⟨0x1000, 0x20, true⟩, ⟨0x2000, 0x20, true⟩, ⟨0x3000, 0x20, false⟩,
      ⟨0x4000, 0x20, true⟩],
    AllocationIndexOf := fun a => if a = 0x1000 then 0 else 4 }

end Allocations

namespace Python

open Commands Allocations

/-- The finder of corruptHeaderFinder when it comes to the second pool of the arena,
which has no header in the image and so the count 0. -/
def unusedPoolFinder : BlockAllocationFinder :=
  { corruptHeaderFinder with _pool := 0x201000 }

end Python

namespace Allocations

open Commands

/-- A state of the loop of Visit with the calls of visitor.Visit and the output of an
earlier history put in front of its own. -/
def VisitState.after (visits : List Nat) (output : List OutputItem) (st : VisitState) :
    VisitState :=
  { st with visits := visits ++ st.visits, output := output ++ st.output }

/-- The result of a pass with an earlier history put in front. -/
def StepResult.after (visits : List Nat) (output : List OutputItem) : StepResult → StepResult
  | .next st => .next (st.after visits output)
  | .done st => .done (st.after visits output)
  | .fault st => .fault (st.after visits output)

/-- The members of an ExtendedVisitor that Visit reads: all but _hasErrors and the error
stream. -/
def ExtendedVisitor.traversal (v : ExtendedVisitor) : ExtendedVisitor :=
  { v with _hasErrors := false, error := ⟨[], false, []⟩ }

end Allocations

namespace Allocations

open Commands

/-- The allocations that can be reached from the seed by a path of outgoing edges of the
graph whose nodes after the seed are all used allocations of the directory. -/
inductive Reachable (image : ProcessImage) (graph : Graph) (seed : Nat) : Nat → Prop
  | start : Reachable image graph seed seed
  | edge (a b : Nat) (allocation : Allocation) : Reachable image graph seed a →
      b ∈ graph.GetOutgoing a → image.allocations[b]? = some allocation →
      allocation.IsUsed = true → Reachable image graph seed b

/-- A rule that follows outgoing references without signature, pattern, offset or state
constraint, as the rule "->" is: both checkers accept every allocation. -/
def PlainOutgoingRule (rule : Rule) : Prop :=
  rule._referenceIsOutgoing = true ∧ rule._extensionMustBeLeaked = false
    ∧ rule._useOffsetInMember = false ∧ rule._useOffsetInExtension = false
    ∧ rule._baseState = 0 ∧ rule._newState = 0
    ∧ (∀ i, rule._memberSignatureChecker.Check i = true)
    ∧ (∀ i, rule._extensionSignatureChecker.Check i = true)

/-- An enabled visitor for a graph with a single rule, which is a plain outgoing rule,
and with the options for comments and for skipping references off. -/
def SingleOutgoingRule (v : ExtendedVisitor) (graph : Graph) : Prop :=
  v._isEnabled = true ∧ v._graph = some graph ∧ v._stateToBase = [0, 1]
    ∧ v._commentExtensions = false ∧ v._skipTaintedReferences = false
    ∧ v._skipUnfavoredReferences = false
    ∧ ∃ rule, v._rules = [rule] ∧ PlainOutgoingRule rule

/-- The candidates that a state of the loop of Visit has still to check for its member:
all outgoing edges for a new rule, the candidates left while the edges are checked. -/
def pendingCandidates (graph : Graph) (st : VisitState) : List Nat :=
  match st.ruleCheckProgress with
  | .NEW_RULE => graph.GetOutgoing st.memberIndex
  | .IN_PROGRESS => st.pNextCandidate
  | _ => []

/-- Whether the directory has a used allocation at an index. -/
def usedAllocation (image : ProcessImage) (index : Nat) : Prop :=
  ∃ allocation, image.allocations[index]? = some allocation ∧ allocation.IsUsed = true

/-- What a pass of the loop of Visit does for a visitor with the single rule "->": it
returns, or resumes the context on top of the stack, or finds that the member has no
outgoing edge, or takes the next candidate, which it skips when it was visited or is not
used and else visits. -/
def PlainStep (image : ProcessImage) (graph : Graph) (st : VisitState) (r : StepResult) :
    Prop :=
  (∃ b, r = .done b ∧ st.ruleCheckProgress = .RULE_DONE ∧ st.extensionContexts = []
      ∧ b.visited = st.visited ∧ b.visits = st.visits)
  ∨ ∃ st1, r = .next st1 ∧ st1.ruleIndex = 0 ∧ st1.ruleIndexLimit = 1
      ∧ ((st.ruleCheckProgress = .RULE_DONE
          ∧ ∃ ctx rest, st.extensionContexts = ctx :: rest ∧ st1.extensionContexts = rest
            ∧ st1.memberIndex = ctx._memberIndex
            ∧ st1.ruleCheckProgress = ctx._ruleCheckProgress
            ∧ st1.pNextCandidate = ctx._pNextCandidate
            ∧ st1.numCandidatesLeft = ctx._numCandidatesLeft
            ∧ st1.visited = st.visited ∧ st1.visits = st.visits)
        ∨ (st.ruleCheckProgress = .NEW_RULE ∧ pendingCandidates graph st = []
            ∧ st1.ruleCheckProgress = .RULE_DONE ∧ st1.memberIndex = st.memberIndex
            ∧ st1.extensionContexts = st.extensionContexts
            ∧ st1.visited = st.visited ∧ st1.visits = st.visits)
        ∨ (st.ruleCheckProgress ≠ .RULE_DONE
            ∧ ∃ c rest, pendingCandidates graph st = c :: rest
              ∧ (((c ∈ st.visited ∨ ¬ usedAllocation image c)
                  ∧ st1.memberIndex = st.memberIndex
                  ∧ st1.extensionContexts = st.extensionContexts
                  ∧ st1.visited = st.visited ∧ st1.visits = st.visits
                  ∧ st1.pNextCandidate = rest ∧ st1.numCandidatesLeft = rest.length
                  ∧ st1.ruleCheckProgress = (if rest = [] then .RULE_DONE else .IN_PROGRESS))
                ∨ (c ∉ st.visited ∧ usedAllocation image c
                  ∧ st1.memberIndex = c ∧ st1.visited = c :: st.visited
                  ∧ st1.visits = st.visits ++ [c] ∧ st1.ruleCheckProgress = .NEW_RULE
                  ∧ st1.extensionContexts
                      = (if rest = [] then st.extensionContexts
                         else ⟨st.memberIndex, 0, rest.length, .IN_PROGRESS, rest⟩
                            :: st.extensionContexts)))))

/-- The shape of the states of the loop of Visit for a visitor with the single rule
"->": the rule index is 0, the member is an allocation, and the candidates left of the
state and of the contexts on the stack are non-empty ends of the lists of outgoing edges
of their members. -/
def PlainShape (image : ProcessImage) (graph : Graph) (st : VisitState) : Prop :=
  st.ruleIndex = 0 ∧ st.ruleIndexLimit = 1 ∧ st.memberIndex < image.NumAllocations
    ∧ st.ruleCheckProgress ≠ .NO_EDGES_CHECKED
    ∧ (st.ruleCheckProgress = .IN_PROGRESS →
        st.pNextCandidate ≠ [] ∧ st.numCandidatesLeft = st.pNextCandidate.length
          ∧ st.pNextCandidate <:+ graph.GetOutgoing st.memberIndex)
    ∧ ∀ ctx ∈ st.extensionContexts,
        ctx._ruleIndex = 0 ∧ ctx._ruleCheckProgress = .IN_PROGRESS
          ∧ ctx._pNextCandidate ≠ [] ∧ ctx._numCandidatesLeft = ctx._pNextCandidate.length
          ∧ ctx._pNextCandidate <:+ graph.GetOutgoing ctx._memberIndex
          ∧ ctx._memberIndex < image.NumAllocations

/-- The number of candidates left in the contexts on the stack, plus one for each
context. -/
def contextWeight (contexts : List ExtensionContext) : Nat :=
  (contexts.map (fun ctx => ctx._pNextCandidate.length + 1)).sum

/-- The number of outgoing edges of the allocations that are not in the visited set,
plus two for each of them. -/
def unvisitedWeight (graph : Graph) (numAllocations : Nat) (visited : List Nat) : Nat :=
  (((List.range numAllocations).filter (fun u => !visited.contains u)).map
    (fun u => (graph.GetOutgoing u).length + 2)).sum

/-- A bound on the number of passes that the loop of Visit still makes from a state, for
a visitor with the single rule "->". -/
def visitMeasure (graph : Graph) (numAllocations : Nat) (st : VisitState) : Nat :=
  unvisitedWeight graph numAllocations st.visited + (pendingCandidates graph st).length
    + (if st.ruleCheckProgress = .NEW_RULE then 2 else 1)
    + contextWeight st.extensionContexts

/-- A bound on the number of passes of the loop of Visit for a visitor with the single
rule "->": the number of outgoing edges of the graph plus twice the number of
allocations. -/
def traversalBound (graph : Graph) (numAllocations : Nat) : Nat :=
  ((List.range numAllocations).map (fun u => (graph.GetOutgoing u).length + 2)).sum

/-- What holds at the start of every pass of the loop of Visit(seed) for a visitor with
the single rule "->" and an empty visited set at the start: the state has the shape
PlainShape, the member, the members of the contexts and the seed are visited, every
visited allocation is reachable from the seed, and every used allocation that a visited
allocation refers to is visited or is still a candidate of the state or of a context. -/
def PlainInv (image : ProcessImage) (graph : Graph) (seed : Nat) (st : VisitState) : Prop :=
  PlainShape image graph st
    ∧ st.memberIndex ∈ st.visited
    ∧ (∀ ctx ∈ st.extensionContexts, ctx._memberIndex ∈ st.visited)
    ∧ seed ∈ st.visited
    ∧ (∀ i ∈ st.visited, Reachable image graph seed i)
    ∧ ∀ a ∈ st.visited, ∀ b ∈ graph.GetOutgoing a, usedAllocation image b →
        b ∈ st.visited ∨ (a = st.memberIndex ∧ b ∈ pendingCandidates graph st)
          ∨ ∃ ctx ∈ st.extensionContexts, ctx._memberIndex = a ∧ b ∈ ctx._pNextCandidate

/-- The command line list used /extend ->. -/
def plainContext : Context := contextOf ["list", "used", "/extend", "->"]

set_option maxRecDepth 100000 in
/-- The visitor that the constructor makes on cycleImage for the single rule "->". -/
def plainVisitor : ExtendedVisitor :=
  (ExtendedVisitor.new plainContext cycleImage false).get (by decide)

end Allocations

namespace Commands

/-- The value of a char that holds the byte b, for a signed char type: bytes from 0x80 on
are negative. -/
def charValue (b : Nat) : Int := if b < 0x80 then (b : Int) else (b : Int) - 0x100

/-- The condition of line 291: the char is outside ' ' .. '~' and is not a tab, a
carriage return or a newline. -/
def needsEscape (b : Nat) : Bool :=
  let c := charValue b
  (decide (c < 0x20) || decide (c > 0x7e)) && decide (c ≠ 0x09) && decide (c ≠ 0x0d)
    && decide (c ≠ 0x0a)

/-- The bytes that one pass of the loop of ShowEscapedAscii writes for a char (lines
291-298).  The shift of a negative char keeps the sign, and & 0xf takes the four low
bits, which is the remainder modulo 16; the stream writes a number below 16 in base 16 as
one digit. -/
def escapedChar (b : Nat) : Line :=
  let c := charValue b
  if needsEscape b then
    [BACKSLASH, 0x78] ++ hexadecimal (((c >>> 4) % 16).toNat) ++ hexadecimal ((c % 16).toNat)
  else [b]

/-- The bytes that the loop of ShowEscapedAscii writes for the chars (lines 290-299). -/
def escapedAscii (chars : Line) : Line := (chars.map escapedChar).flatten

/-- Model of Output::ShowEscapedAscii (lines 287-300): the bytes are written to the
stream on top of the stack. -/
def Output.ShowEscapedAscii (out : Output) (chars : Line) : Output :=
  out.write (escapedAscii chars)

/-- The lower-case hexadecimal digit of a number below 16. -/
def hexDigit (n : Nat) : Nat := if n < 10 then 0x30 + n else 0x61 + (n - 10)

/-- Whether a byte is printable ASCII (' ' .. '~'), a tab, a carriage return or a
newline. -/
def isPlainByte (b : Nat) : Bool :=
  (decide (0x20 ≤ b) && decide (b ≤ 0x7e)) || b == 0x09 || b == 0x0d || b == 0x0a

end Commands

namespace Commands

/-- A command line that ends in the byte 0xc2: the letter a followed by 0xc2. -/
def trailingC2Line : Line := [0x61, 0xc2]

end Commands

namespace Python

open Commands Allocations

/-- The image of oversizedBlockEnv with the value 0x1000, the size of a pool, at offset
0x2c of the first pool header, so that the block size is 0. -/
def zeroBlockEnv : FinderEnv :=
  { oversizedBlockEnv with
    memory := memoryOf [(0x200000, 1), (0x20002c, 0x1000), (0x200028, 0x30)]
      [(0x100000, 0x200000), (0x200008, 0)] }

/-- The image of oversizedBlockEnv with the value 0xffc at offset 0x2c of the first pool
header, so that the block size is 4 and the pool has room for 1012 blocks, more than the
506 flags of the vector. -/
def tinyBlockEnv : FinderEnv :=
  { oversizedBlockEnv with
    memory := memoryOf [(0x200000, 1), (0x20002c, 0xffc), (0x200028, 0x30)]
      [(0x100000, 0x200000), (0x200008, 0)] }

/-- An image with one arena at 0x200000 whose first pool has blocks of 0x100 bytes, two
of them ever used, and a free list that goes from the first block to the second and back
to the first. -/
def cyclicFreeListEnv : FinderEnv :=
  { memory := memoryOf [(0x200000, 1), (0x20002c, 0xf00), (0x200028, 0x230)]
      [(0x100000, 0x200000), (0x200008, 0x200030), (0x200030, 0x200130),
        (0x200130, 0x200030)],
    sizeofOffset := 8, _arenaStructArray := 0x100000, _arenaStructSize := 0x30,
    _arenaSize := 0x40000, _poolSize := 0x1000, _activeIndices := [0] }

end Python

namespace Allocations

open Commands

/-- What the loops of Visit need of the tables of a visitor with numStates states:
_stateToBase has an entry for every state and one more, it does not decrease, starts at 0
and ends at the number of rules, of which there are fewer than 2^64, and every rule has a
base state and a new state among the states and lies in the range of its base state. -/
def TablesOk (v : ExtendedVisitor) (numStates : Nat) : Prop :=
  0 < numStates ∧ v._stateToBase.length = numStates + 1 ∧ v._rules.length < SIZE_LIMIT
    ∧ (∀ s t, s ≤ t → t ≤ numStates → v._stateToBase.getD s 0 ≤ v._stateToBase.getD t 0)
    ∧ v._stateToBase.getD 0 0 = 0 ∧ v._stateToBase.getD numStates 0 = v._rules.length
    ∧ ∀ k rule, v._rules[k]? = some rule →
        rule._baseState < numStates ∧ rule._newState < numStates
          ∧ v._stateToBase.getD rule._baseState 0 ≤ k
          ∧ k < v._stateToBase.getD (rule._baseState + 1) 0

/-- The command line list used without an /extend argument. -/
def noExtendContext : Context := contextOf ["list", "used"]

set_option maxRecDepth 100000 in
/-- The visitor that the constructor makes for the rules of orderContext on a process
image with an empty graph. -/
def orderVisitor : ExtendedVisitor :=
  (ExtendedVisitor.new orderContext (plainProcessImage (some emptyGraph)) false).get
    (by decide)

end Allocations

namespace Allocations

open Commands

/-- A process image with two used allocations of 0x20 bytes, at 0x1000 and at 0x2000, in
which the 8 bytes at 0xffc, below the first allocation, are mapped and hold the address of
the second allocation; no other address is mapped. -/
def wrapImage : ProcessImage :=
  { plainProcessImage (some emptyGraph) with
    allocations := [⟨0x1000, 0x20, true⟩, ⟨0x2000, 0x20, true⟩],
    AllocationIndexOf := fun a =>
      if 0x1000 ≤ a ∧ a < 0x1020 then 0 else if 0x2000 ≤ a ∧ a < 0x2020 then 1 else 2,
    mappedBytes := fun a => if a = 0xffc then 8 else 0,
    offsetAt := fun a => if a = 0xffc then 0x2000 else 0 }

/-- The command line list used /extend @fffffffffffffffc->. -/
def wrapContext : Context := contextOf ["list", "used", "/extend", "@fffffffffffffffc->"]

set_option maxRecDepth 100000 in
/-- The visitor that the constructor makes on wrapImage for the single rule
"@fffffffffffffffc->". -/
def wrapVisitor : ExtendedVisitor :=
  (ExtendedVisitor.new wrapContext wrapImage false).get (by decide)

end Allocations

namespace Allocations

open Commands

/-- A state of the loop of Visit without its output. -/
def VisitState.silent (st : VisitState) : VisitState := { st with output := [] }

/-- The result of a pass or of a call without the output. -/
def StepResult.silent : StepResult → StepResult
  | .next st => .next st.silent
  | .done st => .done st.silent
  | .fault st => .fault st.silent

/-- The visitor with the given value of _commentExtensions. -/
def ExtendedVisitor.withComments (v : ExtendedVisitor) (comment : Bool) : ExtendedVisitor :=
  { v with _commentExtensions := comment }

/-- The tests on a candidate never dereference a null pointer: the graph exists, and an
edge predicate exists when the visitor skips the references that it marks. -/
def PredicatesPresent (v : ExtendedVisitor) (image : ProcessImage) : Prop :=
  v._graph.isSome = true
    ∧ (v._skipTaintedReferences = true → image.GetEdgeIsTainted.isSome = true)
    ∧ (v._skipUnfavoredReferences = true → image.GetEdgeIsFavored.isSome = true)

/-- The calls of visitor.Visit and the visited set that a call of Visit leaves behind
when it returns. -/
def StepResult.returned : StepResult → Option (List Nat × List Nat)
  | .done st => some (st.visits, st.visited)
  | _ => none

end Allocations

namespace Allocations

open Commands

/-- The index at which lines 315-336 of the loop of Visit read the rule array in the
pass that starts in a state: the index of the context restored from the stack (line
329), or else the rule index after the step to the next rule (line 336); none when Visit
returns. -/
def ruleIndexRead (st : VisitState) : Option Nat :=
  if st.ruleCheckProgress = .RULE_DONE then
    if (st.ruleIndex + 1) % SIZE_LIMIT = st.ruleIndexLimit then
      match st.extensionContexts with
      | [] => none
      | extensionContext :: _ => some extensionContext._ruleIndex
    else some ((st.ruleIndex + 1) % SIZE_LIMIT)
  else some st.ruleIndex

/-- The invariant of the loop of Visit on the rule index: the state is a state of the
tables, the limit is the end of its range, the rule index is below the limit while a rule
is checked and at most one step before it when the rule is done, and the rule index of
every context on the stack is the index of a rule. -/
def RuleInv (v : ExtendedVisitor) (st : VisitState) : Prop :=
  st.state + 1 < v._stateToBase.length
    ∧ st.ruleIndexLimit = v._stateToBase.getD (st.state + 1) 0
    ∧ (st.ruleCheckProgress ≠ .RULE_DONE → st.ruleIndex < st.ruleIndexLimit)
    ∧ (st.ruleCheckProgress = .RULE_DONE → st.ruleIndex + 1 ≤ st.ruleIndexLimit)
    ∧ ∀ c ∈ st.extensionContexts, c._ruleIndex < v._rules.length

/-- The state of the loop of Visit when a rule is read at line 336. -/
def Ready (v : ExtendedVisitor) (state ruleIndex ruleIndexLimit : Nat)
    (extensionContexts : List ExtensionContext) : Prop :=
  state + 1 < v._stateToBase.length
    ∧ ruleIndexLimit = v._stateToBase.getD (state + 1) 0
    ∧ ruleIndex < ruleIndexLimit
    ∧ ∀ c ∈ extensionContexts, c._ruleIndex < v._rules.length

end Allocations

namespace Allocations

open Commands

/-- The graph of a visitor, or a graph without edges when the visitor has none. -/
def visitorGraph (v : ExtendedVisitor) : Graph := v._graph.getD emptyGraph

/-- One more than the number of outgoing and incoming edges of an allocation. -/
def edgeWeight (g : Graph) (u : Nat) : Nat :=
  (g.GetOutgoing u).length + (g.GetIncoming u).length + 1

/-- A bound on the number of passes of the loop of Visit for the rules after the rule
index r, for the member m. -/
def laterWork (v : ExtendedVisitor) (m r : Nat) : Nat :=
  (v._rules.length - (r + 1)) * edgeWeight (visitorGraph v) m

/-- A bound on the number of passes of the loop of Visit that the member m still takes
from the rule index r on, in the given progress of the rule check and with the given
candidates left, until the loop goes back to the context on top of the stack. -/
def progressWork (v : ExtendedVisitor) (m r : Nat) (progress : RuleCheckProgress)
    (pNextCandidate : List Nat) : Nat :=
  laterWork v m r
    + match progress with
      | .NEW_RULE => edgeWeight (visitorGraph v) m + 1
      | .NO_EDGES_CHECKED => pNextCandidate.length + 2
      | .IN_PROGRESS => pNextCandidate.length + 1
      | .RULE_DONE => 1

/-- The bound progressWork for a context on the stack. -/
def contextWork (v : ExtendedVisitor) (c : ExtensionContext) : Nat :=
  progressWork v c._memberIndex c._ruleIndex c._ruleCheckProgress c._pNextCandidate

/-- The sum of the bounds of the contexts on the stack. -/
def stackWork (v : ExtendedVisitor) (contexts : List ExtensionContext) : Nat :=
  (contexts.map (contextWork v)).sum

/-- A bound on the number of passes of the loop of Visit for the allocations that are not
in the visited set: for each of them, one more than the number of rules times its
weight. -/
def unvisitedWork (v : ExtendedVisitor) (numAllocations : Nat) (visited : List Nat) : Nat :=
  (((List.range numAllocations).filter (fun u => !visited.contains u)).map
    (fun u => v._rules.length * edgeWeight (visitorGraph v) u + 1)).sum

/-- A bound on the number of passes that the loop of Visit still makes from a state. -/
def passBound (v : ExtendedVisitor) (numAllocations : Nat) (st : VisitState) : Nat :=
  unvisitedWork v numAllocations st.visited
    + progressWork v st.memberIndex st.ruleIndex st.ruleCheckProgress st.pNextCandidate
    + stackWork v st.extensionContexts

/-- The rule at an index follows the edges of the graph: it is not an outgoing rule with
an offset in the member. -/
def EdgeRuleAt (v : ExtendedVisitor) (ruleIndex : Nat) : Prop :=
  ∃ rule, v._rules[ruleIndex]? = some rule
    ∧ (rule._referenceIsOutgoing && rule._useOffsetInMember) = false

/-- While the edges of a member are checked, there are candidates left, their number is
numCandidatesLeft, it is below 2^64, and the rule follows the edges of the graph. -/
def CandidatesOk (v : ExtendedVisitor) (progress : RuleCheckProgress)
    (numCandidatesLeft : Nat) (pNextCandidate : List Nat) (ruleIndex : Nat) : Prop :=
  progress = .IN_PROGRESS →
    pNextCandidate ≠ [] ∧ numCandidatesLeft = pNextCandidate.length
      ∧ pNextCandidate.length < SIZE_LIMIT ∧ EdgeRuleAt v ruleIndex

/-- A context on the stack was pushed while the edges of its member were checked or when
its rule was done, and its candidates are in order. -/
def FrameOk (v : ExtendedVisitor) (c : ExtensionContext) : Prop :=
  (c._ruleCheckProgress = .IN_PROGRESS ∨ c._ruleCheckProgress = .RULE_DONE)
    ∧ CandidatesOk v c._ruleCheckProgress c._numCandidatesLeft c._pNextCandidate c._ruleIndex

/-- The invariant of the loop of Visit on the candidates of the member and of the
contexts on the stack. -/
def CountInv (v : ExtendedVisitor) (st : VisitState) : Prop :=
  st.ruleCheckProgress ≠ .NO_EDGES_CHECKED
    ∧ CandidatesOk v st.ruleCheckProgress st.numCandidatesLeft st.pNextCandidate st.ruleIndex
    ∧ ∀ c ∈ st.extensionContexts, FrameOk v c

/-- How an extension changes the stack of contexts: it leaves the stack as it is, or it
pushes a context for the member m and the rule index r, and then candidates of m are
left for the rule, or the rule is done and the rule index after r is below the limit of
the state. -/
def Pushed (contexts : List ExtensionContext) (m r ruleIndexLimit : Nat)
    (contexts1 : List ExtensionContext) : Prop :=
  contexts1 = contexts
    ∨ ∃ c, contexts1 = c :: contexts ∧ c._memberIndex = m ∧ c._ruleIndex = r
        ∧ ((c._ruleCheckProgress = .IN_PROGRESS ∧ c._pNextCandidate ≠ []
              ∧ c._numCandidatesLeft = c._pNextCandidate.length)
          ∨ (c._ruleCheckProgress = .RULE_DONE ∧ r + 1 < ruleIndexLimit))

/-- What a pass of the loop of Visit does to the stack of contexts: it pops the context
on top, or it changes the stack as an extension does. -/
def StackStep (st st1 : VisitState) : Prop :=
  (∃ c, st.extensionContexts = c :: st1.extensionContexts)
    ∨ Pushed st.extensionContexts st.memberIndex (stepRuleIndex st) st.ruleIndexLimit
        st1.extensionContexts

/-- A process image with three used allocations of 0x20 bytes, each of which holds at
offset 8 the address of the next one, and a null pointer in the last; the graph has no
edges. -/
def chainImage : ProcessImage :=
  { plainProcessImage (some emptyGraph) with
    allocations := [⟨0x1000, 0x20, true⟩, ⟨0x2000, 0x20, true⟩, ⟨0x3000, 0x20, true⟩],
    AllocationIndexOf := fun a =>
      if 0x1000 ≤ a ∧ a < 0x1020 then 0 else if 0x2000 ≤ a ∧ a < 0x2020 then 1
      else if 0x3000 ≤ a ∧ a < 0x3020 then 2 else 3,
    mappedBytes := fun a => if a = 0x1008 ∨ a = 0x2008 ∨ a = 0x3008 then 8 else 0,
    offsetAt := fun a => if a = 0x1008 then 0x2000 else if a = 0x2008 then 0x3000 else 0 }

/-- The command line list used /extend @8->. -/
def chainContext : Context := contextOf ["list", "used", "/extend", "@8->"]

set_option maxRecDepth 100000 in
/-- The visitor that the constructor makes on chainImage for the single rule "@8->". -/
def chainVisitor : ExtendedVisitor :=
  (ExtendedVisitor.new chainContext chainImage false).get (by decide)

end Allocations

namespace Allocations

open Commands

/-- The candidates left of a member, while its edges are checked, are indices of
allocations of the directory. -/
def CandidatesInRange (numAllocations : Nat) (progress : RuleCheckProgress)
    (pNextCandidate : List Nat) : Prop :=
  progress = .IN_PROGRESS → ∀ c ∈ pNextCandidate, c < numAllocations

/-- The invariant of the loop of Visit on the indices of allocations: the member, the
members of the contexts on the stack and the candidates left are indices of allocations
of the directory. -/
def RangeInv (image : ProcessImage) (st : VisitState) : Prop :=
  st.memberIndex < image.allocations.length
    ∧ CandidatesInRange image.allocations.length st.ruleCheckProgress st.pNextCandidate
    ∧ ∀ f ∈ st.extensionContexts, f._memberIndex < image.allocations.length
        ∧ CandidatesInRange image.allocations.length f._ruleCheckProgress f._pNextCandidate

/-- What Visit needs of the process image: the graph and the edge predicates that the
visitor uses exist, the edges of the graph lead to allocations of the directory, and
AllocationIndexOf returns the index of an allocation or the number of allocations. -/
def ImageOk (v : ExtendedVisitor) (image : ProcessImage) : Prop :=
  PredicatesPresent v image
    ∧ (∀ i c, c ∈ (visitorGraph v).GetOutgoing i ∨ c ∈ (visitorGraph v).GetIncoming i →
        c < image.allocations.length)
    ∧ ∀ a, image.AllocationIndexOf a ≤ image.allocations.length

end Allocations

namespace Commands

/-- A Runner with the prefix "run" for redirected output and a Command registered under
the name "/s", reading the lines "redirect on" and "/s v" from the terminal. -/
def slashRunner : Runner Unit :=
  (Runner.new (bytesOf "run") [bytesOf "redirect on", bytesOf "/s v"] ()).AddCommand
    (bytesOf "/s") idleCommand

/-- The Runner slashRunner after the pass for the line "redirect on". -/
def slashRunner1 : Runner Unit :=
  ((slashRunner.pass writableFileSystem 10).get (by decide)).runner

/-- The pass of slashRunner1 for the line "/s v". -/
def slashPass2 : Pass Unit := (slashRunner1.pass writableFileSystem 10).get (by decide)

end Commands

namespace Allocations

open Commands

/-- A graph without edges in which the allocation 1 is leaked. -/
def leakedOnlyGraph : Graph :=
  { GetOutgoing := fun _ => [], GetIncoming := fun _ => [], IsLeaked := fun i => i == 1 }

/-- The process image wrapImage with the graph leakedOnlyGraph: two used allocations of
0x20 bytes, at 0x1000 and at 0x2000, the second one leaked, no edge between them, and the
8 bytes at 0xffc, below the first allocation, hold the address of the second one. -/
def leakedWrapImage : ProcessImage :=
  { wrapImage with GetAllocationGraph := some leakedOnlyGraph }

/-- The command line list used /extend @fffffffffffffffc~>. -/
def leakedWrapContext : Context :=
  contextOf ["list", "used", "/extend", "@fffffffffffffffc~>"]

set_option maxRecDepth 100000 in
/-- The visitor that the constructor makes on leakedWrapImage for the single rule
"@fffffffffffffffc~>". -/
def leakedWrapVisitor : ExtendedVisitor :=
  (ExtendedVisitor.new leakedWrapContext leakedWrapImage false).get (by decide)

end Allocations

/-! ## Theorems -/

namespace Commands

theorem findFrom_skip (p : Nat → Bool) (pre suf : Line) (i : Nat) :
    findFrom p (pre ++ suf) i (i + pre.length) = findFrom p suf (i + pre.length) (i + pre.length) := by
  induction pre generalizing i with
  | nil => simp
  | cons a pre ih =>
    have h : ¬ (i + (pre.length + 1) ≤ i) := by omega
    simp only [List.cons_append, findFrom, List.length_cons, h, decide_False, Bool.false_and]
    have := ih (i + 1)
    rw [show i + 1 + pre.length = i + (pre.length + 1) by omega] at this
    simpa using this

theorem findFrom_none (p : Nat → Bool) (s : Line) (i pos : Nat) (h : ∀ b ∈ s, p b = false) :
    findFrom p s i pos = none := by
  induction s generalizing i with
  | nil => rfl
  | cons a s ih =>
    simp only [findFrom, h a (List.mem_cons_self _ _), Bool.and_false]
    exact ih _ (fun b hb => h b (List.mem_cons_of_mem _ hb))


theorem findFrom_hit (p : Nat → Bool) (a : Line) (b : Nat) (c : Line) (i pos : Nat)
    (hpos : pos ≤ i) (ha : ∀ x ∈ a, p x = false) (hb : p b = true) :
    findFrom p (a ++ b :: c) i pos = some (i + a.length) := by
  induction a generalizing i with
  | nil => simp [findFrom, hb, hpos]
  | cons x a ih =>
    have h1 := ih (i + 1) (by omega) (fun y hy => ha y (List.mem_cons_of_mem _ hy))
    have h2 : findFrom p (x :: (a ++ b :: c)) i pos = findFrom p (a ++ b :: c) (i + 1) pos := by
      simp [findFrom, ha x (List.mem_cons_self _ _)]
    rw [List.cons_append, h2, h1, List.length_cons]
    congr 1; omega

/-- Searching s = pre ++ a ++ b :: c from the end of pre finds b when a has no match. -/
theorem findFrom_at_hit (p : Nat → Bool) (pre a : Line) (b : Nat) (c : Line)
    (ha : ∀ x ∈ a, p x = false) (hb : p b = true) :
    findFrom p (pre ++ (a ++ b :: c)) 0 pre.length = some (pre.length + a.length) := by
  have h := findFrom_skip p pre (a ++ b :: c) 0
  simp only [Nat.zero_add] at h
  rw [h, findFrom_hit p a b c _ _ (Nat.le_refl _) ha hb]

theorem findFrom_at_none (p : Nat → Bool) (pre a : Line)
    (ha : ∀ x ∈ a, p x = false) :
    findFrom p (pre ++ a) 0 pre.length = none := by
  have h := findFrom_skip p pre a 0
  simp only [Nat.zero_add] at h
  rw [h, findFrom_none p a _ _ ha]

theorem maximalRuns_blank (b : Nat) (s : Line) (hb : isBlank b = true) :
    maximalRuns (b :: s) = maximalRuns s := by
  unfold maximalRuns
  rw [List.splitOnP_cons]
  simp [hb]

theorem splitOnP_run (p : Nat → Bool) (tok rest : Line) (h : ∀ x ∈ tok, p x = false) :
    (tok ++ rest).splitOnP p = (rest.splitOnP p).modifyHead (fun t => tok ++ t) := by
  induction tok with
  | nil =>
    cases hr : rest.splitOnP p <;> simp [List.modifyHead, hr]
  | cons x tok ih =>
    rw [List.cons_append, List.splitOnP_cons, h x (List.mem_cons_self _ _),
      ih (fun y hy => h y (List.mem_cons_of_mem _ hy))]
    cases hr : rest.splitOnP p <;> simp [List.modifyHead]

theorem maximalRuns_nil : maximalRuns [] = [] := by
  simp [maximalRuns]

theorem maximalRuns_run (tok rest : Line) (hne : tok ≠ [])
    (h : ∀ x ∈ tok, isBlank x = false)
    (hrest : rest = [] ∨ ∃ b r, rest = b :: r ∧ isBlank b = true) :
    maximalRuns (tok ++ rest) = tok :: maximalRuns rest := by
  unfold maximalRuns
  rw [splitOnP_run _ tok rest h]
  rcases hrest with rfl | ⟨b, r, rfl, hb⟩
  · simp [List.modifyHead, hne]
  · rw [List.splitOnP_cons]
    simp [hb, List.modifyHead, hne]

theorem maximalRuns_blanks (bl rest : Line) (h : ∀ x ∈ bl, isBlank x = true) :
    maximalRuns (bl ++ rest) = maximalRuns rest := by
  induction bl with
  | nil => rfl
  | cons x bl ih =>
    rw [List.cons_append, maximalRuns_blank _ _ (h x (List.mem_cons_self _ _))]
    exact ih (fun y hy => h y (List.mem_cons_of_mem _ hy))

theorem getElem?_at (pre : Line) (b : Nat) (r : Line) : (pre ++ b :: r)[pre.length]? = some b := by
  rw [List.getElem?_append_right (Nat.le_refl _)]
  simp

theorem otherC2At_false (s : Line) (pos b : Nat) (h : s[pos]? = some b) (hb : b ≠ 0xc2) :
    otherC2At s pos = false := by
  simp [otherC2At, h, hb]

theorem nbspAt_false (s : Line) (pos b : Nat) (h : s[pos]? = some b) (hb : b ≠ 0xc2) :
    nbspAt s pos = false := by
  simp [nbspAt, h, hb]

theorem skipOtherC2_stop (s : Line) (fuel pos : Nat) (h : otherC2At s pos = false) :
    skipOtherC2 s fuel (some pos) = some (some pos) := by
  cases fuel <;> simp [skipOtherC2, h]

theorem skipOtherC2_npos (s : Line) (fuel : Nat) : skipOtherC2 s fuel none = some none := by
  cases fuel <;> simp [skipOtherC2]

theorem skipNbsp_stop (s : Line) (fuel pos : Nat) (h : nbspAt s pos = false) :
    skipNbsp s fuel (some pos) = some (some pos) := by
  cases fuel <;> simp [skipNbsp, h]

theorem skipNbsp_npos (s : Line) (fuel : Nat) : skipNbsp s fuel none = some none := by
  cases fuel <;> simp [skipNbsp]

/-- Decomposition of a list by a predicate on its first elements. -/
theorem span_cases (p : Nat → Bool) (s : Line) :
    ∃ a r, s = a ++ r ∧ (∀ x ∈ a, p x = true) ∧ (r = [] ∨ ∃ b c, r = b :: c ∧ p b = false) := by
  refine ⟨s.takeWhile p, s.dropWhile p, (List.takeWhile_append_dropWhile p s).symm, ?_, ?_⟩
  · intro x hx
    exact List.mem_takeWhile_imp hx
  · cases h : s.dropWhile p with
    | nil => exact Or.inl rfl
    | cons b c =>
      refine Or.inr ⟨b, c, rfl, ?_⟩
      have h1 : s.dropWhile p ≠ [] := by simp [h]
      have := List.head_dropWhile_not p s h1
      simpa [h] using this


theorem tokenLoop_noC2 (fuel n : Nat) : ∀ (pre suf : Line) (tokens : Tokens) (b0 : Nat) (r0 : Line),
    (∀ b ∈ pre ++ suf, b ≠ 0xc2) → suf = b0 :: r0 → isBlank b0 = false → suf.length ≤ n →
    tokenLoop (pre ++ suf) fuel n pre.length tokens = some (tokens ++ maximalRuns suf) := by
  induction n with
  | zero =>
    intro pre suf tokens b0 r0 _ hs _ hn
    subst hs
    simp at hn
  | succ n ih =>
    intro pre suf tokens b0 r0 hc2 hs hb0 hn
    obtain ⟨tok, rest, hsuf, htok, hrest⟩ := span_cases (fun b => !isBlank b) suf
    have htok1 : ∀ x ∈ tok, isBlank x = false := fun x hx => by simpa using htok x hx
    have hne : tok ≠ [] := by
      intro h0
      subst h0
      rcases hrest with h | ⟨b, c, h, hb⟩
      · subst h; subst hsuf; simp at hs
      · subst h; simp only [List.nil_append] at hsuf; rw [hsuf] at hs
        injection hs with h1 _
        subst h1
        simp [hb0] at hb
    have hq : ∀ x ∈ tok, [SPACE, TAB, 0xc2].contains x = false := by
      intro x hx
      have h1 := htok1 x hx
      have h2 : x ≠ 0xc2 := hc2 x (by simp [hsuf, hx])
      simp only [isBlank, Bool.or_eq_false_iff, beq_eq_false_iff_ne] at h1
      simp [h1.1, h1.2, h2]
    rcases hrest with h | ⟨b, c, h, hb⟩
    · subst h
      simp only [List.append_nil] at hsuf
      subst hsuf
      have hruns : maximalRuns suf = [suf] := by
        have := maximalRuns_run suf [] hne htok1 (Or.inl rfl)
        simpa [maximalRuns_nil] using this
      simp only [tokenLoop, find_first_of, findFrom_at_none _ pre suf hq, skipOtherC2_npos, substr,
        find_first_not_of, skipNbsp_npos, List.drop_left, hruns]
    · subst h
      have hb1 : isBlank b = true := by simpa using hb
      have hqb : [SPACE, TAB, 0xc2].contains b = true := by
        simp only [isBlank, Bool.or_eq_true, beq_iff_eq] at hb1
        rcases hb1 with h | h <;> simp [h]
      have hbc2 : b ≠ 0xc2 := hc2 b (by simp [hsuf])
      obtain ⟨bl, rest2, hrest2, hbl, hr2⟩ := span_cases isBlank (b :: c)
      have hff : find_first_of (pre ++ suf) [SPACE, TAB, 0xc2] (some pre.length)
          = some (pre.length + tok.length) := by
        rw [hsuf]
        exact findFrom_at_hit _ pre tok b c hq hqb
      have hat : (pre ++ suf)[pre.length + tok.length]? = some b := by
        rw [hsuf, ← List.append_assoc, ← List.length_append]
        exact getElem?_at _ _ _
      have hsub : substr (pre ++ suf) pre.length (some (pre.length + tok.length)) = tok := by
        simp [substr, hsuf]
      have hruns : maximalRuns suf = tok :: maximalRuns rest2 := by
        rw [hsuf, maximalRuns_run tok (b :: c) hne htok1 (Or.inr ⟨b, c, rfl, hb1⟩), hrest2,
          maximalRuns_blanks bl rest2 hbl]
      have hnb : ∀ x ∈ bl, (fun b => !([SPACE, TAB].contains b)) x = false := by
        intro x hx
        have := hbl x hx
        simp only [isBlank, Bool.or_eq_true, beq_iff_eq] at this
        rcases this with h | h <;> simp [h]
      have hs2 : pre ++ suf = (pre ++ tok) ++ (bl ++ rest2) := by
        rw [hsuf, hrest2, List.append_assoc]
      rcases hr2 with h | ⟨b2, c2, h, hb2⟩
      · subst h
        have hfn : find_first_not_of (pre ++ suf) [SPACE, TAB] (some (pre.length + tok.length))
            = none := by
          rw [hs2, ← List.length_append]
          simp only [List.append_nil] at hnb ⊢
          exact findFrom_at_none _ (pre ++ tok) bl hnb
        simp only [tokenLoop, hff, skipOtherC2_stop _ _ _ (otherC2At_false _ _ b hat hbc2), hsub, hfn,
          skipNbsp_npos, hruns, maximalRuns_nil]
      · subst h
        have hnb2 : (fun b => !([SPACE, TAB].contains b)) b2 = true := by
          simp only [isBlank, Bool.or_eq_false_iff, beq_eq_false_iff_ne] at hb2
          simp [hb2.1, hb2.2]
        have hfn : find_first_not_of (pre ++ suf) [SPACE, TAB] (some (pre.length + tok.length))
            = some (pre.length + tok.length + bl.length) := by
          rw [hs2, ← List.length_append]
          exact findFrom_at_hit _ (pre ++ tok) bl b2 c2 hnb hnb2
        have hs3 : pre ++ suf = (pre ++ tok ++ bl) ++ (b2 :: c2) := by
          rw [hs2]; simp
        have hat2 : (pre ++ suf)[pre.length + tok.length + bl.length]? = some b2 := by
          rw [hs3, ← List.length_append, ← List.length_append]
          exact getElem?_at _ _ _
        have hb2c2 : b2 ≠ 0xc2 := hc2 b2 (by rw [hs3]; simp)
        have hlen : (b2 :: c2).length ≤ n := by
          have h1 : suf.length = tok.length + (bl.length + (b2 :: c2).length) := by
            rw [hsuf, hrest2]; simp
          have h2 : 0 < tok.length := List.length_pos.mpr hne
          omega
        have hrec := ih (pre ++ tok ++ bl) (b2 :: c2) (tokens ++ [tok]) b2 c2
          (by rw [← hs3]; exact hc2) rfl hb2 hlen
        rw [← hs3] at hrec
        simp only [List.length_append] at hrec
        simp only [tokenLoop, hff, skipOtherC2_stop _ _ _ (otherC2At_false _ _ b hat hbc2), hsub, hfn,
          skipNbsp_stop _ _ _ (nbspAt_false _ _ b2 hat2 hb2c2), hruns, hrec]
        simp


/-- Erasing from the first '#' on (lines 94-97) keeps the bytes before the first '#'. -/
theorem stripComment_eq (s : Line) :
    (match find s HASH with
      | some commentPos => s.take commentPos
      | none => s) = s.takeWhile (fun b => b != HASH) := by
  obtain ⟨a, r, hs, ha, hr⟩ := span_cases (fun b => b != HASH) s
  have ha1 : ∀ x ∈ a, (fun b => b == HASH) x = false := by
    intro x hx
    have := ha x hx
    simpa using this
  rcases hr with h | ⟨b, c, h, hb⟩
  · subst h
    simp only [List.append_nil] at hs
    subst hs
    have h1 : find s HASH = none := findFrom_none _ s 0 0 ha1
    have h2 : s.takeWhile (fun b => b != HASH) = s := by
      rw [List.takeWhile_eq_self_iff]
      exact ha
    rw [h1, h2]
  · subst h
    have hb1 : (fun b => b == HASH) b = true := by simpa using hb
    have h1 : find s HASH = some a.length := by
      have := findFrom_at_hit (fun b => b == HASH) [] a b c ha1 hb1
      simpa [hs, find] using this
    have h2 : s.takeWhile (fun b => b != HASH) = a := by
      rw [hs, List.takeWhile_append_of_pos ha]
      simp [List.takeWhile, hb]
    rw [h1, h2, hs]
    simp

/-- C1: for a line of ASCII bytes that does not end with a backslash and has a byte other
than space and tab before its first '#', GetTokens (with fuel above the length of the line)
returns exactly the maximal runs of bytes other than space and tab of the part of the line
before the first '#', in order; the line is consumed from the top stream. -/
theorem GetTokens_ascii_line (fuel : Nat) (line : Line) (rest : List Line) (below : List (List Line))
    (sc : ScriptContext)
    (hascii : ∀ b ∈ line, b < 128)
    (hbs : line.getLast? ≠ some BACKSLASH)
    (hnb : ∃ b ∈ line.takeWhile (fun b => b != HASH), b ≠ SPACE ∧ b ≠ TAB)
    (hfuel : line.length < fuel) :
    Input.GetTokens fuel ⟨sc, (line :: rest) :: below⟩
      = some (maximalRuns (line.takeWhile (fun b => b != HASH)),
              ⟨bumpLine 1 sc, rest :: below⟩) := by
  have hstrip := stripComment_eq line
  generalize hA : line.takeWhile (fun b => b != HASH) = a at hstrip hnb
  have hsub : ∀ b ∈ a, b ∈ line := by
    intro b hb
    rw [← hA] at hb
    exact (List.takeWhile_sublist _).subset hb
  have hlen : a.length ≤ line.length := by
    rw [← hA]
    exact (List.takeWhile_sublist _).length_le
  obtain ⟨bl, r2, ha, hbl, hr2⟩ := span_cases isBlank a
  have hnbl : ∀ x ∈ bl, (fun b => !([SPACE, TAB].contains b)) x = false := by
    intro x hx
    have := hbl x hx
    simp only [isBlank, Bool.or_eq_true, beq_iff_eq] at this
    rcases this with h | h <;> simp [h]
  rcases hr2 with h | ⟨b2, c2, h, hb2⟩
  · exfalso
    subst h
    simp only [List.append_nil] at ha
    subst ha
    obtain ⟨b, hb, h1, h2⟩ := hnb
    have := hbl b hb
    simp [isBlank, h1, h2] at this
  · subst h
    have hnb2 : (fun b => !([SPACE, TAB].contains b)) b2 = true := by
      simp only [isBlank, Bool.or_eq_false_iff, beq_eq_false_iff_ne] at hb2
      simp [hb2.1, hb2.2]
    have hc2 : ∀ b ∈ a, b ≠ 0xc2 := by
      intro b hb
      have := hascii b (hsub b hb)
      omega
    have hfn : find_first_not_of a [SPACE, TAB] (some 0) = some bl.length := by
      have := findFrom_at_hit _ [] bl b2 c2 hnbl hnb2
      simpa [ha, find_first_not_of] using this
    have hat : a[bl.length]? = some b2 := by
      rw [ha]; exact getElem?_at _ _ _
    have hb2c2 : b2 ≠ 0xc2 := hc2 b2 (by rw [ha]; simp)
    have hloop := tokenLoop_noC2 fuel fuel bl (b2 :: c2) [] b2 c2 (by rw [← ha]; exact hc2) rfl hb2
      (by
        have : a.length = bl.length + (b2 :: c2).length := by rw [ha]; simp
        omega)
    rw [← ha] at hloop
    have hruns : maximalRuns a = maximalRuns (b2 :: c2) := by
      rw [ha, maximalRuns_blanks bl _ hbl]
    have hcheck : (line.getLast? == some BACKSLASH) = false := by
      simpa using hbs
    have hproc : processLine fuel [] line = some (true, maximalRuns a) := by
      simp only [processLine, hcheck, Bool.false_eq_true, if_false, hstrip, hfn,
        skipNbsp_stop _ _ _ (nbspAt_false _ _ b2 hat hb2c2), hloop, hruns]
      simp
    simp [Input.GetTokens, readLoop, hproc]

theorem GetTokens_ascii_line_witness :
    Input.GetTokens 11 ⟨[], [[bytesOf "a /s v # c"]]⟩
        = some (maximalRuns ((bytesOf "a /s v # c").takeWhile (fun b => b != HASH)),
                ⟨bumpLine 1 [], [[]]⟩)
      ∧ maximalRuns ((bytesOf "a /s v # c").takeWhile (fun b => b != HASH))
        = [bytesOf "a", bytesOf "/s", bytesOf "v"] :=
  ⟨GetTokens_ascii_line 11 (bytesOf "a /s v # c") [] [] [] (by decide) (by decide)
    ⟨97, by decide, by decide, by decide⟩ (by decide), by decide⟩

end Commands

namespace Commands

theorem findFrom_ge (p : Nat → Bool) (s : Line) (i pos j : Nat) (h : findFrom p s i pos = some j) :
    i ≤ j := by
  induction s generalizing i with
  | nil => simp [findFrom] at h
  | cons c cs ih =>
    simp only [findFrom] at h
    split at h
    · injection h with h; omega
    · have := ih _ h; omega

theorem find_slash_zero (t : Line) : (find t SLASH == some 0) = beginsWithSlash t := by
  cases t with
  | nil => simp [find, findFrom, beginsWithSlash]
  | cons c cs =>
    by_cases hc : c = SLASH
    · simp [find, findFrom, beginsWithSlash, hc]
    · have h1 : find (c :: cs) SLASH = findFrom (fun b => b == SLASH) cs 1 0 := by
        simp [find, findFrom, hc]
      have h2 : find (c :: cs) SLASH ≠ some 0 := by
        intro h
        rw [h1] at h
        have := findFrom_ge _ _ _ _ _ h
        omega
      simp [beginsWithSlash, hc, h2]

theorem mapFind_mapInsert (m : SwitchMap) (k : Line) (v : List Line) (k1 : Line)
    (h : mapFind m k = none) :
    mapFind (mapInsert m k v) k1 = if k = k1 then some v else mapFind m k1 := by
  induction m with
  | nil => simp [mapInsert, mapFind]
  | cons e m ih =>
    obtain ⟨k2, v2⟩ := e
    simp only [mapFind] at h
    split at h
    · simp at h
    · rename_i hk
      simp only [mapInsert]
      split
      · simp [mapFind]
      · simp only [mapFind, ih h]
        by_cases h1 : k2 = k1
        · have : ¬ k = k1 := fun h2 => hk (h1.trans h2.symm)
          simp [h1, this]
        · simp [h1]

theorem mapFind_map_append (m : SwitchMap) (k : Line) (t : Line) (k1 : Line) :
    mapFind (m.map (fun e => if e.1 = k then (e.1, e.2 ++ [t]) else e)) k1
      = if k = k1 then (mapFind m k1).map (fun v => v ++ [t]) else mapFind m k1 := by
  induction m with
  | nil => simp [mapFind]
  | cons e m ih =>
    obtain ⟨k2, v2⟩ := e
    rw [List.map_cons]
    show mapFind ((if k2 = k then (k2, v2 ++ [t]) else (k2, v2)) :: _) k1 = _
    by_cases h2 : k2 = k
    · rw [if_pos h2]
      simp only [mapFind, ih]
      by_cases h1 : k2 = k1
      · have : k = k1 := h2.symm.trans h1
        simp [h1, this]
      · simp [h1]
    · rw [if_neg h2]
      simp only [mapFind, ih]
      by_cases h1 : k2 = k1
      · have : ¬ k = k1 := fun h3 => h2 (h1.trans h3.symm)
        simp [h1, this]
      · simp [h1]

/-- The arguments found for a key after push_back under a key. -/
theorem mapFind_mapPushBack (m : SwitchMap) (k t k1 : Line) :
    (mapFind (mapPushBack m k t) k1).getD []
      = if k = k1 then (mapFind m k1).getD [] ++ [t] else (mapFind m k1).getD [] := by
  unfold mapPushBack
  cases h : mapFind m k with
  | none =>
    simp only [mapFind_mapInsert m k [t] k1 h]
    by_cases hk : k = k1
    · subst hk; simp [h]
    · simp [hk]
  | some v =>
    simp only [mapFind_map_append]
    by_cases hk : k = k1
    · subst hk; simp [h]
    · simp [hk]

theorem arguments_eq (c : Context) (s : Line) :
    c.arguments s = (mapFind c._switchedArguments s).getD [] := by
  unfold Context.arguments Context.GetNumArguments Context.Argument
  cases h : mapFind c._switchedArguments s with
  | none => simp
  | some v =>
    simp only [Option.getD_some]
    apply List.ext_getElem
    · simp
    · intro i h1 h2
      simp at h1
      simp [List.getD_eq_getElem?_getD, List.getElem?_eq_getElem h1]


theorem ctorStep_ill (st : CtorState) (t : Line) (h : st._hasIllFormedSwitch = true) :
    (ctorStep st t)._hasIllFormedSwitch = true := by
  unfold ctorStep
  split
  · simp only []
    split <;> split <;> simp [h]
    all_goals (split <;> simp [h])
  · split <;> simp [h]

theorem ctorLoop_ill (ts : Tokens) (st : CtorState) (h : st._hasIllFormedSwitch = true) :
    (ts.foldl ctorStep st)._hasIllFormedSwitch = true := by
  induction ts generalizing st with
  | nil => simpa using h
  | cons t ts ih => exact ih _ (ctorStep_ill st t h)


theorem ctorStep_slash (st : CtorState) (t : Line) (hs : beginsWithSlash t = true)
    (hill : (ctorStep st t)._hasIllFormedSwitch = false) :
    st.switchName = [] ∧ t.drop 1 ≠ [] ∧
      ctorStep st t = { st with switchName := t.drop 1, argNum := st.argNum + 1 } := by
  have h0 : st._hasIllFormedSwitch = false := by
    cases h : st._hasIllFormedSwitch
    · rfl
    · rw [ctorStep_ill st t h] at hill; exact absurd hill (by simp)
  unfold ctorStep at hill ⊢
  rw [find_slash_zero, hs] at hill ⊢
  simp only [if_true] at hill ⊢
  cases hE : st.switchName.isEmpty with
  | false =>
    exfalso
    cases hD : (t.drop 1).isEmpty <;>
      simp only [hE, hD, Bool.not_false, Bool.not_true, if_true, Bool.false_eq_true, if_false]
        at hill <;> exact absurd hill (by simp)
  | true =>
    cases hD : (t.drop 1).isEmpty with
    | true =>
      exfalso
      simp only [hE, hD, Bool.not_true, if_true, Bool.false_eq_true, if_false] at hill
      exact absurd hill (by simp)
    | false =>
      cases hA : (st.argNum == 0) with
      | true =>
        exfalso
        simp only [hE, hD, hA, Bool.not_true, if_true, Bool.false_eq_true, if_false] at hill
        exact absurd hill (by simp)
      | false =>
        refine ⟨List.isEmpty_iff.mp hE, fun h => by simp [h] at hD, ?_⟩
        simp only [hE, hD, hA, Bool.not_true, if_true, Bool.false_eq_true, if_false]

theorem ctorStep_plain (st : CtorState) (t : Line) (hs : beginsWithSlash t = false)
    (h : st.switchName = []) :
    ctorStep st t = { st with _positionalArguments := st._positionalArguments ++ [t],
                              argNum := st.argNum + 1 } := by
  unfold ctorStep
  rw [find_slash_zero, hs]
  simp [h]

theorem ctorStep_argument (st : CtorState) (t : Line) (hs : beginsWithSlash t = false)
    (h : st.switchName ≠ []) :
    ctorStep st t = { st with
      _switchedArguments := mapPushBack st._switchedArguments st.switchName t,
      switchName := [], argNum := st.argNum + 1 } := by
  unfold ctorStep
  rw [find_slash_zero, hs]
  simp [h]

theorem ctorLoop_spec (ts : Tokens) : ∀ (st : CtorState) (prev : Option Line),
    ctorRel st prev → (ts.foldl ctorStep st)._hasIllFormedSwitch = false →
    (ts.foldl ctorStep st)._positionalArguments = st._positionalArguments ++ plainTokens prev ts
    ∧ ∀ s, (mapFind (ts.foldl ctorStep st)._switchedArguments s).getD []
        = (mapFind st._switchedArguments s).getD [] ++ followersOf s prev ts := by
  induction ts with
  | nil =>
    intro st prev _ _
    simp [plainTokens, followersOf]
  | cons t ts ih =>
    intro st prev hrel hill
    simp only [List.foldl_cons] at hill ⊢
    have hill1 : (ctorStep st t)._hasIllFormedSwitch = false := by
      cases h : (ctorStep st t)._hasIllFormedSwitch
      · rfl
      · rw [ctorLoop_ill ts _ h] at hill; exact absurd hill (by simp)
    cases hs : beginsWithSlash t with
    | true =>
      obtain ⟨h1, h2, h3⟩ := ctorStep_slash st t hs hill1
      have hprev : prev.any beginsWithSlash = false := by
        rcases hrel with ⟨_, h⟩ | ⟨h, _⟩
        · exact h
        · exact absurd h1 h
      have ht : t = SLASH :: t.drop 1 := by
        cases t with
        | nil => simp [beginsWithSlash] at hs
        | cons c cs =>
          simp only [beginsWithSlash, List.head?_cons, beq_iff_eq, Option.some.injEq] at hs
          simp [hs]
      have hrel1 : ctorRel (ctorStep st t) (some t) := by
        right
        rw [h3]
        exact ⟨h2, by simp only []; rw [← ht]⟩
      obtain ⟨ih1, ih2⟩ := ih (ctorStep st t) (some t) hrel1 hill
      have hne : ∀ s, prev ≠ some (SLASH :: s) := by
        intro s hp
        rw [hp] at hprev
        simp [beginsWithSlash] at hprev
      refine ⟨?_, ?_⟩
      · rw [ih1, h3]
        simp [plainTokens, hs]
      · intro s
        rw [ih2 s, h3]
        simp [followersOf, hne s]
    | false =>
      by_cases h1 : st.switchName = []
      · have h3 := ctorStep_plain st t hs h1
        have hprev : prev.any beginsWithSlash = false := by
          rcases hrel with ⟨_, h⟩ | ⟨h, _⟩
          · exact h
          · exact absurd h1 h
        have hne : ∀ s, prev ≠ some (SLASH :: s) := by
          intro s hp
          rw [hp] at hprev
          simp [beginsWithSlash] at hprev
        have hrel1 : ctorRel (ctorStep st t) (some t) := by
          left
          rw [h3]
          exact ⟨h1, by simpa using hs⟩
        obtain ⟨ih1, ih2⟩ := ih (ctorStep st t) (some t) hrel1 hill
        refine ⟨?_, ?_⟩
        · rw [ih1, h3]
          simp [plainTokens, hs, hprev]
        · intro s
          rw [ih2 s, h3]
          simp [followersOf, hne s]
      · have h3 := ctorStep_argument st t hs h1
        have hprev : prev = some (SLASH :: st.switchName) := by
          rcases hrel with ⟨h, _⟩ | ⟨_, h⟩
          · exact absurd h h1
          · exact h
        have hrel1 : ctorRel (ctorStep st t) (some t) := by
          left
          rw [h3]
          exact ⟨rfl, by simpa using hs⟩
        obtain ⟨ih1, ih2⟩ := ih (ctorStep st t) (some t) hrel1 hill
        refine ⟨?_, ?_⟩
        · rw [ih1, h3]
          simp [plainTokens, hs, hprev, beginsWithSlash]
        · intro s
          rw [ih2 s, h3]
          simp only [mapFind_mapPushBack, followersOf, hprev]
          by_cases hk : st.switchName = s
          · simp [hk]
          · simp [hk]


/-- C2: for every token list in which no switch is ill formed, the positional arguments of
the Context are, in order, the tokens that do not begin with '/' and do not immediately
follow a token beginning with '/', and for every switch name s the arguments recorded for
s are, in order, the tokens that immediately follow an occurrence of the token "/s". -/
theorem Context_positionals_and_switch_arguments (tokens : Tokens) (error : Error)
    (redirectPath0 : Line)
    (h : (Context.ofTokens tokens error redirectPath0).HasIllFormedSwitch = false) :
    (Context.ofTokens tokens error redirectPath0)._positionalArguments
        = plainTokens none tokens
      ∧ ∀ s, (Context.ofTokens tokens error redirectPath0).arguments s
          = followersOf s none tokens := by
  let st0 : CtorState :=
    { switchName := [], argNum := 0, _error := error.SetContextWritePending,
      _hasIllFormedSwitch := false, _positionalArguments := [], _switchedArguments := [] }
  have hrel : ctorRel st0 none := Or.inl ⟨rfl, rfl⟩
  have hfin : (tokens.foldl ctorStep st0)._hasIllFormedSwitch = false
      ∧ (Context.ofTokens tokens error redirectPath0)._positionalArguments
          = (tokens.foldl ctorStep st0)._positionalArguments
      ∧ (Context.ofTokens tokens error redirectPath0)._switchedArguments
          = (tokens.foldl ctorStep st0)._switchedArguments := by
    unfold Context.HasIllFormedSwitch Context.ofTokens at h
    unfold Context.ofTokens
    simp only [] at h ⊢
    split at h
    · exact absurd h (by simp)
    · rename_i hE
      rw [if_neg hE]
      exact ⟨h, rfl, rfl⟩
  obtain ⟨h1, h2, h3⟩ := hfin
  obtain ⟨hp, ha⟩ := ctorLoop_spec tokens st0 none hrel h1
  refine ⟨?_, ?_⟩
  · rw [h2, hp]; rfl
  · intro s
    rw [arguments_eq, h3, ha s]
    simp [st0, mapFind]

theorem Context_positionals_and_switch_arguments_witness :
    (Context.ofTokens [bytesOf "a", bytesOf "/s", bytesOf "v", bytesOf "b", bytesOf "/s",
        bytesOf "w"] ⟨[], false, []⟩ [])._positionalArguments
        = plainTokens none [bytesOf "a", bytesOf "/s", bytesOf "v", bytesOf "b",
            bytesOf "/s", bytesOf "w"]
      ∧ ∀ s, (Context.ofTokens [bytesOf "a", bytesOf "/s", bytesOf "v", bytesOf "b",
          bytesOf "/s", bytesOf "w"] ⟨[], false, []⟩ []).arguments s
          = followersOf s none [bytesOf "a", bytesOf "/s", bytesOf "v", bytesOf "b",
              bytesOf "/s", bytesOf "w"] :=
  Context_positionals_and_switch_arguments _ _ _ (by decide)


theorem true_ne_false_bytes : bytesOf "true" ≠ bytesOf "false" := by decide

/-- The loop of ParseBooleanSwitch once a value was set: it succeeds exactly when all the
arguments left repeat that value, and then keeps it. -/
theorem booleanSwitchLoop_set (name : Line) (e : Error) (args : List Line) (rv : Bool) :
    (∀ r, booleanSwitchLoop name e args rv true = .ok r ↔
      (r = rv ∧ ∀ a ∈ args, a = if rv then bytesOf "true" else bytesOf "false")) := by
  induction args with
  | nil =>
    intro r
    simp [booleanSwitchLoop, eq_comm]
  | cons a rest ih =>
    intro r
    by_cases h1 : a = bytesOf "true"
    · cases rv with
      | true =>
        simp only [booleanSwitchLoop, h1, if_true, Bool.not_true, Bool.false_eq_true, if_false, ih r]
        simp
      | false =>
        simp only [booleanSwitchLoop, h1, if_true, Bool.not_false]
        simp [true_ne_false_bytes]
    · by_cases h2 : a = bytesOf "false"
      · subst h2
        cases rv with
        | true =>
          simp only [booleanSwitchLoop, if_neg true_ne_false_bytes.symm, if_true]
          simp [true_ne_false_bytes.symm]
        | false =>
          simp only [booleanSwitchLoop, if_neg true_ne_false_bytes.symm, if_true,
            Bool.false_eq_true, if_false, ih r]
          simp
      · simp only [booleanSwitchLoop, h1, h2, if_false]
        cases rv <;> simp [h1, h2]

/-- The loop of ParseBooleanSwitch from its initial state. -/
theorem booleanSwitchLoop_unset (name : Line) (e : Error) (args : List Line) (value : Bool) :
    (∀ r, booleanSwitchLoop name e args value false = .ok r ↔
      ((args = [] ∧ r = value)
        ∨ (args ≠ [] ∧ r = true ∧ ∀ a ∈ args, a = bytesOf "true")
        ∨ (args ≠ [] ∧ r = false ∧ ∀ a ∈ args, a = bytesOf "false"))) := by
  intro r
  cases args with
  | nil => simp [booleanSwitchLoop, eq_comm]
  | cons a rest =>
    by_cases h1 : a = bytesOf "true"
    · simp only [booleanSwitchLoop, h1, if_true, Bool.false_eq_true, if_false,
        booleanSwitchLoop_set name e rest true r]
      simp [true_ne_false_bytes]
    · by_cases h2 : a = bytesOf "false"
      · subst h2
        simp only [booleanSwitchLoop, if_neg true_ne_false_bytes.symm, if_true,
          Bool.false_eq_true, if_false, booleanSwitchLoop_set name e rest false r]
        simp [true_ne_false_bytes.symm]
      · simp only [booleanSwitchLoop, h1, h2, if_false]
        simp [h1, h2]


theorem mapPushBack_nonempty (m : SwitchMap) (k t : Line) (h : mapNonempty m) :
    mapNonempty (mapPushBack m k t) := by
  intro k1 v hv
  unfold mapPushBack at hv
  cases hk : mapFind m k with
  | none =>
    rw [hk] at hv
    simp only [mapFind_mapInsert m k [t] k1 hk] at hv
    split at hv
    · injection hv with hv; subst hv; simp
    · exact h k1 v hv
  | some w =>
    rw [hk] at hv
    simp only [mapFind_map_append] at hv
    split at hv
    · cases hm : mapFind m k1 with
      | none => simp [hm] at hv
      | some u =>
        simp only [hm, Option.map_some', Option.some.injEq] at hv
        subst hv; simp
    · exact h k1 v hv

theorem ctorStep_nonempty (st : CtorState) (t : Line) (h : mapNonempty st._switchedArguments) :
    mapNonempty (ctorStep st t)._switchedArguments := by
  unfold ctorStep
  split
  · simp only []
    split <;> split <;> try exact h
    all_goals (split <;> exact h)
  · split
    · exact h
    · exact mapPushBack_nonempty _ _ _ h

theorem ctorLoop_nonempty (ts : Tokens) (st : CtorState) (h : mapNonempty st._switchedArguments) :
    mapNonempty (ts.foldl ctorStep st)._switchedArguments := by
  induction ts generalizing st with
  | nil => simpa using h
  | cons t ts ih => exact ih _ (ctorStep_nonempty st t h)

theorem ofTokens_nonempty (tokens : Tokens) (error : Error) (p : Line) :
    mapNonempty (Context.ofTokens tokens error p)._switchedArguments := by
  unfold Context.ofTokens
  simp only []
  split
  all_goals
    apply ctorLoop_nonempty
    intro k v hv
    simp [mapFind] at hv

/-- C3: ParseBooleanSwitch returns true if and only if the switch is absent, or every
argument given to it is "true", or every argument given to it is "false"; when the switch
is present and the call returns true, the value is that common boolean. -/
theorem ParseBooleanSwitch_result (tokens : Tokens) (error : Error) (redirectPath0 : Line)
    (name : Line) (value : Bool) :
    (((Context.ofTokens tokens error redirectPath0).ParseBooleanSwitch name value).result = true
      ↔ (mapFind (Context.ofTokens tokens error redirectPath0)._switchedArguments name = none
          ∨ (∀ a ∈ (Context.ofTokens tokens error redirectPath0).arguments name,
              a = bytesOf "true")
          ∨ (∀ a ∈ (Context.ofTokens tokens error redirectPath0).arguments name,
              a = bytesOf "false")))
    ∧ (mapFind (Context.ofTokens tokens error redirectPath0)._switchedArguments name ≠ none →
        ((Context.ofTokens tokens error redirectPath0).ParseBooleanSwitch name value).result
          = true →
        ((∀ a ∈ (Context.ofTokens tokens error redirectPath0).arguments name,
            a = bytesOf "true") →
          ((Context.ofTokens tokens error redirectPath0).ParseBooleanSwitch name value).value
            = true)
        ∧ ((∀ a ∈ (Context.ofTokens tokens error redirectPath0).arguments name,
            a = bytesOf "false") →
          ((Context.ofTokens tokens error redirectPath0).ParseBooleanSwitch name value).value
            = false)) := by
  have hne := ofTokens_nonempty tokens error redirectPath0
  generalize Context.ofTokens tokens error redirectPath0 = c at hne ⊢
  rw [arguments_eq]
  unfold Context.ParseBooleanSwitch
  cases hm : mapFind c._switchedArguments name with
  | none => simp
  | some args =>
    have hargs : args ≠ [] := hne name args hm
    have hloop := booleanSwitchLoop_unset name c._error args value
    simp only [Option.getD_some]
    cases hl : booleanSwitchLoop name c._error args value false with
    | error e =>
      simp only [Bool.false_eq_true, false_iff, not_or, reduceCtorEq, not_false_eq_true,
        true_and, ne_eq, false_implies, implies_true, and_true]
      refine ⟨?_, ?_⟩
      · intro hall
        have := (hloop true).mpr (Or.inr (Or.inl ⟨hargs, rfl, hall⟩))
        rw [hl] at this
        cases this
      · intro hall
        have := (hloop false).mpr (Or.inr (Or.inr ⟨hargs, rfl, hall⟩))
        rw [hl] at this
        cases this
    | ok r =>
      have hr := (hloop r).mp hl
      rcases hr with ⟨h0, _⟩ | ⟨_, hr, hall⟩ | ⟨_, hr, hall⟩
      · exact absurd h0 hargs
      · subst hr
        simp only [true_iff, reduceCtorEq, false_or, ne_eq, not_false_eq_true, true_implies]
        refine ⟨Or.inl hall, fun _ => trivial, ?_⟩
        intro hf
        exfalso
        obtain ⟨a, rest, rfl⟩ := List.exists_cons_of_ne_nil hargs
        have h1 := hall a (List.mem_cons_self _ _)
        have h2 := hf a (List.mem_cons_self _ _)
        exact true_ne_false_bytes (h1.symm.trans h2)
      · subst hr
        simp only [true_iff, reduceCtorEq, false_or, ne_eq, not_false_eq_true, true_implies]
        refine ⟨Or.inr hall, ?_, fun _ => trivial⟩
        intro ht
        exfalso
        obtain ⟨a, rest, rfl⟩ := List.exists_cons_of_ne_nil hargs
        have h1 := ht a (List.mem_cons_self _ _)
        have h2 := hall a (List.mem_cons_self _ _)
        exact true_ne_false_bytes (h1.symm.trans h2)

end Commands

namespace Allocations

open Commands

theorem visitHeader_suppressed (env : ListerEnv) (l : AnchorChainLister) (v : HeaderVisit)
    (hd : v.isDirect l._anchoree = false)
    (h : 0 < l.directShown v.kind ∨ l.shown v.kind = 10) :
    l.visitHeader env v = (true, l) := by
  cases v <;>
    simp only [HeaderVisit.isDirect, HeaderVisit.address, HeaderVisit.kind,
      AnchorChainLister.directShown, AnchorChainLister.shown] at hd h <;>
    simp only [AnchorChainLister.visitHeader, AnchorChainLister.VisitStaticAnchorChainHeader,
      AnchorChainLister.VisitStackAnchorChainHeader,
      AnchorChainLister.VisitRegisterAnchorChainHeader, hd] <;>
    rcases h with h | h <;> simp [h]

theorem visitHeader_reported (env : ListerEnv) (l : AnchorChainLister) (v : HeaderVisit)
    (h : v.isDirect l._anchoree = true ∨ (l.directShown v.kind = 0 ∧ l.shown v.kind ≠ 10)) :
    (l.visitHeader env v).1 = false
    ∧ (l.visitHeader env v).2._anchoree = l._anchoree
    ∧ (l.visitHeader env v).2.shown v.kind = (l.shown v.kind + 1) % SIZE_LIMIT
    ∧ (l.visitHeader env v).2.directShown v.kind
        = (if v.isDirect l._anchoree then (l.directShown v.kind + 1) % SIZE_LIMIT
           else l.directShown v.kind)
    ∧ ∀ k, k ≠ v.kind → (l.visitHeader env v).2.shown k = l.shown k
        ∧ (l.visitHeader env v).2.directShown k = l.directShown k := by
  have hc : (!(v.isDirect l._anchoree) && (decide (l.directShown v.kind > 0)
      || l.shown v.kind == 10)) = false := by
    rcases h with h | ⟨h1, h2⟩
    · simp [h]
    · simp [h1, h2]
  cases v <;>
    simp only [HeaderVisit.isDirect, HeaderVisit.address, HeaderVisit.kind,
      AnchorChainLister.directShown, AnchorChainLister.shown] at hc ⊢ <;>
    simp only [AnchorChainLister.visitHeader, AnchorChainLister.VisitStaticAnchorChainHeader,
      AnchorChainLister.VisitStackAnchorChainHeader,
      AnchorChainLister.VisitRegisterAnchorChainHeader, hc, Bool.false_eq_true, if_false,
      true_and] <;>
    (intro k hk; cases k <;> simp_all [AnchorChainLister.directShown, AnchorChainLister.shown])


theorem visitHeader_cases (l : AnchorChainLister) (v : HeaderVisit) :
    (v.isDirect l._anchoree = false ∧ (0 < l.directShown v.kind ∨ l.shown v.kind = 10))
    ∨ (v.isDirect l._anchoree = true ∨ (l.directShown v.kind = 0 ∧ l.shown v.kind ≠ 10)) := by
  cases hd : v.isDirect l._anchoree
  · by_cases h1 : 0 < l.directShown v.kind
    · exact Or.inl ⟨rfl, Or.inl h1⟩
    · by_cases h2 : l.shown v.kind = 10
      · exact Or.inl ⟨rfl, Or.inr h2⟩
      · exact Or.inr (Or.inr ⟨by omega, h2⟩)
  · exact Or.inr (Or.inl rfl)

theorem visitHeader_anchoree (env : ListerEnv) (l : AnchorChainLister) (v : HeaderVisit) :
    (l.visitHeader env v).2._anchoree = l._anchoree := by
  rcases visitHeader_cases l v with ⟨hd, h⟩ | h
  · rw [visitHeader_suppressed env l v hd h]
  · exact (visitHeader_reported env l v h).2.1

theorem visitHeader_other_kind (env : ListerEnv) (l : AnchorChainLister) (v : HeaderVisit)
    (k : AnchorKind) (hk : k ≠ v.kind) :
    (l.visitHeader env v).2.shown k = l.shown k
    ∧ (l.visitHeader env v).2.directShown k = l.directShown k := by
  rcases visitHeader_cases l v with ⟨hd, h⟩ | h
  · rw [visitHeader_suppressed env l v hd h]
    exact ⟨rfl, rfl⟩
  · exact (visitHeader_reported env l v h).2.2.2.2 k hk

theorem after_anchoree (env : ListerEnv) (vs : List HeaderVisit) :
    ∀ l : AnchorChainLister, (l.after env vs)._anchoree = l._anchoree := by
  induction vs with
  | nil => intro l; rfl
  | cons v vs ih =>
    intro l
    simp only [AnchorChainLister.after]
    rw [ih, visitHeader_anchoree]

theorem after_append (env : ListerEnv) (xs ys : List HeaderVisit) :
    ∀ l : AnchorChainLister, l.after env (xs ++ ys) = (l.after env xs).after env ys := by
  induction xs with
  | nil => intro l; rfl
  | cons v vs ih =>
    intro l
    simp only [List.cons_append, AnchorChainLister.after]
    exact ih _

/-- The counter of direct chains of a kind grows by at most one with each visit. -/
theorem visitHeader_directShown_le (env : ListerEnv) (l : AnchorChainLister) (v : HeaderVisit)
    (k : AnchorKind) :
    (l.visitHeader env v).2.directShown k ≤ l.directShown k + 1 := by
  by_cases hk : k = v.kind
  · subst hk
    rcases visitHeader_cases l v with ⟨hd, h⟩ | h
    · rw [visitHeader_suppressed env l v hd h]; exact Nat.le_succ _
    · rw [(visitHeader_reported env l v h).2.2.2.1]
      split
      · exact Nat.mod_le _ _
      · omega
  · rw [(visitHeader_other_kind env l v k hk).2]; omega

theorem after_directShown_le (env : ListerEnv) (k : AnchorKind) (vs : List HeaderVisit) :
    ∀ l : AnchorChainLister, (l.after env vs).directShown k ≤ l.directShown k + vs.length := by
  induction vs with
  | nil => intro l; simp [AnchorChainLister.after]
  | cons v vs ih =>
    intro l
    simp only [AnchorChainLister.after, List.length_cons]
    have h1 := ih (l.visitHeader env v).2
    have h2 := visitHeader_directShown_le env l v k
    omega

/-- Once a direct chain of a kind was shown, the counter of direct chains of the kind
stays positive. -/
theorem visitHeader_directShown_pos (env : ListerEnv) (l : AnchorChainLister) (v : HeaderVisit)
    (k : AnchorKind) (hpos : 0 < l.directShown k) (hlim : l.directShown k + 1 < SIZE_LIMIT) :
    0 < (l.visitHeader env v).2.directShown k := by
  by_cases hk : k = v.kind
  · subst hk
    rcases visitHeader_cases l v with ⟨hd, h⟩ | h
    · rw [visitHeader_suppressed env l v hd h]; exact hpos
    · rw [(visitHeader_reported env l v h).2.2.2.1]
      split
      · rw [Nat.mod_eq_of_lt hlim]; omega
      · exact hpos
  · rw [(visitHeader_other_kind env l v k hk).2]; exact hpos

theorem after_directShown_pos (env : ListerEnv) (k : AnchorKind) (vs : List HeaderVisit) :
    ∀ l : AnchorChainLister, 0 < l.directShown k → l.directShown k + vs.length < SIZE_LIMIT →
      0 < (l.after env vs).directShown k := by
  induction vs with
  | nil => intro l h _; simpa [AnchorChainLister.after] using h
  | cons v vs ih =>
    intro l hpos hlim
    simp only [AnchorChainLister.after]
    simp only [List.length_cons] at hlim
    apply ih
    · exact visitHeader_directShown_pos env l v k hpos (by omega)
    · have := visitHeader_directShown_le env l v k
      omega


/-- The indirect headers of a kind that are reported from a state on fit in what is left
of the ten, and there are none once a direct chain of the kind was shown. -/
theorem numReported_indirect_le (env : ListerEnv) (k : AnchorKind) (vs : List HeaderVisit) :
    ∀ l : AnchorChainLister, (l.directShown k = 0 → l.shown k ≤ 10) →
      l.directShown k + vs.length < SIZE_LIMIT →
      l.numReported env k true vs ≤ (if 0 < l.directShown k then 0 else 10 - l.shown k) := by
  induction vs with
  | nil => intro l _ _; simp [AnchorChainLister.numReported]
  | cons v vs ih =>
    intro l hinv hlim
    simp only [List.length_cons] at hlim
    simp only [AnchorChainLister.numReported]
    by_cases hk : k = v.kind
    · subst hk
      rcases visitHeader_cases l v with ⟨hd, h⟩ | h
      · rw [visitHeader_suppressed env l v hd h]
        have := ih l hinv (by omega)
        simpa using this
      · obtain ⟨h1, h2, h3, h4, _⟩ := visitHeader_reported env l v h
        cases hd : v.isDirect l._anchoree with
        | true =>
          rw [hd] at h4
          simp only [if_true] at h4
          rw [Nat.mod_eq_of_lt (by omega)] at h4
          have hrec := ih (l.visitHeader env v).2 (by omega) (by omega)
          have hpos : 0 < (l.visitHeader env v).2.directShown v.kind := by omega
          rw [if_pos hpos] at hrec
          simp only [hd, h1]
          simp only [Bool.true_eq_false, imp_false, not_true_eq_false, and_false, if_false]
          omega
        | false =>
          rw [hd] at h4
          simp only [Bool.false_eq_true, if_false] at h4
          rcases h with h | ⟨hz, hne⟩
          · rw [hd] at h; exact absurd h (by simp)
          · have hle := hinv hz
            rw [Nat.mod_eq_of_lt (by unfold SIZE_LIMIT; omega)] at h3
            have hrec := ih (l.visitHeader env v).2 (by omega) (by omega)
            have hz1 : ¬ 0 < (l.visitHeader env v).2.directShown v.kind := by omega
            have hz2 : ¬ 0 < l.directShown v.kind := by omega
            rw [if_neg hz1] at hrec
            rw [if_neg hz2]
            simp only [hd, h1, true_and, implies_true, and_self, if_true]
            omega
    · obtain ⟨h1, h2⟩ := visitHeader_other_kind env l v k hk
      have hrec := ih (l.visitHeader env v).2 (by omega) (by omega)
      rw [h1, h2] at hrec
      have : ¬ v.kind = k := fun h => hk h.symm
      simp only [this, false_and, if_false, Nat.zero_add]
      exact hrec

theorem numReported_le_indirect_add_direct (env : ListerEnv) (k : AnchorKind)
    (vs : List HeaderVisit) :
    ∀ l : AnchorChainLister,
      l.numReported env k false vs
        ≤ l.numReported env k true vs + numDirectHeaders k l._anchoree vs := by
  induction vs with
  | nil => intro l; simp [AnchorChainLister.numReported]
  | cons v vs ih =>
    intro l
    have hrec := ih (l.visitHeader env v).2
    rw [visitHeader_anchoree] at hrec
    simp only [AnchorChainLister.numReported, numDirectHeaders, List.filter_cons]
    unfold numDirectHeaders at hrec
    by_cases hk : v.kind = k
    · cases hd : v.isDirect l._anchoree <;> cases hr : (l.visitHeader env v).1 <;>
        simp [hk, hd, hr] <;> omega
    · simp [hk]
      omega


/-- C7, as stated, fails: ten indirect static headers followed by the direct one are all
reported, eleven static headers in all. -/
theorem eleven_static_headers_reported :
    (AnchorChainLister.new 0x1000).numReported plainListerEnv .static false
      (List.replicate 10 (.static [0x500] 0x2000 0x20 0) ++ [.static [0x600] 0x1000 0x20 0])
      = 11 := by
  decide

/-- C7, amended: in a sequence of fewer than 2^64 header visits made to one
AnchorChainLister, at most 10 indirect headers of each kind are reported, and a direct
header is always reported, so the headers of a kind that are reported number at most 10
plus the direct headers of that kind. -/
theorem reported_headers_bound (env : ListerEnv) (anchoree : Nat) (k : AnchorKind)
    (vs : List HeaderVisit) (hlen : vs.length < SIZE_LIMIT) :
    (AnchorChainLister.new anchoree).numReported env k true vs ≤ 10
    ∧ (AnchorChainLister.new anchoree).numReported env k false vs
        ≤ 10 + numDirectHeaders k anchoree vs
    ∧ ∀ (l : AnchorChainLister) (v : HeaderVisit), v.isDirect l._anchoree = true →
        (l.visitHeader env v).1 = false := by
  have h0s : (AnchorChainLister.new anchoree).shown k = 0 := by cases k <;> rfl
  have h0d : (AnchorChainLister.new anchoree).directShown k = 0 := by cases k <;> rfl
  have h1 := numReported_indirect_le env k vs (AnchorChainLister.new anchoree)
    (by intro _; rw [h0s]; omega) (by rw [h0d]; omega)
  rw [h0d, h0s] at h1
  simp only [Nat.lt_irrefl, if_false] at h1
  have h2 := numReported_le_indirect_add_direct env k vs (AnchorChainLister.new anchoree)
  refine ⟨h1, ?_, ?_⟩
  · have : (AnchorChainLister.new anchoree)._anchoree = anchoree := rfl
    rw [this] at h2
    omega
  · intro l v hd
    exact (visitHeader_reported env l v (Or.inl hd)).1

theorem reported_headers_bound_witness :
    (AnchorChainLister.new 0x1000).numReported plainListerEnv .static true
        [.static [0x500] 0x2000 0x20 0, .static [0x600] 0x1000 0x20 0] ≤ 10
    ∧ (AnchorChainLister.new 0x1000).numReported plainListerEnv .static false
        [.static [0x500] 0x2000 0x20 0, .static [0x600] 0x1000 0x20 0]
        ≤ 10 + numDirectHeaders .static 0x1000
            [.static [0x500] 0x2000 0x20 0, .static [0x600] 0x1000 0x20 0]
    ∧ ∀ (l : AnchorChainLister) (v : HeaderVisit), v.isDirect l._anchoree = true →
        (l.visitHeader plainListerEnv v).1 = false :=
  reported_headers_bound plainListerEnv 0x1000 .static
    [.static [0x500] 0x2000 0x20 0, .static [0x600] 0x1000 0x20 0] (by decide)

/-- C8: in a sequence of fewer than 2^64 header visits to one AnchorChainLister, once a
direct header d of a kind has been visited (it is reported), every later indirect header
v of that kind is suppressed: the call returns true and leaves the lister, its output
included, as it was. -/
theorem indirect_suppressed_after_direct (env : ListerEnv) (anchoree : Nat)
    (before between : List HeaderVisit) (d v : HeaderVisit)
    (hlen : before.length + between.length + 1 < SIZE_LIMIT)
    (hd : d.isDirect anchoree = true) (hv : v.isDirect anchoree = false)
    (hk : v.kind = d.kind) :
    (((AnchorChainLister.new anchoree).after env before).visitHeader env d).1 = false
    ∧ ((AnchorChainLister.new anchoree).after env (before ++ d :: between)).visitHeader env v
        = (true, (AnchorChainLister.new anchoree).after env (before ++ d :: between)) := by
  have ha : ((AnchorChainLister.new anchoree).after env before)._anchoree = anchoree := by
    rw [after_anchoree]; rfl
  have hd1 : d.isDirect ((AnchorChainLister.new anchoree).after env before)._anchoree = true := by
    rw [ha]; exact hd
  obtain ⟨h1, h2, h3, h4, _⟩ :=
    visitHeader_reported env ((AnchorChainLister.new anchoree).after env before) d (Or.inl hd1)
  refine ⟨h1, ?_⟩
  have hle := after_directShown_le env d.kind before (AnchorChainLister.new anchoree)
  have h0d : (AnchorChainLister.new anchoree).directShown d.kind = 0 := by
    cases d.kind <;> rfl
  rw [h0d] at hle
  rw [hd1] at h4
  simp only [if_true] at h4
  rw [Nat.mod_eq_of_lt (by omega)] at h4
  have hpos := after_directShown_pos env d.kind between
    (((AnchorChainLister.new anchoree).after env before).visitHeader env d).2
    (by omega) (by omega)
  have hstate : (AnchorChainLister.new anchoree).after env (before ++ d :: between)
      = ((((AnchorChainLister.new anchoree).after env before).visitHeader env d).2).after env
          between := by
    rw [after_append]; rfl
  rw [hstate]
  apply visitHeader_suppressed
  · rw [after_anchoree, h2, ha]; exact hv
  · left; rw [hk]; exact hpos

theorem indirect_suppressed_after_direct_witness :
    (((AnchorChainLister.new 0x1000).after plainListerEnv
        [.stack [0x700] 0x3000 0x20 0]).visitHeader plainListerEnv
          (.static [0x600] 0x1000 0x20 0)).1 = false
    ∧ ((AnchorChainLister.new 0x1000).after plainListerEnv
        ([.stack [0x700] 0x3000 0x20 0] ++ .static [0x600] 0x1000 0x20 0 :: [])).visitHeader
          plainListerEnv (.static [0x500] 0x2000 0x20 0)
        = (true, (AnchorChainLister.new 0x1000).after plainListerEnv
            ([.stack [0x700] 0x3000 0x20 0] ++ .static [0x600] 0x1000 0x20 0 :: [])) :=
  indirect_suppressed_after_direct plainListerEnv 0x1000 [.stack [0x700] 0x3000 0x20 0] []
    (.static [0x600] 0x1000 0x20 0) (.static [0x500] 0x2000 0x20 0)
    (by decide) (by decide) (by decide) (by decide)

/-- C9, as stated, fails: the direct header of an allocation referenced by 15 static
addresses writes 15 lines "Static address ...", not 10. -/
theorem fifteen_static_address_lines :
    numStaticAddressLines
      ((AnchorChainLister.new 0x1000).VisitStaticAnchorChainHeader plainListerEnv
        (List.range' 0x5000 15) 0x1000 0x20 0).2.output = 15 := by
  decide

/-- The items written for one static address of a direct header hold one line
"Static address ...". -/
theorem count_static_address_item (env : ListerEnv) (address a : Nat) :
    List.count (OutputItem.text (bytesOf "Static address 0x"))
      ([OutputItem.describeInModule a, .text (bytesOf "Static address 0x"), .num a]
        ++ (if !(env.AnchorName a).isEmpty then
              [.text (bytesOf " ("), .str (env.AnchorName a), .text (bytesOf ")")]
            else [])
        ++ [.text (bytesOf " references"), .text (bytesOf " 0x"), .num address,
            .text (bytesOf "." ++ [NEWLINE])]) = 1 := by
  have h1 : bytesOf " (" ≠ bytesOf "Static address 0x" := by decide
  have h2 : bytesOf ")" ≠ bytesOf "Static address 0x" := by decide
  have h3 : bytesOf " references" ≠ bytesOf "Static address 0x" := by decide
  have h4 : bytesOf " 0x" ≠ bytesOf "Static address 0x" := by decide
  have h5 : bytesOf "." ++ [NEWLINE] ≠ bytesOf "Static address 0x" := by decide
  split <;> simp [List.count_cons, h1, h2, h3, h4, h5]


/-- C9, amended: the direct static header of an allocation is reported with one line
"Static address ..." for each static address it lists (15 lines for 15 addresses), and
after it no indirect static header is reported in fewer than 2^64 further visits. -/
theorem direct_static_header_lines (env : ListerEnv) (anchoree : Nat) (staticAddrs : List Nat)
    (size image : Nat) (vs : List HeaderVisit) (hlen : vs.length + 1 < SIZE_LIMIT) :
    ((AnchorChainLister.new anchoree).VisitStaticAnchorChainHeader env staticAddrs anchoree
        size image).1 = false
    ∧ numStaticAddressLines
        ((AnchorChainLister.new anchoree).VisitStaticAnchorChainHeader env staticAddrs anchoree
          size image).2.output = staticAddrs.length
    ∧ ((AnchorChainLister.new anchoree).VisitStaticAnchorChainHeader env staticAddrs anchoree
        size image).2.numReported env .static true vs = 0 := by
  have hrep := visitHeader_reported env (AnchorChainLister.new anchoree)
    (.static staticAddrs anchoree size image)
    (Or.inl (by simp [HeaderVisit.isDirect, HeaderVisit.address, AnchorChainLister.new]))
  obtain ⟨h1, h2, h3, h4, _⟩ := hrep
  simp only [AnchorChainLister.visitHeader] at h1 h2 h3 h4
  refine ⟨h1, ?_, ?_⟩
  · have hT : bytesOf "The allocation at 0x" ≠ bytesOf "Static address 0x" := by decide
    have hA : bytesOf " appears to be " ≠ bytesOf "Static address 0x" := by decide
    have hD : bytesOf "directly statically anchored." ++ [NEWLINE]
        ≠ bytesOf "Static address 0x" := by decide
    have hflat : ∀ addrs : List Nat,
        List.count (OutputItem.text (bytesOf "Static address 0x"))
          (addrs.map (fun staticAddr =>
            [OutputItem.describeInModule staticAddr,
             .text (bytesOf "Static address 0x"), .num staticAddr]
            ++ (if !(env.AnchorName staticAddr).isEmpty then
                  [.text (bytesOf " ("), .str (env.AnchorName staticAddr), .text (bytesOf ")")]
                else [])
            ++ [.text (bytesOf " references"), .text (bytesOf " 0x"), .num anchoree,
                .text (bytesOf "." ++ [NEWLINE])])).flatten = addrs.length := by
      intro addrs
      induction addrs with
      | nil => simp
      | cons a rest ih =>
        rw [List.map_cons, List.flatten_cons, List.count_append, ih,
          count_static_address_item env anchoree a, List.length_cons]
        omega
    have := hflat staticAddrs
    simp only [numStaticAddressLines, AnchorChainLister.VisitStaticAnchorChainHeader,
      AnchorChainLister.new, beq_self_eq_true, Bool.not_true, Bool.false_and,
      Bool.false_eq_true, if_false, if_true, List.nil_append, List.count_append, this]
    simp [List.count_cons, hT, hA, hD]
  · have hb := numReported_indirect_le env .static vs
      ((AnchorChainLister.new anchoree).VisitStaticAnchorChainHeader env staticAddrs anchoree
        size image).2
    have h5 : ((AnchorChainLister.new anchoree).VisitStaticAnchorChainHeader env staticAddrs
        anchoree size image).2.directShown .static = 1 := by
      simp [AnchorChainLister.VisitStaticAnchorChainHeader, AnchorChainLister.new,
        AnchorChainLister.directShown, SIZE_LIMIT]
    rw [h5] at hb
    have := hb (by omega) (by omega)
    simpa using this

theorem direct_static_header_lines_witness :
    ((AnchorChainLister.new 0x1000).VisitStaticAnchorChainHeader plainListerEnv
        (List.range' 0x5000 15) 0x1000 0x20 0).1 = false
    ∧ numStaticAddressLines
        ((AnchorChainLister.new 0x1000).VisitStaticAnchorChainHeader plainListerEnv
          (List.range' 0x5000 15) 0x1000 0x20 0).2.output = (List.range' 0x5000 15).length
    ∧ ((AnchorChainLister.new 0x1000).VisitStaticAnchorChainHeader plainListerEnv
        (List.range' 0x5000 15) 0x1000 0x20 0).2.numReported plainListerEnv .static true
          [.static [0x500] 0x2000 0x20 0] = 0 :=
  direct_static_header_lines plainListerEnv 0x1000 (List.range' 0x5000 15) 0x20 0
    [.static [0x500] 0x2000 0x20 0] (by decide)

end Allocations

namespace Python

open Commands Allocations

set_option maxRecDepth 100000 in
/-- C10 fails on the code: in an image whose first pool header has the value 0x10 at
offset 0x2c the finder reports a block of 0xff0 bytes at pool + 0x30, which ends 0x20
bytes after the end of its pool and after the address of the next allocation reported;
with the value 0x2000 there the block size wraps around and the second address reported
is below the first. -/
theorem oversized_block_overlaps_next_pool :
    reportedAllocations oversizedBlockEnv 10 2
        = [{ address := 0x200030, size := 0xff0, used := true, pool := 0x200000 },
           { address := 0x201000, size := 0x1000, used := false, pool := 0x201000 }]
      ∧ 0x201000 < 0x200030 + 0xff0
      ∧ 0x200000 + 0x1000 < 0x200030 + 0xff0
      ∧ (reportedAllocations wrappedBlockEnv 10 2).map (fun r => r.address)
          = [0x200030, 0x1ff030] := by
  decide

end Python

namespace Allocations

open Commands

theorem stripLiteral_eq_some (t s rest : Line) : stripLiteral t s = some rest ↔ s = t ++ rest := by
  induction t generalizing s with
  | nil => simp [stripLiteral, eq_comm]
  | cons a t ih =>
    cases s with
    | nil => simp [stripLiteral]
    | cons c cs =>
      simp only [stripLiteral]
      split
      · rename_i h
        subst h
        simp [ih]
      · rename_i h
        simp only [List.cons_append, List.cons.injEq, false_iff, not_and, reduceCtorEq]
        intro h1
        exact absurd h1.symm h

theorem stripLiteral_eq_none (t s : Line) : stripLiteral t s = none ↔ ∀ rest, s ≠ t ++ rest := by
  constructor
  · intro h rest hs
    have := (stripLiteral_eq_some t s rest).mpr hs
    rw [h] at this
    cases this
  · intro h
    cases hs : stripLiteral t s with
    | none => rfl
    | some rest => exact absurd ((stripLiteral_eq_some t s rest).mp hs) (h rest)

theorem matchStar_isSome (p : Nat → Bool) (k : Line → Option Captures) (K : Line → Prop)
    (hk : ∀ rest, (k rest).isSome = true ↔ K rest) (s : Line) :
    (matchStar p k s).isSome = true
      ↔ ∃ s1 s2, s = s1 ++ s2 ∧ (∀ c ∈ s1, p c = true) ∧ K s2 := by
  induction s with
  | nil =>
    simp only [matchStar, hk]
    constructor
    · intro h
      exact ⟨[], [], rfl, by simp, h⟩
    · rintro ⟨s1, s2, h, _, h2⟩
      have : s2 = [] := by
        have := congrArg List.length h
        simp only [List.length_nil, List.length_append] at this
        exact List.length_eq_zero.mp (by omega)
      rw [this] at h2
      exact h2
  | cons c cs ih =>
    simp only [matchStar]
    by_cases hp : p c = true
    · simp only [hp, if_true]
      cases hm : matchStar p k cs with
      | some r =>
        simp only [Option.isSome_some, true_iff]
        rw [hm] at ih
        obtain ⟨s1, s2, h, h1, h2⟩ := ih.mp rfl
        refine ⟨c :: s1, s2, by rw [h]; rfl, ?_, h2⟩
        intro x hx
        rcases List.mem_cons.mp hx with rfl | hx
        · exact hp
        · exact h1 x hx
      | none =>
        rw [hm] at ih
        simp only [hk]
        constructor
        · intro h
          exact ⟨[], c :: cs, rfl, by simp, h⟩
        · rintro ⟨s1, s2, h, h1, h2⟩
          cases s1 with
          | nil =>
            simp only [List.nil_append] at h
            rw [h]; exact h2
          | cons a s1 =>
            exfalso
            simp only [List.cons_append, List.cons.injEq] at h
            have := ih.mpr ⟨s1, s2, h.2, fun x hx => h1 x (List.mem_cons_of_mem _ hx), h2⟩
            simp at this
    · simp only [hp, Bool.false_eq_true, if_false, hk]
      constructor
      · intro h
        exact ⟨[], c :: cs, rfl, by simp, h⟩
      · rintro ⟨s1, s2, h, h1, h2⟩
        cases s1 with
        | nil =>
          simp only [List.nil_append] at h
          rw [h]; exact h2
        | cons a s1 =>
          exfalso
          simp only [List.cons_append, List.cons.injEq] at h
          have := h1 a (List.mem_cons_self _ _)
          rw [← h.1] at this
          exact hp this


/-- The matcher succeeds exactly when a prefix of the input matches the expression and
the continuation accepts the rest, whatever the captures. -/
theorem matchRegex_isSome (r : Regex) : ∀ (s : Line) (caps : Captures)
    (k : Line → Captures → Option Captures) (K : Line → Prop),
    (∀ rest c, (k rest c).isSome = true ↔ K rest) →
    ((matchRegex r s caps k).isSome = true
      ↔ ∃ s1 s2, s = s1 ++ s2 ∧ r.Matches s1 ∧ K s2) := by
  induction r with
  | lit t =>
    intro s caps k K hk
    simp only [matchRegex, Regex.Matches]
    cases hs : stripLiteral t s with
    | some rest =>
      have h := (stripLiteral_eq_some t s rest).mp hs
      simp only [hk]
      constructor
      · intro h2
        exact ⟨t, rest, h, rfl, h2⟩
      · rintro ⟨s1, s2, h1, rfl, h2⟩
        rw [h1] at h
        have := List.append_cancel_left h
        rw [← this]; exact h2
    | none =>
      have h := (stripLiteral_eq_none t s).mp hs
      simp only [Option.isSome_none, Bool.false_eq_true, false_iff, not_exists, not_and]
      intro s1 s2 h1 h2
      subst h2
      exact absurd h1 (h s2)
  | star p =>
    intro s caps k K hk
    simp only [matchRegex, Regex.Matches]
    exact matchStar_isSome p _ K (fun rest => hk rest caps) s
  | plus p =>
    intro s caps k K hk
    simp only [matchRegex, Regex.Matches]
    cases s with
    | nil =>
      simp only [Option.isSome_none, Bool.false_eq_true, false_iff, not_exists, not_and]
      intro s1 s2 h h1
      exfalso
      have := congrArg List.length h
      simp only [List.length_nil, List.length_append] at this
      exact h1.1 (List.length_eq_zero.mp (by omega))
    | cons c cs =>
      by_cases hp : p c = true
      · simp only [hp, if_true]
        rw [matchStar_isSome p _ K (fun rest => hk rest caps) cs]
        constructor
        · rintro ⟨s1, s2, h, h1, h2⟩
          refine ⟨c :: s1, s2, by rw [h]; rfl, ⟨by simp, ?_⟩, h2⟩
          intro x hx
          rcases List.mem_cons.mp hx with rfl | hx
          · exact hp
          · exact h1 x hx
        · rintro ⟨s1, s2, h, ⟨hne, h1⟩, h2⟩
          cases s1 with
          | nil => exact absurd rfl hne
          | cons a s1 =>
            simp only [List.cons_append, List.cons.injEq] at h
            exact ⟨s1, s2, h.2, fun x hx => h1 x (List.mem_cons_of_mem _ hx), h2⟩
      · simp only [hp, Bool.false_eq_true, if_false, Option.isSome_none, false_iff, not_exists,
          not_and]
        intro s1 s2 h ⟨hne, h1⟩
        exfalso
        cases s1 with
        | nil => exact absurd rfl hne
        | cons a s1 =>
          simp only [List.cons_append, List.cons.injEq] at h
          have := h1 a (List.mem_cons_self _ _)
          rw [← h.1] at this
          exact hp this
  | seq a b iha ihb =>
    intro s caps k K hk
    simp only [matchRegex, Regex.Matches]
    rw [iha s caps _ (fun rest => ∃ t1 t2, rest = t1 ++ t2 ∧ b.Matches t1 ∧ K t2)
      (fun rest c => ihb rest c k K hk)]
    constructor
    · rintro ⟨s1, s2, h, h1, t1, t2, h2, h3, h4⟩
      exact ⟨s1 ++ t1, t2, by rw [h, h2, List.append_assoc], ⟨s1, t1, rfl, h1, h3⟩, h4⟩
    · rintro ⟨u, t2, h, ⟨s1, t1, hu, h1, h3⟩, h4⟩
      exact ⟨s1, t1 ++ t2, by rw [h, hu, List.append_assoc], h1, t1, t2, rfl, h3, h4⟩
  | alt a b iha ihb =>
    intro s caps k K hk
    simp only [matchRegex, Regex.Matches]
    have ha := iha s caps k K hk
    have hb := ihb s caps k K hk
    cases hm : matchRegex a s caps k with
    | some r =>
      rw [hm] at ha
      simp only [Option.isSome_some, true_iff] at ha ⊢
      obtain ⟨s1, s2, h, h1, h2⟩ := ha
      exact ⟨s1, s2, h, Or.inl h1, h2⟩
    | none =>
      rw [hm] at ha
      simp only [Option.isSome_none, Bool.false_eq_true, false_iff, not_exists, not_and] at ha
      simp only [hb]
      constructor
      · rintro ⟨s1, s2, h, h1, h2⟩
        exact ⟨s1, s2, h, Or.inr h1, h2⟩
      · rintro ⟨s1, s2, h, h1 | h1, h2⟩
        · exact absurd h2 (ha s1 s2 h h1)
        · exact ⟨s1, s2, h, h1, h2⟩
  | opt a iha =>
    intro s caps k K hk
    simp only [matchRegex, Regex.Matches]
    have ha := iha s caps k K hk
    cases hm : matchRegex a s caps k with
    | some r =>
      rw [hm] at ha
      simp only [Option.isSome_some, true_iff] at ha ⊢
      obtain ⟨s1, s2, h, h1, h2⟩ := ha
      exact ⟨s1, s2, h, Or.inl h1, h2⟩
    | none =>
      rw [hm] at ha
      simp only [Option.isSome_none, Bool.false_eq_true, false_iff, not_exists, not_and] at ha
      simp only [hk]
      constructor
      · intro h
        exact ⟨[], s, rfl, Or.inr rfl, h⟩
      · rintro ⟨s1, s2, h, h1 | h1, h2⟩
        · exact absurd h2 (ha s1 s2 h h1)
        · subst h1
          simp only [List.nil_append] at h
          rw [h]; exact h2
  | group n a iha =>
    intro s caps k K hk
    simp only [matchRegex, Regex.Matches]
    exact iha s caps _ K (fun rest c => hk rest _)

theorem regex_match_isSome (r : Regex) (s : Line) :
    (regex_match r s).isSome = true ↔ r.Matches s := by
  unfold regex_match
  rw [matchRegex_isSome r s _ _ (fun rest => rest = [])]
  · constructor
    · rintro ⟨s1, s2, h, h1, h2⟩
      subst h2
      simp only [List.append_nil] at h
      rw [h]; exact h1
    · intro h
      exact ⟨s, [], by simp, h, rfl⟩
  · intro rest c
    cases rest <;> simp


theorem optionalOffset_matches (n m : Nat) (s : Line) :
    (Regex.opt (.group n (.seq (.lit [AT_SIGN]) (.group m (.plus isXDigit))))).Matches s
      ↔ IsOptionalOffset s := by
  simp only [Regex.Matches, IsOptionalOffset]
  constructor
  · rintro (⟨s1, s2, h, h1, h2, h3⟩ | h)
    · right
      exact ⟨s2, by rw [h, h1]; rfl, h2, h3⟩
    · exact Or.inl h
  · rintro (h | ⟨w, h, h2, h3⟩)
    · exact Or.inr h
    · left
      exact ⟨[AT_SIGN], w, by rw [h]; rfl, rfl, h2, h3⟩

/-- The regular expression of the constructor matches exactly the strings of the shape
of an extension rule. -/
theorem extensionRegex_matches (s : Line) : extensionRegex.Matches s ↔ HasRuleShape s := by
  unfold extensionRegex HasRuleShape
  simp only [Regex.Matches.eq_4, Regex.Matches.eq_7, optionalOffset_matches]
  simp only [Regex.Matches]
  constructor
  · rintro ⟨member, r1, h1, hm, off1, r2, h2, ho1, arrow, r3, h3, ha, ext, r4, h4, he, off2,
      label, h5, ho2, hl⟩
    refine ⟨member, off1, arrow, ext, off2, label, ?_, ?_, ho1, ha, ?_, ho2, ?_⟩
    · rw [h1, h2, h3, h4, h5]; simp
    · intro hmem
      have := hm _ hmem
      simp at this
    · constructor
      · intro hmem
        have := he _ hmem
        simp at this
      · intro hmem
        have := he _ hmem
        simp at this
    · rcases hl with ⟨l1, w, h, h6, h7, h8⟩ | h
      · right
        exact ⟨w, by rw [h, h6]; rfl, h7, h8⟩
      · exact Or.inl h
  · rintro ⟨member, off1, arrow, ext, off2, label, h, hm, ho1, ha, ⟨he1, he2⟩, ho2, hl⟩
    refine ⟨member, off1 ++ arrow ++ ext ++ off2 ++ label, by rw [h]; simp, ?_, off1,
      arrow ++ ext ++ off2 ++ label, by simp, ho1, arrow, ext ++ off2 ++ label, by simp, ha,
      ext, off2 ++ label, by simp, ?_, off2, label, rfl, ho2, ?_⟩
    · intro c hc
      have : c ≠ AT_SIGN := fun h => hm (h ▸ hc)
      simpa using this
    · intro c hc
      have h1 : c ≠ AT_SIGN := fun h => he1 (h ▸ hc)
      have h2 : c ≠ EQUALS := fun h => he2 (h ▸ hc)
      simp [h1, h2]
    · rcases hl with h | ⟨w, h, h7, h8⟩
      · exact Or.inr h
      · left
        exact ⟨[EQUALS, GREATER], w, by rw [h]; rfl, rfl, h7, h8⟩

/-- The regular expression rejects exactly the strings that do not have the shape of an
extension rule. -/
theorem regex_match_eq_none (s : Line) :
    regex_match extensionRegex s = none ↔ ¬ HasRuleShape s := by
  rw [← extensionRegex_matches, ← regex_match_isSome]
  cases regex_match extensionRegex s <;> simp

end Allocations

namespace Allocations

open Commands

theorem write_cerr_subset (e : Error) (msg : Line) : e.cerr ⊆ (e.write msg).cerr := by
  unfold Error.write Error.FlushPendingErrorContext
  intro x hx
  split <;> try split
  all_goals simp [hx]

theorem write_cerr_mem (e : Error) (msg : Line) : msg ∈ (e.write msg).cerr := by
  unfold Error.write
  simp

theorem parseRule_mono (st : ParseState) (r : Line) :
    st.error.cerr ⊆ (parseRule st r).error.cerr
    ∧ (st._hasErrors = true → (parseRule st r)._hasErrors = true) := by
  unfold parseRule
  split
  · exact ⟨write_cerr_subset _ _, fun _ => rfl⟩
  · simp only []
    split <;> split
    · refine ⟨?_, fun _ => rfl⟩
      exact fun x hx => write_cerr_subset _ _ (write_cerr_subset _ _ hx)
    · exact ⟨write_cerr_subset _ _, fun _ => rfl⟩
    · exact ⟨write_cerr_subset _ _, fun _ => rfl⟩
    · exact ⟨fun x hx => hx, fun h => h⟩

theorem parseRule_ill_formed (st : ParseState) (r : Line)
    (h : regex_match extensionRegex r = none) :
    illFormedMsg r ∈ (parseRule st r).error.cerr ∧ (parseRule st r)._hasErrors = true := by
  unfold parseRule
  rw [h]
  exact ⟨write_cerr_mem _ _, rfl⟩

theorem parseLoop_mono (rs : List Line) : ∀ st : ParseState,
    st.error.cerr ⊆ (rs.foldl parseRule st).error.cerr
    ∧ (st._hasErrors = true → (rs.foldl parseRule st)._hasErrors = true) := by
  induction rs with
  | nil => intro st; exact ⟨fun x hx => hx, fun h => h⟩
  | cons r rs ih =>
    intro st
    simp only [List.foldl_cons]
    obtain ⟨h1, h2⟩ := parseRule_mono st r
    obtain ⟨h3, h4⟩ := ih (parseRule st r)
    exact ⟨fun x hx => h3 (h1 hx), fun h => h4 (h2 h)⟩

theorem parseLoop_ill_formed (rs : List Line) : ∀ (st : ParseState) (r : Line), r ∈ rs →
    regex_match extensionRegex r = none →
    illFormedMsg r ∈ (rs.foldl parseRule st).error.cerr
    ∧ (rs.foldl parseRule st)._hasErrors = true := by
  induction rs with
  | nil => intro st r hr; simp at hr
  | cons a rs ih =>
    intro st r hr hm
    simp only [List.foldl_cons]
    rcases List.mem_cons.mp hr with rfl | hr
    · obtain ⟨h1, h2⟩ := parseRule_ill_formed st r hm
      obtain ⟨h3, h4⟩ := parseLoop_mono rs (parseRule st r)
      exact ⟨h3 h1, h4 h2⟩
    · exact ih _ r hr hm

theorem checkRule_mono (allow : Bool) (rule : Rule) (acc : Error × Bool) :
    acc.1.cerr ⊆ (checkRule allow rule acc).1.cerr
    ∧ (acc.2 = true → (checkRule allow rule acc).2 = true) := by
  unfold checkRule
  simp only []
  refine ⟨?_, ?_⟩
  · intro x hx
    repeat' split
    all_goals
      first
      | exact hx
      | exact write_cerr_subset _ _ hx
      | exact write_cerr_subset _ _ (write_cerr_subset _ _ hx)
      | exact write_cerr_subset _ _ (write_cerr_subset _ _ (write_cerr_subset _ _ hx))
      | exact write_cerr_subset _ _ (write_cerr_subset _ _ (write_cerr_subset _ _
          (write_cerr_subset _ _ hx)))
  · intro h
    repeat' split
    all_goals first | rfl | exact h

theorem checkRules_mono (allow : Bool) (rules : List Rule) : ∀ acc : Error × Bool,
    acc.1.cerr ⊆ (rules.foldl (fun acc rule => checkRule allow rule acc) acc).1.cerr
    ∧ (acc.2 = true → (rules.foldl (fun acc rule => checkRule allow rule acc) acc).2 = true) := by
  induction rules with
  | nil => intro acc; exact ⟨fun x hx => hx, fun h => h⟩
  | cons r rs ih =>
    intro acc
    simp only [List.foldl_cons]
    obtain ⟨h1, h2⟩ := checkRule_mono allow r acc
    obtain ⟨h3, h4⟩ := ih (checkRule allow r acc)
    exact ⟨fun x hx => h3 (h1 hx), fun h => h4 (h2 h)⟩


/-- C4: every /extend rule string that does not have the shape of an extension rule is
reported as ill formed, each of them and not only the first, and when there is at least
one the ExtendedVisitor ends with HasErrors true and IsEnabled false. -/
theorem ill_formed_rules_reported (context : Context) (image : ProcessImage)
    (allowMissingSignatures : Bool)
    (h : ∃ r ∈ context.arguments (bytesOf "extend"), ¬ HasRuleShape r) :
    ∃ v, ExtendedVisitor.new context image allowMissingSignatures = some v
      ∧ v.HasErrors = true ∧ v.IsEnabled = false
      ∧ ∀ r ∈ context.arguments (bytesOf "extend"), ¬ HasRuleShape r →
          illFormedMsg r ∈ v.error.cerr := by
  obtain ⟨r0, hr0, hs0⟩ := h
  have hnum : context.GetNumArguments (bytesOf "extend") ≠ 0 := by
    intro h0
    unfold Context.arguments at hr0
    rw [h0] at hr0
    simp at hr0
  have hparsed : ∀ r ∈ context.arguments (bytesOf "extend"), ¬ HasRuleShape r →
      illFormedMsg r ∈ (ExtendedVisitor.parseArguments context image).1.error.cerr
      ∧ (ExtendedVisitor.parseArguments context image).1._hasErrors = true := by
    intro r hr hs
    exact parseLoop_ill_formed _ _ r hr ((regex_match_eq_none r).mpr hs)
  have hcompiled : (ExtendedVisitor.compile context image allowMissingSignatures)._hasErrors = true
      ∧ (ExtendedVisitor.compile context image allowMissingSignatures)._isEnabled = false
      ∧ (ExtendedVisitor.parseArguments context image).1.error.cerr
          ⊆ (ExtendedVisitor.compile context image allowMissingSignatures).error.cerr := by
    unfold ExtendedVisitor.compile
    simp only []
    obtain ⟨h1, h2⟩ := checkRules_mono allowMissingSignatures
      ((List.range (orderRules (ExtendedVisitor.parseArguments context image).1).1.length).map
        (fun i => Rule.ofSpecification image
          ((orderRules (ExtendedVisitor.parseArguments context image).1).1.getD
            ((orderRules (ExtendedVisitor.parseArguments context image).1).2.2.getD i 0)
            Specification.initial)))
      ((ExtendedVisitor.parseArguments context image).1.error,
       (ExtendedVisitor.parseArguments context image).1._hasErrors)
    exact ⟨h2 (hparsed r0 hr0 hs0).2, rfl, h1⟩
  obtain ⟨hc1, hc2, hc3⟩ := hcompiled
  refine ⟨ExtendedVisitor.compile context image allowMissingSignatures, ?_, hc1, hc2, ?_⟩
  · unfold ExtendedVisitor.new
    rw [if_neg hnum]
    simp [hc1]
  · intro r hr hs
    exact hc3 (hparsed r hr hs).1

theorem ill_formed_rules_reported_witness :
    ∃ v, ExtendedVisitor.new (contextOf ["describe", "allocations", "/extend", "foo@bar->baz"])
        (plainProcessImage (some emptyGraph)) false = some v
      ∧ v.HasErrors = true ∧ v.IsEnabled = false
      ∧ ∀ r ∈ (contextOf ["describe", "allocations", "/extend", "foo@bar->baz"]).arguments
            (bytesOf "extend"), ¬ HasRuleShape r → illFormedMsg r ∈ v.error.cerr :=
  ill_formed_rules_reported _ _ _
    ⟨bytesOf "foo@bar->baz", by decide, (regex_match_eq_none _).mp rfl⟩

end Allocations

namespace Allocations

open Commands

theorem visitedOnce_refl (a b : VisitLog) (h1 : b.visits = a.visits) (h2 : b.visited = a.visited) :
    VisitedOnce a b :=
  ⟨[], by simp [h1], List.nodup_nil, by simp, by simp [h2]⟩

theorem visitedOnce_single (a b : VisitLog) (i : Nat) (hi : a.visited.contains i = false)
    (h1 : b.visits = a.visits ++ [i]) (h2 : b.visited = i :: a.visited) :
    VisitedOnce a b := by
  refine ⟨[i], h1, List.nodup_singleton i, ?_, ?_⟩
  · intro j hj
    simp only [List.mem_singleton] at hj
    subst hj
    simpa using hi
  · intro j
    rw [h2]
    simp only [List.mem_cons, List.mem_singleton]
    tauto

theorem visitedOnce_trans (a b c : VisitLog) (h1 : VisitedOnce a b) (h2 : VisitedOnce b c) :
    VisitedOnce a c := by
  obtain ⟨n1, hv1, hd1, ha1, hs1⟩ := h1
  obtain ⟨n2, hv2, hd2, ha2, hs2⟩ := h2
  refine ⟨n1 ++ n2, by rw [hv2, hv1, List.append_assoc], ?_, ?_, ?_⟩
  · rw [List.nodup_append]
    refine ⟨hd1, hd2, ?_⟩
    intro x hx1 hx2
    exact ha2 x hx2 ((hs1 x).mpr (Or.inr hx1))
  · intro i hi
    rcases List.mem_append.mp hi with h | h
    · exact ha1 i h
    · intro hc
      exact ha2 i h ((hs1 i).mpr (Or.inl hc))
  · intro i
    rw [hs2, hs1, List.mem_append]
    tauto

theorem extendTo_visitedOnce (v : ExtendedVisitor) (image : ProcessImage) (rule : Rule)
    (memberAllocation : Allocation) (candidateIndex : Nat) (candidateAllocation : Allocation)
    (st : VisitState) :
    VisitedOnce st.log
      (extendTo v image rule memberAllocation candidateIndex candidateAllocation st).state.log := by
  unfold extendTo
  simp only []
  split
  · exact visitedOnce_refl _ _ rfl rfl
  · rename_i h1
    split
    · exact visitedOnce_refl _ _ rfl rfl
    · exact visitedOnce_refl _ _ rfl rfl
    · split
      · exact visitedOnce_refl _ _ rfl rfl
      · rename_i h2
        have hnot : st.visited.contains candidateIndex = false := by
          cases hc : st.visited.contains candidateIndex
          · rfl
          · have hm : candidateIndex ∈ st.visited := by simpa using hc
            cases hce : v._commentExtensions <;> simp [hm, hce] at h1 h2
        split
        · exact visitedOnce_single _ _ candidateIndex hnot rfl rfl
        · exact visitedOnce_single _ _ candidateIndex hnot rfl rfl


/-- The form of extendTo_visitedOnce for a state with the visits and the visited set of
an earlier state. -/
theorem extendTo_visitedOnce_of (a : VisitLog) (v : ExtendedVisitor) (image : ProcessImage)
    (rule : Rule) (memberAllocation : Allocation) (candidateIndex : Nat)
    (candidateAllocation : Allocation) (st : VisitState)
    (h1 : st.visits = a.visits) (h2 : st.visited = a.visited) :
    VisitedOnce a
      (extendTo v image rule memberAllocation candidateIndex candidateAllocation st).state.log :=
  visitedOnce_trans _ _ _ (visitedOnce_refl a st.log h1 h2) (extendTo_visitedOnce _ _ _ _ _ _ _)

theorem takeCandidate_visitedOnce (v : ExtendedVisitor) (image : ProcessImage) (rule : Rule)
    (memberAllocation : Allocation) (st : VisitState) :
    VisitedOnce st.log (takeCandidate v image rule memberAllocation st).state.log := by
  unfold takeCandidate
  simp only []
  have hc1 : (countCandidates st).visits = st.visits := by
    unfold countCandidates; split <;> rfl
  have hc2 : (countCandidates st).visited = st.visited := by
    unfold countCandidates; split <;> rfl
  generalize countCandidates st = st1 at hc1 hc2 ⊢
  split
  · exact visitedOnce_refl _ _ hc1 hc2
  · split
    · exact visitedOnce_refl _ _ hc1 hc2
    · split
      · exact visitedOnce_refl _ _ hc1 hc2
      · exact extendTo_visitedOnce_of _ _ _ _ _ _ _ _ hc1 hc2

theorem takeCandidate_visitedOnce_of (a : VisitLog) (v : ExtendedVisitor) (image : ProcessImage)
    (rule : Rule) (memberAllocation : Allocation) (st : VisitState)
    (h1 : st.visits = a.visits) (h2 : st.visited = a.visited) :
    VisitedOnce a (takeCandidate v image rule memberAllocation st).state.log :=
  visitedOnce_trans _ _ _ (visitedOnce_refl a st.log h1 h2) (takeCandidate_visitedOnce _ _ _ _ _)

theorem followOffset_visitedOnce (v : ExtendedVisitor) (image : ProcessImage) (rule : Rule)
    (memberAllocation : Allocation) (st : VisitState) :
    VisitedOnce st.log (followOffset v image rule memberAllocation st).state.log := by
  unfold followOffset
  simp only []
  split
  · exact visitedOnce_refl _ _ rfl rfl
  · split
    · exact visitedOnce_refl _ _ rfl rfl
    · split
      · exact visitedOnce_refl _ _ rfl rfl
      · split
        · exact visitedOnce_refl _ _ rfl rfl
        · exact extendTo_visitedOnce_of _ _ _ _ _ _ _ _ rfl rfl

theorem followEdges_visitedOnce (v : ExtendedVisitor) (image : ProcessImage) (rule : Rule)
    (memberAllocation : Allocation) (st : VisitState) :
    VisitedOnce st.log (followEdges v image rule memberAllocation st).state.log := by
  unfold followEdges
  split
  · exact visitedOnce_refl _ _ rfl rfl
  · exact takeCandidate_visitedOnce_of _ _ _ _ _ _ rfl rfl

theorem applyRule_visitedOnce (v : ExtendedVisitor) (image : ProcessImage) (st : VisitState) :
    VisitedOnce st.log (applyRule v image st).state.log := by
  unfold applyRule
  split
  · split
    · split
      · exact visitedOnce_refl _ _ rfl rfl
      · split
        · exact followOffset_visitedOnce _ _ _ _ _
        · exact followEdges_visitedOnce _ _ _ _ _
    · exact takeCandidate_visitedOnce _ _ _ _ _
  · exact visitedOnce_refl _ _ rfl rfl

theorem applyRule_visitedOnce_of (a : VisitLog) (v : ExtendedVisitor) (image : ProcessImage)
    (st : VisitState) (h1 : st.visits = a.visits) (h2 : st.visited = a.visited) :
    VisitedOnce a (applyRule v image st).state.log :=
  visitedOnce_trans _ _ _ (visitedOnce_refl a st.log h1 h2) (applyRule_visitedOnce _ _ _)

theorem resumeContext_visitedOnce (v : ExtendedVisitor) (c : ExtensionContext)
    (rest : List ExtensionContext) (st : VisitState) :
    VisitedOnce st.log (resumeContext v c rest st).state.log := by
  unfold resumeContext
  simp only []
  split
  · exact visitedOnce_refl _ _ rfl rfl
  · split
    · exact visitedOnce_refl _ _ rfl rfl
    · exact visitedOnce_refl _ _ rfl rfl

theorem visitStep_visitedOnce (v : ExtendedVisitor) (image : ProcessImage) (st : VisitState) :
    VisitedOnce st.log (visitStep v image st).state.log := by
  unfold visitStep
  split
  · simp only []
    split
    · split
      · exact visitedOnce_refl _ _ rfl rfl
      · exact visitedOnce_trans _ _ _ (visitedOnce_refl _ _ rfl rfl)
          (resumeContext_visitedOnce _ _ _ _)
    · exact applyRule_visitedOnce_of _ _ _ _ rfl rfl
  · exact applyRule_visitedOnce _ _ _

theorem visitLoop_visitedOnce (v : ExtendedVisitor) (image : ProcessImage) (fuel : Nat) :
    ∀ st : VisitState, VisitedOnce st.log (visitLoop v image fuel st).state.log := by
  induction fuel with
  | zero => intro st; exact visitedOnce_refl _ _ rfl rfl
  | succ n ih =>
    intro st
    unfold visitLoop
    have hstep := visitStep_visitedOnce v image st
    cases hr : visitStep v image st with
    | next st1 =>
      rw [hr] at hstep
      exact visitedOnce_trans _ _ _ hstep (ih st1)
    | done st1 => rw [hr] at hstep; exact hstep
    | fault st1 => rw [hr] at hstep; exact hstep


theorem Visit_visitedOnce (v : ExtendedVisitor) (image : ProcessImage) (fuel memberIndex : Nat)
    (log : VisitLog) (h : v._isEnabled = true) :
    VisitedOnce log (v.Visit image fuel memberIndex log).log := by
  unfold ExtendedVisitor.Visit
  simp only [h, Bool.not_true, Bool.false_eq_true, if_false]
  split
  · exact visitedOnce_refl _ _ rfl rfl
  · rename_i hc
    have hnot : log.visited.contains memberIndex = false := by simpa using hc
    split
    · refine visitedOnce_trans _ _ _ ?_ (visitLoop_visitedOnce v image fuel _)
      exact visitedOnce_single _ _ memberIndex hnot rfl rfl
    · exact visitedOnce_single _ _ memberIndex hnot rfl rfl

/-- C6: with the extension engine enabled, in every sequence of calls of Visit that
share one visited set, whatever the graph, the rules and the number of passes made
through the loop, the indices passed to visitor.Visit are distinct, none of them was in
the visited set before, and the visited set grows by exactly these indices: an index
is passed to the visitor only when it is absent from the visited set and is added to
the set with the call. -/
theorem visitor_called_once_per_index (v : ExtendedVisitor) (image : ProcessImage)
    (fuel : Nat) (seeds : List Nat) (log : VisitLog) (h : v.IsEnabled = true) :
    VisitedOnce log (v.visitAll image fuel seeds log) := by
  induction seeds generalizing log with
  | nil => exact visitedOnce_refl _ _ rfl rfl
  | cons s rest ih =>
    unfold ExtendedVisitor.visitAll
    have h1 := Visit_visitedOnce v image fuel s log h
    cases hr : v.Visit image fuel s log with
    | next st => rw [hr] at h1; exact h1
    | fault st => rw [hr] at h1; exact h1
    | done st =>
      rw [hr] at h1
      exact visitedOnce_trans _ _ _ h1 (ih _)

theorem visitor_called_once_per_index_witness :
    VisitedOnce ⟨[], [], []⟩ (outgoingVisitor.visitAll cycleImage 100 [1, 0, 3] ⟨[], [], []⟩)
      ∧ (outgoingVisitor.visitAll cycleImage 100 [1, 0, 3] ⟨[], [], []⟩).visits = [1, 2, 0, 3] :=
  ⟨visitor_called_once_per_index outgoingVisitor cycleImage 100 [1, 0, 3] ⟨[], [], []⟩ rfl,
    by decide⟩

end Allocations

namespace Allocations

open Commands


theorem getD_set_eq (v : List Nat) (i x : Nat) (h : i < v.length) : (v.set i x).getD i 0 = x := by
  simp [List.getD_eq_getElem?_getD, List.getElem?_set, h]

theorem getD_set_ne (v : List Nat) (i j x : Nat) (h : i ≠ j) : (v.set i x).getD j 0 = v.getD j 0 := by
  simp [List.getD_eq_getElem?_getD, List.getElem?_set, h]

theorem incrementAt_getD (v : List Nat) (i s : Nat) (h : i < v.length) :
    (incrementAt v i).getD s 0 = v.getD s 0 + (if s = i then 1 else 0) := by
  unfold incrementAt
  by_cases hs : s = i
  · subst hs
    rw [getD_set_eq _ _ _ h]
    simp
  · rw [getD_set_ne _ _ _ _ (Ne.symm hs)]
    simp [hs]

theorem incrementAt_length (v : List Nat) (i : Nat) : (incrementAt v i).length = v.length := by
  simp [incrementAt]

theorem countP_le_succ (bs : List Nat) (s : Nat) :
    bs.countP (fun b => decide (b ≤ s + 1))
      = bs.countP (fun b => decide (b ≤ s)) + bs.count (s + 1) := by
  induction bs with
  | nil => simp
  | cons b bs ih =>
    simp only [List.countP_cons, List.count_cons, ih]
    by_cases h1 : b ≤ s
    · have h2 : b ≤ s + 1 := by omega
      have h3 : ¬ b = s + 1 := by omega
      simp [h1, h2, h3]
      omega
    · by_cases h3 : b = s + 1
      · simp [h1, h3]
        omega
      · have h2 : ¬ b ≤ s + 1 := by omega
        simp [h1, h2, h3]

theorem countP_le_eq_lt_add (bs : List Nat) (s : Nat) :
    bs.countP (fun b => decide (b ≤ s))
      = bs.countP (fun b => decide (b < s)) + bs.count s := by
  induction bs with
  | nil => simp
  | cons b bs ih =>
    simp only [List.countP_cons, List.count_cons, ih]
    by_cases h1 : b < s
    · have h2 : b ≤ s := by omega
      have h3 : ¬ b = s := by omega
      simp [h1, h2, h3]
      omega
    · by_cases h3 : b = s
      · simp [h3]
        omega
      · have h2 : ¬ b ≤ s := by omega
        simp [h1, h2, h3]


theorem lookup_mem (labels : List (Line × Nat)) (l : Line) (k : Nat)
    (h : labels.lookup l = some k) : (l, k) ∈ labels := by
  induction labels with
  | nil => simp [List.lookup] at h
  | cons e rest ih =>
    obtain ⟨l1, k1⟩ := e
    simp only [List.lookup] at h
    split at h
    · rename_i heq
      injection h with h
      subst h
      have : l = l1 := by simpa using heq
      subst this
      exact List.mem_cons_self _ _
    · exact List.mem_cons_of_mem _ (ih h)

/-- The loop of lines 147-162 keeps the number of specifications, gives each a base
state below the number of states, and adds to each counter the number of specifications
with that base state. -/
theorem assignBaseStates_spec (labels : List (Line × Nat)) (M : Nat) (hM : 0 < M)
    (hlab : ∀ e ∈ labels, e.2 < M) (specs : List Specification) :
    ∀ stb : List Nat, M ≤ stb.length → (∀ spec ∈ specs, spec._baseState = 0) →
      (assignBaseStates labels specs stb).1.length = specs.length
      ∧ (assignBaseStates labels specs stb).2.length = stb.length
      ∧ (∀ spec ∈ (assignBaseStates labels specs stb).1, spec._baseState < M)
      ∧ ∀ s, (assignBaseStates labels specs stb).2.getD s 0
          = stb.getD s 0
            + ((assignBaseStates labels specs stb).1.map (fun spec => spec._baseState)).count s := by
  induction specs with
  | nil =>
    intro stb _ _
    simp [assignBaseStates]
  | cons spec rest ih =>
    intro stb hlen hzero
    have hrest : ∀ sp ∈ rest, sp._baseState = 0 := fun sp h => hzero sp (List.mem_cons_of_mem _ h)
    unfold assignBaseStates
    simp only []
    split
    · rename_i baseState hfound
      have hb : baseState < M := by
        split at hfound
        · exact hlab _ (lookup_mem _ _ _ hfound)
        · cases hfound
      obtain ⟨h1, h2, h3, h4⟩ := ih (incrementAt stb baseState)
        (by rw [incrementAt_length]; exact hlen) hrest
      refine ⟨by simp [h1], by rw [h2, incrementAt_length], ?_, ?_⟩
      · intro sp hsp
        rcases List.mem_cons.mp hsp with rfl | hsp
        · exact hb
        · exact h3 sp hsp
      · intro s
        rw [h4 s, incrementAt_getD _ _ _ (by omega)]
        simp only [List.map_cons, List.count_cons]
        by_cases hs : s = baseState
        · subst hs; simp; omega
        · have : ¬ baseState = s := fun h => hs h.symm
          simp [hs, this]
    · obtain ⟨h1, h2, h3, h4⟩ := ih (incrementAt stb 0)
        (by rw [incrementAt_length]; exact hlen) hrest
      have hz := hzero spec (List.mem_cons_self _ _)
      refine ⟨by simp [h1], by rw [h2, incrementAt_length], ?_, ?_⟩
      · intro sp hsp
        rcases List.mem_cons.mp hsp with rfl | hsp
        · rw [hz]; exact hM
        · exact h3 sp hsp
      · intro s
        rw [h4 s, incrementAt_getD _ _ _ (by omega)]
        simp only [List.map_cons, List.count_cons, hz]
        by_cases hs : s = 0
        · subst hs; simp; omega
        · have : ¬ 0 = s := fun h => hs h.symm
          simp [hs, this]


/-- The loop of lines 165-167 turns the counters of the base states into the numbers of
specifications with a base state up to each state. -/
theorem countsToLimits_spec (bs : List Nat) (count : Nat) :
    ∀ (i : Nat) (v : List Nat), 1 ≤ i → i + count ≤ v.length →
      (∀ t, t < i → v.getD t 0 = bs.countP (fun b => decide (b ≤ t))) →
      (∀ t, i ≤ t → v.getD t 0 = bs.count t) →
      (countsToLimits count i v).length = v.length
      ∧ (∀ t, t < i + count →
          (countsToLimits count i v).getD t 0 = bs.countP (fun b => decide (b ≤ t)))
      ∧ (∀ t, i + count ≤ t → (countsToLimits count i v).getD t 0 = bs.count t) := by
  induction count with
  | zero =>
    intro i v _ _ h1 h2
    exact ⟨rfl, fun t ht => h1 t (by omega), fun t ht => h2 t (by omega)⟩
  | succ n ih =>
    intro i v hi hlen h1 h2
    unfold countsToLimits
    have hnew : ∀ t, t < i + 1 →
        (v.set i (v.getD i 0 + v.getD (i - 1) 0)).getD t 0
          = bs.countP (fun b => decide (b ≤ t)) := by
      intro t ht
      by_cases hti : t = i
      · subst hti
        rw [getD_set_eq _ _ _ (by omega), h2 t (Nat.le_refl _), h1 (t - 1) (by omega)]
        obtain ⟨k, rfl⟩ : ∃ k, t = k + 1 := ⟨t - 1, by omega⟩
        rw [countP_le_succ]
        simp only [Nat.add_sub_cancel]
        omega
      · rw [getD_set_ne _ _ _ _ (Ne.symm hti)]
        exact h1 t (by omega)
    have hold : ∀ t, i + 1 ≤ t →
        (v.set i (v.getD i 0 + v.getD (i - 1) 0)).getD t 0 = bs.count t := by
      intro t ht
      rw [getD_set_ne _ _ _ _ (by omega)]
      exact h2 t (by omega)
    obtain ⟨r1, r2, r3⟩ := ih (i + 1) (v.set i (v.getD i 0 + v.getD (i - 1) 0)) (by omega)
      (by simp only [List.length_set]; omega) hnew hold
    refine ⟨by rw [r1]; simp, ?_, ?_⟩
    · intro t ht
      exact r2 t (by omega)
    · intro t ht
      exact r3 t (by omega)


theorem count_take_add_drop (bs : List Nat) (s i : Nat) :
    bs.count s = (bs.take i).count s + (bs.drop i).count s := by
  conv_lhs => rw [← List.take_append_drop i bs]
  rw [List.count_append]

theorem drop_eq_cons (bs : List Nat) (i : Nat) (h : i < bs.length) :
    bs.drop i = bs.getD i 0 :: bs.drop (i + 1) := by
  rw [List.drop_eq_getElem_cons h]
  simp [List.getD_eq_getElem?_getD, List.getElem?_eq_getElem h]

theorem take_succ_eq (bs : List Nat) (i : Nat) (h : i < bs.length) :
    bs.take (i + 1) = bs.take i ++ [bs.getD i 0] := by
  rw [List.take_succ]
  simp [List.getD_eq_getElem?_getD, List.getElem?_eq_getElem h]

theorem count_take_lt (bs : List Nat) (i : Nat) (h : i < bs.length) :
    (bs.take i).count (bs.getD i 0) < bs.count (bs.getD i 0) := by
  rw [count_take_add_drop bs (bs.getD i 0) i, drop_eq_cons bs i h]
  simp

theorem count_take_mono (bs : List Nat) (s i j : Nat) (h : i ≤ j) :
    (bs.take i).count s ≤ (bs.take j).count s := by
  have : bs.take i = (bs.take j).take i := by
    rw [List.take_take]
    congr 1
    omega
  rw [this]
  have h2 := count_take_add_drop (bs.take j) s i
  omega

theorem countP_le_le_lt (bs : List Nat) (s t : Nat) (h : s < t) :
    bs.countP (fun b => decide (b ≤ s)) ≤ bs.countP (fun b => decide (b < t)) := by
  apply List.countP_mono_left
  intro b _ hb
  simp only [decide_eq_true_eq] at hb ⊢
  omega

theorem countP_le_length (bs : List Nat) (s : Nat) :
    bs.countP (fun b => decide (b ≤ s)) ≤ bs.length :=
  List.countP_le_length _

theorem rulePosition_lt (bs : List Nat) (i : Nat) (h : i < bs.length) :
    rulePosition bs i < bs.countP (fun b => decide (b ≤ bs.getD i 0)) := by
  unfold rulePosition
  rw [countP_le_eq_lt_add]
  have := count_take_lt bs i h
  omega

theorem rulePosition_lt_length (bs : List Nat) (i : Nat) (h : i < bs.length) :
    rulePosition bs i < bs.length := by
  have h1 := rulePosition_lt bs i h
  have h2 := countP_le_length bs (bs.getD i 0)
  omega

/-- Two specifications get different rule indices. -/
theorem rulePosition_ne (bs : List Nat) (i j : Nat) (hij : i < j) (hj : j < bs.length) :
    rulePosition bs i ≠ rulePosition bs j := by
  have hi : i < bs.length := by omega
  rcases Nat.lt_trichotomy (bs.getD i 0) (bs.getD j 0) with h | h | h
  · have h1 := rulePosition_lt bs i hi
    have h2 := countP_le_le_lt bs _ _ h
    have h3 : bs.countP (fun b => decide (b < bs.getD j 0)) ≤ rulePosition bs j := by
      unfold rulePosition; omega
    omega
  · unfold rulePosition
    rw [h]
    have h1 : (bs.take (i + 1)).count (bs.getD j 0) ≤ (bs.take j).count (bs.getD j 0) :=
      count_take_mono bs _ _ _ (by omega)
    rw [take_succ_eq bs i hi, List.count_append, h] at h1
    simp only [List.count_cons_self, List.count_nil] at h1
    omega
  · have h1 := rulePosition_lt bs j hj
    have h2 := countP_le_le_lt bs _ _ h
    have h3 : bs.countP (fun b => decide (b < bs.getD i 0)) ≤ rulePosition bs i := by
      unfold rulePosition; omega
    omega


/-- The loop of lines 178-181, started with the limits of the base states, leaves the
bases of the states in _stateToBase and puts every specification at its rule position. -/
theorem placeRules_spec (M : Nat) (all : List Specification)
    (hM : ∀ spec ∈ all, spec._baseState < M) (hn : all.length < SIZE_LIMIT)
    (pre : List Specification) :
    ∀ (suf : List Specification) (stb R : List Nat), all = pre ++ suf →
      M ≤ stb.length → R.length = all.length →
      (∀ s, s < M → stb.getD s 0
          = (all.map (fun spec => spec._baseState)).countP (fun b => decide (b ≤ s))
            - ((all.map (fun spec => spec._baseState)).drop pre.length).count s) →
      (∀ i, pre.length ≤ i → i < all.length →
          R.getD (rulePosition (all.map (fun spec => spec._baseState)) i) 0 = i) →
      (∀ k, R.getD k 0 < all.length) →
      (placeRules pre.reverse stb R).1.length = stb.length
      ∧ (placeRules pre.reverse stb R).2.length = R.length
      ∧ (∀ s, s < M → (placeRules pre.reverse stb R).1.getD s 0
          = (all.map (fun spec => spec._baseState)).countP (fun b => decide (b < s)))
      ∧ (∀ s, M ≤ s → (placeRules pre.reverse stb R).1.getD s 0 = stb.getD s 0)
      ∧ (∀ i, i < all.length →
          (placeRules pre.reverse stb R).2.getD
            (rulePosition (all.map (fun spec => spec._baseState)) i) 0 = i)
      ∧ (∀ k, (placeRules pre.reverse stb R).2.getD k 0 < all.length) := by
  induction pre using List.reverseRecOn with
  | nil =>
    intro suf stb R hall hlen hR h2 h3 h4
    have hp : placeRules ([] : List Specification).reverse stb R = (stb, R) := rfl
    rw [hp]
    simp only [List.length_nil, List.drop_zero] at h2 h3
    refine ⟨rfl, rfl, ?_, fun s _ => rfl, fun i hi => h3 i (Nat.zero_le _) hi, h4⟩
    intro s hs
    rw [h2 s hs, countP_le_eq_lt_add]
    omega
  | append_singleton pre x ih =>
    intro suf stb R hall hlen hR h2 h3 h4
    set bs := all.map (fun spec => spec._baseState) with hbs
    have hbl : bs.length = all.length := by simp [hbs]
    have hj : pre.length < all.length := by
      rw [hall]; simp
    have hx : bs.getD pre.length 0 = x._baseState := by
      have h0 : bs = pre.map (fun spec => spec._baseState)
          ++ (x._baseState :: suf.map (fun spec => spec._baseState)) := by
        rw [hbs, hall]; simp
      have h1 := getElem?_at (pre.map (fun spec => spec._baseState)) x._baseState
        (suf.map (fun spec => spec._baseState))
      rw [List.length_map, ← h0] at h1
      rw [List.getD_eq_getElem?_getD, h1]
      rfl
    have hxM : x._baseState < M := hM x (by rw [hall]; simp)
    have hstb := h2 _ hxM
    simp only [List.length_append, List.length_singleton] at hstb
    have hdrop := drop_eq_cons bs pre.length (by omega)
    have hcount := count_take_add_drop bs x._baseState pre.length
    rw [hdrop, hx, List.count_cons_self] at hcount
    have hle := countP_le_eq_lt_add bs x._baseState
    have hlen2 := countP_le_length bs x._baseState
    have hbase : (stb.getD x._baseState 0 + SIZE_LIMIT - 1) % SIZE_LIMIT
        = rulePosition bs pre.length := by
      unfold rulePosition
      rw [hx]
      have h1 : stb.getD x._baseState 0 + SIZE_LIMIT - 1
          = (stb.getD x._baseState 0 - 1) + SIZE_LIMIT := by omega
      rw [h1, Nat.add_mod_right, Nat.mod_eq_of_lt (by omega)]
      omega
    rw [List.reverse_append, List.reverse_singleton, List.singleton_append]
    unfold placeRules
    simp only [List.length_reverse]
    rw [hbase]
    have hpos := rulePosition_lt_length bs pre.length (by omega)
    obtain ⟨r1, r2, r3, r4, r5, r6⟩ := ih (x :: suf)
      (stb.set x._baseState (rulePosition bs pre.length))
      (R.set (rulePosition bs pre.length) pre.length)
      (by rw [hall]; simp) (by simp only [List.length_set]; exact hlen)
      (by simp only [List.length_set]; exact hR)
      (by
        intro s hs
        by_cases hsx : s = x._baseState
        · subst hsx
          rw [getD_set_eq _ _ _ (by omega), hdrop, hx, List.count_cons_self]
          unfold rulePosition
          rw [hx]
          omega
        · rw [getD_set_ne _ _ _ _ (Ne.symm hsx), h2 s hs]
          simp only [List.length_append, List.length_singleton]
          rw [hdrop, hx, List.count_cons_of_ne hsx])
      (by
        intro i hi1 hi2
        by_cases hip : i = pre.length
        · subst hip
          exact getD_set_eq _ _ _ (by omega)
        · have hne : rulePosition bs pre.length ≠ rulePosition bs i :=
            rulePosition_ne bs pre.length i (by omega) (by omega)
          rw [getD_set_ne _ _ _ _ hne]
          exact h3 i (by simp only [List.length_append, List.length_singleton]; omega) hi2)
      (by
        intro k
        by_cases hk : k = rulePosition bs pre.length
        · subst hk
          rw [getD_set_eq _ _ _ (by omega)]
          exact hj
        · rw [getD_set_ne _ _ _ _ (Ne.symm hk)]
          exact h4 k)
    refine ⟨by rw [r1]; simp, by rw [r2]; simp, r3, ?_, r5, r6⟩
    intro s hs
    rw [r4 s hs, getD_set_ne _ _ _ _ (by omega)]


theorem countP_le_zero (bs : List Nat) :
    bs.countP (fun b => decide (b ≤ 0)) = bs.count 0 := by
  induction bs with
  | nil => simp
  | cons b bs ih =>
    simp only [List.countP_cons, List.count_cons, ih]
    by_cases h : b = 0
    · simp [h]
    · have : ¬ b ≤ 0 := by omega
      simp [h]

/-- What the loop over the /extend arguments keeps true of its variables: the state
numbers are below the number of labels, no specification has a base state yet, and there
are at most as many specifications as arguments read. -/
theorem parseRule_invariant (st : ParseState) (r : Line) (k : Nat)
    (h1 : ∀ e ∈ st.labelToStateNumber, e.2 < st.labelToStateNumber.length)
    (h2 : ∀ spec ∈ st.specifications, spec._baseState = 0)
    (h3 : st.specifications.length ≤ k)
    (h4 : 0 < st.labelToStateNumber.length) :
    (∀ e ∈ (parseRule st r).labelToStateNumber, e.2 < (parseRule st r).labelToStateNumber.length)
    ∧ (∀ spec ∈ (parseRule st r).specifications, spec._baseState = 0)
    ∧ (parseRule st r).specifications.length ≤ k + 1
    ∧ 0 < (parseRule st r).labelToStateNumber.length
    ∧ ((parseRule st r)._hasErrors = false → st.specifications.length = k →
        (parseRule st r).specifications.length = k + 1) := by
  unfold parseRule
  split
  · exact ⟨h1, h2, Nat.le_succ_of_le h3, h4, fun h => by simp at h⟩
  · rename_i m hm
    simp only []
    generalize hst1 : (if (decide ((m 3).length > 0) && (parseHexSizeT (m 3)).isNone) = true then
        ({ st with
          error := st.error.write (bytesOf "Offset in member " ++ [QUOTE] ++ m 3
            ++ bytesOf " is not well formed as hexadecimal." ++ [NEWLINE]),
          _hasErrors := true } : ParseState)
      else st) = st1
    have hs1 : st1.specifications = st.specifications
        ∧ st1.labelToStateNumber = st.labelToStateNumber := by
      rw [← hst1]; split <;> exact ⟨rfl, rfl⟩
    generalize hst2 : (if (decide ((m 10).length > 0) && (parseHexSizeT (m 10)).isNone) = true then
        ({ st1 with
          error := st1.error.write (bytesOf "Offset in extension " ++ [QUOTE]
            ++ m 10 ++ bytesOf " is not well formed as hexadecimal."
            ++ [NEWLINE]),
          _hasErrors := true } : ParseState)
      else st1) = st2
    have hs2 : st2.specifications = st.specifications
        ∧ st2.labelToStateNumber = st.labelToStateNumber := by
      rw [← hst2]
      split
      · exact ⟨hs1.1, hs1.2⟩
      · exact hs1
    rw [hs2.1, hs2.2]
    refine ⟨?_, ?_, by simp; omega, ?_, fun _ hk => by simp; omega⟩
    · intro e he
      cases hf : (st.labelToStateNumber.lookup (m 12)) with
      | some x =>
        simp only [hf, Option.isSome_some, if_true] at he ⊢
        exact h1 e he
      | none =>
        simp only [hf, Option.isSome_none, Bool.false_eq_true, if_false, List.mem_append,
          List.mem_singleton, List.length_append, List.length_singleton, Option.getD_none]
          at he ⊢
        rcases he with he | rfl
        · have := h1 e he; omega
        · simp
    · intro spec hspec
      rcases List.mem_append.mp hspec with h | h
      · exact h2 spec h
      · simp only [List.mem_singleton] at h
        rw [h]
    · split
      · exact h4
      · simp


theorem parseLoop_invariant (rs : List Line) : ∀ (st : ParseState) (k : Nat),
    (∀ e ∈ st.labelToStateNumber, e.2 < st.labelToStateNumber.length) →
    (∀ spec ∈ st.specifications, spec._baseState = 0) →
    st.specifications.length ≤ k →
    0 < st.labelToStateNumber.length →
    (∀ e ∈ (rs.foldl parseRule st).labelToStateNumber,
        e.2 < (rs.foldl parseRule st).labelToStateNumber.length)
    ∧ (∀ spec ∈ (rs.foldl parseRule st).specifications, spec._baseState = 0)
    ∧ (rs.foldl parseRule st).specifications.length ≤ k + rs.length
    ∧ 0 < (rs.foldl parseRule st).labelToStateNumber.length
    ∧ ((rs.foldl parseRule st)._hasErrors = false → st.specifications.length = k →
        (rs.foldl parseRule st).specifications.length = k + rs.length) := by
  induction rs with
  | nil =>
    intro st k h1 h2 h3 h4
    exact ⟨h1, h2, h3, h4, fun _ h => h⟩
  | cons r rs ih =>
    intro st k h1 h2 h3 h4
    obtain ⟨p1, p2, p3, p4, p5⟩ := parseRule_invariant st r k h1 h2 h3 h4
    obtain ⟨q1, q2, q3, q4, q5⟩ := ih (parseRule st r) (k + 1) p1 p2 p3 p4
    simp only [List.foldl_cons, List.length_cons]
    refine ⟨q1, q2, by omega, q4, ?_⟩
    intro he hk
    have hstep : (parseRule st r)._hasErrors = false := by
      cases hc : (parseRule st r)._hasErrors
      · rfl
      · rw [(parseLoop_mono rs (parseRule st r)).2 hc] at he
        cases he
    have := q5 he (p5 hstep hk)
    omega

/-- The order of the rules: with fewer than 2^64 specifications, whose state numbers are
below the number of labels, orderRules keeps the specifications, leaves in _stateToBase
at each state the number of specifications with a smaller base state, and maps the rule
position of every specification to the index of the specification. -/
theorem orderRules_spec (p : ParseState)
    (h1 : ∀ e ∈ p.labelToStateNumber, e.2 < p.labelToStateNumber.length)
    (h2 : ∀ spec ∈ p.specifications, spec._baseState = 0)
    (h3 : 0 < p.specifications.length) (h4 : p.specifications.length < SIZE_LIMIT)
    (h5 : 0 < p.labelToStateNumber.length) :
    (orderRules p).1.length = p.specifications.length
    ∧ (∀ spec ∈ (orderRules p).1, spec._baseState < p.labelToStateNumber.length)
    ∧ (orderRules p).2.1.length = p.labelToStateNumber.length + 1
    ∧ (∀ s, s ≤ p.labelToStateNumber.length → (orderRules p).2.1.getD s 0
        = ((orderRules p).1.map (fun spec => spec._baseState)).countP (fun b => decide (b < s)))
    ∧ (orderRules p).2.2.length = p.specifications.length
    ∧ (∀ i, i < p.specifications.length →
        (orderRules p).2.2.getD
          (rulePosition ((orderRules p).1.map (fun spec => spec._baseState)) i) 0 = i)
    ∧ (∀ k, (orderRules p).2.2.getD k 0 < p.specifications.length) := by
  unfold orderRules
  simp only []
  obtain ⟨a1, a2, a3, a4⟩ := assignBaseStates_spec p.labelToStateNumber
    p.labelToStateNumber.length h5 h1 p.specifications
    (List.replicate (p.labelToStateNumber.length + 1) 0) (by simp) h2
  generalize assignBaseStates p.labelToStateNumber p.specifications
    (List.replicate (p.labelToStateNumber.length + 1) 0) = counted at a1 a2 a3 a4
  obtain ⟨S, C⟩ := counted
  simp only [] at a1 a2 a3 a4 ⊢
  simp only [List.length_replicate] at a2
  have hC : ∀ s, C.getD s 0 = (S.map (fun spec => spec._baseState)).count s := by
    intro s
    rw [a4 s]
    simp [List.getD_eq_getElem?_getD, List.getElem?_replicate]
    split <;> simp
  obtain ⟨b1, b2, b3⟩ := countsToLimits_spec (S.map (fun spec => spec._baseState))
    p.labelToStateNumber.length 1 C (Nat.le_refl _) (by omega)
    (by
      intro t ht
      have : t = 0 := by omega
      subst this
      rw [hC, countP_le_zero])
    (fun t _ => hC t)
  generalize countsToLimits p.labelToStateNumber.length 1 C = L at b1 b2 b3
  obtain ⟨c1, c2, c3, c4, c5, c6⟩ := placeRules_spec (p.labelToStateNumber.length + 1) S
    (fun spec h => Nat.lt_succ_of_lt (a3 spec h)) (by omega) S [] L
    (List.replicate S.length 0) (by simp) (by omega) (by simp)
    (by
      intro s hs
      rw [b2 s (by omega)]
      have hd : (S.map (fun spec => spec._baseState)).drop S.length = [] := by
        apply List.drop_eq_nil_of_le
        simp
      rw [hd]
      simp)
    (by
      intro i hi1 hi2
      omega)
    (by
      intro k
      simp only [List.getD_eq_getElem?_getD, List.getElem?_replicate]
      split <;> simp <;> omega)
  refine ⟨a1, a3, by rw [c1, b1, a2], ?_, by rw [c2]; simp [a1], ?_, ?_⟩
  · intro s hs
    exact c3 s (by omega)
  · intro i hi
    exact c5 i (by omega)
  · intro k
    have := c6 k
    omega


theorem first_zero (bs : List Nat) (h : 0 ∈ bs) :
    ∃ i, i < bs.length ∧ bs.getD i 0 = 0 ∧ (bs.take i).count 0 = 0 := by
  induction bs with
  | nil => simp at h
  | cons b bs ih =>
    by_cases hb : b = 0
    · exact ⟨0, by simp, by simp [hb], by simp⟩
    · have hmem : 0 ∈ bs := by
        rcases List.mem_cons.mp h with h | h
        · exact absurd h.symm hb
        · exact h
      obtain ⟨i, h1, h2, h3⟩ := ih hmem
      refine ⟨i + 1, by simp; omega, by simpa using h2, ?_⟩
      rw [List.take_succ_cons, List.count_cons_of_ne (fun h => hb h.symm)]
      exact h3

theorem rulePosition_first_zero (bs : List Nat) (i : Nat) (h2 : bs.getD i 0 = 0)
    (h3 : (bs.take i).count 0 = 0) : rulePosition bs i = 0 := by
  unfold rulePosition
  rw [h2, h3]
  simp

theorem getD_mem (S : List Specification) (i : Nat) (d : Specification) (h : i < S.length) :
    S.getD i d ∈ S := by
  rw [List.getD_eq_getElem?_getD, List.getElem?_eq_getElem h]
  exact List.getElem_mem h

theorem getD_map_base (S : List Specification) (i : Nat) (h : i < S.length) :
    (S.map (fun spec => spec._baseState)).getD i 0 = (S.getD i Specification.initial)._baseState := by
  simp [List.getD_eq_getElem?_getD, List.getElem?_eq_getElem h]

/-- The first rule has base state 0 exactly when some accepted rule has. -/
theorem first_rule_base (p : ParseState)
    (h1 : ∀ e ∈ p.labelToStateNumber, e.2 < p.labelToStateNumber.length)
    (h2 : ∀ spec ∈ p.specifications, spec._baseState = 0)
    (h3 : 0 < p.specifications.length) (h4 : p.specifications.length < SIZE_LIMIT)
    (h5 : 0 < p.labelToStateNumber.length) :
    ((orderRules p).1.getD ((orderRules p).2.2.getD 0 0) Specification.initial)._baseState = 0
      ↔ ∃ spec ∈ (orderRules p).1, spec._baseState = 0 := by
  obtain ⟨o1, o2, o3, o4, o5, o6, o7⟩ := orderRules_spec p h1 h2 h3 h4 h5
  constructor
  · intro h
    exact ⟨_, getD_mem _ _ _ (by rw [o1]; exact o7 0), h⟩
  · rintro ⟨spec, hspec, hb⟩
    have hmem : 0 ∈ (orderRules p).1.map (fun spec => spec._baseState) :=
      List.mem_map.mpr ⟨spec, hspec, hb⟩
    obtain ⟨i, i1, i2, i3⟩ := first_zero _ hmem
    simp only [List.length_map] at i1
    have hpos := rulePosition_first_zero _ i i2 i3
    have := o6 i (by omega)
    rw [hpos] at this
    rw [this, ← getD_map_base _ _ i1]
    exact i2


theorem arguments_length (context : Context) (name : Line) :
    (context.arguments name).length = context.GetNumArguments name := by
  simp [Context.arguments]

/-- What holds of the variables of the loop over the /extend arguments after the loop. -/
theorem parseArguments_invariant (context : Context) (image : ProcessImage) :
    (∀ e ∈ (ExtendedVisitor.parseArguments context image).1.labelToStateNumber,
        e.2 < (ExtendedVisitor.parseArguments context image).1.labelToStateNumber.length)
    ∧ (∀ spec ∈ (ExtendedVisitor.parseArguments context image).1.specifications,
        spec._baseState = 0)
    ∧ (ExtendedVisitor.parseArguments context image).1.specifications.length
        ≤ context.GetNumArguments (bytesOf "extend")
    ∧ 0 < (ExtendedVisitor.parseArguments context image).1.labelToStateNumber.length
    ∧ ((ExtendedVisitor.parseArguments context image).1._hasErrors = false →
        (ExtendedVisitor.parseArguments context image).1.specifications.length
          = context.GetNumArguments (bytesOf "extend")) := by
  have hgen : ∀ (e : Error) (b : Bool),
      (∀ x ∈ ((context.arguments (bytesOf "extend")).foldl parseRule
            (ParseState.initial e b)).labelToStateNumber,
          x.2 < ((context.arguments (bytesOf "extend")).foldl parseRule
            (ParseState.initial e b)).labelToStateNumber.length)
      ∧ (∀ spec ∈ ((context.arguments (bytesOf "extend")).foldl parseRule
            (ParseState.initial e b)).specifications, spec._baseState = 0)
      ∧ ((context.arguments (bytesOf "extend")).foldl parseRule
            (ParseState.initial e b)).specifications.length
          ≤ context.GetNumArguments (bytesOf "extend")
      ∧ 0 < ((context.arguments (bytesOf "extend")).foldl parseRule
            (ParseState.initial e b)).labelToStateNumber.length
      ∧ (((context.arguments (bytesOf "extend")).foldl parseRule
            (ParseState.initial e b))._hasErrors = false →
          ((context.arguments (bytesOf "extend")).foldl parseRule
            (ParseState.initial e b)).specifications.length
            = context.GetNumArguments (bytesOf "extend")) := by
    intro e b
    rw [← arguments_length]
    obtain ⟨q1, q2, q3, q4, q5⟩ := parseLoop_invariant (context.arguments (bytesOf "extend"))
      (ParseState.initial e b) 0 (by simp [ParseState.initial])
      (by simp [ParseState.initial]) (by simp [ParseState.initial])
      (by simp [ParseState.initial])
    refine ⟨q1, q2, by omega, q4, ?_⟩
    intro he
    have := q5 he rfl
    omega
  exact hgen _ _

theorem compile_hasErrors (context : Context) (image : ProcessImage) (allow : Bool)
    (h : (ExtendedVisitor.compile context image allow)._hasErrors = false) :
    (ExtendedVisitor.parseArguments context image).1._hasErrors = false := by
  unfold ExtendedVisitor.compile at h
  simp only [] at h
  cases hc : (ExtendedVisitor.parseArguments context image).1._hasErrors
  · rfl
  · have := (checkRules_mono allow
      ((List.range (orderRules (ExtendedVisitor.parseArguments context image).1).1.length).map
        (fun i => Rule.ofSpecification image
          ((orderRules (ExtendedVisitor.parseArguments context image).1).1.getD
            ((orderRules (ExtendedVisitor.parseArguments context image).1).2.2.getD i 0)
            Specification.initial)))
      ((ExtendedVisitor.parseArguments context image).1.error,
       (ExtendedVisitor.parseArguments context image).1._hasErrors)).2 hc
    rw [this] at h
    cases h

theorem compile_rules (context : Context) (image : ProcessImage) (allow : Bool) :
    (ExtendedVisitor.compile context image allow)._rules
      = (List.range (acceptedRules context image).length).map (fun i =>
          Rule.ofSpecification image
            ((acceptedRules context image).getD
              ((orderRules (ExtendedVisitor.parseArguments context image).1).2.2.getD i 0)
              Specification.initial)) := rfl

theorem compile_isEnabled (context : Context) (image : ProcessImage) (allow : Bool) :
    (ExtendedVisitor.compile context image allow)._isEnabled = false := rfl

/-- The stages of the constructor after the loop over the rules (lines 225-246), when no
error was recorded before them. -/
theorem new_of_no_errors (context : Context) (image : ProcessImage) (allow : Bool)
    (hnum : context.GetNumArguments (bytesOf "extend") ≠ 0)
    (hsize : context.GetNumArguments (bytesOf "extend") < SIZE_LIMIT)
    (herr : (ExtendedVisitor.compile context image allow)._hasErrors = false) :
    ((∃ spec ∈ acceptedRules context image, spec._baseState = 0) →
      ExtendedVisitor.new context image allow
        = some { ExtendedVisitor.compile context image allow with
                  _isEnabled := true, _graph := image.GetAllocationGraph,
                  _hasErrors := image.GetAllocationGraph.isNone })
    ∧ ((∀ spec ∈ acceptedRules context image, spec._baseState ≠ 0) →
      ExtendedVisitor.new context image allow
        = some { ExtendedVisitor.compile context image allow with
                  error := (ExtendedVisitor.compile context image allow).error.write
                    noBaseRuleMsg,
                  _hasErrors := true }) := by
  obtain ⟨p1, p2, p3, p4, p5⟩ := parseArguments_invariant context image
  have hlen := p5 (compile_hasErrors context image allow herr)
  have hpos : 0 < (ExtendedVisitor.parseArguments context image).1.specifications.length := by
    omega
  have hlt : (ExtendedVisitor.parseArguments context image).1.specifications.length
      < SIZE_LIMIT := by omega
  obtain ⟨o1, -⟩ := orderRules_spec _ p1 p2 hpos hlt p4
  have hbase := first_rule_base _ p1 p2 hpos hlt p4
  have hacc : 0 < (acceptedRules context image).length := by
    unfold acceptedRules
    omega
  have hrule : (ExtendedVisitor.compile context image allow)._rules[0]?
      = some (Rule.ofSpecification image
          ((acceptedRules context image).getD
            ((orderRules (ExtendedVisitor.parseArguments context image).1).2.2.getD 0 0)
            Specification.initial)) := by
    rw [compile_rules]
    simp [hacc]
  constructor
  · intro h
    have h0 := hbase.mpr h
    unfold ExtendedVisitor.new
    rw [if_neg hnum]
    simp only [herr, hrule, Bool.not_false, if_true]
    have h1 : ¬ (Rule.ofSpecification image
        ((acceptedRules context image).getD
          ((orderRules (ExtendedVisitor.parseArguments context image).1).2.2.getD 0 0)
          Specification.initial))._baseState ≠ 0 := not_not.mpr h0
    rw [if_neg h1]
  · intro h
    have h0 : ((acceptedRules context image).getD
        ((orderRules (ExtendedVisitor.parseArguments context image).1).2.2.getD 0 0)
        Specification.initial)._baseState ≠ 0 := by
      intro hz
      obtain ⟨spec, hs, hb⟩ := hbase.mp hz
      exact h spec hs hb
    unfold ExtendedVisitor.new
    rw [if_neg hnum]
    simp only [herr, hrule, Bool.not_false, if_true]
    have h1 : (Rule.ofSpecification image
        ((acceptedRules context image).getD
          ((orderRules (ExtendedVisitor.parseArguments context image).1).2.2.getD 0 0)
          Specification.initial))._baseState ≠ 0 := h0
    rw [if_pos h1]

set_option maxRecDepth 100000 in
/-- C5 (counterexample): the claim as stated fails in both of its halves.  For the rules
"x->=>x" and "@" the only accepted rule has base state 1, so that no accepted rule
applies to state 0, and yet the only line on the error stream is the report that "@" is
ill formed: the message about the set to be extended is not written.  For the rule "->"
and a process image without allocation graph the engine is enabled (with HasErrors
true). -/
theorem base_state_message_skipped_and_enabled_without_graph :
    ((acceptedRules (contextOf ["describe", "allocations", "/extend", "x->=>x", "/extend", "@"])
          (plainProcessImage (some emptyGraph))).map (fun spec => spec._baseState) = [1]
      ∧ (ExtendedVisitor.new
            (contextOf ["describe", "allocations", "/extend", "x->=>x", "/extend", "@"])
            (plainProcessImage (some emptyGraph)) false).map
          (fun v => (v.error.cerr, v.HasErrors, v.IsEnabled))
        = some ([illFormedMsg (bytesOf "@")], true, false)
      ∧ noBaseRuleMsg ≠ illFormedMsg (bytesOf "@"))
    ∧ ((plainProcessImage none).GetAllocationGraph.isNone = true
      ∧ (ExtendedVisitor.new (contextOf ["list", "used", "/extend", "->"])
            (plainProcessImage none) false).map
          (fun v => (v.IsEnabled, v.HasErrors, v.error.cerr))
        = some (true, true, [])) := by
  decide

/-- C5 (amended): the constructor of ExtendedVisitor always yields a visitor.  Given
fewer than 2^64 /extend arguments, its engine is enabled exactly when at least one
/extend argument was given, no error was recorded before line 225 and some accepted rule
has base state 0.  When at least one /extend argument was given, no error was recorded
before line 225 and no accepted rule has base state 0, the constructor reports "None of
the extension rules can be applied to the set to be extended.", sets HasErrors and leaves
the engine disabled; when an error was recorded before line 225, nothing more is written
to the error stream, HasErrors stays set and the engine stays disabled.  An enabled
engine has HasErrors set exactly when the allocation graph is not available. -/
theorem base_state_rule_check (context : Context) (image : ProcessImage)
    (allowMissingSignatures : Bool)
    (hsize : context.GetNumArguments (bytesOf "extend") < SIZE_LIMIT) :
    ∃ v, ExtendedVisitor.new context image allowMissingSignatures = some v
      ∧ (v.IsEnabled = true ↔
          (context.GetNumArguments (bytesOf "extend") ≠ 0
            ∧ (ExtendedVisitor.compile context image allowMissingSignatures)._hasErrors = false
            ∧ ∃ spec ∈ acceptedRules context image, spec._baseState = 0))
      ∧ (context.GetNumArguments (bytesOf "extend") ≠ 0 →
          (ExtendedVisitor.compile context image allowMissingSignatures)._hasErrors = false →
          (∀ spec ∈ acceptedRules context image, spec._baseState ≠ 0) →
          v.error
              = (ExtendedVisitor.compile context image allowMissingSignatures).error.write
                  noBaseRuleMsg
            ∧ noBaseRuleMsg ∈ v.error.cerr ∧ v.HasErrors = true ∧ v.IsEnabled = false)
      ∧ (context.GetNumArguments (bytesOf "extend") ≠ 0 →
          (ExtendedVisitor.compile context image allowMissingSignatures)._hasErrors = true →
          v.error = (ExtendedVisitor.compile context image allowMissingSignatures).error
            ∧ v.HasErrors = true ∧ v.IsEnabled = false)
      ∧ (v.IsEnabled = true → v.HasErrors = image.GetAllocationGraph.isNone) := by
  by_cases hnum : context.GetNumArguments (bytesOf "extend") = 0
  · refine ⟨ExtendedVisitor.initial context, ?_, ?_, ?_, ?_, ?_⟩
    · unfold ExtendedVisitor.new
      rw [if_pos hnum]
    · constructor
      · intro h
        cases h
      · intro h
        exact absurd hnum h.1
    · intro h
      exact absurd hnum h
    · intro h
      exact absurd hnum h
    · intro h
      cases h
  · cases herr : (ExtendedVisitor.compile context image allowMissingSignatures)._hasErrors
    · obtain ⟨e1, e2⟩ := new_of_no_errors context image allowMissingSignatures hnum hsize herr
      by_cases hbase : ∃ spec ∈ acceptedRules context image, spec._baseState = 0
      · refine ⟨_, e1 hbase, ?_, ?_, ?_, ?_⟩
        · exact ⟨fun _ => ⟨hnum, rfl, hbase⟩, fun _ => rfl⟩
        · intro _ _ hall
          obtain ⟨spec, hs, hb⟩ := hbase
          exact absurd hb (hall spec hs)
        · intro _ h
          cases h
        · intro _
          rfl
      · have hall : ∀ spec ∈ acceptedRules context image, spec._baseState ≠ 0 :=
          fun spec hs hb => hbase ⟨spec, hs, hb⟩
        have hdis := compile_isEnabled context image allowMissingSignatures
        refine ⟨_, e2 hall, ?_, ?_, ?_, ?_⟩
        · constructor
          · intro h
            exact absurd (hdis.symm.trans h) (by decide)
          · intro h
            exact absurd h.2.2 hbase
        · intro _ _ _
          exact ⟨rfl, write_cerr_mem _ _, rfl, hdis⟩
        · intro _ h
          cases h
        · intro h
          exact absurd (hdis.symm.trans h) (by decide)
    · have hdis := compile_isEnabled context image allowMissingSignatures
      refine ⟨ExtendedVisitor.compile context image allowMissingSignatures, ?_, ?_, ?_, ?_, ?_⟩
      · unfold ExtendedVisitor.new
        rw [if_neg hnum]
        simp [herr]
      · constructor
        · intro h
          exact absurd (hdis.symm.trans h) (by decide)
        · intro h
          cases h.2.1
      · intro _ h
        cases h
      · intro _ _
        exact ⟨rfl, herr, hdis⟩
      · intro h
        exact absurd (hdis.symm.trans h) (by decide)

set_option maxRecDepth 100000 in
theorem base_state_rule_check_witness :
    (contextOf ["describe", "allocations", "/extend", "x->=>x"]).GetNumArguments
        (bytesOf "extend") < SIZE_LIMIT
    ∧ ∃ v, ExtendedVisitor.new (contextOf ["describe", "allocations", "/extend", "x->=>x"])
          (plainProcessImage (some emptyGraph)) false = some v
      ∧ (v.IsEnabled = true ↔
          ((contextOf ["describe", "allocations", "/extend", "x->=>x"]).GetNumArguments
              (bytesOf "extend") ≠ 0
            ∧ (ExtendedVisitor.compile (contextOf ["describe", "allocations", "/extend", "x->=>x"])
                (plainProcessImage (some emptyGraph)) false)._hasErrors = false
            ∧ ∃ spec ∈ acceptedRules (contextOf ["describe", "allocations", "/extend", "x->=>x"])
                (plainProcessImage (some emptyGraph)), spec._baseState = 0))
      ∧ ((contextOf ["describe", "allocations", "/extend", "x->=>x"]).GetNumArguments
            (bytesOf "extend") ≠ 0 →
          (ExtendedVisitor.compile (contextOf ["describe", "allocations", "/extend", "x->=>x"])
            (plainProcessImage (some emptyGraph)) false)._hasErrors = false →
          (∀ spec ∈ acceptedRules (contextOf ["describe", "allocations", "/extend", "x->=>x"])
            (plainProcessImage (some emptyGraph)), spec._baseState ≠ 0) →
          v.error
              = (ExtendedVisitor.compile (contextOf ["describe", "allocations", "/extend", "x->=>x"])
                  (plainProcessImage (some emptyGraph)) false).error.write noBaseRuleMsg
            ∧ noBaseRuleMsg ∈ v.error.cerr ∧ v.HasErrors = true ∧ v.IsEnabled = false)
      ∧ ((contextOf ["describe", "allocations", "/extend", "x->=>x"]).GetNumArguments
            (bytesOf "extend") ≠ 0 →
          (ExtendedVisitor.compile (contextOf ["describe", "allocations", "/extend", "x->=>x"])
            (plainProcessImage (some emptyGraph)) false)._hasErrors = true →
          v.error = (ExtendedVisitor.compile
              (contextOf ["describe", "allocations", "/extend", "x->=>x"])
              (plainProcessImage (some emptyGraph)) false).error
            ∧ v.HasErrors = true ∧ v.IsEnabled = false)
      ∧ (v.IsEnabled = true →
          v.HasErrors = (plainProcessImage (some emptyGraph)).GetAllocationGraph.isNone) :=
  ⟨by decide,
    base_state_rule_check (contextOf ["describe", "allocations", "/extend", "x->=>x"])
      (plainProcessImage (some emptyGraph)) false (by decide)⟩

end Allocations

namespace Python

open Commands Allocations

theorem finder_add_eq (env : FinderEnv) (a b : Nat) (h : a + b < env.limit) : env.add a b = a + b :=
  Nat.mod_eq_of_lt h

theorem finder_mul_eq (env : FinderEnv) (a b : Nat) (h : a * b < env.limit) : env.mul a b = a * b :=
  Nat.mod_eq_of_lt h

theorem finder_sub_eq (env : FinderEnv) (a b : Nat) (h1 : b ≤ a) (h2 : a < env.limit) :
    env.sub a b = a - b := by
  unfold FinderEnv.sub
  have hb : b % env.limit = b := Nat.mod_eq_of_lt (by omega)
  rw [hb]
  have : a + env.limit - b = (a - b) + env.limit := by omega
  rw [this, Nat.add_mod_right]
  exact Nat.mod_eq_of_lt (by omega)

theorem setUsed_ok (v : List Bool) (i : Nat) (b : Bool) (h : i < v.length) :
    setUsed v i b = .ok (v.set i b) := by
  unfold setUsed
  rw [if_pos h]

/-- The loops at lines 192-197 set the flags of a range that lies inside the vector. -/
theorem setUsedRange_ok (b : Bool) : ∀ (count i : Nat) (v : List Bool), i + count ≤ v.length →
    ∃ v1, setUsedRange b count i v = .ok v1 ∧ v1.length = v.length
      ∧ ∀ j, v1[j]? = if i ≤ j ∧ j < i + count then some b else v[j]? := by
  intro count
  induction count with
  | zero =>
    intro i v _
    refine ⟨v, rfl, rfl, ?_⟩
    intro j
    rw [if_neg (by omega)]
  | succ n ih =>
    intro i v h
    obtain ⟨v1, h1, h2, h3⟩ := ih (i + 1) (v.set i b) (by simp; omega)
    refine ⟨v1, ?_, ?_, ?_⟩
    · unfold setUsedRange
      rw [setUsed_ok v i b (by omega)]
      exact h1
    · simpa using h2
    · intro j
      rw [h3 j]
      by_cases hj : i = j
      · subst hj
        have hl : i < v.length := by omega
        simp [hl]
      · by_cases hj2 : i + 1 ≤ j ∧ j < i + 1 + n
        · rw [if_pos hj2, if_pos (by omega)]
        · rw [if_neg hj2, if_neg (by omega)]
          simp [List.getElem?_set, hj]

theorem map_and_not_nil (o : Option Bool) (j : Nat) (f : Nat → Nat) :
    o = o.map (fun used => used && !([] : List Nat).any (fun a => f a == j)) := by
  cases o <;> simp

/-- The walk of the free list clears the flags of the blocks that hold its entries. -/
theorem walkFreeList_ok (env : FinderEnv) (pool block blockSize blocksLimit : Nat) :
    ∀ (fuel freeBlock : Nat) (v : List Bool) (cerr : List OutputItem) (entries : List Nat),
      freeListEntries env block blocksLimit fuel freeBlock = some entries →
      (∀ a, block ≤ a → a < blocksLimit → env.sub a block / blockSize < v.length) →
      ∃ v1 cerr1, walkFreeList env pool block blockSize blocksLimit fuel freeBlock v cerr
          = .ok (v1, cerr1)
        ∧ v1.length = v.length
        ∧ ∀ j, v1[j]? = (v[j]?).map (fun used =>
            used && !entries.any (fun a => env.sub a block / blockSize == j)) := by
  intro fuel
  induction fuel with
  | zero =>
    intro freeBlock v cerr entries h hr
    unfold freeListEntries at h
    unfold walkFreeList
    split at h
    · rename_i h0
      rw [if_pos h0]
      cases h
      exact ⟨v, cerr, rfl, rfl, fun j => map_and_not_nil _ _ _⟩
    · rename_i h0
      split at h
      · rename_i h1
        rw [if_neg h0, if_pos h1]
        cases h
        exact ⟨v, _, rfl, rfl, fun j => map_and_not_nil _ _ _⟩
      · cases h
  | succ n ih =>
    intro freeBlock v cerr entries h hr
    unfold freeListEntries at h
    unfold walkFreeList
    split at h
    · rename_i h0
      rw [if_pos h0]
      cases h
      exact ⟨v, cerr, rfl, rfl, fun j => map_and_not_nil _ _ _⟩
    · rename_i h0
      split at h
      · rename_i h1
        rw [if_neg h0, if_pos h1]
        cases h
        exact ⟨v, _, rfl, rfl, fun j => map_and_not_nil _ _ _⟩
      · rename_i h1
        rw [if_neg h0, if_neg h1]
        simp only [] at h
        cases hes : freeListEntries env block blocksLimit n
            (env.memory.ReadOffsetOr freeBlock 0) with
        | none =>
          rw [hes] at h
          cases h
        | some es =>
          rw [hes] at h
          simp only [Option.map_some', Option.some.injEq] at h
          subst h
          have hidx := hr freeBlock (by omega) (by omega)
          simp only []
          rw [setUsed_ok _ _ _ hidx]
          obtain ⟨v1, cerr1, w1, w2, w3⟩ := ih (env.memory.ReadOffsetOr freeBlock 0)
            (v.set (env.sub freeBlock block / blockSize) false) cerr es hes
            (by simpa using hr)
          refine ⟨v1, cerr1, w1, by simpa using w2, ?_⟩
          intro j
          rw [w3 j]
          by_cases hj : env.sub freeBlock block / blockSize = j
          · subst hj
            simp [hidx]
          · simp only [List.getElem?_set, hj, if_false, List.any_cons]
            have : (env.sub freeBlock block / blockSize == j) = false := by simpa using hj
            rw [this]
            simp

/-- From a block that is not the last one of its pool, Advance goes to the next block. -/
theorem Advance_atBlock (env : FinderEnv) (fuel : Nat) (f : BlockAllocationFinder)
    (pool block blockSize numBlocks : Nat) (v : List Bool) (i : Nat)
    (h : AtBlock env f pool block blockSize numBlocks v i)
    (hi : i + 1 < numBlocks) (hlim : block + numBlocks * blockSize ≤ env.limit)
    (hbs : blockSize ≠ env._poolSize) (hpos : 0 < blockSize) (hv : numBlocks ≤ v.length)
    (hn : numBlocks ≤ SIZE_LIMIT) :
    ∃ f1, f.Advance env fuel = .ok f1
      ∧ AtBlock env f1 pool block blockSize numBlocks v (i + 1) := by
  obtain ⟨h1, h2, h3, h4, h5, h6, h7, h8, h9, h10⟩ := h
  obtain ⟨it, used, arena, firstPool, poolsLimit, pool0, blockSize0, block0, blockIndex0,
    blocksLimit0, address0, size0, isUsed0, cerr0⟩ := f
  simp only at h1 h2 h3 h4 h5 h6 h7 h8 h9
  subst h1 h2 h3 h4 h5 h6 h7 h8
  have hmul : (blockIndex0 + 1) * size0 < numBlocks * size0 :=
    Nat.mul_lt_mul_of_pos_right hi hpos
  have hexp : (blockIndex0 + 1) * size0 = blockIndex0 * size0 + size0 := by
    rw [Nat.add_mul]
    omega
  have hadd : env.add (block + blockIndex0 * size0) size0 = block + (blockIndex0 + 1) * size0 := by
    rw [finder_add_eq env _ _ (by omega)]
    omega
  have hidx : (blockIndex0 + 1) % SIZE_LIMIT = blockIndex0 + 1 := Nat.mod_eq_of_lt (by omega)
  have hlt : blockIndex0 + 1 < used.length := by omega
  have hget : used[blockIndex0 + 1]? = some (used.get ⟨blockIndex0 + 1, hlt⟩) := List.getElem?_eq_getElem hlt
  have hfin : it ≠ env._activeIndices.length := by
    simpa [BlockAllocationFinder.Finished] using h10
  have hnext : AdvanceToNextAllocationOfArena env fuel
        { _itActiveIndices := it, _blockUsedInPool := used, _arena := arena,
          _firstPool := firstPool, _poolsLimit := poolsLimit, _pool := pool0,
          _blockSize := size0, _block := block + blockIndex0 * size0, _blockIndex := blockIndex0,
          _blocksLimit := block + numBlocks * size0,
          _allocationAddress := block + blockIndex0 * size0, _allocationSize := size0,
          _allocationIsUsed := isUsed0, cerr := cerr0 }
      = .ok (true,
        { _itActiveIndices := it, _blockUsedInPool := used, _arena := arena,
          _firstPool := firstPool, _poolsLimit := poolsLimit, _pool := pool0,
          _blockSize := size0, _block := block + (blockIndex0 + 1) * size0,
          _blockIndex := blockIndex0 + 1, _blocksLimit := block + numBlocks * size0,
          _allocationAddress := block + (blockIndex0 + 1) * size0, _allocationSize := size0,
          _allocationIsUsed := used.get ⟨blockIndex0 + 1, hlt⟩, cerr := cerr0 }) := by
    unfold AdvanceToNextAllocationOfArena
    simp only [hbs, ne_eq, not_false_eq_true, if_true, hadd, hidx]
    rw [if_pos (by omega), hget]
  refine Exists.intro _ (And.intro (?_ : _ = Except.ok
    { _itActiveIndices := it, _blockUsedInPool := used, _arena := arena,
      _firstPool := firstPool, _poolsLimit := poolsLimit, _pool := pool0,
      _blockSize := size0, _block := block + (blockIndex0 + 1) * size0,
      _blockIndex := blockIndex0 + 1, _blocksLimit := block + numBlocks * size0,
      _allocationAddress := block + (blockIndex0 + 1) * size0, _allocationSize := size0,
      _allocationIsUsed := used.get ⟨blockIndex0 + 1, hlt⟩, cerr := cerr0 }) ?_)
  · unfold BlockAllocationFinder.Advance
    rw [if_pos hfin, hnext]
  · unfold AtBlock
    refine ⟨rfl, rfl, rfl, rfl, rfl, rfl, rfl, rfl, hget, ?_⟩
    simpa [BlockAllocationFinder.Finished] using hfin

/-- The reports of the blocks of a pool from the block i on. -/
theorem reportedFrom_atBlock (env : FinderEnv) (fuel : Nat)
    (pool block blockSize numBlocks : Nat) (v : List Bool)
    (hlim : block + numBlocks * blockSize ≤ env.limit)
    (hbs : blockSize ≠ env._poolSize) (hpos : 0 < blockSize) (hv : numBlocks ≤ v.length)
    (hn : numBlocks ≤ SIZE_LIMIT) :
    ∀ (k i : Nat) (f : BlockAllocationFinder),
      AtBlock env f pool block blockSize numBlocks v i → i + k ≤ numBlocks →
      reportedFrom env fuel k f = (List.range k).map (fun d =>
        { address := block + (i + d) * blockSize, size := blockSize,
          used := v.getD (i + d) true, pool := pool }) := by
  intro k
  induction k with
  | zero =>
    intro i f _ _
    rfl
  | succ k ih =>
    intro i f h hk
    have hf := h
    obtain ⟨h1, h2, h3, h4, h5, h6, h7, h8, h9, h10⟩ := h
    rw [List.range_succ_eq_map, List.map_cons, List.map_map]
    unfold reportedFrom
    rw [h10]
    simp only [Bool.false_eq_true, if_false, BlockAllocationFinder.NextAddress,
      BlockAllocationFinder.NextSize, BlockAllocationFinder.NextIsUsed, h7, h8, h1]
    have hused : f._allocationIsUsed = v.getD i true := by
      simp [List.getD_eq_getElem?_getD, h9]
    congr 1
    · rw [hused]
      rfl
    · cases k with
      | zero =>
        cases f.Advance env fuel <;> rfl
      | succ k =>
        obtain ⟨f1, a1, a2⟩ := Advance_atBlock env fuel f pool block blockSize numBlocks v i hf
          (by omega) hlim hbs hpos hv hn
        rw [a1]
        simp only []
        rw [ih (i + 1) f1 a2 (by omega)]
        apply List.map_congr_left
        intro d _
        simp only [Function.comp, Nat.succ_eq_add_one]
        have : i + 1 + d = i + (d + 1) := by omega
        rw [this]

/-- The entries that the walk of the free list visits are addresses of bytes of blocks. -/
theorem freeListEntries_range (env : FinderEnv) (block blocksLimit : Nat) :
    ∀ (fuel freeBlock : Nat) (entries : List Nat),
      freeListEntries env block blocksLimit fuel freeBlock = some entries →
      ∀ a ∈ entries, block ≤ a ∧ a < blocksLimit := by
  intro fuel
  induction fuel with
  | zero =>
    intro freeBlock entries h
    unfold freeListEntries at h
    split at h
    · cases h
      simp
    · split at h
      · cases h
        simp
      · cases h
  | succ n ih =>
    intro freeBlock entries h
    unfold freeListEntries at h
    split at h
    · cases h
      simp
    · split at h
      · cases h
        simp
      · rename_i h1
        simp only [] at h
        cases hes : freeListEntries env block blocksLimit n
            (env.memory.ReadOffsetOr freeBlock 0) with
        | none =>
          rw [hes] at h
          cases h
        | some es =>
          rw [hes] at h
          simp only [Option.map_some', Option.some.injEq] at h
          subst h
          intro a ha
          rcases List.mem_cons.mp ha with rfl | ha
          · omega
          · exact ih _ es hes a ha

theorem any_congr_mem (l : List Nat) (p q : Nat → Bool) (h : ∀ a ∈ l, p a = q a) :
    l.any p = l.any q := by
  induction l with
  | nil => rfl
  | cons a l ih =>
    simp only [List.any_cons]
    rw [h a (List.mem_cons_self a l), ih (fun b hb => h b (List.mem_cons_of_mem a hb))]

theorem limit_le_SIZE_LIMIT (env : FinderEnv) (h : env.sizeofOffset ≤ 8) :
    env.limit ≤ SIZE_LIMIT := by
  unfold FinderEnv.limit SIZE_LIMIT
  exact Nat.pow_le_pow_right (by decide) (by omega)

/-- C11 (amended): when the header of a pool with blocks is inconsistent in its
next-offset field, every block of the pool is reported, with used = true unless the
free list of the pool holds an address of the block, in which case used = false. -/
theorem corrupt_header_blocks_used_unless_free (env : FinderEnv) (fuel : Nat)
    (f : BlockAllocationFinder) (sizeField nextOffset : Nat) (entries : List Nat)
    (hso : 0 < env.sizeofOffset) (hso8 : env.sizeofOffset ≤ 8)
    (hlimit : f._pool + env._poolSize < env.limit)
    (hvec : f._blockUsedInPool.length = (env._poolSize - 0x30) / env.sizeofOffset)
    (hactive : f.Finished env = false)
    (hcount : env.memory.ReadU32 f._pool 0 ≠ 0)
    (hsize : env.memory.ReadU32 (f._pool + 0x2c) 0 = sizeField)
    (hsize1 : 0x30 ≤ sizeField) (hsize2 : sizeField + env.sizeofOffset ≤ env._poolSize)
    (hnext : env.memory.ReadU32 (f._pool + (4 * env.sizeofOffset + 2 * 4)) 0 = nextOffset)
    (hnext1 : nextOffset < env.limit)
    (hbad : nextOffset < 0x30
      ∨ (nextOffset - 0x30) % (env._poolSize - sizeField) ≠ 0
      ∨ (env._poolSize - 0x30) / (env._poolSize - sizeField)
          < (nextOffset - 0x30) / (env._poolSize - sizeField))
    (hfree : freeListEntries env (f._pool + 0x30)
        (f._pool + 0x30 + (env._poolSize - sizeField)
          * ((env._poolSize - 0x30) / (env._poolSize - sizeField)))
        fuel (env.memory.ReadOffsetOr (f._pool + 8) 0) = some entries) :
    ∃ f1, AdvanceToFirstBlockOfPool env fuel f = .ok (true, f1)
      ∧ reportedFrom env fuel ((env._poolSize - 0x30) / (env._poolSize - sizeField)) f1
        = (List.range ((env._poolSize - 0x30) / (env._poolSize - sizeField))).map (fun i =>
            { address := f._pool + 0x30 + i * (env._poolSize - sizeField),
              size := env._poolSize - sizeField,
              used := !entries.any (fun a =>
                (a - (f._pool + 0x30)) / (env._poolSize - sizeField) == i),
              pool := f._pool }) := by
  generalize hbs : env._poolSize - sizeField = bs at *
  generalize hnb : (env._poolSize - 0x30) / bs = numBlocks at *
  have hbspos : 0 < bs := by omega
  have hnbmul : bs * numBlocks ≤ env._poolSize - 0x30 := by
    rw [← hnb]
    exact Nat.mul_div_le _ _
  have hps : env._poolSize < env.limit := by omega
  have hnbpos : 0 < numBlocks := by
    rw [← hnb]
    exact Nat.div_pos (by omega) hbspos
  have h2c : env.add f._pool 0x2c = f._pool + 0x2c :=
    finder_add_eq env f._pool 0x2c (by omega)
  have h30 : env.add f._pool 0x30 = f._pool + 0x30 :=
    finder_add_eq env f._pool 0x30 (by omega)
  have h8 : env.add f._pool 8 = f._pool + 8 := finder_add_eq env f._pool 8 (by omega)
  have h28 : env.add f._pool (4 * env.sizeofOffset + 2 * 4)
      = f._pool + (4 * env.sizeofOffset + 2 * 4) :=
    finder_add_eq env f._pool (4 * env.sizeofOffset + 2 * 4) (by omega)
  have hszmod : sizeField % env.limit = sizeField := Nat.mod_eq_of_lt (by omega)
  have hnextmod : nextOffset % env.limit = nextOffset := Nat.mod_eq_of_lt hnext1
  have hblockSize :
      env.sub env._poolSize (env.memory.ReadU32 (env.add f._pool 0x2c) 0 % env.limit) = bs := by
    rw [h2c, hsize, hszmod, finder_sub_eq env env._poolSize sizeField (by omega) hps]
    exact hbs
  have hne : bs ≠ env._poolSize := by omega
  have hne0 : bs ≠ 0 := by omega
  have hsub30 : env.sub env._poolSize 0x30 = env._poolSize - 0x30 :=
    finder_sub_eq env env._poolSize 0x30 (by omega) hps
  have hmul : env.mul bs numBlocks = bs * numBlocks := finder_mul_eq env bs numBlocks (by omega)
  have hblocksLimit :
      env.add (f._pool + 0x30) (bs * numBlocks) = f._pool + 0x30 + bs * numBlocks :=
    finder_add_eq env (f._pool + 0x30) (bs * numBlocks) (by omega)
  have hcorrupt : (decide (nextOffset < 0x30)
      || decide ((env.sub nextOffset 0x30) / bs > numBlocks)
      || decide (nextOffset ≠ env.add 0x30 (env.mul ((env.sub nextOffset 0x30) / bs) bs)))
      = true := by
    by_cases hlow : nextOffset < 0x30
    · simp [hlow]
    · have hsubn : env.sub nextOffset 0x30 = nextOffset - 0x30 :=
        finder_sub_eq env nextOffset 0x30 (by omega) hnext1
      rw [hsubn]
      by_cases hmany : (nextOffset - 0x30) / bs > numBlocks
      · simp [hmany]
      · have hrem : (nextOffset - 0x30) % bs ≠ 0 := by
          rcases hbad with h | h | h
          · exact absurd h hlow
          · exact h
          · exact absurd h hmany
        have hdm := Nat.div_add_mod (nextOffset - 0x30) bs
        have hcomm : (nextOffset - 0x30) / bs * bs = bs * ((nextOffset - 0x30) / bs) :=
          Nat.mul_comm _ _
        have hmulq : env.mul ((nextOffset - 0x30) / bs) bs = (nextOffset - 0x30) / bs * bs :=
          finder_mul_eq env _ bs (by omega)
        have haddq : env.add 0x30 ((nextOffset - 0x30) / bs * bs)
            = 0x30 + (nextOffset - 0x30) / bs * bs :=
          finder_add_eq env 0x30 _ (by omega)
        rw [hmulq, haddq]
        have : nextOffset ≠ 0x30 + (nextOffset - 0x30) / bs * bs := by omega
        simp [this]
  have hnbv : numBlocks ≤ f._blockUsedInPool.length := by
    rw [hvec, ← hnb]
    exact Nat.div_le_div_left (by omega) hso
  obtain ⟨v1, s1, s2, s3⟩ := setUsedRange_ok true numBlocks 0 f._blockUsedInPool (by omega)
  have hrange2 : setUsedRange false (numBlocks - numBlocks) numBlocks v1 = .ok v1 := by
    rw [Nat.sub_self]
    rfl
  obtain ⟨v3, cerr3, w1, w2, w3⟩ := walkFreeList_ok env f._pool (f._pool + 0x30) bs
    (f._pool + 0x30 + bs * numBlocks) fuel (env.memory.ReadOffsetOr (f._pool + 8) 0) v1
    (f.cerr ++ [.text (bytesOf "Warning: Probable corruption in header for python pool at 0x"),
      .hex, .num f._pool, .text [NEWLINE]]) entries hfree
    (by
      intro a ha1 ha2
      rw [finder_sub_eq env a (f._pool + 0x30) ha1 (by omega), s2]
      have : (a - (f._pool + 0x30)) / bs < numBlocks := by
        rw [Nat.div_lt_iff_lt_mul hbspos, Nat.mul_comm]
        omega
      omega)
  have hfirst : AdvanceToFirstBlockOfPool env fuel f = .ok (true,
      { f with _blockSize := bs, _blockIndex := 0, _block := f._pool + 0x30,
               _blocksLimit := f._pool + 0x30 + bs * numBlocks,
               _blockUsedInPool := v3, cerr := cerr3,
               _allocationAddress := f._pool + 0x30, _allocationSize := bs,
               _allocationIsUsed := v3.getD 0 true }) := by
    unfold AdvanceToFirstBlockOfPool
    rw [if_neg hcount]
    simp only [hblockSize, hne, hne0, if_false, h30, hsub30, hnb, hmul, hblocksLimit, h28,
      hnext, hnextmod, hcorrupt, if_true, s1, hrange2, h8, w1]
    have hlen : 0 < v3.length := by omega
    rw [List.getElem?_eq_getElem hlen]
    simp [List.getD_eq_getElem?_getD, List.getElem?_eq_getElem hlen]
  refine ⟨_, hfirst, ?_⟩
  have hat : AtBlock env
      { f with _blockSize := bs, _blockIndex := 0, _block := f._pool + 0x30,
               _blocksLimit := f._pool + 0x30 + bs * numBlocks,
               _blockUsedInPool := v3, cerr := cerr3,
               _allocationAddress := f._pool + 0x30, _allocationSize := bs,
               _allocationIsUsed := v3.getD 0 true }
      f._pool (f._pool + 0x30) bs numBlocks v3 0 := by
    unfold AtBlock
    have hlen : 0 < v3.length := by omega
    refine ⟨rfl, rfl, by simp, rfl, by simp [Nat.mul_comm], rfl, by simp, rfl, ?_, ?_⟩
    · simp [List.getD_eq_getElem?_getD, List.getElem?_eq_getElem hlen]
    · simpa [BlockAllocationFinder.Finished] using hactive
  rw [reportedFrom_atBlock env fuel f._pool (f._pool + 0x30) bs numBlocks v3
    (by rw [Nat.mul_comm]; omega) hne hbspos (by omega)
    (by
      have h1 := limit_le_SIZE_LIMIT env hso8
      have h2 : numBlocks ≤ bs * numBlocks := Nat.le_mul_of_pos_left _ hbspos
      omega) numBlocks 0 _ hat (by omega)]
  apply List.map_congr_left
  intro d hd
  have hd1 : d < numBlocks := List.mem_range.mp hd
  have hv3 := w3 d
  rw [s3 d, if_pos (by omega)] at hv3
  simp only [Option.map_some'] at hv3
  have hrange := freeListEntries_range env (f._pool + 0x30) (f._pool + 0x30 + bs * numBlocks)
    fuel _ entries hfree
  have hany : entries.any (fun a => env.sub a (f._pool + 0x30) / bs == d)
      = entries.any (fun a => (a - (f._pool + 0x30)) / bs == d) := by
    apply any_congr_mem
    intro a ha
    obtain ⟨r1, r2⟩ := hrange a ha
    rw [finder_sub_eq env a (f._pool + 0x30) r1 (by omega)]
  simp only [Nat.zero_add, List.getD_eq_getElem?_getD, hv3, Option.getD_some, Bool.true_and,
    hany]

set_option maxRecDepth 100000 in
theorem corrupt_header_blocks_used_unless_free_witness :
    (0x31 - 0x30) % (corruptHeaderEnv._poolSize - 0xf00) ≠ 0
    ∧ ∃ f1, AdvanceToFirstBlockOfPool corruptHeaderEnv 10 corruptHeaderFinder = .ok (true, f1)
      ∧ reportedFrom corruptHeaderEnv 10
          ((corruptHeaderEnv._poolSize - 0x30) / (corruptHeaderEnv._poolSize - 0xf00)) f1
        = (List.range
            ((corruptHeaderEnv._poolSize - 0x30) / (corruptHeaderEnv._poolSize - 0xf00))).map
          (fun i =>
            { address := corruptHeaderFinder._pool + 0x30 + i * (corruptHeaderEnv._poolSize - 0xf00),
              size := corruptHeaderEnv._poolSize - 0xf00,
              used := !(List.any [0x200130] (fun a =>
                (a - (corruptHeaderFinder._pool + 0x30)) / (corruptHeaderEnv._poolSize - 0xf00)
                  == i)),
              pool := corruptHeaderFinder._pool }) :=
  ⟨by decide,
    corrupt_header_blocks_used_unless_free corruptHeaderEnv 10 corruptHeaderFinder 0xf00 0x31
      [0x200130] (by decide) (by decide) (by decide) (by decide) (by decide) (by decide)
      (by decide) (by decide) (by decide) (by decide) (by decide) (Or.inr (Or.inl (by decide)))
      (by decide)⟩

set_option maxRecDepth 100000 in
/-- C11 (counterexample): in an image whose first pool header has a next-offset field that
is not 0x30 plus a whole number of blocks, so that the warning about the header is
written, and whose free list holds the second block, the second block of the pool is
reported with used = false. -/
theorem corrupt_header_free_block_reported :
    reportedAllocations corruptHeaderEnv 10 3
      = [{ address := 0x200030, size := 0x100, used := true, pool := 0x200000 },
         { address := 0x200130, size := 0x100, used := false, pool := 0x200000 },
         { address := 0x200230, size := 0x100, used := true, pool := 0x200000 }]
    ∧ (BlockAllocationFinder.new corruptHeaderEnv 10).toOption.map (fun f => f.cerr)
      = some [.text (bytesOf "Warning: Probable corruption in header for python pool at 0x"),
          .hex, .num 0x200000, .text [NEWLINE]]
    ∧ (BlockAllocationFinder.new corruptHeaderEnv 10).toOption
      = (AdvanceToFirstBlockOfPool corruptHeaderEnv 10 corruptHeaderFinder).toOption.map
          (fun r => r.2) := by
  decide

end Python

namespace Commands

theorem replaceSpaces_nil (s : Line) : replaceSpaces s [] = s := by
  cases s <;> rfl

theorem replaceSpaces_cons_other (b : Nat) (s : Line) (mask : List Bool) (h : b ≠ SPACE) :
    replaceSpaces (b :: s) mask = b :: replaceSpaces s (mask.drop 1) := by
  cases mask with
  | nil => simp [replaceSpaces, replaceSpaces_nil]
  | cons m ms =>
    have : (b == SPACE) = false := by simpa using h
    simp [replaceSpaces, this]

theorem replaceSpaces_append (a b : Line) :
    ∀ mask, replaceSpaces (a ++ b) mask
      = replaceSpaces a mask ++ replaceSpaces b (mask.drop a.length) := by
  induction a with
  | nil =>
    intro mask
    simp [replaceSpaces]
  | cons x a ih =>
    intro mask
    cases mask with
    | nil => simp [replaceSpaces, replaceSpaces_nil]
    | cons m ms =>
      simp only [List.cons_append, replaceSpaces, List.length_cons, List.drop_succ_cons]
      rw [show a.append b = a ++ b from rfl, ih ms, List.append_assoc]

theorem replaceSpaces_single (c : Nat) (mask : List Bool) :
    replaceSpaces [c] mask = [c] ∨ (c = SPACE ∧ replaceSpaces [c] mask = [0xc2, 0xa0]) := by
  cases mask with
  | nil => exact Or.inl rfl
  | cons m ms =>
    by_cases h : (m && c == SPACE) = true
    · right
      simp only [Bool.and_eq_true, beq_iff_eq] at h
      exact ⟨h.2, by simp [replaceSpaces, h.1, h.2]⟩
    · left
      simp [replaceSpaces, h]

/-- A run without spaces is not changed. -/
theorem replaceSpaces_run (tok rest : Line) (h : ∀ x ∈ tok, x ≠ SPACE) :
    ∀ mask, replaceSpaces (tok ++ rest) mask = tok ++ replaceSpaces rest (mask.drop tok.length) := by
  induction tok with
  | nil =>
    intro mask
    simp
  | cons x tok ih =>
    intro mask
    rw [List.cons_append, replaceSpaces_cons_other _ _ _ (h x (List.mem_cons_self _ _)),
      ih (fun y hy => h y (List.mem_cons_of_mem _ hy))]
    simp [List.drop_drop, Nat.add_comm]

/-- The first byte of the search range can be left out when it does not match. -/
theorem findFrom_step (p : Nat → Bool) (pre : Line) (c : Nat) (t : Line) (h : p c = false) :
    findFrom p (pre ++ c :: t) 0 pre.length = findFrom p (pre ++ c :: t) 0 (pre.length + 1) := by
  have h1 := findFrom_skip p pre (c :: t) 0
  have h2 := findFrom_skip p (pre ++ [c]) t 0
  simp only [Nat.zero_add, List.append_assoc, List.singleton_append, List.length_append,
    List.length_singleton] at h1 h2
  have gen : ∀ (u : Line) (i : Nat), pre.length + 1 ≤ i →
      findFrom p u i pre.length = findFrom p u i (pre.length + 1) := by
    intro u
    induction u with
    | nil => intro i _; rfl
    | cons e u ihu =>
      intro i hi
      simp only [findFrom]
      have f1 : decide (pre.length ≤ i) = true := decide_eq_true (by omega)
      have f2 : decide (pre.length + 1 ≤ i) = true := decide_eq_true (by omega)
      rw [f1, f2, ihu (i + 1) (by omega)]
  rw [h1, h2]
  simp only [findFrom, h, Bool.and_false, Bool.false_eq_true, if_false]
  exact gen t _ (Nat.le_refl _)

theorem isBlank_not_contains (x : Nat) (h : isBlank x = true) :
    (!([SPACE, TAB].contains x)) = false := by
  simp only [isBlank, Bool.or_eq_true, beq_iff_eq] at h
  rcases h with h | h <;> simp [h]

theorem not_isBlank_not_contains (x : Nat) (h : isBlank x = false) :
    (!([SPACE, TAB].contains x)) = true := by
  simp only [isBlank, Bool.or_eq_false_iff, beq_eq_false_iff_ne] at h
  simp [h.1, h.2]

/-- The search for the first byte of the next token, lines 98-102 and 134-138, on a line
with non-breaking spaces: the blanks bl, replaced or not, are skipped. -/
theorem skipNbsp_blanks (rest : Line)
    (hrest : rest = [] ∨ ∃ b r, rest = b :: r ∧ isBlank b = false ∧ b < 128) :
    ∀ (bl : Line) (mask : List Bool) (pre : Line) (fuel : Nat),
      (∀ x ∈ bl, isBlank x = true) → bl.length ≤ fuel →
      skipNbsp (pre ++ replaceSpaces (bl ++ rest) mask) fuel
          (find_first_not_of (pre ++ replaceSpaces (bl ++ rest) mask) [SPACE, TAB]
            (some pre.length))
        = some (if rest = [] then none
                else some (pre.length + (replaceSpaces bl mask).length)) := by
  intro bl
  induction bl with
  | nil =>
    intro mask pre fuel _ _
    rcases hrest with rfl | ⟨b, r, rfl, hb, hb128⟩
    · have h := findFrom_at_none (fun b => !([SPACE, TAB].contains b)) pre [] (by simp)
      simp only [List.append_nil] at h
      simp only [replaceSpaces, List.append_nil, find_first_not_of, h, skipNbsp_npos]
      simp
    · have hsp : b ≠ SPACE := by
        intro h
        simp [isBlank, h] at hb
      have h := findFrom_at_hit (fun b => !([SPACE, TAB].contains b)) pre [] b
        (replaceSpaces r (mask.drop 1)) (by simp) (not_isBlank_not_contains b hb)
      simp only [List.nil_append, List.length_nil, Nat.add_zero] at h
      have hat : (pre ++ b :: replaceSpaces r (mask.drop 1))[pre.length]? = some b :=
        getElem?_at _ _ _
      have hc2 : b ≠ 0xc2 := by omega
      simp only [List.nil_append, replaceSpaces_cons_other _ _ _ hsp, find_first_not_of, h,
        skipNbsp_stop _ _ _ (nbspAt_false _ _ b hat hc2)]
      simp [replaceSpaces]
  | cons c bl ih =>
    intro mask pre fuel hbl hfuel
    have hc : isBlank c = true := hbl c (List.mem_cons_self _ _)
    have hbl1 : ∀ x ∈ bl, isBlank x = true := fun x hx => hbl x (List.mem_cons_of_mem _ hx)
    have hlen : bl.length + 1 ≤ fuel := by simpa using hfuel
    have happ : replaceSpaces (c :: bl ++ rest) mask
        = replaceSpaces [c] mask ++ replaceSpaces (bl ++ rest) (mask.drop 1) := by
      have := replaceSpaces_append [c] (bl ++ rest) mask
      simpa using this
    have happ2 : replaceSpaces (c :: bl) mask
        = replaceSpaces [c] mask ++ replaceSpaces bl (mask.drop 1) := by
      have := replaceSpaces_append [c] bl mask
      simpa using this
    rw [happ, happ2]
    rcases replaceSpaces_single c mask with h1 | ⟨hsp, h1⟩
    · rw [h1]
      have hstep := findFrom_step (fun b => !([SPACE, TAB].contains b)) pre c
        (replaceSpaces (bl ++ rest) (mask.drop 1)) (isBlank_not_contains c hc)
      have hih := ih (mask.drop 1) (pre ++ [c]) fuel hbl1 (by omega)
      simp only [List.append_assoc, List.singleton_append, List.length_append,
        List.length_singleton, find_first_not_of] at hih ⊢
      rw [hstep, hih]
      simp only [Nat.add_assoc, Nat.add_comm 1, List.length_cons]
    · rw [h1]
      have hhit := findFrom_at_hit (fun b => !([SPACE, TAB].contains b)) pre [] 0xc2
        (0xa0 :: replaceSpaces (bl ++ rest) (mask.drop 1)) (by simp) (by decide)
      simp only [List.nil_append, List.length_nil, Nat.add_zero] at hhit
      have hnb : nbspAt (pre ++ 0xc2 :: 0xa0 :: replaceSpaces (bl ++ rest) (mask.drop 1))
          pre.length = true := by
        have e1 : (pre ++ 0xc2 :: 0xa0 :: replaceSpaces (bl ++ rest) (mask.drop 1))[pre.length]?
            = some 0xc2 := getElem?_at _ _ _
        have e2 : (pre ++ 0xc2 :: 0xa0 :: replaceSpaces (bl ++ rest) (mask.drop 1))[pre.length + 1]?
            = some 0xa0 := by
          have := getElem?_at (pre ++ [0xc2]) 0xa0 (replaceSpaces (bl ++ rest) (mask.drop 1))
          simpa using this
        simp only [nbspAt, e1, e2, beq_self_eq_true, Bool.true_and, Bool.and_true,
          decide_eq_true_eq, List.length_append, List.length_cons]
        omega
      obtain ⟨n, rfl⟩ : ∃ n, fuel = n + 1 := ⟨fuel - 1, by omega⟩
      have hih := ih (mask.drop 1) (pre ++ [0xc2, 0xa0]) n hbl1 (by simpa using hfuel)
      have hl2 : (pre ++ [0xc2, 0xa0]).length = pre.length + 2 := by simp
      rw [hl2] at hih
      simp only [List.append_assoc, List.cons_append, List.nil_append,
        find_first_not_of] at hih ⊢
      rw [hhit]
      simp only [skipNbsp, hnb, if_true, find_first_not_of]
      rw [hih]
      simp only [Nat.add_assoc, Nat.add_comm 2, List.length_cons]

/-- A blank, replaced or not, ends a token: the search of line 121 stops at its first
byte and the loop of lines 122-129 leaves the position as it is. -/
theorem replaced_blank_head (b : Nat) (c : Line) (mask : List Bool) (hb : isBlank b = true) :
    ∃ h0 tl, replaceSpaces (b :: c) mask = h0 :: tl
      ∧ [SPACE, TAB, 0xc2].contains h0 = true
      ∧ ∀ pre : Line, otherC2At (pre ++ h0 :: tl) pre.length = false := by
  have happ : replaceSpaces (b :: c) mask
      = replaceSpaces [b] mask ++ replaceSpaces c (mask.drop 1) := by
    have := replaceSpaces_append [b] c mask
    simpa using this
  rcases replaceSpaces_single b mask with h1 | ⟨_, h1⟩
  · refine ⟨b, replaceSpaces c (mask.drop 1), by rw [happ, h1]; rfl, ?_, ?_⟩
    · simp only [isBlank, Bool.or_eq_true, beq_iff_eq] at hb
      rcases hb with h | h <;> simp [h]
    · intro pre
      have hne : b ≠ 0xc2 := by
        intro h
        rw [h] at hb
        simp [isBlank, SPACE, TAB] at hb
      exact otherC2At_false _ _ b (getElem?_at _ _ _) hne
  · refine ⟨0xc2, 0xa0 :: replaceSpaces c (mask.drop 1), by rw [happ, h1]; rfl, by decide, ?_⟩
    intro pre
    have e1 : (pre ++ 0xc2 :: 0xa0 :: replaceSpaces c (mask.drop 1))[pre.length]? = some 0xc2 :=
      getElem?_at _ _ _
    have e2 : (pre ++ 0xc2 :: 0xa0 :: replaceSpaces c (mask.drop 1))[pre.length + 1]?
        = some 0xa0 := by
      have := getElem?_at (pre ++ [0xc2]) 0xa0 (replaceSpaces c (mask.drop 1))
      simpa using this
    simp only [otherC2At, e1, e2, bne_self_eq_false, Bool.and_false]

/-- The loop of lines 119-139 on a line of ASCII bytes in which spaces were replaced by
non-breaking spaces: from the first byte of a token on, it adds the maximal runs of
bytes other than space and tab of the line as it was before the replacement. -/
theorem tokenLoop_replaced (fuel n : Nat) :
    ∀ (pre suf : Line) (mask : List Bool) (tokens : Tokens) (b0 : Nat) (r0 : Line),
      (∀ b ∈ suf, b < 128) → suf = b0 :: r0 → isBlank b0 = false → suf.length ≤ n →
      suf.length ≤ fuel →
      tokenLoop (pre ++ replaceSpaces suf mask) fuel n pre.length tokens
        = some (tokens ++ maximalRuns suf) := by
  induction n with
  | zero =>
    intro pre suf mask tokens b0 r0 _ hs _ hn _
    subst hs
    simp at hn
  | succ n ih =>
    intro pre suf mask tokens b0 r0 hascii hs hb0 hn hfuel
    obtain ⟨tok, rest, hsuf, htok, hrest⟩ := span_cases (fun b => !isBlank b) suf
    have htok1 : ∀ x ∈ tok, isBlank x = false := fun x hx => by simpa using htok x hx
    have hne : tok ≠ [] := by
      intro h0
      subst h0
      rcases hrest with h | ⟨b, c, h, hb⟩
      · subst h; subst hsuf; simp at hs
      · subst h; simp only [List.nil_append] at hsuf; rw [hsuf] at hs
        injection hs with h1 _
        subst h1
        simp [hb0] at hb
    have hsp : ∀ x ∈ tok, x ≠ SPACE := by
      intro x hx h
      have := htok1 x hx
      simp [isBlank, h] at this
    have hq : ∀ x ∈ tok, [SPACE, TAB, 0xc2].contains x = false := by
      intro x hx
      have h1 := htok1 x hx
      have h2 : x ≠ 0xc2 := by
        have := hascii x (by simp [hsuf, hx])
        omega
      simp only [isBlank, Bool.or_eq_false_iff, beq_eq_false_iff_ne] at h1
      simp [h1.1, h1.2, h2]
    have hR : replaceSpaces suf mask = tok ++ replaceSpaces rest (mask.drop tok.length) := by
      rw [hsuf]
      exact replaceSpaces_run tok rest hsp mask
    rw [hR]
    rcases hrest with h | ⟨b, c, h, hb⟩
    · subst h
      simp only [List.append_nil] at hsuf
      subst hsuf
      have hruns : maximalRuns suf = [suf] := by
        have := maximalRuns_run suf [] hne htok1 (Or.inl rfl)
        simpa [maximalRuns_nil] using this
      simp only [replaceSpaces, List.append_nil, tokenLoop, find_first_of,
        findFrom_at_none _ pre suf hq, skipOtherC2_npos, substr,
        find_first_not_of, skipNbsp_npos, List.drop_left, hruns]
    · subst h
      have hb1 : isBlank b = true := by simpa using hb
      obtain ⟨h0, tl, hhead, hq0, hother⟩ :=
        replaced_blank_head b c (mask.drop tok.length) hb1
      obtain ⟨bl, rest2, hrest2, hbl, hr2⟩ := span_cases isBlank (b :: c)
      have hff : find_first_of (pre ++ (tok ++ replaceSpaces (b :: c) (mask.drop tok.length)))
          [SPACE, TAB, 0xc2] (some pre.length) = some (pre.length + tok.length) := by
        rw [hhead]
        exact findFrom_at_hit _ pre tok h0 tl hq hq0
      have hoth : otherC2At (pre ++ (tok ++ replaceSpaces (b :: c) (mask.drop tok.length)))
          (pre.length + tok.length) = false := by
        rw [hhead, ← List.append_assoc, ← List.length_append]
        exact hother (pre ++ tok)
      have hsub : substr (pre ++ (tok ++ replaceSpaces (b :: c) (mask.drop tok.length)))
          pre.length (some (pre.length + tok.length)) = tok := by
        simp [substr]
      have hruns : maximalRuns suf = tok :: maximalRuns rest2 := by
        rw [hsuf, maximalRuns_run tok (b :: c) hne htok1 (Or.inr ⟨b, c, rfl, hb1⟩), hrest2,
          maximalRuns_blanks bl rest2 hbl]
      have hlens : suf.length = tok.length + (bl.length + rest2.length) := by
        rw [hsuf, hrest2]
        simp
      have hr2a : rest2 = [] ∨ ∃ b r, rest2 = b :: r ∧ isBlank b = false ∧ b < 128 := by
        rcases hr2 with h | ⟨b2, c2, h, hb2⟩
        · exact Or.inl h
        · refine Or.inr ⟨b2, c2, h, hb2, hascii b2 ?_⟩
          rw [hsuf, hrest2, h]
          simp
      have hskip := skipNbsp_blanks rest2 hr2a bl (mask.drop tok.length) (pre ++ tok) fuel hbl
        (by omega)
      rw [← hrest2, List.length_append] at hskip
      have hRR : pre ++ tok ++ replaceSpaces (b :: c) (mask.drop tok.length)
          = pre ++ (tok ++ replaceSpaces (b :: c) (mask.drop tok.length)) :=
        List.append_assoc _ _ _
      rw [hRR] at hskip
      rcases hr2 with h | ⟨b2, c2, h, hb2⟩
      · subst h
        simp only [if_true] at hskip
        simp only [tokenLoop, hff, skipOtherC2_stop _ _ _ hoth, hsub, hskip, hruns,
          maximalRuns_nil]
      · subst h
        simp only [List.cons_ne_nil, if_false] at hskip
        have hlen : (b2 :: c2).length ≤ n := by
          have h2 : 0 < tok.length := List.length_pos.mpr hne
          omega
        have hrec := ih (pre ++ tok ++ replaceSpaces bl (mask.drop tok.length)) (b2 :: c2)
          ((mask.drop tok.length).drop bl.length) (tokens ++ [tok]) b2 c2
          (by
            intro x hx
            apply hascii
            rw [hsuf, hrest2]
            simp only [List.mem_append]
            exact Or.inr (Or.inr hx)) rfl hb2 hlen (by omega)
        have hs3 : pre ++ tok ++ replaceSpaces bl (mask.drop tok.length)
              ++ replaceSpaces (b2 :: c2) ((mask.drop tok.length).drop bl.length)
            = pre ++ (tok ++ replaceSpaces (b :: c) (mask.drop tok.length)) := by
          rw [hrest2, replaceSpaces_append bl (b2 :: c2)]
          simp
        rw [hs3] at hrec
        simp only [List.length_append] at hrec
        simp only [tokenLoop, hff, skipOtherC2_stop _ _ _ hoth, hsub, hskip, hruns, hrec]
        simp

theorem replaceSpaces_getLast (s : Line) (mask : List Bool) :
    ((replaceSpaces s mask).getLast? == some BACKSLASH) = (s.getLast? == some BACKSLASH)
      ∧ (s.getLast? = some BACKSLASH →
          (replaceSpaces s mask).dropLast = replaceSpaces s.dropLast mask) := by
  rcases List.eq_nil_or_concat s with rfl | ⟨init, last, rfl⟩
  · simp [replaceSpaces]
  · simp only [List.concat_eq_append]
    rw [replaceSpaces_append]
    rcases replaceSpaces_single last (mask.drop init.length) with h1 | ⟨hsp, h1⟩
    · rw [h1]
      constructor
      · rw [List.getLast?_concat, List.getLast?_concat]
      · intro _
        rw [List.dropLast_concat, List.dropLast_concat]
    · rw [h1]
      have hsplit : replaceSpaces init mask ++ [0xc2, 0xa0]
          = (replaceSpaces init mask ++ [0xc2]) ++ [0xa0] := by simp
      constructor
      · rw [hsplit, List.getLast?_concat, List.getLast?_concat, hsp]
        decide
      · intro h
        exfalso
        rw [List.getLast?_concat, hsp] at h
        exact absurd h (by decide)

theorem replaceSpaces_takeWhile (s : Line) :
    ∀ mask, (replaceSpaces s mask).takeWhile (fun b => b != HASH)
      = replaceSpaces (s.takeWhile (fun b => b != HASH)) mask := by
  induction s with
  | nil =>
    intro mask
    simp [replaceSpaces]
  | cons b s ih =>
    intro mask
    have happ : replaceSpaces (b :: s) mask
        = replaceSpaces [b] mask ++ replaceSpaces s (mask.drop 1) := by
      have := replaceSpaces_append [b] s mask
      simpa using this
    by_cases hb : b = HASH
    · have hsp : b ≠ SPACE := by
        rw [hb]
        decide
      rw [replaceSpaces_cons_other _ _ _ hsp]
      simp [List.takeWhile, hb, replaceSpaces]
    · have hbne : (b != HASH) = true := by simpa using hb
      have htw : (b :: s).takeWhile (fun b => b != HASH)
          = b :: s.takeWhile (fun b => b != HASH) := by
        simp [List.takeWhile, hbne]
      have happ2 : replaceSpaces (b :: s.takeWhile (fun b => b != HASH)) mask
          = replaceSpaces [b] mask
            ++ replaceSpaces (s.takeWhile (fun b => b != HASH)) (mask.drop 1) := by
        have := replaceSpaces_append [b] (s.takeWhile (fun b => b != HASH)) mask
        simpa using this
      rw [htw, happ, happ2]
      rcases replaceSpaces_single b mask with h1 | ⟨_, h1⟩
      · rw [h1]
        simp [List.takeWhile, hbne, ih]
      · rw [h1]
        have e1 : ((0xc2 : Nat) != HASH) = true := by decide
        have e2 : ((0xa0 : Nat) != HASH) = true := by decide
        simp [List.takeWhile, e1, e2, ih]

theorem maximalRuns_head (b : Nat) (r : Line) (hb : isBlank b = false) :
    maximalRuns (b :: r) ≠ [] := by
  obtain ⟨tok, rest, hsuf, htok, hrest⟩ := span_cases (fun x => !isBlank x) (b :: r)
  have htok1 : ∀ x ∈ tok, isBlank x = false := fun x hx => by simpa using htok x hx
  have hne : tok ≠ [] := by
    intro h0
    subst h0
    rcases hrest with h | ⟨b1, c, h, hb1⟩
    · subst h
      simp at hsuf
    · subst h
      simp only [List.nil_append, List.cons.injEq] at hsuf
      rw [← hsuf.1] at hb1
      simp [hb] at hb1
  have hrest1 : rest = [] ∨ ∃ b r, rest = b :: r ∧ isBlank b = true := by
    rcases hrest with h | ⟨b1, c, h, hb1⟩
    · exact Or.inl h
    · exact Or.inr ⟨b1, c, h, by simpa using hb1⟩
  rw [hsuf, maximalRuns_run tok rest hne htok1 hrest1]
  simp

theorem maximalRuns_all_blank (bl : Line) (h : ∀ x ∈ bl, isBlank x = true) :
    maximalRuns bl = [] := by
  have := maximalRuns_blanks bl [] h
  simpa [maximalRuns_nil] using this

/-- The body of the loop over the lines for one line of ASCII bytes in which spaces were
replaced by non-breaking spaces: the maximal runs of bytes other than space and tab of
the body of the line as it was are added to the tokens, and the statement ends with the
line unless the line ends with a backslash or no token has been found so far. -/
theorem processLine_replaced (fuel : Nat) (tokens : Tokens) (s : Line) (mask : List Bool)
    (hascii : ∀ b ∈ s, b < 128) (hfuel : s.length < fuel) :
    processLine fuel tokens (replaceSpaces s mask)
      = some (if (maximalRuns (lineBody s)).isEmpty
                then !(tokens.isEmpty || s.getLast? == some BACKSLASH)
                else !(s.getLast? == some BACKSLASH),
              tokens ++ maximalRuns (lineBody s)) := by
  obtain ⟨hlast, hdrop⟩ := replaceSpaces_getLast s mask
  have hbody : (if (replaceSpaces s mask).getLast? == some BACKSLASH
          then (replaceSpaces s mask).dropLast else replaceSpaces s mask).takeWhile
        (fun b => b != HASH)
      = replaceSpaces (lineBody s) mask := by
    rw [hlast]
    unfold lineBody
    cases hc : s.getLast? == some BACKSLASH
    · simp only [Bool.false_eq_true, if_false]
      exact replaceSpaces_takeWhile s mask
    · simp only [if_true]
      rw [hdrop (by simpa using hc)]
      exact replaceSpaces_takeWhile s.dropLast mask
  have hsub : ∀ b ∈ lineBody s, b ∈ s := by
    intro b hb
    unfold lineBody at hb
    have h1 := (List.takeWhile_sublist _).subset hb
    split at h1
    · exact (List.dropLast_sublist s).subset h1
    · exact h1
  have hlen : (lineBody s).length ≤ s.length := by
    unfold lineBody
    refine Nat.le_trans (List.takeWhile_sublist _).length_le ?_
    split
    · exact (List.dropLast_sublist s).length_le
    · exact Nat.le_refl _
  generalize lineBody s = body at hbody hsub hlen
  obtain ⟨bl, r2, hbl2, hbl, hr2⟩ := span_cases isBlank body
  have hr2a : r2 = [] ∨ ∃ b r, r2 = b :: r ∧ isBlank b = false ∧ b < 128 := by
    rcases hr2 with h | ⟨b2, c2, h, hb2⟩
    · exact Or.inl h
    · refine Or.inr ⟨b2, c2, h, hb2, hascii b2 (hsub b2 ?_)⟩
      rw [hbl2, h]
      simp
  have hlens : body.length = bl.length + r2.length := by
    rw [hbl2]
    simp
  have hskip := skipNbsp_blanks r2 hr2a bl mask [] fuel hbl (by omega)
  rw [← hbl2] at hskip
  simp only [List.nil_append, List.length_nil, Nat.zero_add] at hskip
  unfold processLine
  simp only [stripComment_eq]
  rw [hbody]
  simp only [hskip, hlast]
  rcases hr2 with h | ⟨b2, c2, h, hb2⟩
  · subst h
    simp only [List.append_nil] at hbl2
    subst hbl2
    by_cases h1 : tokens = [] <;> by_cases h2 : s.getLast? = some BACKSLASH <;>
      simp [maximalRuns_all_blank body hbl, h1, h2]
  · subst h
    have hruns : maximalRuns body = maximalRuns (b2 :: c2) := by
      rw [hbl2, maximalRuns_blanks bl _ hbl]
    have hloop := tokenLoop_replaced fuel fuel (replaceSpaces bl mask) (b2 :: c2)
      (mask.drop bl.length) tokens b2 c2
      (by
        intro x hx
        apply hascii x
        apply hsub
        rw [hbl2]
        exact List.mem_append_right _ hx) rfl hb2 (by omega) (by omega)
    rw [← replaceSpaces_append, ← hbl2] at hloop
    have hne := maximalRuns_head b2 c2 hb2
    rw [← hruns] at hne hloop
    simp only [List.cons_ne_nil, if_false, hloop]
    cases hm : maximalRuns body with
    | nil => exact absurd hm hne
    | cons t ts => simp

theorem lineBody_continued (line1 : Line) :
    lineBody (line1 ++ [BACKSLASH]) = line1.takeWhile (fun b => b != HASH) := by
  unfold lineBody
  rw [List.getLast?_concat, List.dropLast_concat]
  simp

theorem lineBody_plain (line : Line) (hbs : line.getLast? ≠ some BACKSLASH) :
    lineBody line = line.takeWhile (fun b => b != HASH) := by
  unfold lineBody
  have : (line.getLast? == some BACKSLASH) = false := by simpa using hbs
  rw [this]
  simp

/-- The bytes of the maximal runs of a line are bytes of the line. -/
theorem maximalRuns_subset (n : Nat) : ∀ (s : Line), s.length ≤ n →
    ∀ t ∈ maximalRuns s, ∀ x ∈ t, x ∈ s := by
  induction n with
  | zero =>
    intro s hs t ht
    have : s = [] := List.length_eq_zero.mp (by omega)
    subst this
    simp [maximalRuns_nil] at ht
  | succ n ih =>
    intro s hs t ht x hx
    obtain ⟨bl, r2, hs2, hbl, hr2⟩ := span_cases isBlank s
    rw [hs2, maximalRuns_blanks bl r2 hbl] at ht
    rcases hr2 with h | ⟨b2, c2, h, hb2⟩
    · subst h
      simp [maximalRuns_nil] at ht
    · obtain ⟨tok, rest, hsuf, htok, hrest⟩ := span_cases (fun b => !isBlank b) r2
      have htok1 : ∀ x ∈ tok, isBlank x = false := fun x hx => by simpa using htok x hx
      have hne : tok ≠ [] := by
        intro h0
        subst h0
        rcases hrest with h1 | ⟨b1, c, h1, hb1⟩
        · subst h1
          rw [hsuf] at h
          simp at h
        · subst h1
          simp only [List.nil_append] at hsuf
          rw [hsuf] at h
          injection h with h2 _
          subst h2
          simp [hb2] at hb1
      have hrest1 : rest = [] ∨ ∃ b r, rest = b :: r ∧ isBlank b = true := by
        rcases hrest with h1 | ⟨b1, c, h1, hb1⟩
        · exact Or.inl h1
        · exact Or.inr ⟨b1, c, h1, by simpa using hb1⟩
      rw [hsuf, maximalRuns_run tok rest hne htok1 hrest1] at ht
      rw [hs2, hsuf]
      rcases List.mem_cons.mp ht with h1 | h1
      · subst h1
        simp [hx]
      · have hlen : rest.length ≤ n := by
          have h2 : 0 < tok.length := List.length_pos.mpr hne
          have h3 : s.length = bl.length + (tok.length + rest.length) := by
            rw [hs2, hsuf]
            simp
          omega
        have := ih rest hlen t h1 x hx
        simp [this]

theorem maximalRuns_ne_nil (body : Line) (h : ∃ b ∈ body, b ≠ SPACE ∧ b ≠ TAB) :
    maximalRuns body ≠ [] := by
  obtain ⟨bl, r2, hs2, hbl, hr2⟩ := span_cases isBlank body
  rcases hr2 with h1 | ⟨b2, c2, h1, hb2⟩
  · exfalso
    subst h1
    simp only [List.append_nil] at hs2
    subst hs2
    obtain ⟨b, hb, h2, h3⟩ := h
    have := hbl b hb
    simp [isBlank, h2, h3] at this
  · rw [hs2, maximalRuns_blanks bl r2 hbl, h1]
    exact maximalRuns_head b2 c2 hb2

/-- C12 (amended): if a line of ASCII bytes ends with a backslash, the backslash is
dropped and the statement continues on the next line: when the next line, also of ASCII
bytes, does not end with a backslash and at least one of the two lines has a token,
GetTokens returns the tokens of the first line without its backslash followed by the
tokens of the next line, and both lines are consumed. -/
theorem GetTokens_continued_line (fuel : Nat) (line1 line2 : Line) (rest : List Line)
    (below : List (List Line)) (sc : ScriptContext)
    (hascii1 : ∀ b ∈ line1, b < 128) (hascii2 : ∀ b ∈ line2, b < 128)
    (hbs : line2.getLast? ≠ some BACKSLASH)
    (hne : maximalRuns (line1.takeWhile (fun b => b != HASH))
      ++ maximalRuns (line2.takeWhile (fun b => b != HASH)) ≠ [])
    (hfuel1 : line1.length + 1 < fuel) (hfuel2 : line2.length < fuel) :
    Input.GetTokens fuel ⟨sc, ((line1 ++ [BACKSLASH]) :: line2 :: rest) :: below⟩
      = some (maximalRuns (line1.takeWhile (fun b => b != HASH))
                ++ maximalRuns (line2.takeWhile (fun b => b != HASH)),
              ⟨bumpLine 2 sc, rest :: below⟩) := by
  have p1 := processLine_replaced fuel [] (line1 ++ [BACKSLASH]) []
    (by
      intro b hb
      rcases List.mem_append.mp hb with h | h
      · exact hascii1 b h
      · simp only [List.mem_singleton] at h
        rw [h]
        decide)
    (by simpa using hfuel1)
  rw [replaceSpaces_nil, lineBody_continued, List.getLast?_concat] at p1
  simp only [List.isEmpty_nil, Bool.true_or, Bool.not_true, beq_self_eq_true, ite_self,
    List.nil_append] at p1
  have p2 := processLine_replaced fuel (maximalRuns (line1.takeWhile (fun b => b != HASH)))
    line2 [] hascii2 hfuel2
  have hlast : (line2.getLast? == some BACKSLASH) = false := by simpa using hbs
  rw [replaceSpaces_nil, lineBody_plain line2 hbs, hlast] at p2
  have hdec : (if (maximalRuns (line2.takeWhile (fun b => b != HASH))).isEmpty
      then !((maximalRuns (line1.takeWhile (fun b => b != HASH))).isEmpty || false)
      else !false) = true := by
    cases h2 : maximalRuns (line2.takeWhile (fun b => b != HASH)) with
    | nil =>
      rw [h2, List.append_nil] at hne
      cases h1 : maximalRuns (line1.takeWhile (fun b => b != HASH)) with
      | nil => exact absurd h1 hne
      | cons t ts => simp
    | cons t ts => simp
  rw [hdec] at p2
  simp [Input.GetTokens, readLoop, p1, p2]

theorem GetTokens_continued_line_witness :
    Input.GetTokens 10 ⟨[], [[bytesOf "a " ++ [BACKSLASH], bytesOf " b"]]⟩
        = some (maximalRuns ((bytesOf "a ").takeWhile (fun b => b != HASH))
                  ++ maximalRuns ((bytesOf " b").takeWhile (fun b => b != HASH)),
                ⟨bumpLine 2 [], [[]]⟩)
      ∧ maximalRuns ((bytesOf "a ").takeWhile (fun b => b != HASH))
          ++ maximalRuns ((bytesOf " b").takeWhile (fun b => b != HASH))
        = [bytesOf "a", bytesOf "b"] :=
  ⟨GetTokens_continued_line 10 (bytesOf "a ") (bytesOf " b") [] [] [] (by decide) (by decide)
    (by decide) (by decide) (by decide) (by decide), by decide⟩

/-- C12 (counterexample): a line that consists of a backslash followed by a blank line
and the line "c" gives the token "c", while neither of the first two lines has a token;
and three lines with the tokens "a", "b" and "c" of which the first two end with a
backslash give the three tokens "a", "b" and "c", while the first two lines hold the
tokens "a" and "b" only. -/
theorem GetTokens_continues_past_next_line :
    ((Input.GetTokens 10 ⟨[], [[[BACKSLASH], bytesOf " ", bytesOf "c"]]⟩).map (fun r => r.1)
        = some [bytesOf "c"]
      ∧ maximalRuns [] ++ maximalRuns (bytesOf " ") = [])
    ∧ ((Input.GetTokens 10
          ⟨[], [[bytesOf "a " ++ [BACKSLASH], bytesOf "b " ++ [BACKSLASH], bytesOf "c"]]⟩).map
          (fun r => r.1)
        = some [bytesOf "a", bytesOf "b", bytesOf "c"]
      ∧ maximalRuns (bytesOf "a ") ++ maximalRuns (bytesOf "b ") = [bytesOf "a", bytesOf "b"]) := by
  decide

/-- C13: for every line of ASCII bytes, replacing any of its spaces by the two bytes
0xC2 0xA0 of a non-breaking space leaves what GetTokens returns unchanged; for a line
that does not end with a backslash and has a byte other than space and tab before its
first '#', GetTokens returns for the line with the replacements the maximal runs of
bytes other than space and tab of the line without them, and no token returned
contains the byte 0xC2 or the byte 0xA0. -/
theorem GetTokens_nbsp_as_space (fuel : Nat) (line : Line) (mask : List Bool)
    (rest : List Line) (below : List (List Line)) (sc : ScriptContext)
    (hascii : ∀ b ∈ line, b < 128) (hfuel : line.length < fuel) :
    Input.GetTokens fuel ⟨sc, (replaceSpaces line mask :: rest) :: below⟩
        = Input.GetTokens fuel ⟨sc, (line :: rest) :: below⟩
      ∧ (line.getLast? ≠ some BACKSLASH →
          (∃ b ∈ line.takeWhile (fun b => b != HASH), b ≠ SPACE ∧ b ≠ TAB) →
          Input.GetTokens fuel ⟨sc, (replaceSpaces line mask :: rest) :: below⟩
              = some (maximalRuns (line.takeWhile (fun b => b != HASH)),
                      ⟨bumpLine 1 sc, rest :: below⟩)
            ∧ ∀ t ∈ maximalRuns (line.takeWhile (fun b => b != HASH)),
                ∀ x ∈ t, x ≠ 0xc2 ∧ x ≠ 0xa0) := by
  have p1 := processLine_replaced fuel [] line mask hascii hfuel
  have p0 := processLine_replaced fuel [] line [] hascii hfuel
  rw [replaceSpaces_nil] at p0
  constructor
  · simp only [Input.GetTokens, readLoop, p1, p0]
  · intro hbs hnb
    have hlast : (line.getLast? == some BACKSLASH) = false := by simpa using hbs
    have hruns := maximalRuns_ne_nil _ hnb
    rw [lineBody_plain line hbs, hlast] at p1
    constructor
    · cases hm : maximalRuns (line.takeWhile (fun b => b != HASH)) with
      | nil => exact absurd hm hruns
      | cons t ts =>
        rw [hm] at p1
        simp [Input.GetTokens, readLoop, p1]
    · intro t ht x hx
      have h1 := maximalRuns_subset _ _ (Nat.le_refl _) t ht x hx
      have h2 := hascii x ((List.takeWhile_sublist _).subset h1)
      omega

theorem GetTokens_nbsp_as_space_witness :
    Input.GetTokens 20
          ⟨[], [[replaceSpaces (bytesOf " a /s v ")
            [true, false, true, false, false, false, true, true]]]⟩
        = Input.GetTokens 20 ⟨[], [[bytesOf " a /s v "]]⟩
      ∧ ((bytesOf " a /s v ").getLast? ≠ some BACKSLASH →
          (∃ b ∈ (bytesOf " a /s v ").takeWhile (fun b => b != HASH), b ≠ SPACE ∧ b ≠ TAB) →
          Input.GetTokens 20
              ⟨[], [[replaceSpaces (bytesOf " a /s v ")
                [true, false, true, false, false, false, true, true]]]⟩
              = some (maximalRuns ((bytesOf " a /s v ").takeWhile (fun b => b != HASH)),
                      ⟨bumpLine 1 [], [[]]⟩)
            ∧ ∀ t ∈ maximalRuns ((bytesOf " a /s v ").takeWhile (fun b => b != HASH)),
                ∀ x ∈ t, x ≠ 0xc2 ∧ x ≠ 0xa0)
      ∧ replaceSpaces (bytesOf " a /s v ") [true, false, true, false, false, false, true, true]
        = [0xc2, 0xa0] ++ bytesOf "a" ++ [0xc2, 0xa0] ++ bytesOf "/s v" ++ [0xc2, 0xa0]
      ∧ maximalRuns ((bytesOf " a /s v ").takeWhile (fun b => b != HASH))
        = [bytesOf "a", bytesOf "/s", bytesOf "v"] :=
  ⟨(GetTokens_nbsp_as_space 20 (bytesOf " a /s v ")
      [true, false, true, false, false, false, true, true] [] [] [] (by decide) (by decide)).1,
    (GetTokens_nbsp_as_space 20 (bytesOf " a /s v ")
      [true, false, true, false, false, false, true, true] [] [] [] (by decide) (by decide)).2,
    by decide, by decide⟩

end Commands

namespace Commands

theorem ctorStep_switchName (st : CtorState) (t : Line) :
    (ctorStep st t).switchName = pendingName (some t) := by
  cases hs : beginsWithSlash t
  · unfold ctorStep
    rw [find_slash_zero, hs]
    simp only [pendingName, hs, Bool.false_eq_true, if_false]
    split
    · rename_i h
      exact List.isEmpty_iff.mp h
    · rfl
  · unfold ctorStep
    rw [find_slash_zero, hs]
    simp only [pendingName, hs, if_true]

theorem ctorStep_argNum (st : CtorState) (t : Line) :
    (ctorStep st t).argNum = st.argNum + 1 := by
  unfold ctorStep
  split
  · rfl
  · split <;> rfl

theorem ctorStep_flag (st : CtorState) (t : Line) :
    (ctorStep st t)._hasIllFormedSwitch
      = (st._hasIllFormedSwitch
          || (beginsWithSlash t
              && (!st.switchName.isEmpty || st.argNum == 0 || (t.drop 1).isEmpty))) := by
  unfold ctorStep
  rw [find_slash_zero]
  cases hs : beginsWithSlash t
  · simp only [Bool.false_eq_true, if_false, Bool.false_and, Bool.or_false]
    split <;> rfl
  · simp only [if_true, Bool.true_and]
    cases h1 : st.switchName.isEmpty <;> cases h2 : st.argNum == 0 <;>
      cases h3 : (t.drop 1).isEmpty <;> simp

/-- The flag of the constructor of Context after the loop and the test that follows it. -/
theorem ctorLoop_flag (tokens : Tokens) : ∀ (st : CtorState) (prev : Option Line) (first : Bool),
    st.switchName = pendingName prev → ((st.argNum == 0) = first) →
    ((tokens.foldl ctorStep st)._hasIllFormedSwitch
        || !(tokens.foldl ctorStep st).switchName.isEmpty)
      = (st._hasIllFormedSwitch || illAfter prev first tokens) := by
  induction tokens with
  | nil =>
    intro st prev first h1 _
    simp [illAfter, h1]
  | cons t ts ih =>
    intro st prev first h1 h2
    rw [List.foldl_cons, ih (ctorStep st t) (some t) false (ctorStep_switchName st t)
      (by rw [ctorStep_argNum]; simp)]
    rw [ctorStep_flag, illAfter, h1, h2, Bool.or_assoc]

theorem HasIllFormedSwitch_eq (tokens : Tokens) (error : Error) (redirectPath0 : Line) :
    (Context.ofTokens tokens error redirectPath0).HasIllFormedSwitch
      = illAfter none true tokens := by
  have h := ctorLoop_flag tokens
    { switchName := [], argNum := 0, _error := error.SetContextWritePending,
      _hasIllFormedSwitch := false, _positionalArguments := [], _switchedArguments := [] }
    none true rfl rfl
  simp only [Bool.false_or] at h
  rw [← h]
  unfold Context.HasIllFormedSwitch Context.ofTokens
  simp only []
  split
  · rename_i hE
    simp [hE]
  · rename_i hE
    simp only [Bool.not_eq_true, Bool.not_eq_false'] at hE
    simp [hE]

theorem pendingName_ne_nil (t : Line) :
    (!(pendingName (some t)).isEmpty) = true ↔ beginsWithSlash t = true ∧ t ≠ [SLASH] := by
  cases t with
  | nil => simp [pendingName, beginsWithSlash]
  | cons c cs =>
    by_cases hc : c = SLASH
    · subst hc
      cases cs <;> simp [pendingName, beginsWithSlash]
    · simp [pendingName, beginsWithSlash, hc]

theorem drop_one_isEmpty (t : Line) (h : beginsWithSlash t = true) :
    (t.drop 1).isEmpty = true ↔ t = [SLASH] := by
  cases t with
  | nil => simp [beginsWithSlash] at h
  | cons c cs =>
    have hc : c = SLASH := by simpa [beginsWithSlash] using h
    subst hc
    cases cs <;> simp

theorem beginsWithSlash_slash : beginsWithSlash [SLASH] = true := by decide

/-- The test of the constructor in the words of the specification, for the tokens that
follow a token prev. -/
theorem illAfter_iff (tokens : Tokens) : ∀ (prev : Option Line) (first : Bool),
    illAfter prev first tokens = true ↔
      ((first = true ∧ ∃ t, tokens.head? = some t ∧ beginsWithSlash t = true)
        ∨ [SLASH] ∈ tokens
        ∨ ((!(pendingName prev).isEmpty) = true
            ∧ (tokens = [] ∨ ∃ t, tokens.head? = some t ∧ beginsWithSlash t = true))
        ∨ ∃ i t, tokens[i]? = some t ∧ beginsWithSlash t = true ∧ t ≠ [SLASH]
            ∧ (i + 1 = tokens.length
                ∨ ∃ u, tokens[i + 1]? = some u ∧ beginsWithSlash u = true)) := by
  induction tokens with
  | nil =>
    intro prev first
    simp [illAfter]
  | cons t ts ih =>
    intro prev first
    have ih1 := ih (some t) false
    rw [pendingName_ne_nil] at ih1
    simp only [illAfter, Bool.or_eq_true, Bool.and_eq_true, ih1]
    constructor
    · rintro (⟨hs, (hp | hf) | he⟩ | h)
      · exact Or.inr (Or.inr (Or.inl ⟨hp, Or.inr ⟨t, rfl, hs⟩⟩))
      · exact Or.inl ⟨hf, t, rfl, hs⟩
      · have := (drop_one_isEmpty t hs).mp he
        exact Or.inr (Or.inl (by simp [this]))
      · rcases h with ⟨hf, _⟩ | h | ⟨⟨hs, hne⟩, hrest⟩ | ⟨i, u, h1, h2, h3, h4⟩
        · cases hf
        · exact Or.inr (Or.inl (List.mem_cons_of_mem _ h))
        · refine Or.inr (Or.inr (Or.inr ⟨0, t, List.getElem?_cons_zero, hs, hne, ?_⟩))
          rcases hrest with h0 | ⟨u, hu, hsu⟩
          · left
            simp [h0]
          · right
            refine ⟨u, ?_, hsu⟩
            cases ts with
            | nil => simp at hu
            | cons a as => simpa using hu
        · refine Or.inr (Or.inr (Or.inr ⟨i + 1, u, by simpa using h1, h2, h3, ?_⟩))
          rcases h4 with h4 | ⟨w, hw, hsw⟩
          · left
            simp [h4]
          · right
            exact ⟨w, by simpa using hw, hsw⟩
    · rintro (⟨hf, u, hu, hs⟩ | h | ⟨hp, hrest⟩ | ⟨i, u, h1, h2, h3, h4⟩)
      · simp only [List.head?_cons, Option.some.injEq] at hu
        subst hu
        exact Or.inl ⟨hs, Or.inl (Or.inr hf)⟩
      · rcases List.mem_cons.mp h with h | h
        · rw [← h]
          exact Or.inl ⟨beginsWithSlash_slash, Or.inr (by decide)⟩
        · exact Or.inr (Or.inr (Or.inl h))
      · rcases hrest with h0 | ⟨u, hu, hs⟩
        · cases h0
        · simp only [List.head?_cons, Option.some.injEq] at hu
          subst hu
          exact Or.inl ⟨hs, Or.inl (Or.inl hp)⟩
      · cases i with
        | zero =>
          simp only [List.getElem?_cons_zero, Option.some.injEq] at h1
          subst h1
          refine Or.inr (Or.inr (Or.inr (Or.inl ⟨⟨h2, h3⟩, ?_⟩)))
          rcases h4 with h4 | ⟨w, hw, hsw⟩
          · left
            simpa using h4
          · right
            refine ⟨w, ?_, hsw⟩
            cases ts with
            | nil => simp at hw
            | cons a as => simpa using hw
        | succ j =>
          refine Or.inr (Or.inr (Or.inr (Or.inr ⟨j, u, by simpa using h1, h2, h3, ?_⟩)))
          rcases h4 with h4 | ⟨w, hw, hsw⟩
          · left
            simpa using h4
          · right
            exact ⟨w, by simpa using hw, hsw⟩

/-- C14: for every token list, HasIllFormedSwitch is true exactly when the first token
begins with '/', or some token is exactly "/", or some token beginning with '/' with a
non-empty name is the last token or is immediately followed by another token beginning
with '/'. -/
theorem HasIllFormedSwitch_iff (tokens : Tokens) (error : Error) (redirectPath0 : Line) :
    (Context.ofTokens tokens error redirectPath0).HasIllFormedSwitch = true
      ↔ IllFormedBySpec tokens := by
  rw [HasIllFormedSwitch_eq, illAfter_iff]
  unfold IllFormedBySpec
  simp [pendingName]

/-- C15: whenever ParseBooleanSwitch returns false, and whenever the switch is absent,
the value of the caller is left as it was before the call; the call returns false only
for a switch that is present, and returns true for a switch that is absent. -/
theorem ParseBooleanSwitch_value_untouched (c : Context) (switchName : Line) (value : Bool) :
    ((c.ParseBooleanSwitch switchName value).result = false →
        (c.ParseBooleanSwitch switchName value).value = value
          ∧ mapFind c._switchedArguments switchName ≠ none)
      ∧ (mapFind c._switchedArguments switchName = none →
          (c.ParseBooleanSwitch switchName value).value = value
            ∧ (c.ParseBooleanSwitch switchName value).result = true
            ∧ (c.ParseBooleanSwitch switchName value)._error = c._error) := by
  unfold Context.ParseBooleanSwitch
  cases hm : mapFind c._switchedArguments switchName with
  | none => simp
  | some args =>
    cases hl : booleanSwitchLoop switchName c._error args value false with
    | error e => simp [hl]
    | ok returnValue => simp [hl]

end Commands

namespace Commands

/-- C16: when no redirect is active and the first /redirectSuffix argument s is not
empty, StartRedirect gives to PushTarget the first 255 bytes of prefix + "." + s,
whatever the positional arguments and the other switches are: when the file can be
opened it becomes the output target and the redirect path, else the failure is reported
for that name and no redirect is active. -/
theorem StartRedirect_by_suffix (fs : FileSystem) (c : Context) (out : Output) (s : Line)
    (hnone : c._redirectPath = []) (hs : c.Argument (bytesOf "redirectSuffix") 0 = s)
    (hne : s ≠ []) :
    c.redirectTarget = (c._redirectPrefix ++ bytesOf "." ++ s).take 255
      ∧ (fs.canOpen ((c._redirectPrefix ++ bytesOf "." ++ s).take 255) = true →
          c.StartRedirect fs out
            = ({ c with _redirectPath := (c._redirectPrefix ++ bytesOf "." ++ s).take 255 },
               { out with _outputStack :=
                   (c._redirectPrefix ++ bytesOf "." ++ s).take 255 :: out._outputStack }))
      ∧ (fs.canOpen ((c._redirectPrefix ++ bytesOf "." ++ s).take 255) = false →
          (c.StartRedirect fs out).2 = out
            ∧ (c.StartRedirect fs out).1._redirectPath = []
            ∧ bytesOf "Failed to open " ++ (c._redirectPrefix ++ bytesOf "." ++ s).take 255
                ++ bytesOf " for writing." ++ [NEWLINE]
              ∈ (c.StartRedirect fs out).1._error.cerr) := by
  have htarget : c.redirectTarget = (c._redirectPrefix ++ bytesOf "." ++ s).take 255 := by
    unfold Context.redirectTarget Context.SetRedirectPathBySuffix
    have harg : Context.Argument { c with _redirectPath := c._redirectPrefix }
        (bytesOf "redirectSuffix") 0 = s := hs
    have hemp : s.isEmpty = false := by
      cases s with
      | nil => exact absurd rfl hne
      | cons a as => rfl
    simp only [harg, hemp, Bool.not_false, if_true, Bool.not_true, Bool.false_eq_true, if_false]
    split
    · rfl
    · rename_i h
      rw [List.take_of_length_le (by omega)]
  refine ⟨htarget, ?_, ?_⟩
  · intro hopen
    unfold Context.StartRedirect Output.PushTarget
    rw [hnone, htarget]
    simp only [List.isEmpty_nil, if_true, hopen]
  · intro hopen
    unfold Context.StartRedirect Output.PushTarget
    rw [hnone, htarget]
    simp only [List.isEmpty_nil, if_true, hopen, Bool.false_eq_true, if_false]
    refine ⟨trivial, trivial, ?_⟩
    cases fs.openFailCause with
    | none => exact Allocations.write_cerr_mem _ _
    | some cause =>
      simp only [List.mem_append, List.mem_singleton]
      exact Or.inl (Allocations.write_cerr_mem _ _)

theorem StartRedirect_by_suffix_witness :
    (Context.ofTokens [bytesOf "count", bytesOf "used", bytesOf "/redirectSuffix",
        bytesOf "summary"] ⟨[], false, []⟩ (bytesOf "run")).redirectTarget
        = (bytesOf "run" ++ bytesOf "." ++ bytesOf "summary").take 255
      ∧ (bytesOf "run" ++ bytesOf "." ++ bytesOf "summary").take 255 = bytesOf "run.summary" :=
  ⟨(StartRedirect_by_suffix writableFileSystem
      (Context.ofTokens [bytesOf "count", bytesOf "used", bytesOf "/redirectSuffix",
        bytesOf "summary"] ⟨[], false, []⟩ (bytesOf "run")) ⟨[], []⟩ (bytesOf "summary")
      (by decide) (by decide) (by decide)).1, by decide⟩

theorem strLess_irrefl (a : Line) : strLess a a = false := by
  induction a with
  | nil => rfl
  | cons x a ih => simp [strLess, ih]

theorem strLess_trans : ∀ (a b c : Line), strLess a b = true → strLess b c = true →
    strLess a c = true := by
  intro a
  induction a with
  | nil =>
    intro b c h1 h2
    cases b with
    | nil => simp [strLess] at h1
    | cons y b =>
      cases c with
      | nil => simp [strLess] at h2
      | cons z c => rfl
  | cons x a ih =>
    intro b c h1 h2
    cases b with
    | nil => simp [strLess] at h1
    | cons y b =>
      cases c with
      | nil => simp [strLess] at h2
      | cons z c =>
        simp only [strLess] at h1 h2 ⊢
        by_cases hxy : x < y
        · by_cases hyz : y < z
          · rw [if_pos (by omega)]
          · rw [if_neg hyz] at h2
            by_cases hzy : z < y
            · rw [if_pos hzy] at h2
              cases h2
            · rw [if_pos (by omega)]
        · rw [if_neg hxy] at h1
          by_cases hyx : y < x
          · rw [if_pos hyx] at h1
            cases h1
          · rw [if_neg hyx] at h1
            have hxy2 : x = y := by omega
            subst hxy2
            by_cases hxz : x < z
            · rw [if_pos hxz]
            · rw [if_neg hxz] at h2 ⊢
              by_cases hzx : z < x
              · rw [if_pos hzx] at h2
                cases h2
              · rw [if_neg hzx] at h2 ⊢
                exact ih b c h1 h2

theorem strLess_total : ∀ (a b : Line), a ≠ b → strLess a b = false → strLess b a = true := by
  intro a
  induction a with
  | nil =>
    intro b h1 h2
    cases b with
    | nil => exact absurd rfl h1
    | cons y b => simp [strLess] at h2
  | cons x a ih =>
    intro b h1 h2
    cases b with
    | nil => rfl
    | cons y b =>
      simp only [strLess] at h2 ⊢
      by_cases hxy : x < y
      · rw [if_pos hxy] at h2
        cases h2
      · rw [if_neg hxy] at h2
        by_cases hyx : y < x
        · rw [if_pos hyx]
        · rw [if_neg hyx] at h2 ⊢
          rw [if_neg hxy]
          have hxy2 : x = y := by omega
          subst hxy2
          exact ih b (fun h => h1 (by rw [h])) h2

theorem mapFind_none_cons (e : Line × List Line) (m : SwitchMap) (k : Line)
    (h : mapFind (e :: m) k = none) : e.1 ≠ k ∧ mapFind m k = none := by
  obtain ⟨k1, v1⟩ := e
  simp only [mapFind] at h
  split at h
  · cases h
  · rename_i hne
    exact ⟨hne, h⟩

theorem mem_mapInsert (m : SwitchMap) (k : Line) (v : List Line) :
    ∀ e ∈ mapInsert m k v, e = (k, v) ∨ e ∈ m := by
  induction m with
  | nil =>
    intro e he
    simp only [mapInsert, List.mem_singleton] at he
    exact Or.inl he
  | cons e1 m ih =>
    obtain ⟨k1, v1⟩ := e1
    intro e he
    simp only [mapInsert] at he
    split at he
    · rcases List.mem_cons.mp he with h | h
      · exact Or.inl h
      · exact Or.inr h
    · rcases List.mem_cons.mp he with h | h
      · exact Or.inr (by rw [h]; exact List.mem_cons_self _ _)
      · rcases ih e h with h2 | h2
        · exact Or.inl h2
        · exact Or.inr (List.mem_cons_of_mem _ h2)

theorem mapInsert_sorted (m : SwitchMap) (k : Line) (v : List Line) (hs : mapSorted m)
    (hk : mapFind m k = none) : mapSorted (mapInsert m k v) := by
  induction m with
  | nil => simp [mapInsert, mapSorted]
  | cons e1 m ih =>
    obtain ⟨hne, hk1⟩ := mapFind_none_cons e1 m k hk
    obtain ⟨k1, v1⟩ := e1
    unfold mapSorted at hs ⊢
    rw [List.pairwise_cons] at hs
    obtain ⟨hhead, htail⟩ := hs
    simp only [mapInsert]
    split
    · rename_i hlt
      rw [List.pairwise_cons]
      refine ⟨?_, List.pairwise_cons.mpr ⟨hhead, htail⟩⟩
      intro e he
      rcases List.mem_cons.mp he with h | h
      · rw [h]
        exact hlt
      · exact strLess_trans k k1 e.1 hlt (hhead e h)
    · rename_i hlt
      rw [List.pairwise_cons]
      refine ⟨?_, ih htail hk1⟩
      intro e he
      rcases mem_mapInsert m k v e he with h | h
      · rw [h]
        exact strLess_total k k1 (fun h => hne h.symm) (by simpa using hlt)
      · exact hhead e h

theorem mapPushBack_sorted (m : SwitchMap) (k t : Line) (hs : mapSorted m) :
    mapSorted (mapPushBack m k t) := by
  unfold mapPushBack
  cases hk : mapFind m k with
  | none => exact mapInsert_sorted m k [t] hs hk
  | some v =>
    simp only []
    unfold mapSorted at hs ⊢
    rw [List.pairwise_map]
    refine hs.imp ?_
    intro a b hab
    have ha : (if a.1 = k then (a.1, a.2 ++ [t]) else a).1 = a.1 := by split <;> rfl
    have hb : (if b.1 = k then (b.1, b.2 ++ [t]) else b).1 = b.1 := by split <;> rfl
    rw [ha, hb]
    exact hab

theorem ctorStep_sorted (st : CtorState) (t : Line) (h : mapSorted st._switchedArguments) :
    mapSorted (ctorStep st t)._switchedArguments := by
  unfold ctorStep
  split
  · simp only []
    split <;> split <;> try exact h
    all_goals (split <;> exact h)
  · split
    · exact h
    · exact mapPushBack_sorted _ _ _ h

theorem ctorLoop_sorted (ts : Tokens) : ∀ (st : CtorState), mapSorted st._switchedArguments →
    mapSorted (ts.foldl ctorStep st)._switchedArguments := by
  induction ts with
  | nil => intro st h; exact h
  | cons t ts ih => intro st h; exact ih _ (ctorStep_sorted st t h)

theorem ofTokens_sorted (tokens : Tokens) (error : Error) (p : Line) :
    mapSorted (Context.ofTokens tokens error p)._switchedArguments := by
  unfold Context.ofTokens
  simp only []
  split
  all_goals
    apply ctorLoop_sorted
    exact List.Pairwise.nil

theorem mapFind_of_mem (m : SwitchMap) (hs : mapSorted m) :
    ∀ e ∈ m, mapFind m e.1 = some e.2 := by
  induction m with
  | nil => intro e he; cases he
  | cons e1 m ih =>
    unfold mapSorted at hs
    rw [List.pairwise_cons] at hs
    obtain ⟨hhead, htail⟩ := hs
    intro e he
    obtain ⟨k1, v1⟩ := e1
    rcases List.mem_cons.mp he with h | h
    · rw [h]
      simp [mapFind]
    · have hlt := hhead e h
      have hne : k1 ≠ e.1 := by
        intro h2
        rw [h2, strLess_irrefl] at hlt
        cases hlt
      simp only [mapFind, hne, if_false]
      exact ih htail e h

theorem mem_of_mapFind (m : SwitchMap) (k : Line) (v : List Line) (h : mapFind m k = some v) :
    (k, v) ∈ m := by
  induction m with
  | nil => simp [mapFind] at h
  | cons e1 m ih =>
    obtain ⟨k1, v1⟩ := e1
    simp only [mapFind] at h
    split at h
    · rename_i hk
      injection h with h
      rw [hk, h]
      exact List.mem_cons_self _ _
    · exact List.mem_cons_of_mem _ (ih h)

theorem appendPositionals_succ (ps : List Line) : ∀ (i : Nat) (path : Line),
    appendPositionals (i + 1) ps path
      = path ++ (ps.map (fun p => bytesOf "_" ++ p)).flatten := by
  induction ps with
  | nil =>
    intro i path
    simp [appendPositionals]
  | cons p ps ih =>
    intro i path
    simp [appendPositionals, ih]

theorem intercalate_cons (sep p : Line) (ps : List Line) :
    sep.intercalate (p :: ps) = p ++ (ps.map (fun q => sep ++ q)).flatten := by
  induction ps generalizing p with
  | nil => simp [List.intercalate, List.intersperse]
  | cons q ps ih =>
    have h := ih q
    simp only [List.intercalate, List.intersperse, List.flatten_cons, List.map_cons] at h ⊢
    rw [h]
    simp only [List.append_assoc]

theorem appendPositionals_zero (p : Line) (ps : List Line) (path : Line) :
    appendPositionals 0 (p :: ps) path
      = path ++ bytesOf "." ++ (bytesOf "_").intercalate (p :: ps) := by
  rw [intercalate_cons]
  simp [appendPositionals, appendPositionals_succ]

theorem appendArguments_eq (arguments : List Line) : ∀ (path : Line),
    arguments.foldl (fun pa argument => pa ++ bytesOf ":" ++ argument) path
      = path ++ (arguments.map (fun a => bytesOf ":" ++ a)).flatten := by
  induction arguments with
  | nil =>
    intro path
    simp
  | cons a arguments ih =>
    intro path
    simp only [List.foldl_cons, List.map_cons, List.flatten_cons]
    rw [ih]
    simp only [List.append_assoc]

theorem appendSwitches_eq (m : SwitchMap) : ∀ (path : Line),
    appendSwitches m path
      = path ++ (m.map (fun e =>
          bytesOf "::" ++ e.1 ++ (e.2.map (fun a => bytesOf ":" ++ a)).flatten)).flatten := by
  induction m with
  | nil =>
    intro path
    simp [appendSwitches]
  | cons e m ih =>
    obtain ⟨name, arguments⟩ := e
    intro path
    simp only [appendSwitches, List.map_cons, List.flatten_cons]
    rw [ih, appendArguments_eq]
    simp only [List.append_assoc]

/-- When no /redirectSuffix is given and there is at least one positional argument,
StartRedirect gives to PushTarget the first 255 bytes of: the prefix, then "." and the
positional arguments joined by "_", then for each switch name "::" and the name followed
by ":" and the argument for each of its arguments. -/
theorem redirectTarget_with_positionals (fs : FileSystem) (tokens : Tokens) (error : Error)
    (redirectPrefix : Line) (out : Output)
    (hpos : (Context.ofTokens tokens error redirectPrefix)._positionalArguments ≠ [])
    (hsuf : mapFind (Context.ofTokens tokens error redirectPrefix)._switchedArguments
      (bytesOf "redirectSuffix") = none) :
    (Context.ofTokens tokens error redirectPrefix).redirectTarget
        = (redirectNameBySpec redirectPrefix
            (Context.ofTokens tokens error redirectPrefix)._positionalArguments
            (Context.ofTokens tokens error redirectPrefix)._switchedArguments).take 255
      ∧ (Context.ofTokens tokens error redirectPrefix).redirectTarget.length ≤ 255
      ∧ (Context.ofTokens tokens error redirectPrefix).redirectTarget
          <+: redirectNameBySpec redirectPrefix
            (Context.ofTokens tokens error redirectPrefix)._positionalArguments
            (Context.ofTokens tokens error redirectPrefix)._switchedArguments
      ∧ (fs.canOpen (Context.ofTokens tokens error redirectPrefix).redirectTarget = true →
          (Context.ofTokens tokens error redirectPrefix).StartRedirect fs out
            = ({ Context.ofTokens tokens error redirectPrefix with
                  _redirectPath := (Context.ofTokens tokens error redirectPrefix).redirectTarget },
               { out with _outputStack :=
                  (Context.ofTokens tokens error redirectPrefix).redirectTarget
                    :: out._outputStack })) := by
  have hprefix : (Context.ofTokens tokens error redirectPrefix)._redirectPrefix = redirectPrefix := by
    unfold Context.ofTokens
    rfl
  have hpath : (Context.ofTokens tokens error redirectPrefix)._redirectPath = [] := by
    unfold Context.ofTokens
    rfl
  generalize Context.ofTokens tokens error redirectPrefix = c at *
  have htarget : c.redirectTarget
      = (redirectNameBySpec redirectPrefix c._positionalArguments c._switchedArguments).take
          255 := by
    unfold Context.redirectTarget Context.SetRedirectPathBySuffix
      Context.SetRedirectPathByArguments redirectNameBySpec
    have harg : Context.Argument { c with _redirectPath := c._redirectPrefix }
        (bytesOf "redirectSuffix") 0 = [] := by
      unfold Context.Argument
      simp only [hsuf]
    simp only [harg, List.isEmpty_nil, Bool.not_true, Bool.false_eq_true, if_false,
      Bool.not_false, if_true]
    obtain ⟨p, ps, hps⟩ := List.exists_cons_of_ne_nil hpos
    rw [hps, appendSwitches_eq, appendPositionals_zero, hprefix]
    split
    · rfl
    · rename_i h
      rw [List.take_of_length_le (by omega)]
  refine ⟨htarget, ?_, ?_, ?_⟩
  · rw [htarget]
    exact List.length_take_le _ _
  · rw [htarget]
    exact List.take_prefix _ _
  · intro hopen
    unfold Context.StartRedirect Output.PushTarget
    rw [hpath]
    simp only [List.isEmpty_nil, if_true, hopen]

/-- The loop of the constructor of Context never removes a positional argument. -/
theorem ctorStep_positionals (st : CtorState) (t : Line)
    (h : st._positionalArguments ≠ []) : (ctorStep st t)._positionalArguments ≠ [] := by
  unfold ctorStep
  simp only []
  repeat' split
  all_goals first | exact h | simp

theorem ctorLoop_positionals (ts : Tokens) : ∀ (st : CtorState),
    st._positionalArguments ≠ [] → (ts.foldl ctorStep st)._positionalArguments ≠ [] := by
  induction ts with
  | nil => intro st h; exact h
  | cons t ts ih =>
    intro st h
    rw [List.foldl_cons]
    exact ih _ (ctorStep_positionals st t h)

/-- A first token that does not begin with '/' becomes the first positional argument
(lines 400-402): the Context has a positional argument. -/
theorem ofTokens_command_name (t : Line) (rest : Tokens) (error : Error)
    (redirectPath0 : Line) (hs : beginsWithSlash t = false) :
    (Context.ofTokens (t :: rest) error redirectPath0)._positionalArguments ≠ [] := by
  have h : ∀ st0 : CtorState, st0.switchName = [] →
      (rest.foldl ctorStep (ctorStep st0 t))._positionalArguments ≠ [] := by
    intro st0 h0
    apply ctorLoop_positionals
    rw [ctorStep_plain st0 t hs h0]
    simp
  unfold Context.ofTokens
  simp only [List.foldl_cons]
  split <;> exact h _ rfl

/-- A first token that begins with '/' is a switch before the command name (lines
391-393): the Context has an ill-formed switch. -/
theorem ofTokens_first_switch (t : Line) (rest : Tokens) (error : Error)
    (redirectPath0 : Line) (hs : beginsWithSlash t = true) :
    (Context.ofTokens (t :: rest) error redirectPath0).HasIllFormedSwitch = true := by
  rw [HasIllFormedSwitch_eq]
  simp [illAfter, hs]

/-- A Context without positional argument has no token, or its first token begins with
'/' and it has an ill-formed switch. -/
theorem ofTokens_without_positionals (tokens : Tokens) (error : Error) (redirectPath0 : Line)
    (h : (Context.ofTokens tokens error redirectPath0)._positionalArguments = []) :
    tokens = []
      ∨ ((Context.ofTokens tokens error redirectPath0).HasIllFormedSwitch = true
          ∧ beginsWithSlash ((Context.ofTokens tokens error redirectPath0).TokenAt 0) = true) := by
  cases tokens with
  | nil => exact Or.inl rfl
  | cons t rest =>
    cases hs : beginsWithSlash t with
    | false => exact absurd h (ofTokens_command_name t rest error redirectPath0 hs)
    | true => exact Or.inr ⟨ofTokens_first_switch t rest error redirectPath0 hs, hs⟩

/-- The try block of RunCommands does not reach a call of StartRedirect for a Context
without positional argument: the line is skipped at lines 844-848 or at lines 850-861,
the output stack is as before, the Context is not redirected and nothing is executed. -/
theorem tryBlock_without_positionals {W : Type} (fs : FileSystem) (r : Runner W)
    (tokens : Tokens) (error : Error) (redirectPath0 : Line) (input1 : Input)
    (h : (Context.ofTokens tokens error redirectPath0)._positionalArguments = []) :
    (r.tryBlock fs (Context.ofTokens tokens error redirectPath0) input1).2.scope.output
        = r._output
      ∧ (r.tryBlock fs (Context.ofTokens tokens error redirectPath0)
          input1).2.scope.context._redirectPath = []
      ∧ (r.tryBlock fs (Context.ofTokens tokens error redirectPath0) input1).2.executed
          = [] := by
  rcases ofTokens_without_positionals tokens error redirectPath0 h with h0 | ⟨hill, hs⟩
  · subst h0
    have ht : (Context.ofTokens [] error redirectPath0).TokenAt 0 = [] := rfl
    unfold Runner.tryBlock
    simp only [find_slash_zero, ht]
    have hb : beginsWithSlash [] = false := rfl
    simp only [hb, Bool.and_false, Bool.false_eq_true, if_false, List.isEmpty_nil, if_true]
    split <;> exact ⟨rfl, rfl, rfl⟩
  · unfold Runner.tryBlock
    simp only [find_slash_zero, hill, hs, Bool.and_self, if_true]
    exact ⟨trivial, rfl, trivial⟩

/-- C17: when no redirect is active and no /redirectSuffix is given, StartRedirect uses
as file name the first 255 bytes of: the prefix, then "." and the positional arguments
joined by "_", then for each switch name in ascending byte-wise order "::" and the name
followed by ":" and the argument for each of its arguments in the order of the command
line; the name has at most 255 bytes and is a prefix of the string before the
truncation.  This holds for every Context with a positional argument, and these are the
Contexts for which RunCommands calls StartRedirect (lines 901 and 918): a Context
without positional argument has no token, or its first token is a switch, which the
constructor marks as ill-formed (lines 391-393), and for both the try block of
RunCommands leaves the loop body before it (lines 844-848 and 850-861) with the output
stack unchanged, the Context not redirected and nothing executed. -/
theorem StartRedirect_by_arguments (fs : FileSystem) (tokens : Tokens) (error : Error)
    (redirectPrefix : Line) (out : Output)
    (hsuf : mapFind (Context.ofTokens tokens error redirectPrefix)._switchedArguments
      (bytesOf "redirectSuffix") = none) :
    ((Context.ofTokens tokens error redirectPrefix)._positionalArguments = [] →
        (tokens = []
          ∨ ((Context.ofTokens tokens error redirectPrefix).HasIllFormedSwitch = true
              ∧ beginsWithSlash ((Context.ofTokens tokens error redirectPrefix).TokenAt 0)
                  = true))
        ∧ ∀ (W : Type) (r : Runner W) (input1 : Input),
            (r.tryBlock fs (Context.ofTokens tokens error redirectPrefix) input1).2.scope.output
                = r._output
              ∧ (r.tryBlock fs (Context.ofTokens tokens error redirectPrefix)
                  input1).2.scope.context._redirectPath = []
              ∧ (r.tryBlock fs (Context.ofTokens tokens error redirectPrefix)
                  input1).2.executed = [])
      ∧ ((Context.ofTokens tokens error redirectPrefix)._positionalArguments ≠ [] →
          (Context.ofTokens tokens error redirectPrefix).redirectTarget
              = (redirectNameBySpec redirectPrefix
                  (Context.ofTokens tokens error redirectPrefix)._positionalArguments
                  (Context.ofTokens tokens error redirectPrefix)._switchedArguments).take 255
            ∧ (Context.ofTokens tokens error redirectPrefix).redirectTarget.length ≤ 255
            ∧ (Context.ofTokens tokens error redirectPrefix).redirectTarget
                <+: redirectNameBySpec redirectPrefix
                  (Context.ofTokens tokens error redirectPrefix)._positionalArguments
                  (Context.ofTokens tokens error redirectPrefix)._switchedArguments
            ∧ (fs.canOpen (Context.ofTokens tokens error redirectPrefix).redirectTarget = true →
                (Context.ofTokens tokens error redirectPrefix).StartRedirect fs out
                  = ({ Context.ofTokens tokens error redirectPrefix with
                        _redirectPath :=
                          (Context.ofTokens tokens error redirectPrefix).redirectTarget },
                     { out with _outputStack :=
                        (Context.ofTokens tokens error redirectPrefix).redirectTarget
                          :: out._outputStack })))
      ∧ (Context.ofTokens tokens error redirectPrefix)._switchedArguments.Pairwise
          (fun a b => strLess a.1 b.1 = true)
      ∧ (∀ e ∈ (Context.ofTokens tokens error redirectPrefix)._switchedArguments,
          e.2 ≠ [] ∧ (Context.ofTokens tokens error redirectPrefix).arguments e.1 = e.2)
      ∧ (∀ name, (Context.ofTokens tokens error redirectPrefix).arguments name ≠ [] →
          ∃ e ∈ (Context.ofTokens tokens error redirectPrefix)._switchedArguments,
            e.1 = name) := by
  refine ⟨fun h => ⟨ofTokens_without_positionals tokens error redirectPrefix h,
      fun W r input1 => tryBlock_without_positionals fs r tokens error redirectPrefix input1 h⟩,
    fun hpos => redirectTarget_with_positionals fs tokens error redirectPrefix out hpos hsuf,
    ?_⟩
  have hsorted := ofTokens_sorted tokens error redirectPrefix
  have hnonempty := ofTokens_nonempty tokens error redirectPrefix
  refine ⟨hsorted, ?_, ?_⟩
  · intro e he
    have hfind := mapFind_of_mem _ hsorted e he
    refine ⟨hnonempty e.1 e.2 hfind, ?_⟩
    rw [arguments_eq, hfind]
    rfl
  · intro name hname
    rw [arguments_eq] at hname
    cases hfind : mapFind (Context.ofTokens tokens error redirectPrefix)._switchedArguments
        name with
    | none =>
      rw [hfind] at hname
      exact absurd rfl hname
    | some v => exact ⟨(name, v), mem_of_mapFind _ _ _ hfind, rfl⟩

theorem StartRedirect_by_arguments_witness :
    mapFind (Context.ofTokens [bytesOf "count", bytesOf "used", bytesOf "/z", bytesOf "1",
        bytesOf "/a", bytesOf "2", bytesOf "/z", bytesOf "3"] ⟨[], false, []⟩
        (bytesOf "run"))._switchedArguments (bytesOf "redirectSuffix") = none
      ∧ (Context.ofTokens [bytesOf "count", bytesOf "used", bytesOf "/z", bytesOf "1",
          bytesOf "/a", bytesOf "2", bytesOf "/z", bytesOf "3"] ⟨[], false, []⟩
          (bytesOf "run")).redirectTarget
        = bytesOf "run.count_used::a:2::z:1:3" :=
  ⟨by decide,
    (((StartRedirect_by_arguments writableFileSystem
      [bytesOf "count", bytesOf "used", bytesOf "/z", bytesOf "1", bytesOf "/a", bytesOf "2",
        bytesOf "/z", bytesOf "3"] ⟨[], false, []⟩ (bytesOf "run") ⟨[], []⟩
      (by decide)).2.1 (by decide)).1).trans (by decide)⟩

/-- For the tokens "/s" and "v" and the prefix "run" there is no positional argument, and
StartRedirect on its own would use the file name "run::s:v", without a "."; the
constructor has marked the switch before the command name as ill-formed, so that
RunCommands skips the line and does not call StartRedirect for it. -/
theorem redirect_name_without_positionals :
    (Context.ofTokens [bytesOf "/s", bytesOf "v"] ⟨[], false, []⟩ (bytesOf "run")).redirectTarget
        = bytesOf "run::s:v"
      ∧ (Context.ofTokens [bytesOf "/s", bytesOf "v"] ⟨[], false, []⟩
            (bytesOf "run"))._positionalArguments = []
      ∧ (Context.ofTokens [bytesOf "/s", bytesOf "v"] ⟨[], false, []⟩
            (bytesOf "run")).HasIllFormedSwitch = true
      ∧ mapFind (Context.ofTokens [bytesOf "/s", bytesOf "v"] ⟨[], false, []⟩
            (bytesOf "run"))._switchedArguments (bytesOf "redirectSuffix") = none
      ∧ (Context.ofTokens [bytesOf "/s", bytesOf "v"] ⟨[], false, []⟩
            (bytesOf "run"))._redirectPath = [] := by
  decide

end Commands

namespace Commands

theorem findByName_map_append {α : Type} (name : Line) (x : α) :
    ∀ (m : List (Line × List α)) (old : List α), findByName m name = some old →
      findByName (m.map (fun e => if e.1 == name then (e.1, e.2 ++ [x]) else e)) name
        = some (old ++ [x]) := by
  intro m
  induction m with
  | nil => intro old h; simp [findByName] at h
  | cons e m ih =>
    intro old h
    unfold findByName at h ih ⊢
    cases he : e.1 == name
    · simp only [List.map_cons, he, Bool.false_eq_true, if_false, List.find?_cons] at h ⊢
      exact ih old h
    · simp only [List.map_cons, he, if_true, List.find?_cons, Option.map_some',
        Option.some.injEq] at h ⊢
      rw [h]

theorem findByName_insertByName {α : Type} (name : Line) (v : α) :
    ∀ (m : List (Line × α)), findByName m name = none →
      findByName (insertByName m name v) name = some v := by
  intro m
  induction m with
  | nil => intro _; simp [findByName, insertByName]
  | cons e m ih =>
    intro h
    obtain ⟨k1, v1⟩ := e
    unfold findByName at h ih ⊢
    cases he : k1 == name
    · simp only [List.find?_cons, he] at h
      unfold insertByName
      split
      · simp
      · simp only [List.find?_cons, he]
        exact ih h
    · simp [List.find?_cons, he] at h

/-- Registration appends: after AddCommand for a callback, the callbacks of the name are
the ones registered before, followed by the new one. -/
theorem AddCallback_registers {W : Type} (r : Runner W) (name : Line) (cb : CommandCallback W) :
    findByName (r.AddCallback name cb)._commandCallbacks name
      = some ((findByName r._commandCallbacks name).getD [] ++ [cb]) := by
  unfold Runner.AddCallback
  cases h : findByName r._commandCallbacks name with
  | none =>
    simp only [Option.getD_none, List.nil_append]
    exact findByName_insertByName name [cb] _ h
  | some old =>
    simp only [Option.getD_some]
    exact findByName_map_append name cb _ old h

theorem checkEvents_append (k : Nat) (xs ys : List Nat) :
    checkEvents k (xs ++ ys) = checkEvents k xs ++ checkEvents (k + xs.length) ys := by
  unfold checkEvents
  rw [List.enumFrom_append, List.map_append]

theorem checkLoop_cons {W : Type} (cb : CommandCallback W) (rest : List (CommandCallback W))
    (k : Nat) (st : CheckState W) :
    checkLoop (cb :: rest) k st
      = match (cb st.scope true).1 with
        | none =>
          { st with scope := (cb st.scope true).2,
                    executed := st.executed ++ [.check k none], interrupted := true }
        | some n =>
          checkLoop rest (k + 1)
            { scope := (cb st.scope true).2,
              mostTokensAccepted := if n > st.mostTokensAccepted then n
                                    else st.mostTokensAccepted,
              itBest := if n > st.mostTokensAccepted then some k else st.itBest,
              executed := st.executed ++ [.check k (some n)],
              interrupted := st.interrupted } := by
  rw [checkLoop]
  rcases h : cb st.scope true with ⟨a, s1⟩
  cases a with
  | none => rfl
  | some n =>
    simp only []
    split <;> rfl

/-- The loop over the callbacks logs check-only calls and nothing else. -/
theorem checkLoop_only_checks {W : Type} : ∀ (cbs : List (CommandCallback W)) (k : Nat)
    (st : CheckState W) (e : Executed), e ∈ (checkLoop cbs k st).executed →
      e ∈ st.executed ∨ ∃ j a, e = .check j a := by
  intro cbs
  induction cbs with
  | nil => intro k st e h; exact Or.inl h
  | cons cb rest ih =>
    intro k st e h
    rw [checkLoop_cons] at h
    cases ha : (cb st.scope true).1 with
    | none =>
      rw [ha] at h
      simp only [List.mem_append, List.mem_singleton] at h
      rcases h with h | h
      · exact Or.inl h
      · exact Or.inr ⟨k, none, h⟩
    | some n =>
      rw [ha] at h
      rcases ih _ _ e h with h1 | h1
      · simp only [List.mem_append, List.mem_singleton] at h1
        rcases h1 with h1 | h1
        · exact Or.inl h1
        · exact Or.inr ⟨k, some n, h1⟩
      · exact Or.inr h1

/-- The loop over the callbacks keeps what was logged before it. -/
theorem checkLoop_prefix {W : Type} : ∀ (cbs : List (CommandCallback W)) (k : Nat)
    (st : CheckState W), ∃ tail, (checkLoop cbs k st).executed = st.executed ++ tail := by
  intro cbs
  induction cbs with
  | nil => intro k st; exact ⟨[], by simp [checkLoop]⟩
  | cons cb rest ih =>
    intro k st
    rw [checkLoop_cons]
    cases ha : (cb st.scope true).1 with
    | none => exact ⟨[.check k none], rfl⟩
    | some n =>
      obtain ⟨tail, ht⟩ := ih (k + 1)
        { scope := (cb st.scope true).2,
          mostTokensAccepted := if n > st.mostTokensAccepted then n
                                else st.mostTokensAccepted,
          itBest := if n > st.mostTokensAccepted then some k else st.itBest,
          executed := st.executed ++ [.check k (some n)],
          interrupted := st.interrupted }
      exact ⟨.check k (some n) :: tail, by simp only [ht, List.append_assoc,
        List.singleton_append]⟩

/-- The invariant of the loop over the callbacks is kept when no callback throws. -/
theorem checkLoop_inv {W : Type} (base : List Executed) :
    ∀ (cbs : List (CommandCallback W)) (results : List Nat) (st : CheckState W),
      CheckInv base results st → (checkLoop cbs results.length st).interrupted = false →
      ∃ more, more.length = cbs.length
        ∧ CheckInv base (results ++ more) (checkLoop cbs results.length st) := by
  intro cbs
  induction cbs with
  | nil =>
    intro results st hinv _
    exact ⟨[], rfl, by simpa [checkLoop] using hinv⟩
  | cons cb rest ih =>
    intro results st hinv hint
    rw [checkLoop_cons] at hint ⊢
    cases ha : (cb st.scope true).1 with
    | none =>
      rw [ha] at hint
      simp at hint
    | some n =>
      rw [ha] at hint
      simp only [] at hint ⊢
      obtain ⟨hlog, hmax, hbest⟩ := hinv
      have hlen : (results ++ [n]).length = results.length + 1 := by simp
      have hstep : CheckInv base (results ++ [n])
          { scope := (cb st.scope true).2,
            mostTokensAccepted := if n > st.mostTokensAccepted then n
                                  else st.mostTokensAccepted,
            itBest := if n > st.mostTokensAccepted then some results.length else st.itBest,
            executed := st.executed ++ [.check results.length (some n)],
            interrupted := st.interrupted } := by
        refine ⟨?_, ?_, ?_⟩
        · simp only [hlog, checkEvents_append, List.append_assoc, Nat.zero_add]
          rfl
        · intro m hm
          simp only []
          rcases List.mem_append.mp hm with hm | hm
          · have := hmax m hm
            split <;> omega
          · simp only [List.mem_singleton] at hm
            subst hm
            split <;> omega
        · simp only []
          by_cases hgt : n > st.mostTokensAccepted
          · simp only [hgt, if_true]
            right
            refine ⟨results.length, rfl, by simp, by omega, ?_⟩
            intro j m hj hjm
            rw [List.getElem?_append_left hj] at hjm
            have := hmax m (List.getElem?_mem hjm)
            omega
          · simp only [hgt, if_false]
            rcases hbest with ⟨h1, h2⟩ | ⟨i, h1, h2, h3, h4⟩
            · exact Or.inl ⟨h1, h2⟩
            · right
              have hi : i < results.length := by
                by_contra hc
                rw [List.getElem?_eq_none (by omega)] at h2
                cases h2
              refine ⟨i, h1, by rw [List.getElem?_append_left hi]; exact h2, h3, ?_⟩
              intro j m hj hjm
              rw [List.getElem?_append_left (by omega)] at hjm
              exact h4 j m hj hjm
      rw [← hlen] at hint ⊢
      obtain ⟨more, hm1, hm2⟩ := ih (results ++ [n]) _ hstep hint
      refine ⟨n :: more, by simp [hm1], ?_⟩
      simpa only [List.append_assoc, List.singleton_append] using hm2

/-- The lookup and the run of a Command object leave the input alone. -/
theorem runCommandObject_input {W : Type} (fs : FileSystem) (r : Runner W) (command : Line)
    (ill started : Bool) (b : Body W) :
    (runCommandObject fs r command ill started b).input = b.input := by
  unfold runCommandObject
  cases findByName r._commands command with
  | none => rfl
  | some c =>
    cases r._preCommandCallback with
    | none =>
      simp only []
      repeat' split
      all_goals rfl
    | some callback =>
      simp only []
      repeat' split
      all_goals rfl

/-- The lookup and the run of a Command object log nothing but the pre-command callback
and the Run of the Command. -/
theorem runCommandObject_executed {W : Type} (fs : FileSystem) (r : Runner W)
    (command : Line) (ill started : Bool) (b : Body W) :
    ∃ tail, (runCommandObject fs r command ill started b).executed = b.executed ++ tail
      ∧ ∀ e ∈ tail, e = .preCommand ∨ e = .command command := by
  unfold runCommandObject
  cases findByName r._commands command with
  | none => exact ⟨[], by simp, by simp⟩
  | some c =>
    cases r._preCommandCallback with
    | none =>
      simp only []
      repeat' split
      all_goals first
        | exact ⟨[.command command], rfl, fun e he => Or.inr (List.mem_singleton.mp he)⟩
        | exact ⟨[], (List.append_nil _).symm, fun e he => by simp at he⟩
    | some callback =>
      simp only []
      repeat' split
      all_goals first
        | exact ⟨[.preCommand, .command command], List.append_assoc _ _ _,
            fun e he => by simpa using he⟩
        | exact ⟨[.preCommand], rfl, fun e he => Or.inl (List.mem_singleton.mp he)⟩
        | exact ⟨[], (List.append_nil _).symm, fun e he => by simp at he⟩

/-- For a command line with an ill-formed switch, the lookup of a Command object logs
nothing and throws nothing. -/
theorem runCommandObject_ill {W : Type} (fs : FileSystem) (r : Runner W) (command : Line)
    (started : Bool) (b : Body W) :
    (runCommandObject fs r command true started b).executed = b.executed
      ∧ (runCommandObject fs r command true started b).interrupted = b.interrupted := by
  unfold runCommandObject
  cases findByName r._commands command with
  | none => exact ⟨rfl, rfl⟩
  | some c => exact ⟨rfl, rfl⟩

/-- The invariant of the loop over the callbacks at its end, for a command line for
which nothing was logged before. -/
theorem checkAll_inv {W : Type} (callbacks : List (CommandCallback W)) (b : Body W)
    (hb : b.executed = []) (hint : (checkAll callbacks b).interrupted = false) :
    ∃ results, results.length = callbacks.length
      ∧ CheckInv [] results (checkAll callbacks b) := by
  have h0 : CheckInv [] []
      ({ scope := b.scope, mostTokensAccepted := 0, itBest := none, executed := b.executed,
         interrupted := false } : CheckState W) := by
    refine ⟨by simp [hb, checkEvents], by simp, Or.inl ⟨rfl, rfl⟩⟩
  obtain ⟨more, h1, h2⟩ := checkLoop_inv [] callbacks [] _ h0 hint
  exact ⟨more, h1, by simpa using h2⟩

/-- The check-only calls of the callbacks log no call in non-check mode. -/
theorem checkAll_no_callback {W : Type} (callbacks : List (CommandCallback W)) (b : Body W)
    (hb : b.executed = []) (i : Nat) : Executed.callback i ∉ (checkAll callbacks b).executed := by
  intro h
  rcases checkLoop_only_checks callbacks 0 _ _ h with h1 | ⟨j, a, h1⟩
  · simp [hb] at h1
  · cases h1

/-- When the dispatch of lines 871-927 executes a callback in non-check mode, all the
callbacks of the command name were called in check-only mode before, and the one executed
is the first that returned the largest number, which is not 0. -/
theorem runRegistered_callback {W : Type} (fs : FileSystem) (r : Runner W) (command : Line)
    (ill : Bool) (b : Body W) (hb : b.executed = []) (i : Nat)
    (hi : Executed.callback i ∈ (runRegistered fs r command ill b).executed) :
    ∃ callbacks results n,
      findByName r._commandCallbacks command = some callbacks
        ∧ results.length = callbacks.length
        ∧ (runRegistered fs r command ill b).executed = checkEvents 0 results ++ [.callback i]
        ∧ results[i]? = some n ∧ 0 < n
        ∧ (∀ (j m : Nat), results[j]? = some m → m ≤ n)
        ∧ (∀ (j m : Nat), j < i → results[j]? = some m → m < n) := by
  unfold runRegistered at hi ⊢
  cases hf : findByName r._commandCallbacks command with
  | none =>
    rw [hf] at hi
    simp only [] at hi
    obtain ⟨tail, ht, hk⟩ := runCommandObject_executed fs r command ill false b
    rw [ht, hb] at hi
    rcases hk _ (by simpa using hi) with h | h <;> cases h
  | some callbacks =>
    rw [hf] at hi
    simp only [] at hi ⊢
    have hno := checkAll_no_callback callbacks b hb i
    by_cases hint : (checkAll callbacks b).interrupted = true
    · rw [if_pos hint] at hi
      exact absurd hi hno
    · rw [if_neg hint] at hi ⊢
      by_cases hz : (checkAll callbacks b).mostTokensAccepted = 0
      · rw [if_pos hz] at hi
        obtain ⟨tail, ht, hk⟩ := runCommandObject_executed fs r command ill false
          (unknownCommand command
            { b with scope := (checkAll callbacks b).scope,
                     executed := (checkAll callbacks b).executed })
        rw [ht] at hi
        rcases List.mem_append.mp hi with h | h
        · exact absurd h hno
        · rcases hk _ h with h | h <;> cases h
      · rw [if_neg hz] at hi ⊢
        have hred : ∀ b1 : Body W, (redirectForCallback fs b1).executed = b1.executed := by
          intro b1
          unfold redirectForCallback
          split <;> rfl
        unfold runBest at hi ⊢
        split at hi
        · rename_i hcond
          rw [if_pos hcond]
          split at hi
          · rw [hred] at hi
            exact absurd hi hno
          · rename_i i1 best hbest
            simp only [hred, List.mem_append, List.mem_singleton, Executed.callback.injEq] at hi ⊢
            rcases hi with h | h
            · exact absurd h hno
            · subst h
              obtain ⟨results, hlen, hlog, hmax, hbst⟩ := checkAll_inv callbacks b hb
                (by simpa using hint)
              rcases hbst with ⟨h1, _⟩ | ⟨i2, h1, h2, h3, h4⟩
              · rw [h1] at hbest
                simp at hbest
              · rw [h1] at hbest
                have hi2 : i2 = i := by
                  simp only [Option.some_bind] at hbest
                  cases hc : callbacks[i2]? with
                  | none => rw [hc] at hbest; simp at hbest
                  | some cb =>
                    rw [hc] at hbest
                    simp only [Option.map_some', Option.some.injEq, Prod.mk.injEq] at hbest
                    exact hbest.1
                subst hi2
                refine ⟨callbacks, results, _, rfl, hlen, ?_, h2, h3, ?_, h4⟩
                · rw [hlog, List.nil_append]
                · intro j m hjm
                  exact hmax m (List.getElem?_mem hjm)
        · obtain ⟨tail, ht, hk⟩ := runCommandObject_executed fs r command ill b.redirect
            (redirectForCallback fs
              { b with scope := (checkAll callbacks b).scope,
                       executed := (checkAll callbacks b).executed })
          rw [ht, hred] at hi
          rcases List.mem_append.mp hi with h | h
          · exact absurd h hno
          · rcases hk _ h with h | h <;> cases h

/-- The help command logs nothing but the ShowHelpMessage of a Command. -/
theorem handleHelpCommand_executed {W : Type} (commands : List (Line × Command W))
    (b : Body W) :
    (handleHelpCommand commands b).executed = b.executed
      ∨ ∃ name, (handleHelpCommand commands b).executed = b.executed ++ [.commandHelp name] := by
  unfold handleHelpCommand
  simp only []
  repeat' split
  all_goals first
    | exact Or.inl rfl
    | exact Or.inr ⟨_, rfl⟩

theorem handleRedirectCommand_executed {W : Type} (b : Body W) :
    (handleRedirectCommand b).executed = b.executed := by
  unfold handleRedirectCommand
  simp only []
  split <;> rfl

theorem handleSourceCommand_executed {W : Type} (fs : FileSystem) (b : Body W) :
    (handleSourceCommand fs b).executed = b.executed := by
  unfold handleSourceCommand
  split <;> rfl

theorem finishPass_executed {W : Type} (r : Runner W) (b : Body W) (returned : Bool)
    (context : Context) :
    (finishPass r b returned context).executed = b.executed := by
  unfold finishPass
  simp only []
  split <;> rfl

theorem finishPass_callbacks {W : Type} (r : Runner W) (b : Body W) (returned : Bool)
    (context : Context) :
    (finishPass r b returned context).runner._commandCallbacks = r._commandCallbacks
      ∧ (finishPass r b returned context).runner._commands = r._commands := ⟨rfl, rfl⟩

/-- A pass is the end of the try block for the tokens that GetTokens read. -/
theorem pass_eq {W : Type} (fs : FileSystem) (fuel : Nat) (r : Runner W) (p : Pass W)
    (hp : r.pass fs fuel = some p) :
    ∃ tokens input1, r._input.GetTokens fuel = some (tokens, input1)
      ∧ p.context = Context.ofTokens tokens
          { r._error with _scriptContext := input1._scriptContext } r._redirectPrefix
      ∧ p = finishPass r (r.tryBlock fs p.context input1).2 (r.tryBlock fs p.context input1).1
          p.context := by
  unfold Runner.pass at hp
  cases hg : r._input.GetTokens fuel with
  | none => rw [hg] at hp; cases hp
  | some ti =>
    obtain ⟨tokens, input1⟩ := ti
    rw [hg] at hp
    simp only [Option.some.injEq] at hp
    subst hp
    exact ⟨tokens, input1, rfl, rfl, rfl⟩

/-- What the try block logs is what the dispatch of lines 871-927 logs, or nothing but
the ShowHelpMessage of a Command. -/
theorem tryBlock_executed {W : Type} (fs : FileSystem) (r : Runner W) (context : Context)
    (input1 : Input) :
    (r.tryBlock fs context input1).2.executed = []
      ∨ (∃ name, (r.tryBlock fs context input1).2.executed = [.commandHelp name])
      ∨ ∃ b : Body W, b.executed = [] ∧ b.input = input1
          ∧ (r.tryBlock fs context input1).2
              = runRegistered fs r (context.TokenAt 0) context.HasIllFormedSwitch b
          ∧ ¬ (context.HasIllFormedSwitch = true
                ∧ beginsWithSlash (context.TokenAt 0) = true) := by
  unfold Runner.tryBlock
  simp only []
  split
  · exact Or.inl rfl
  · rename_i hskip
    split
    · split <;> exact Or.inl rfl
    · split
      · rcases handleHelpCommand_executed r._commands
          { scope := { context := context, output := r._output, world := r.world },
            input := input1, redirect := r._redirect, executed := [],
            interrupted := false } with h | ⟨name, h⟩
        · exact Or.inl h
        · exact Or.inr (Or.inl ⟨name, h⟩)
      · split
        · exact Or.inl (handleRedirectCommand_executed _)
        · split
          · exact Or.inl (handleSourceCommand_executed fs _)
          · refine Or.inr (Or.inr ⟨_, rfl, rfl, rfl, ?_⟩)
            rw [find_slash_zero] at hskip
            simpa using hskip

/-- When the try block executes a callback in non-check mode, it is the best one of the
callbacks of the first token. -/
theorem tryBlock_callback {W : Type} (fs : FileSystem) (r : Runner W) (context : Context)
    (input1 : Input) (i : Nat)
    (hi : Executed.callback i ∈ (r.tryBlock fs context input1).2.executed) :
    ∃ callbacks, findByName r._commandCallbacks (context.TokenAt 0) = some callbacks
      ∧ ExecutesBest callbacks.length (r.tryBlock fs context input1).2.executed i := by
  rcases tryBlock_executed fs r context input1 with h | ⟨name, h⟩ | ⟨b, hb, _, h, _⟩
  · rw [h] at hi
    cases hi
  · rw [h] at hi
    simp at hi
  · rw [h] at hi ⊢
    obtain ⟨callbacks, results, n, h1, h2, h3, h4, h5, h6, h7⟩ :=
      runRegistered_callback fs r _ _ b hb i hi
    exact ⟨callbacks, h1, results, n, h2, h3, h4, h5, h6, h7⟩

theorem pass_callbacks {W : Type} (fs : FileSystem) (fuel : Nat) (r : Runner W) (p : Pass W)
    (hp : r.pass fs fuel = some p) :
    p.runner._commandCallbacks = r._commandCallbacks ∧ p.runner._commands = r._commands := by
  obtain ⟨tokens, input1, _, _, h⟩ := pass_eq fs fuel r p hp
  rw [h]
  exact finishPass_callbacks _ _ _ _

/-- In a pass that executes a callback in non-check mode, it is the best one of the
callbacks of the first token. -/
theorem pass_callback {W : Type} (fs : FileSystem) (fuel : Nat) (r : Runner W) (p : Pass W)
    (hp : r.pass fs fuel = some p) (i : Nat) (hi : Executed.callback i ∈ p.executed) :
    ∃ callbacks, findByName r._commandCallbacks (p.context.TokenAt 0) = some callbacks
      ∧ ExecutesBest callbacks.length p.executed i := by
  obtain ⟨tokens, input1, _, _, h⟩ := pass_eq fs fuel r p hp
  have he : p.executed = (r.tryBlock fs p.context input1).2.executed := by
    conv_lhs => rw [h]
    exact finishPass_executed _ _ _ _
  rw [he] at hi ⊢
  exact tryBlock_callback fs r p.context input1 i hi

/-- Every command line of a run of RunCommands that executes a callback in non-check
mode executes the best one of the callbacks of a command name. -/
theorem RunCommands_callback {W : Type} (fs : FileSystem) (fuel : Nat) :
    ∀ (n : Nat) (r r1 : Runner W) (log : List (List Executed)),
      Runner.RunCommands fs fuel n r = some (r1, log) →
      ∀ e ∈ log, ∀ i, Executed.callback i ∈ e →
        ∃ name callbacks, findByName r._commandCallbacks name = some callbacks
          ∧ ExecutesBest callbacks.length e i := by
  intro n
  induction n with
  | zero => intro r r1 log h; simp [Runner.RunCommands] at h
  | succ n ih =>
    intro r r1 log h e he i hi
    rw [Runner.RunCommands] at h
    cases hp : r.pass fs fuel with
    | none => rw [hp] at h; cases h
    | some p =>
      rw [hp] at h
      simp only [] at h
      have hhere : ∀ e1, e1 = p.executed → Executed.callback i ∈ e1 →
          ∃ name callbacks, findByName r._commandCallbacks name = some callbacks
            ∧ ExecutesBest callbacks.length e1 i := by
        intro e1 he1 hi1
        subst he1
        obtain ⟨callbacks, h1, h2⟩ := pass_callback fs fuel r p hp i hi1
        exact ⟨_, callbacks, h1, h2⟩
      split at h
      · simp only [Option.some.injEq, Prod.mk.injEq] at h
        rw [← h.2] at he
        exact hhere e (List.mem_singleton.mp he) hi
      · cases hrest : Runner.RunCommands fs fuel n p.runner with
        | none => rw [hrest] at h; cases h
        | some rl =>
          obtain ⟨r2, log2⟩ := rl
          rw [hrest] at h
          simp only [Option.some.injEq, Prod.mk.injEq] at h
          rw [← h.2] at he
          rcases List.mem_cons.mp he with he | he
          · exact hhere e he hi
          · obtain ⟨name, callbacks, h1, h2⟩ := ih p.runner r2 log2 hrest e he i hi
            rw [(pass_callbacks fs fuel r p hp).1] at h1
            exact ⟨name, callbacks, h1, h2⟩

/-- C18: among the callbacks registered under one command name, the callback that
Runner::RunCommands executes, when it executes one, is the earliest-registered among those
whose check-only call accepts the largest number of tokens, and a callback that accepts 0
tokens is never executed.  This holds for every pass through the loop of RunCommands,
where the callbacks are those of the first token of the command line, and for every
command line of a run of RunCommands; the index of a callback in the list of its name is
its place in the order of registration, since AddCommand appends to that list. -/
theorem RunCommands_executes_best_callback {W : Type} (fs : FileSystem) (fuel : Nat)
    (r : Runner W) :
    (∀ (p : Pass W), r.pass fs fuel = some p → ∀ i, Executed.callback i ∈ p.executed →
        ∃ callbacks, findByName r._commandCallbacks (p.context.TokenAt 0) = some callbacks
          ∧ ExecutesBest callbacks.length p.executed i)
      ∧ (∀ (n : Nat) (r1 : Runner W) (log : List (List Executed)),
          Runner.RunCommands fs fuel n r = some (r1, log) →
          ∀ e ∈ log, ∀ i, Executed.callback i ∈ e →
            ∃ name callbacks, findByName r._commandCallbacks name = some callbacks
              ∧ ExecutesBest callbacks.length e i)
      ∧ (∀ (name : Line) (cb : CommandCallback W),
          findByName (r.AddCallback name cb)._commandCallbacks name
            = some ((findByName r._commandCallbacks name).getD [] ++ [cb])) :=
  ⟨fun p hp i hi => pass_callback fs fuel r p hp i hi,
   fun n r1 log h e he i hi => RunCommands_callback fs fuel n r r1 log h e he i hi,
   fun name cb => AddCallback_registers r name cb⟩

theorem RunCommands_executes_best_callback_witness :
    tieRunner.pass writableFileSystem 10 = some tiePass
      ∧ tiePass.executed
          = [.check 0 (some 1), .check 1 (some 3), .check 2 (some 3), .callback 1]
      ∧ ∃ callbacks,
          findByName tieRunner._commandCallbacks (tiePass.context.TokenAt 0) = some callbacks
            ∧ ExecutesBest callbacks.length tiePass.executed 1 :=
  ⟨(Option.some_get _).symm, by decide,
    (RunCommands_executes_best_callback writableFileSystem 10 tieRunner).1 tiePass
      (Option.some_get _).symm 1 (by decide)⟩

/-- When the log holds a check-only call that returned 0 for each of the callbacks, no
callback threw and mostTokensAccepted is left as it was. -/
theorem checkLoop_zero {W : Type} (E : List Executed) :
    ∀ (cbs : List (CommandCallback W)) (k : Nat) (st : CheckState W),
      (∀ j, j < cbs.length → E[st.executed.length + j]? = some (.check (k + j) (some 0))) →
      (∀ idx, idx < (checkLoop cbs k st).executed.length →
        E[idx]? = (checkLoop cbs k st).executed[idx]?) →
      (checkLoop cbs k st).interrupted = st.interrupted
        ∧ (checkLoop cbs k st).mostTokensAccepted = st.mostTokensAccepted := by
  intro cbs
  induction cbs with
  | nil => intro k st _ _; exact ⟨rfl, rfl⟩
  | cons cb rest ih =>
    intro k st hzero hlog
    have h0 := hzero 0 (by simp)
    simp only [Nat.add_zero] at h0
    rw [checkLoop_cons] at hlog ⊢
    cases ha : (cb st.scope true).1 with
    | none =>
      rw [ha] at hlog
      have h1 := hlog st.executed.length (by simp)
      simp only [List.getElem?_concat_length] at h1
      rw [h0] at h1
      cases h1
    | some n =>
      rw [ha] at hlog
      simp only [] at hlog ⊢
      obtain ⟨tail, ht⟩ := checkLoop_prefix rest (k + 1)
        { scope := (cb st.scope true).2,
          mostTokensAccepted := if n > st.mostTokensAccepted then n
                                else st.mostTokensAccepted,
          itBest := if n > st.mostTokensAccepted then some k else st.itBest,
          executed := st.executed ++ [.check k (some n)],
          interrupted := st.interrupted }
      have h1 := hlog st.executed.length (by rw [ht]; simp)
      rw [ht, h0] at h1
      simp only [List.append_assoc, List.singleton_append, List.length_append,
        List.getElem?_append_right (Nat.le_refl _), Nat.sub_self, List.getElem?_cons_zero,
        Option.some.injEq, Executed.check.injEq, true_and] at h1
      subst h1
      have h2 := ih (k + 1) _ (by
        intro j hj
        have := hzero (j + 1) (by simpa using hj)
        simp only [List.length_append, List.length_singleton]
        rw [show st.executed.length + 1 + j = st.executed.length + (j + 1) by omega,
          show k + 1 + j = k + (j + 1) by omega]
        exact this) hlog
      simp only [gt_iff_lt, Nat.not_lt_zero, if_false] at h2 ⊢
      exact h2

/-- The dispatch of lines 871-927 keeps what the check-only calls logged. -/
theorem runRegistered_prefix {W : Type} (fs : FileSystem) (r : Runner W) (command : Line)
    (ill : Bool) (b : Body W) (callbacks : List (CommandCallback W))
    (hf : findByName r._commandCallbacks command = some callbacks) :
    ∃ tail, (runRegistered fs r command ill b).executed
      = (checkAll callbacks b).executed ++ tail := by
  have hred : ∀ b1 : Body W, (redirectForCallback fs b1).executed = b1.executed := by
    intro b1
    unfold redirectForCallback
    split <;> rfl
  unfold runRegistered
  rw [hf]
  simp only []
  split
  · exact ⟨[], (List.append_nil _).symm⟩
  · split
    · obtain ⟨tail, ht, _⟩ := runCommandObject_executed fs r command ill false
        (unknownCommand command
          { b with scope := (checkAll callbacks b).scope,
                   executed := (checkAll callbacks b).executed })
      exact ⟨tail, ht⟩
    · unfold runBest
      split
      · split
        · exact ⟨[], by rw [hred, List.append_nil]⟩
        · rename_i i1 best hbest
          exact ⟨[.callback i1], by simp only [hred]⟩
      · obtain ⟨tail, ht, _⟩ := runCommandObject_executed fs r command ill b.redirect
          (redirectForCallback fs
            { b with scope := (checkAll callbacks b).scope,
                     executed := (checkAll callbacks b).executed })
        rw [hred] at ht
        exact ⟨tail, ht⟩

/-- After TerminateAllScripts only the bottom stream is left, and the script context is
empty. -/
theorem TerminateAllScripts_spec (inp : Input) :
    inp.TerminateAllScripts.IsInScript = false
      ∧ inp.TerminateAllScripts._scriptContext = []
      ∧ inp.TerminateAllScripts._inputStack = inp._inputStack.drop (inp._inputStack.length - 1)
      ∧ inp.TerminateAllScripts.TerminateAllScripts = inp.TerminateAllScripts := by
  unfold Input.TerminateAllScripts Input.IsInScript
  have h : (inp._inputStack.drop (inp._inputStack.length - 1)).length - 1 = 0 := by
    rw [List.length_drop]
    omega
  refine ⟨?_, rfl, rfl, ?_⟩
  · simp only [List.length_drop, decide_eq_false_iff_not]
    omega
  · simp only [h, List.drop_zero]

/-- The input and the script context of the Error after a pass. -/
theorem finishPass_input {W : Type} (r : Runner W) (b : Body W) (returned : Bool)
    (context : Context) :
    (finishPass r b returned context).runner._input
        = (if b.interrupted then b.input.TerminateAllScripts else b.input)
      ∧ (finishPass r b returned context).runner._error._scriptContext
        = (finishPass r b returned context).runner._input._scriptContext := by
  refine ⟨?_, rfl⟩
  unfold finishPass
  simp only []
  split <;> rfl

/-- For a command line with an ill-formed switch the dispatch of lines 871-927 logs
nothing but calls of callbacks. -/
theorem runRegistered_ill {W : Type} (fs : FileSystem) (r : Runner W) (command : Line)
    (b : Body W) (hb : b.executed = []) (e : Executed)
    (he : e ∈ (runRegistered fs r command true b).executed) :
    (∃ j a, e = .check j a) ∨ ∃ i, e = .callback i := by
  have hred : ∀ b1 : Body W, (redirectForCallback fs b1).executed = b1.executed := by
    intro b1
    unfold redirectForCallback
    split <;> rfl
  have hchecks : ∀ callbacks : List (CommandCallback W),
      e ∈ (checkAll callbacks b).executed → ∃ j a, e = .check j a := by
    intro callbacks h
    rcases checkLoop_only_checks callbacks 0 _ _ h with h1 | h1
    · simp [hb] at h1
    · exact h1
  unfold runRegistered at he
  cases hf : findByName r._commandCallbacks command with
  | none =>
    rw [hf] at he
    simp only [] at he
    rw [(runCommandObject_ill fs r command false b).1, hb] at he
    cases he
  | some callbacks =>
    rw [hf] at he
    simp only [] at he
    split at he
    · exact Or.inl (hchecks callbacks he)
    · split at he
      · rw [(runCommandObject_ill fs r command false _).1] at he
        exact Or.inl (hchecks callbacks he)
      · unfold runBest at he
        split at he
        · split at he
          · rw [hred] at he
            exact Or.inl (hchecks callbacks he)
          · rename_i i1 best hbest
            simp only [hred, List.mem_append, List.mem_singleton] at he
            rcases he with he | he
            · exact Or.inl (hchecks callbacks he)
            · exact Or.inr ⟨i1, he⟩
        · rw [(runCommandObject_ill fs r command b.redirect _).1, hred] at he
          exact Or.inl (hchecks callbacks he)

/-- The sibling path of the callbacks: for a command line with an ill-formed switch no
pass executes the Run of a Command object or the pre-command callback. -/
theorem ill_formed_line_runs_no_command {W : Type} (fs : FileSystem) (fuel : Nat)
    (r : Runner W) (p : Pass W) (hp : r.pass fs fuel = some p)
    (hill : p.context.HasIllFormedSwitch = true) :
    (∀ name, Executed.command name ∉ p.executed) ∧ Executed.preCommand ∉ p.executed := by
  obtain ⟨tokens, input1, _, _, h⟩ := pass_eq fs fuel r p hp
  have he : p.executed = (r.tryBlock fs p.context input1).2.executed := by
    conv_lhs => rw [h]
    exact finishPass_executed _ _ _ _
  rw [he]
  rcases tryBlock_executed fs r p.context input1 with h1 | ⟨name, h1⟩ | ⟨b, hb, _, h1, _⟩
  · rw [h1]
    simp
  · rw [h1]
    simp
  · rw [h1, hill]
    constructor
    · intro name hmem
      rcases runRegistered_ill fs r _ b hb _ hmem with ⟨j, a, h2⟩ | ⟨i, h2⟩ <;> cases h2
    · intro hmem
      rcases runRegistered_ill fs r _ b hb _ hmem with ⟨j, a, h2⟩ | ⟨i, h2⟩ <;> cases h2

/-- C19 (the code at the failing input): a callback is registered under the name x and
accepts every token; for the line "x /s", which has an ill-formed switch (the switch s has
no argument), RunCommands calls the callback in check-only mode and then executes it in
non-check mode. -/
theorem callback_runs_on_ill_formed_line :
    (callbackRunner.pass writableFileSystem 10).map
        (fun p => (p.context._tokens, p.context.HasIllFormedSwitch, p.executed))
      = some ([bytesOf "x", bytesOf "/s"], true, [.check 0 (some 2), .callback 0]) := by
  decide

/-- The dispatch of lines 871-927 when every callback of the name accepts no token. -/
theorem runRegistered_unknown {W : Type} (fs : FileSystem) (r : Runner W) (command : Line)
    (ill : Bool) (b : Body W) (callbacks : List (CommandCallback W))
    (hf : findByName r._commandCallbacks command = some callbacks)
    (hint : (checkAll callbacks b).interrupted = false)
    (hz : (checkAll callbacks b).mostTokensAccepted = 0) :
    runRegistered fs r command ill b
      = runCommandObject fs r command ill false
          (unknownCommand command
            { b with scope := (checkAll callbacks b).scope,
                     executed := (checkAll callbacks b).executed }) := by
  unfold runRegistered
  rw [hf]
  simp only [hint, hz, Bool.false_eq_true, if_false, if_true]

/-- A pass for a command line with the error "unknown command" ends with all scripts
terminated. -/
theorem tryBlock_unknown {W : Type} (fs : FileSystem) (r : Runner W) (context : Context)
    (input1 : Input) (count : Nat)
    (hcount : (findByName r._commandCallbacks (context.TokenAt 0)).map List.length = some count)
    (hpos : 0 < count)
    (hzero : ∀ j, j < count →
      (r.tryBlock fs context input1).2.executed[j]? = some (.check j (some 0))) :
    (r.tryBlock fs context input1).2.input = input1.TerminateAllScripts := by
  rcases tryBlock_executed fs r context input1 with h | ⟨name, h⟩ | ⟨b, hb, hin, h, _⟩
  · have := hzero 0 hpos
    rw [h] at this
    cases this
  · have := hzero 0 hpos
    rw [h] at this
    cases this
  · cases hf : findByName r._commandCallbacks (context.TokenAt 0) with
    | none => rw [hf] at hcount; cases hcount
    | some callbacks =>
      rw [hf] at hcount
      simp only [Option.map_some', Option.some.injEq] at hcount
      subst hcount
      rw [h] at hzero ⊢
      obtain ⟨tail, ht⟩ := runRegistered_prefix fs r (context.TokenAt 0)
        context.HasIllFormedSwitch b callbacks hf
      have hz := checkLoop_zero
        (runRegistered fs r (context.TokenAt 0) context.HasIllFormedSwitch b).executed
        callbacks 0
        { scope := b.scope, mostTokensAccepted := 0, itBest := none, executed := b.executed,
          interrupted := false }
        (by
          intro j hj
          simp only [hb, List.length_nil, Nat.zero_add]
          exact hzero j hj)
        (by
          intro idx hidx
          rw [ht]
          exact List.getElem?_append_left hidx)
      rw [runRegistered_unknown fs r _ _ b callbacks hf hz.1 hz.2, runCommandObject_input]
      unfold unknownCommand Body.TerminateAllScripts
      simp only [hin]

/-- A command line with an ill-formed switch that begins with a switch, or that names a
command without callbacks other than help and source, leaves the input as GetTokens left
it, and nothing is executed for it. -/
theorem tryBlock_skipped {W : Type} (fs : FileSystem) (r : Runner W) (context : Context)
    (input1 : Input) (hill : context.HasIllFormedSwitch = true)
    (hwhich : beginsWithSlash (context.TokenAt 0) = true
      ∨ (findByName r._commandCallbacks (context.TokenAt 0) = none
          ∧ context.TokenAt 0 ≠ bytesOf "help" ∧ context.TokenAt 0 ≠ bytesOf "source")) :
    (r.tryBlock fs context input1).2.input = input1
      ∧ (r.tryBlock fs context input1).2.interrupted = false
      ∧ (r.tryBlock fs context input1).2.executed = [] := by
  unfold Runner.tryBlock
  simp only [hill, Bool.true_and, find_slash_zero]
  split
  · exact ⟨rfl, rfl, rfl⟩
  · rename_i hns
    rcases hwhich with h | ⟨hf, hhelp, hsource⟩
    · exact absurd h hns
    · split
      · split <;> exact ⟨rfl, rfl, rfl⟩
      · split
        · unfold handleRedirectCommand
          simp only []
          split <;> exact ⟨rfl, rfl, rfl⟩
        · unfold runRegistered
          rw [hf]
          simp only []
          exact ⟨runCommandObject_input _ _ _ _ _ _,
            (runCommandObject_ill fs r _ false _).2, (runCommandObject_ill fs r _ false _).1⟩

/-- C20 (amended): when a command line has the error "unknown command", that is, callbacks
are registered under its first token and the check-only call of each of them accepts 0
tokens, the scripts are aborted: after the pass of RunCommands for that line all script
input streams have been terminated, only the bottom stream of the input is left, and the
script context is empty.  An ill-formed switch does not abort the script: a line with an
ill-formed switch that begins with a switch, or whose first token is the name of a
registered Command without callbacks, other than help and source, leaves the input and
the script context as GetTokens left them, and nothing is executed for it. -/
theorem script_aborted_on_unknown_command {W : Type} (fs : FileSystem) (fuel : Nat)
    (r : Runner W) (p : Pass W) (hp : r.pass fs fuel = some p) :
    (∀ count,
        (findByName r._commandCallbacks (p.context.TokenAt 0)).map List.length = some count →
        0 < count →
        (∀ j, j < count → p.executed[j]? = some (.check j (some 0))) →
        p.runner._input.IsInScript = false
          ∧ p.runner._input._scriptContext = []
          ∧ p.runner._error._scriptContext = []
          ∧ (r._input.GetTokens fuel).map
              (fun ti => ti.2._inputStack.drop (ti.2._inputStack.length - 1))
            = some p.runner._input._inputStack)
      ∧ (p.context.HasIllFormedSwitch = true →
          (beginsWithSlash (p.context.TokenAt 0) = true
            ∨ (findByName r._commandCallbacks (p.context.TokenAt 0) = none
                ∧ findByName r._commands (p.context.TokenAt 0) ≠ none
                ∧ p.context.TokenAt 0 ≠ bytesOf "help"
                ∧ p.context.TokenAt 0 ≠ bytesOf "source")) →
          (r._input.GetTokens fuel).map (fun ti => ti.2) = some p.runner._input
            ∧ p.runner._error._scriptContext = p.runner._input._scriptContext
            ∧ p.executed = []) := by
  obtain ⟨tokens, input1, hg, _, h⟩ := pass_eq fs fuel r p hp
  have he : p.executed = (r.tryBlock fs p.context input1).2.executed := by
    conv_lhs => rw [h]
    exact finishPass_executed _ _ _ _
  have hin := finishPass_input r (r.tryBlock fs p.context input1).2
    (r.tryBlock fs p.context input1).1 p.context
  rw [← h] at hin
  constructor
  · intro count hcount hpos hzero
    rw [he] at hzero
    have hterm := tryBlock_unknown fs r p.context input1 count hcount hpos hzero
    have hspec := TerminateAllScripts_spec input1
    have hinput : p.runner._input = input1.TerminateAllScripts := by
      rw [hin.1, hterm]
      split
      · exact hspec.2.2.2
      · rfl
    rw [hin.2, hinput, hg]
    exact ⟨hspec.1, hspec.2.1, hspec.2.1, by rw [Option.map_some', hspec.2.2.1]⟩
  · intro hill hwhich
    have hskip := tryBlock_skipped fs r p.context input1 hill
      (hwhich.imp id (fun hw => ⟨hw.1, hw.2.2.1, hw.2.2.2⟩))
    rw [he, hin.2, hin.1, hskip.2.1, hskip.1, hg]
    exact ⟨rfl, rfl, hskip.2.2⟩

theorem script_aborted_on_unknown_command_witness :
    (scriptPass2.runner.pass scriptFileSystem 10 = some scriptPass3
      ∧ scriptPass2.runner._input.IsInScript = true
      ∧ scriptPass3.context._tokens = [bytesOf "x"]
      ∧ scriptPass3.runner._input.IsInScript = false
      ∧ scriptPass3.runner._input._scriptContext = []
      ∧ scriptPass3.runner._error._scriptContext = []
      ∧ (scriptPass2.runner._input.GetTokens 10).map
          (fun ti => ti.2._inputStack.drop (ti.2._inputStack.length - 1))
        = some scriptPass3.runner._input._inputStack)
    ∧ (scriptRunner1.pass scriptFileSystem 10 = some scriptPass2
      ∧ scriptPass2.context._tokens = [bytesOf "foo", bytesOf "/s"]
      ∧ (scriptRunner1._input.GetTokens 10).map (fun ti => ti.2)
          = some scriptPass2.runner._input
      ∧ scriptPass2.runner._error._scriptContext = scriptPass2.runner._input._scriptContext
      ∧ scriptPass2.executed = []) :=
  ⟨⟨(Option.some_get _).symm, by decide, by decide,
      (script_aborted_on_unknown_command scriptFileSystem 10 scriptPass2.runner scriptPass3
        (Option.some_get _).symm).1 1 (by decide) (by decide) (by decide)⟩,
    ⟨(Option.some_get _).symm, by decide,
      (script_aborted_on_unknown_command scriptFileSystem 10 scriptRunner1 scriptPass2
        (Option.some_get _).symm).2 (by decide) (Or.inr ⟨Option.isNone_iff_eq_none.mp (by decide),
          Option.isSome_iff_ne_none.mp (by decide), by decide, by decide⟩)⟩⟩

/-- C20 (counterexample): the script "s" is active and its line "foo /s" has an ill-formed
switch (the switch s has no argument; foo is a registered Command).  After the pass of
RunCommands for that line the stream of the script is still on the input stack, with the
lines "x" and "foo" left to read, and the script context still holds the script at its
line 1: the script is not aborted. -/
theorem ill_formed_line_leaves_script_active :
    scriptRunner1.pass scriptFileSystem 10 = some scriptPass2
      ∧ scriptRunner1._input.IsInScript = true
      ∧ scriptPass2.context._tokens = [bytesOf "foo", bytesOf "/s"]
      ∧ scriptPass2.context.HasIllFormedSwitch = true
      ∧ scriptPass2.runner._input.IsInScript = true
      ∧ scriptPass2.runner._input
          = ⟨[⟨bytesOf "s", 1⟩], [[bytesOf "x", bytesOf "foo"], [bytesOf "foo"]]⟩
      ∧ scriptPass2.runner._error._scriptContext = [⟨bytesOf "s", 1⟩] :=
  ⟨(Option.some_get _).symm, by decide, by decide, by decide, by decide, by decide, by decide⟩

end Commands

namespace Allocations

open Commands

/-- Of two specifications with the same base state the earlier one gets the smaller rule
index. -/
theorem rulePosition_lt_of_same (bs : List Nat) (i j : Nat) (hij : i < j) (hj : j < bs.length)
    (h : bs.getD i 0 = bs.getD j 0) : rulePosition bs i < rulePosition bs j := by
  have hi : i < bs.length := by omega
  unfold rulePosition
  rw [h]
  have h1 : (bs.take (i + 1)).count (bs.getD j 0) ≤ (bs.take j).count (bs.getD j 0) :=
    count_take_mono bs _ _ _ (by omega)
  rw [take_succ_eq bs i hi, List.count_append, h] at h1
  simp only [List.count_cons_self, List.count_nil] at h1
  omega

/-- The rules of a state lie between the base of the state and the base of the next
state. -/
theorem rulePosition_range (bs : List Nat) (i : Nat) (h : i < bs.length) :
    bs.countP (fun b => decide (b < bs.getD i 0)) ≤ rulePosition bs i
      ∧ rulePosition bs i < bs.countP (fun b => decide (b < bs.getD i 0 + 1)) := by
  constructor
  · unfold rulePosition
    omega
  · have h1 := rulePosition_lt bs i h
    have h2 : bs.countP (fun b => decide (b ≤ bs.getD i 0))
        = bs.countP (fun b => decide (b < bs.getD i 0 + 1)) := by
      congr 1
      funext b
      simp only [decide_eq_decide]
      omega
    omega

/-- A list of n numbers below n that holds every number below n is a permutation of
them. -/
theorem perm_range_of_surj (R : List Nat) (n : Nat) (hlen : R.length = n)
    (hsurj : ∀ i, i < n → i ∈ R) : R.Perm (List.range n) := by
  have hsub : (List.range n).Subperm R :=
    List.subperm_of_subset (List.nodup_range n) (fun i hi => hsurj i (List.mem_range.mp hi))
  exact (hsub.perm_of_length_le (by simp [hlen])).symm

theorem orderRules_nil (p : ParseState) (h : p.specifications = []) :
    (orderRules p).1 = [] ∧ (orderRules p).2.2 = [] := by
  unfold orderRules
  rw [h]
  simp [assignBaseStates, placeRules]

/-- The order of the compiled rules: ruleIndexToArgumentIndex is a permutation of the
indices of the accepted rules, the rule at an index is made from the specification that
the index maps to, and an accepted rule lies in the range of its base state after every
earlier accepted rule with the same base state. -/
theorem compiled_rules_order (context : Context) (image : ProcessImage) (allow : Bool)
    (hsize : context.GetNumArguments (bytesOf "extend") < SIZE_LIMIT) :
    (orderRules (ExtendedVisitor.parseArguments context image).1).2.2.Perm
        (List.range (acceptedRules context image).length)
      ∧ (ExtendedVisitor.compile context image allow)._rules
        = (orderRules (ExtendedVisitor.parseArguments context image).1).2.2.map (fun a =>
            Rule.ofSpecification image
              ((acceptedRules context image).getD a Specification.initial))
      ∧ (∀ i, i < (acceptedRules context image).length →
          ∃ ri, (orderRules (ExtendedVisitor.parseArguments context image).1).2.2[ri]? = some i
            ∧ (ExtendedVisitor.compile context image allow)._stateToBase.getD
                ((acceptedRules context image).getD i Specification.initial)._baseState 0 ≤ ri
            ∧ ri < (ExtendedVisitor.compile context image allow)._stateToBase.getD
                (((acceptedRules context image).getD i Specification.initial)._baseState + 1) 0
            ∧ ∀ j, i < j → j < (acceptedRules context image).length →
                ((acceptedRules context image).getD i Specification.initial)._baseState
                  = ((acceptedRules context image).getD j Specification.initial)._baseState →
                ∃ rj, ri < rj
                  ∧ (orderRules (ExtendedVisitor.parseArguments context image).1).2.2[rj]?
                    = some j) := by
  obtain ⟨p1, p2, p3, p4, p5⟩ := parseArguments_invariant context image
  have hS : acceptedRules context image
      = (orderRules (ExtendedVisitor.parseArguments context image).1).1 := rfl
  have hstb : (ExtendedVisitor.compile context image allow)._stateToBase
      = (orderRules (ExtendedVisitor.parseArguments context image).1).2.1 := rfl
  rw [compile_rules, hstb, hS]
  generalize ExtendedVisitor.parseArguments context image = parsed at p1 p2 p3 p4 p5 ⊢
  obtain ⟨p, flags⟩ := parsed
  simp only [] at p1 p2 p3 p4 p5 ⊢
  by_cases hn : p.specifications.length = 0
  · obtain ⟨e1, e2⟩ := orderRules_nil p (List.length_eq_zero.mp hn)
    rw [e1, e2]
    refine ⟨by simp, by simp, ?_⟩
    intro i hi
    simp at hi
  · obtain ⟨o1, o2, o3, o4, o5, o6, o7⟩ := orderRules_spec p p1 p2 (by omega) (by omega) p4
    generalize orderRules p = ordered at o1 o2 o3 o4 o5 o6 o7 ⊢
    obtain ⟨S, stb, R⟩ := ordered
    simp only [] at o1 o2 o3 o4 o5 o6 o7 ⊢
    have hbl : (S.map (fun spec => spec._baseState)).length = S.length := by simp
    have hpos : ∀ i, i < S.length →
        R[rulePosition (S.map (fun spec => spec._baseState)) i]? = some i := by
      intro i hi
      have hlt := rulePosition_lt_length (S.map (fun spec => spec._baseState)) i (by omega)
      have h6 := o6 i (by omega)
      rw [List.getD_eq_getElem?_getD] at h6
      rw [List.getElem?_eq_getElem (by omega)] at h6 ⊢
      simpa using h6
    refine ⟨?_, ?_, ?_⟩
    · apply perm_range_of_surj R S.length (by omega)
      intro i hi
      exact List.getElem?_mem (hpos i hi)
    · apply List.ext_getElem?
      intro k
      simp only [List.getElem?_map, List.getElem?_range]
      by_cases hk : k < S.length
      · rw [List.getElem?_range hk, List.getElem?_eq_getElem (by omega : k < R.length)]
        simp [List.getD_eq_getElem?_getD, List.getElem?_eq_getElem (by omega : k < R.length)]
      · rw [List.getElem?_eq_none (by simp; omega), List.getElem?_eq_none (by omega)]
        rfl
    · intro i hi
      have hb := getD_map_base S i hi
      have hrange := rulePosition_range (S.map (fun spec => spec._baseState)) i (by omega)
      rw [hb] at hrange
      have hbase : (S.getD i Specification.initial)._baseState < p.labelToStateNumber.length :=
        o2 _ (getD_mem S i _ hi)
      refine ⟨_, hpos i hi, ?_, ?_, ?_⟩
      · rw [o4 _ (by omega)]
        exact hrange.1
      · rw [o4 _ (by omega)]
        exact hrange.2
      · intro j hij hj hsame
        refine ⟨_, ?_, hpos j hj⟩
        apply rulePosition_lt_of_same _ i j hij (by omega)
        rw [hb, getD_map_base S j hj]
        exact hsame

theorem parseRule_extensionSignatures (st : ParseState) (r : Line) :
    (parseRule st r).specifications.map (fun spec => spec._extensionSignature)
      = st.specifications.map (fun spec => spec._extensionSignature)
        ++ ((regex_match extensionRegex r).map (fun m => m 8)).toList := by
  unfold parseRule
  split
  · rename_i h
    simp [h]
  · rename_i m hm
    rw [hm]
    simp only [Option.map_some', Option.toList_some, List.map_append, List.map_cons, List.map_nil]
    congr 2
    split <;> split <;> rfl

theorem parseLoop_extensionSignatures (rs : List Line) : ∀ st : ParseState,
    (rs.foldl parseRule st).specifications.map (fun spec => spec._extensionSignature)
      = st.specifications.map (fun spec => spec._extensionSignature)
        ++ rs.filterMap (fun r => (regex_match extensionRegex r).map (fun m => m 8)) := by
  induction rs with
  | nil => intro st; simp
  | cons r rs ih =>
    intro st
    rw [List.foldl_cons, ih, parseRule_extensionSignatures, List.append_assoc]
    congr 1
    cases h : regex_match extensionRegex r with
    | none => simp [List.filterMap_cons, h]
    | some m => simp [List.filterMap_cons, h]

theorem assignBaseStates_extensionSignatures (labels : List (Line × Nat))
    (specs : List Specification) : ∀ stb : List Nat,
    (assignBaseStates labels specs stb).1.map (fun spec => spec._extensionSignature)
      = specs.map (fun spec => spec._extensionSignature) := by
  induction specs with
  | nil => intro stb; rfl
  | cons spec rest ih =>
    intro stb
    unfold assignBaseStates
    simp only []
    split
    · simp only [List.map_cons, ih]
    · simp only [List.map_cons, ih]

/-- The accepted rules are in the order of the /extend arguments: their extension
signatures are those of the arguments that have the shape of a rule, in order. -/
theorem acceptedRules_in_order (context : Context) (image : ProcessImage) :
    (acceptedRules context image).map (fun spec => spec._extensionSignature)
      = (context.arguments (bytesOf "extend")).filterMap
          (fun r => (regex_match extensionRegex r).map (fun m => m 8)) := by
  unfold acceptedRules orderRules
  simp only []
  rw [assignBaseStates_extensionSignatures]
  unfold ExtendedVisitor.parseArguments
  simp only []
  rw [parseLoop_extensionSignatures]
  simp [ParseState.initial]

/-- C21: within each traversal state the compiled extension rules keep the order in
which they were declared.  With fewer than 2^64 /extend arguments, the map from rule
index to argument index is a permutation of the indices of the accepted rules, the rule
at each index is made from the accepted rule that the index maps to, every accepted rule
has its rule index in the range of its base state (from _stateToBase of the state up to
_stateToBase of the next state), and of two accepted rules with the same base state the
one given earlier has the smaller rule index.  Visit goes through the rules of a state by
ascending rule index: a pass that finds the rule done goes on with the next index for the
same member, so that the rule given earlier is tried first.  The accepted rules are in
the order of the /extend arguments that have the shape of a rule. -/
theorem rules_keep_declared_order (context : Context) (image : ProcessImage) (allow : Bool)
    (hsize : context.GetNumArguments (bytesOf "extend") < SIZE_LIMIT) :
    ((orderRules (ExtendedVisitor.parseArguments context image).1).2.2.Perm
        (List.range (acceptedRules context image).length)
      ∧ (ExtendedVisitor.compile context image allow)._rules
        = (orderRules (ExtendedVisitor.parseArguments context image).1).2.2.map (fun a =>
            Rule.ofSpecification image
              ((acceptedRules context image).getD a Specification.initial))
      ∧ (∀ i, i < (acceptedRules context image).length →
          ∃ ri, (orderRules (ExtendedVisitor.parseArguments context image).1).2.2[ri]? = some i
            ∧ (ExtendedVisitor.compile context image allow)._stateToBase.getD
                ((acceptedRules context image).getD i Specification.initial)._baseState 0 ≤ ri
            ∧ ri < (ExtendedVisitor.compile context image allow)._stateToBase.getD
                (((acceptedRules context image).getD i Specification.initial)._baseState + 1) 0
            ∧ ∀ j, i < j → j < (acceptedRules context image).length →
                ((acceptedRules context image).getD i Specification.initial)._baseState
                  = ((acceptedRules context image).getD j Specification.initial)._baseState →
                ∃ rj, ri < rj
                  ∧ (orderRules (ExtendedVisitor.parseArguments context image).1).2.2[rj]?
                    = some j))
    ∧ (∀ (v : ExtendedVisitor) (st : VisitState), st.ruleCheckProgress = .RULE_DONE →
        (st.ruleIndex + 1) % SIZE_LIMIT ≠ st.ruleIndexLimit →
        visitStep v image st
          = applyRule v image
              { st with ruleIndex := (st.ruleIndex + 1) % SIZE_LIMIT,
                        ruleCheckProgress := .NEW_RULE })
    ∧ (acceptedRules context image).map (fun spec => spec._extensionSignature)
      = (context.arguments (bytesOf "extend")).filterMap
          (fun r => (regex_match extensionRegex r).map (fun m => m 8)) := by
  refine ⟨compiled_rules_order context image allow hsize, ?_,
    acceptedRules_in_order context image⟩
  intro v st h1 h2
  unfold visitStep
  simp only [h1, if_true, h2, if_false]

set_option maxRecDepth 100000 in
theorem rules_keep_declared_order_witness :
    orderContext.GetNumArguments (bytesOf "extend") < SIZE_LIMIT
      ∧ (orderRules (ExtendedVisitor.parseArguments orderContext
            (plainProcessImage (some emptyGraph))).1).2.2.Perm
          (List.range (acceptedRules orderContext (plainProcessImage (some emptyGraph))).length)
      ∧ (orderRules (ExtendedVisitor.parseArguments orderContext
            (plainProcessImage (some emptyGraph))).1).2.2 = [0, 2, 1]
      ∧ (acceptedRules orderContext (plainProcessImage (some emptyGraph))).map
          (fun spec => (spec._baseState, spec._extensionSignature))
        = [(0, bytesOf "b"), (1, bytesOf "c"), (0, bytesOf "d")] :=
  ⟨by decide,
    (rules_keep_declared_order orderContext (plainProcessImage (some emptyGraph)) false
      (by decide)).1.1,
    by decide, by decide⟩

end Allocations

namespace Allocations

open Commands

theorem notRecognizedMsg_eq (name : Line) :
    notRecognizedMsg "Member" "signature" name
        = bytesOf "Member signature " ++ [QUOTE] ++ name ++ [QUOTE]
          ++ bytesOf " is not recognized." ++ [NEWLINE]
      ∧ notRecognizedMsg "Member" "pattern" name
        = bytesOf "Member pattern " ++ [QUOTE] ++ name ++ [QUOTE]
          ++ bytesOf " is not recognized." ++ [NEWLINE]
      ∧ notRecognizedMsg "Extension" "signature" name
        = bytesOf "Extension signature " ++ [QUOTE] ++ name ++ [QUOTE]
          ++ bytesOf " is not recognized." ++ [NEWLINE]
      ∧ notRecognizedMsg "Extension" "pattern" name
        = bytesOf "Extension pattern " ++ [QUOTE] ++ name ++ [QUOTE]
          ++ bytesOf " is not recognized." ++ [NEWLINE] := by
  refine ⟨?_, ?_, ?_, ?_⟩ <;>
    simp [notRecognizedMsg, bytesOf, List.append_assoc]

/-- What lines 196-223 do for one rule: each name that is not recognized is reported and
sets the flag, a signature only when allowMissingSignatures is false. -/
theorem checkRule_reports (allow : Bool) (rule : Rule) (acc : Error × Bool) :
    (rule._memberSignatureChecker.UnrecognizedSignature = true → allow = false →
        notRecognizedMsg "Member" "signature" rule._memberSignatureChecker.GetSignature
            ∈ (checkRule allow rule acc).1.cerr
          ∧ (checkRule allow rule acc).2 = true)
      ∧ (rule._memberSignatureChecker.UnrecognizedPattern = true →
        notRecognizedMsg "Member" "pattern" rule._memberSignatureChecker.GetPatternName
            ∈ (checkRule allow rule acc).1.cerr
          ∧ (checkRule allow rule acc).2 = true)
      ∧ (rule._extensionSignatureChecker.UnrecognizedSignature = true → allow = false →
        notRecognizedMsg "Extension" "signature" rule._extensionSignatureChecker.GetSignature
            ∈ (checkRule allow rule acc).1.cerr
          ∧ (checkRule allow rule acc).2 = true)
      ∧ (rule._extensionSignatureChecker.UnrecognizedPattern = true →
        notRecognizedMsg "Extension" "pattern" rule._extensionSignatureChecker.GetPatternName
            ∈ (checkRule allow rule acc).1.cerr
          ∧ (checkRule allow rule acc).2 = true) := by
  obtain ⟨e1, e2, e3, e4⟩ := notRecognizedMsg_eq rule._memberSignatureChecker.GetSignature
  obtain ⟨f1, f2, f3, f4⟩ := notRecognizedMsg_eq rule._memberSignatureChecker.GetPatternName
  obtain ⟨g1, g2, g3, g4⟩ := notRecognizedMsg_eq rule._extensionSignatureChecker.GetSignature
  obtain ⟨k1, k2, k3, k4⟩ := notRecognizedMsg_eq rule._extensionSignatureChecker.GetPatternName
  rw [e1, f2, g3, k4]
  unfold checkRule
  simp only []
  refine ⟨?_, ?_, ?_, ?_⟩
  · intro h1 h2
    subst h2
    simp only [h1, Bool.not_false, Bool.and_self, if_true]
    constructor
    · repeat' split
      all_goals first
        | exact write_cerr_mem _ _
        | exact write_cerr_subset _ _ (write_cerr_mem _ _)
        | exact write_cerr_subset _ _ (write_cerr_subset _ _ (write_cerr_mem _ _))
        | exact write_cerr_subset _ _ (write_cerr_subset _ _ (write_cerr_subset _ _
            (write_cerr_mem _ _)))
    · repeat' split
      all_goals rfl
  · intro h1
    simp only [h1, if_true]
    constructor
    · repeat' split
      all_goals first
        | exact write_cerr_mem _ _
        | exact write_cerr_subset _ _ (write_cerr_mem _ _)
        | exact write_cerr_subset _ _ (write_cerr_subset _ _ (write_cerr_mem _ _))
    · repeat' split
      all_goals rfl
  · intro h1 h2
    subst h2
    simp only [h1, Bool.not_false, Bool.and_self, Bool.and_true, if_true]
    constructor
    · repeat' split
      all_goals first
        | exact write_cerr_mem _ _
        | exact write_cerr_subset _ _ (write_cerr_mem _ _)
    · repeat' split
      all_goals rfl
  · intro h1
    simp only [h1, if_true]
    exact ⟨write_cerr_mem _ _, trivial⟩

/-- With allowMissingSignatures true, lines 196-223 do nothing for a rule whose pattern
names are recognized. -/
theorem checkRule_allowed (rule : Rule) (acc : Error × Bool)
    (h1 : rule._memberSignatureChecker.UnrecognizedPattern = false)
    (h2 : rule._extensionSignatureChecker.UnrecognizedPattern = false) :
    checkRule true rule acc = acc := by
  unfold checkRule
  simp [h1, h2]

theorem checkRules_reports (allow : Bool) (msg : Line) (P : Rule → Prop)
    (hP : ∀ rule acc, P rule →
      msg ∈ (checkRule allow rule acc).1.cerr ∧ (checkRule allow rule acc).2 = true)
    (rules : List Rule) : ∀ (acc : Error × Bool) (rule : Rule), rule ∈ rules → P rule →
      msg ∈ (rules.foldl (fun acc rule => checkRule allow rule acc) acc).1.cerr
        ∧ (rules.foldl (fun acc rule => checkRule allow rule acc) acc).2 = true := by
  induction rules with
  | nil => intro acc rule hr; simp at hr
  | cons a rs ih =>
    intro acc rule hr hp
    simp only [List.foldl_cons]
    rcases List.mem_cons.mp hr with rfl | hr
    · obtain ⟨h1, h2⟩ := hP rule acc hp
      obtain ⟨h3, h4⟩ := checkRules_mono allow rs (checkRule allow rule acc)
      exact ⟨h3 h1, h4 h2⟩
    · exact ih _ rule hr hp

theorem checkRules_allowed (rules : List Rule) : ∀ (acc : Error × Bool),
    (∀ rule ∈ rules, rule._memberSignatureChecker.UnrecognizedPattern = false
      ∧ rule._extensionSignatureChecker.UnrecognizedPattern = false) →
    rules.foldl (fun acc rule => checkRule true rule acc) acc = acc := by
  induction rules with
  | nil => intro acc _; rfl
  | cons a rs ih =>
    intro acc h
    simp only [List.foldl_cons]
    rw [checkRule_allowed a acc (h a (List.mem_cons_self _ _)).1 (h a (List.mem_cons_self _ _)).2]
    exact ih acc (fun rule hr => h rule (List.mem_cons_of_mem _ hr))

theorem compile_checked (context : Context) (image : ProcessImage) (allow : Bool) :
    (ExtendedVisitor.compile context image allow)._hasErrors
        = ((ExtendedVisitor.compile context image allow)._rules.foldl
            (fun acc rule => checkRule allow rule acc)
            ((ExtendedVisitor.parseArguments context image).1.error,
             (ExtendedVisitor.parseArguments context image).1._hasErrors)).2
      ∧ (ExtendedVisitor.compile context image allow).error
        = ((ExtendedVisitor.compile context image allow)._rules.foldl
            (fun acc rule => checkRule allow rule acc)
            ((ExtendedVisitor.parseArguments context image).1.error,
             (ExtendedVisitor.parseArguments context image).1._hasErrors)).1 := ⟨rfl, rfl⟩

/-- With an error recorded before line 225 the constructor yields the visitor as it is
then: HasErrors is set and the engine is not enabled. -/
theorem new_of_errors (context : Context) (image : ProcessImage) (allow : Bool)
    (hrules : (ExtendedVisitor.compile context image allow)._rules ≠ [])
    (herr : (ExtendedVisitor.compile context image allow)._hasErrors = true) :
    ExtendedVisitor.new context image allow
      = some (ExtendedVisitor.compile context image allow) := by
  have hnum : context.GetNumArguments (bytesOf "extend") ≠ 0 := by
    intro h0
    apply hrules
    have hargs : context.arguments (bytesOf "extend") = [] := by
      apply List.length_eq_zero.mp
      rw [arguments_length, h0]
    have hspecs : (ExtendedVisitor.parseArguments context image).1.specifications = [] := by
      unfold ExtendedVisitor.parseArguments
      simp only [hargs, List.foldl_nil]
      rfl
    rw [compile_rules]
    have := (orderRules_nil _ hspecs).1
    unfold acceptedRules
    rw [this]
    rfl
  unfold ExtendedVisitor.new
  rw [if_neg hnum]
  simp [herr]

/-- C22 (amended): a signature name that is not recognized, on the member side or the
extension side of an extension rule, is an error that disables the engine unless
allowMissingSignatures was passed, and a pattern name that is not recognized is an error
that disables the engine whatever allowMissingSignatures is: the name is reported,
HasErrors is set and the engine is not enabled.  With allowMissingSignatures true and
every pattern name recognized, the check of the names reports nothing and leaves
HasErrors as it was, whatever signature names are not recognized. -/
theorem unknown_names_reported (context : Context) (image : ProcessImage) (allow : Bool)
    (rule : Rule) (hrule : rule ∈ (ExtendedVisitor.compile context image allow)._rules) :
    ((rule._memberSignatureChecker.UnrecognizedPattern = true
        ∨ rule._extensionSignatureChecker.UnrecognizedPattern = true
        ∨ (allow = false
            ∧ (rule._memberSignatureChecker.UnrecognizedSignature = true
                ∨ rule._extensionSignatureChecker.UnrecognizedSignature = true))) →
      ∃ v, ExtendedVisitor.new context image allow = some v
        ∧ v.HasErrors = true ∧ v.IsEnabled = false
        ∧ (rule._memberSignatureChecker.UnrecognizedPattern = true →
            notRecognizedMsg "Member" "pattern" rule._memberSignatureChecker.GetPatternName
              ∈ v.error.cerr)
        ∧ (rule._extensionSignatureChecker.UnrecognizedPattern = true →
            notRecognizedMsg "Extension" "pattern"
                rule._extensionSignatureChecker.GetPatternName
              ∈ v.error.cerr)
        ∧ (allow = false → rule._memberSignatureChecker.UnrecognizedSignature = true →
            notRecognizedMsg "Member" "signature" rule._memberSignatureChecker.GetSignature
              ∈ v.error.cerr)
        ∧ (allow = false → rule._extensionSignatureChecker.UnrecognizedSignature = true →
            notRecognizedMsg "Extension" "signature"
                rule._extensionSignatureChecker.GetSignature
              ∈ v.error.cerr))
      ∧ (allow = true →
          (∀ r ∈ (ExtendedVisitor.compile context image allow)._rules,
            r._memberSignatureChecker.UnrecognizedPattern = false
              ∧ r._extensionSignatureChecker.UnrecognizedPattern = false) →
          (ExtendedVisitor.compile context image allow)._hasErrors
              = (ExtendedVisitor.parseArguments context image).1._hasErrors
            ∧ (ExtendedVisitor.compile context image allow).error
              = (ExtendedVisitor.parseArguments context image).1.error) := by
  obtain ⟨c1, c2⟩ := compile_checked context image allow
  have hne : (ExtendedVisitor.compile context image allow)._rules ≠ [] :=
    List.ne_nil_of_mem hrule
  have hmp := checkRules_reports allow
    (notRecognizedMsg "Member" "pattern" rule._memberSignatureChecker.GetPatternName)
    (fun r => r._memberSignatureChecker.UnrecognizedPattern = true
      ∧ r._memberSignatureChecker.GetPatternName = rule._memberSignatureChecker.GetPatternName)
    (fun r acc hp => by rw [← hp.2]; exact (checkRule_reports allow r acc).2.1 hp.1)
    (ExtendedVisitor.compile context image allow)._rules
    ((ExtendedVisitor.parseArguments context image).1.error,
     (ExtendedVisitor.parseArguments context image).1._hasErrors) rule hrule
  have hep := checkRules_reports allow
    (notRecognizedMsg "Extension" "pattern" rule._extensionSignatureChecker.GetPatternName)
    (fun r => r._extensionSignatureChecker.UnrecognizedPattern = true
      ∧ r._extensionSignatureChecker.GetPatternName
        = rule._extensionSignatureChecker.GetPatternName)
    (fun r acc hp => by rw [← hp.2]; exact (checkRule_reports allow r acc).2.2.2 hp.1)
    (ExtendedVisitor.compile context image allow)._rules
    ((ExtendedVisitor.parseArguments context image).1.error,
     (ExtendedVisitor.parseArguments context image).1._hasErrors) rule hrule
  have hms := checkRules_reports allow
    (notRecognizedMsg "Member" "signature" rule._memberSignatureChecker.GetSignature)
    (fun r => (r._memberSignatureChecker.UnrecognizedSignature = true ∧ allow = false)
      ∧ r._memberSignatureChecker.GetSignature = rule._memberSignatureChecker.GetSignature)
    (fun r acc hp => by rw [← hp.2]; exact (checkRule_reports allow r acc).1 hp.1.1 hp.1.2)
    (ExtendedVisitor.compile context image allow)._rules
    ((ExtendedVisitor.parseArguments context image).1.error,
     (ExtendedVisitor.parseArguments context image).1._hasErrors) rule hrule
  have hes := checkRules_reports allow
    (notRecognizedMsg "Extension" "signature" rule._extensionSignatureChecker.GetSignature)
    (fun r => (r._extensionSignatureChecker.UnrecognizedSignature = true ∧ allow = false)
      ∧ r._extensionSignatureChecker.GetSignature
        = rule._extensionSignatureChecker.GetSignature)
    (fun r acc hp => by rw [← hp.2]; exact (checkRule_reports allow r acc).2.2.1 hp.1.1 hp.1.2)
    (ExtendedVisitor.compile context image allow)._rules
    ((ExtendedVisitor.parseArguments context image).1.error,
     (ExtendedVisitor.parseArguments context image).1._hasErrors) rule hrule
  rw [← c1, ← c2] at hmp hep hms hes
  constructor
  · intro hwhich
    have herr : (ExtendedVisitor.compile context image allow)._hasErrors = true := by
      rcases hwhich with h | h | ⟨ha, h | h⟩
      · exact (hmp ⟨h, rfl⟩).2
      · exact (hep ⟨h, rfl⟩).2
      · exact (hms ⟨⟨h, ha⟩, rfl⟩).2
      · exact (hes ⟨⟨h, ha⟩, rfl⟩).2
    refine ⟨_, new_of_errors context image allow hne herr, herr,
      compile_isEnabled context image allow, ?_, ?_, ?_, ?_⟩
    · exact fun h => (hmp ⟨h, rfl⟩).1
    · exact fun h => (hep ⟨h, rfl⟩).1
    · exact fun ha h => (hms ⟨⟨h, ha⟩, rfl⟩).1
    · exact fun ha h => (hes ⟨⟨h, ha⟩, rfl⟩).1
  · intro ha hall
    subst ha
    rw [c1, c2, checkRules_allowed _ _ hall]
    exact ⟨rfl, rfl⟩

set_option maxRecDepth 100000 in
theorem unknown_names_reported_witness :
    ∃ v, ExtendedVisitor.new unknownPatternContext unknownNamesImage true = some v
      ∧ v.HasErrors = true ∧ v.IsEnabled = false
      ∧ notRecognizedMsg "Extension" "pattern" (bytesOf "nosuch") ∈ v.error.cerr :=
  have h := (unknown_names_reported unknownPatternContext unknownNamesImage true
    ((ExtendedVisitor.compile unknownPatternContext unknownNamesImage true)._rules.get
      ⟨0, by decide⟩) (List.get_mem _ _ _)).1 (Or.inr (Or.inl (by decide)))
  h.imp (fun _ hv => ⟨hv.1, hv.2.1, hv.2.2.1, hv.2.2.2.2.1 (by decide)⟩)

set_option maxRecDepth 100000 in
/-- C22 (counterexample): with allowMissingSignatures true, the rule "->%nosuch", whose
pattern name is not recognized, is reported as an error: HasErrors is set and the engine
is not enabled.  The rule "->nosuch", whose signature name is not recognized, is no error
then, and is one with allowMissingSignatures false. -/
theorem unknown_pattern_is_error_when_signatures_may_miss :
    (ExtendedVisitor.new unknownPatternContext unknownNamesImage true).map
        (fun v => (v.HasErrors, v.IsEnabled, v.error.cerr))
      = some (true, false, [notRecognizedMsg "Extension" "pattern" (bytesOf "nosuch")])
    ∧ ((ExtendedVisitor.compile unknownPatternContext unknownNamesImage true)._rules.map
        (fun rule => rule._extensionSignatureChecker.UnrecognizedPattern)) = [true]
    ∧ (ExtendedVisitor.new unknownSignatureContext unknownNamesImage true).map
        (fun v => (v.HasErrors, v.IsEnabled, v.error.cerr))
      = some (false, true, [])
    ∧ (ExtendedVisitor.new unknownSignatureContext unknownNamesImage false).map
        (fun v => (v.HasErrors, v.IsEnabled, v.error.cerr))
      = some (true, false, [notRecognizedMsg "Extension" "signature" (bytesOf "nosuch")]) := by
  decide

end Allocations

namespace Allocations

open Commands

/-- What holds of a candidate that passes the tests of lines 402-475. -/
theorem candidatePasses_true (v : ExtendedVisitor) (image : ProcessImage) (rule : Rule)
    (m : Nat) (ma : Allocation) (c : Nat) (ca : Allocation)
    (h : candidatePasses v image rule m ma c ca = some true) :
    (rule._extensionMustBeLeaked = true → ∃ g, v._graph = some g ∧ g.IsLeaked c = true)
      ∧ ca.IsUsed = true ∧ rule._extensionSignatureChecker.Check c = true
      ∧ offsetsReject image rule ma ca = false
      ∧ (v._skipTaintedReferences = true →
          ∃ tainted, image.GetEdgeIsTainted = some tainted
            ∧ (if rule._referenceIsOutgoing then tainted m c else tainted c m) = false)
      ∧ (v._skipUnfavoredReferences = true →
          ∃ favored, image.GetEdgeIsFavored = some favored
            ∧ (if rule._referenceIsOutgoing then
                 image.SupportsFavoredReferences c && !favored m c
               else image.SupportsFavoredReferences m && !favored c m) = false) := by
  unfold candidatePasses at h
  split at h
  · cases h
  · cases h
  · rename_i hleak
    split at h
    · cases h
    · rename_i hused
      split at h
      · cases h
      · rename_i hoff
        split at h
        · cases h
        · cases h
        · rename_i htaint
          split at h
          · cases h
          · cases h
          · rename_i hfav
            refine ⟨?_, ?_, ?_, ?_, ?_, ?_⟩
            · intro hl
              rw [if_pos hl] at hleak
              cases hg : v._graph with
              | none => rw [hg] at hleak; cases hleak
              | some g =>
                rw [hg] at hleak
                simp only [Option.map_some', Option.some.injEq, Bool.not_eq_false'] at hleak
                exact ⟨g, rfl, hleak⟩
            · cases hu : ca.IsUsed
              · simp [hu] at hused
              · rfl
            · cases hu : rule._extensionSignatureChecker.Check c
              · simp [hu] at hused
              · rfl
            · simpa using hoff
            · intro ht
              rw [if_pos ht] at htaint
              cases hg : image.GetEdgeIsTainted with
              | none => rw [hg] at htaint; cases htaint
              | some t =>
                rw [hg] at htaint
                simp only [Option.map_some', Option.some.injEq] at htaint
                exact ⟨t, rfl, htaint⟩
            · intro hf
              rw [if_pos hf] at hfav
              cases hg : image.GetEdgeIsFavored with
              | none => rw [hg] at hfav; cases hfav
              | some f =>
                rw [hg] at hfav
                simp only [Option.map_some', Option.some.injEq] at hfav
                exact ⟨f, rfl, hfav⟩

theorem visits_ne_append (l : List Nat) (c : Nat) : l ≠ l ++ [c] := by
  intro h
  have := congrArg List.length h
  simp at this

theorem edgeInv_of_eq (v : ExtendedVisitor) (st st1 : VisitState) (h : EdgeInv v st)
    (h1 : st1.memberIndex = st.memberIndex) (h2 : st1.ruleIndex = st.ruleIndex)
    (h3 : st1.ruleCheckProgress = st.ruleCheckProgress)
    (h4 : st1.pNextCandidate = st.pNextCandidate)
    (h5 : st1.extensionContexts = st.extensionContexts) : EdgeInv v st1 := by
  unfold EdgeInv
  rw [h1, h2, h3, h4, h5]
  exact h

theorem candidatesFrom_idle (v : ExtendedVisitor) (m r : Nat) (p : RuleCheckProgress)
    (l : List Nat) (h : p = .NEW_RULE ∨ p = .RULE_DONE) : CandidatesFrom v m r p l := by
  intro hp
  rcases h with h | h <;> rcases hp with hp | hp <;> rw [h] at hp <;> cases hp

/-- Lines 397-543: the invariant is kept, and a candidate is visited only when it passes
the tests and was not visited. -/
theorem extendTo_facts (v : ExtendedVisitor) (image : ProcessImage) (rule : Rule)
    (ma : Allocation) (c : Nat) (ca : Allocation) (st : VisitState) (hinv : EdgeInv v st) :
    (∀ st1, extendTo v image rule ma c ca st = .next st1 → EdgeInv v st1)
      ∧ (∀ c1, (extendTo v image rule ma c ca st).state.visits = st.visits ++ [c1] →
          c1 = c ∧ candidatePasses v image rule st.memberIndex ma c ca = some true
            ∧ st.visited.contains c = false
            ∧ (extendTo v image rule ma c ca st).state.memberIndex = c
            ∧ (extendTo v image rule ma c ca st).state.state = rule._newState) := by
  unfold extendTo
  simp only []
  split
  · refine ⟨fun st1 h => (by cases h; exact hinv), fun c1 h => absurd h (visits_ne_append _ _)⟩
  · rename_i hvis
    split
    · refine ⟨fun st1 h => (by cases h), fun c1 h => absurd h (visits_ne_append _ _)⟩
    · refine ⟨fun st1 h => (by cases h; exact hinv), fun c1 h => absurd h (visits_ne_append _ _)⟩
    · rename_i hpass
      split
      · refine ⟨fun st1 h => ?_, fun c1 h => absurd h (visits_ne_append _ _)⟩
        cases h
        exact edgeInv_of_eq v st _ hinv rfl rfl rfl rfl rfl
      · rename_i hcom
        have hnot : st.visited.contains c = false := by
          cases hc : st.visited.contains c
          · rfl
          · have hm : c ∈ st.visited := by simpa using hc
            cases hce : v._commentExtensions <;> simp [hm, hce] at hvis hcom
        have hctx : ∀ x ∈ (if st.ruleCheckProgress ≠ .RULE_DONE
              ∨ (st.ruleIndex + 1) % SIZE_LIMIT ≠ st.ruleIndexLimit then
              ({ _memberIndex := st.memberIndex, _ruleIndex := st.ruleIndex,
                 _numCandidatesLeft := st.numCandidatesLeft,
                 _ruleCheckProgress := st.ruleCheckProgress,
                 _pNextCandidate := st.pNextCandidate } : ExtensionContext)
                :: st.extensionContexts
            else st.extensionContexts),
            CandidatesFrom v x._memberIndex x._ruleIndex x._ruleCheckProgress
              x._pNextCandidate := by
          intro x hx
          split at hx
          · rcases List.mem_cons.mp hx with rfl | hx
            · exact hinv.1
            · exact hinv.2 x hx
          · exact hinv.2 x hx
        split
        · rename_i ruleIndex ruleIndexLimit h0 h1
          refine ⟨fun st1 h => ?_, fun c1 h => ?_⟩
          · cases h
            refine ⟨?_, hctx⟩
            apply candidatesFrom_idle
            simp only []
            split
            · exact Or.inl rfl
            · exact Or.inr rfl
          · simp only [StepResult.state, List.append_cancel_left_eq, List.cons.injEq,
              and_true] at h
            exact ⟨h.symm, hpass, hnot, rfl, rfl⟩
        · refine ⟨fun st1 h => (by cases h), fun c1 h => ?_⟩
          simp only [StepResult.state, List.append_cancel_left_eq, List.cons.injEq,
            and_true] at h
          exact ⟨h.symm, hpass, hnot, rfl, rfl⟩

/-- Lines 379-395 and what follows: the invariant is kept, and a candidate that is
visited is the next one of the edges of the member. -/
theorem takeCandidate_facts (v : ExtendedVisitor) (image : ProcessImage) (rule : Rule)
    (ma : Allocation) (st : VisitState) (hinv : EdgeInv v st)
    (hprog : st.ruleCheckProgress = .IN_PROGRESS ∨ st.ruleCheckProgress = .NO_EDGES_CHECKED)
    (hrule : v._rules[st.ruleIndex]? = some rule)
    (hma : image.allocations[st.memberIndex]? = some ma) :
    (∀ st1, takeCandidate v image rule ma st = .next st1 → EdgeInv v st1)
      ∧ (∀ c1, (takeCandidate v image rule ma st).state.visits = st.visits ++ [c1] →
          ExtensionBy v image st rule c1 (takeCandidate v image rule ma st)) := by
  obtain ⟨rule1, hr1, hsuf⟩ := hinv.1 hprog
  rw [hrule] at hr1
  cases hr1
  unfold takeCandidate
  simp only []
  have hc1 : (countCandidates st).visits = st.visits := by
    unfold countCandidates; split <;> rfl
  have hc2 : (countCandidates st).visited = st.visited := by
    unfold countCandidates; split <;> rfl
  have hc3 : (countCandidates st).memberIndex = st.memberIndex := by
    unfold countCandidates; split <;> rfl
  have hc4 : (countCandidates st).ruleIndex = st.ruleIndex := by
    unfold countCandidates; split <;> rfl
  have hc5 : (countCandidates st).pNextCandidate = st.pNextCandidate := by
    unfold countCandidates; split <;> rfl
  have hc6 : (countCandidates st).extensionContexts = st.extensionContexts := by
    unfold countCandidates; split <;> rfl
  generalize countCandidates st = st1 at hc1 hc2 hc3 hc4 hc5 hc6 ⊢
  split
  · refine ⟨fun st2 h => ?_, fun c1 h => ?_⟩
    · cases h
      refine ⟨candidatesFrom_idle _ _ _ _ _ (Or.inr rfl), ?_⟩
      simp only [hc6]
      exact hinv.2
    · simp only [StepResult.state, hc1] at h
      exact absurd h (visits_ne_append _ _)
  · split
    · refine ⟨fun st2 h => (by cases h), fun c1 h => ?_⟩
      simp only [StepResult.state, hc1] at h
      exact absurd h (visits_ne_append _ _)
    · rename_i candidateIndex rest hnext
      split
      · refine ⟨fun st2 h => (by cases h), fun c1 h => ?_⟩
        simp only [StepResult.state, hc1] at h
        exact absurd h (visits_ne_append _ _)
      · rename_i ca hca
        rw [hc5] at hnext
        rw [hnext] at hsuf
        have hinv2 : EdgeInv v
            { st1 with
              numCandidatesLeft := (st1.numCandidatesLeft + SIZE_LIMIT - 1) % SIZE_LIMIT,
              pNextCandidate := rest,
              ruleCheckProgress :=
                if (st1.numCandidatesLeft + SIZE_LIMIT - 1) % SIZE_LIMIT = 0 then .RULE_DONE
                else .IN_PROGRESS } := by
          refine ⟨?_, ?_⟩
          · intro _
            refine ⟨rule, ?_, ?_⟩
            · simp only [hc4]
              exact hrule
            · simp only [hc3]
              exact List.IsSuffix.trans (List.suffix_cons _ _) hsuf
          · simp only [hc6]
            exact hinv.2
        obtain ⟨e1, e2⟩ := extendTo_facts v image rule ma candidateIndex ca _ hinv2
        refine ⟨e1, fun c1 h => ?_⟩
        rw [← hc1] at h
        obtain ⟨f1, f2, f3, f4, f5⟩ := e2 c1 h
        subst f1
        simp only [hc3, hc2] at f2 f3
        exact ⟨ma, ca, hma, hca, f2, f3, f4, f5,
          Or.inl (hsuf.subset (List.mem_cons_self _ _))⟩

/-- Lines 351-369 and what follows: the invariant is kept, and a candidate that is
visited is the allocation of the address read from the member. -/
theorem followOffset_facts (v : ExtendedVisitor) (image : ProcessImage) (rule : Rule)
    (ma : Allocation) (st : VisitState) (hinv : EdgeInv v st)
    (hout : (rule._referenceIsOutgoing && rule._useOffsetInMember) = true)
    (hma : image.allocations[st.memberIndex]? = some ma) :
    (∀ st1, followOffset v image rule ma st = .next st1 → EdgeInv v st1)
      ∧ (∀ c1, (followOffset v image rule ma st).state.visits = st.visits ++ [c1] →
          ExtensionBy v image st rule c1 (followOffset v image rule ma st)) := by
  have hinv1 : EdgeInv v { st with ruleCheckProgress := .RULE_DONE } :=
    ⟨candidatesFrom_idle _ _ _ _ _ (Or.inr rfl), hinv.2⟩
  unfold followOffset
  simp only []
  split
  · exact ⟨fun st1 h => (by cases h; exact hinv1),
      fun c1 h => absurd h (visits_ne_append _ _)⟩
  · split
    · exact ⟨fun st1 h => (by cases h; exact hinv1),
        fun c1 h => absurd h (visits_ne_append _ _)⟩
    · split
      · exact ⟨fun st1 h => (by cases h), fun c1 h => absurd h (visits_ne_append _ _)⟩
      · rename_i ca hca
        split
        · exact ⟨fun st1 h => (by cases h; exact hinv1),
            fun c1 h => absurd h (visits_ne_append _ _)⟩
        · obtain ⟨e1, e2⟩ := extendTo_facts v image rule ma
            (image.AllocationIndexOf
              (image.offsetAt ((ma.Address + rule._offsetInMember) % image.offsetLimit)))
            ca _ hinv1
          refine ⟨e1, fun c1 h => ?_⟩
          obtain ⟨f1, f2, f3, f4, f5⟩ := e2 c1 h
          subst f1
          simp only [Bool.and_eq_true] at hout
          exact ⟨ma, ca, hma, hca, f2, f3, f4, f5, Or.inr ⟨hout.1, hout.2, rfl⟩⟩

/-- Lines 371-377 and what follows: the invariant is kept, and a candidate that is
visited is the first of the edges of the member. -/
theorem followEdges_facts (v : ExtendedVisitor) (image : ProcessImage) (rule : Rule)
    (ma : Allocation) (st : VisitState) (hinv : EdgeInv v st)
    (hrule : v._rules[st.ruleIndex]? = some rule)
    (hma : image.allocations[st.memberIndex]? = some ma) :
    (∀ st1, followEdges v image rule ma st = .next st1 → EdgeInv v st1)
      ∧ (∀ c1, (followEdges v image rule ma st).state.visits = st.visits ++ [c1] →
          ExtensionBy v image st rule c1 (followEdges v image rule ma st)) := by
  unfold followEdges
  cases hg : v._graph with
  | none =>
    exact ⟨fun st1 h => (by cases h), fun c1 h => absurd h (visits_ne_append _ _)⟩
  | some graph =>
    simp only []
    have hinv1 : EdgeInv v
        { st with
          pNextCandidate :=
            if rule._referenceIsOutgoing then graph.GetOutgoing st.memberIndex
            else graph.GetIncoming st.memberIndex,
          ruleCheckProgress := .NO_EDGES_CHECKED } := by
      refine ⟨fun _ => ⟨rule, hrule, ?_⟩, hinv.2⟩
      unfold edgesOf
      simp only [hg]
      exact List.suffix_refl _
    obtain ⟨e1, e2⟩ := takeCandidate_facts v image rule ma _ hinv1 (Or.inr rfl) hrule hma
    exact ⟨e1, e2⟩

/-- Lines 336-395 and what follows, for a rule check that is not done: the invariant is
kept, and a candidate that is visited is reached by the rule at ruleIndex. -/
theorem applyRule_facts (v : ExtendedVisitor) (image : ProcessImage) (st : VisitState)
    (hinv : EdgeInv v st) (hprog : st.ruleCheckProgress ≠ .RULE_DONE) :
    (∀ st1, applyRule v image st = .next st1 → EdgeInv v st1)
      ∧ (∀ c1, (applyRule v image st).state.visits = st.visits ++ [c1] →
          ∃ rule, v._rules[st.ruleIndex]? = some rule
            ∧ ExtensionBy v image st rule c1 (applyRule v image st)) := by
  unfold applyRule
  split
  · rename_i rule ma hrule hma
    split
    · split
      · refine ⟨fun st1 h => ?_, fun c1 h => absurd h (visits_ne_append _ _)⟩
        cases h
        exact ⟨candidatesFrom_idle _ _ _ _ _ (Or.inr rfl), hinv.2⟩
      · split
        · rename_i hout
          obtain ⟨e1, e2⟩ := followOffset_facts v image rule ma st hinv hout hma
          exact ⟨e1, fun c1 h => ⟨rule, hrule, e2 c1 h⟩⟩
        · obtain ⟨e1, e2⟩ := followEdges_facts v image rule ma st hinv hrule hma
          exact ⟨e1, fun c1 h => ⟨rule, hrule, e2 c1 h⟩⟩
    · rename_i hnew
      have hp : st.ruleCheckProgress = .IN_PROGRESS ∨ st.ruleCheckProgress = .NO_EDGES_CHECKED := by
        cases hc : st.ruleCheckProgress
        · exact absurd hc hnew
        · exact Or.inr rfl
        · exact Or.inl rfl
        · exact absurd hc hprog
      obtain ⟨e1, e2⟩ := takeCandidate_facts v image rule ma st hinv hp hrule hma
      exact ⟨e1, fun c1 h => ⟨rule, hrule, e2 c1 h⟩⟩
  · exact ⟨fun st1 h => (by cases h), fun c1 h => absurd h (visits_ne_append _ _)⟩

/-- One pass through the loop of Visit keeps the invariant, and a candidate that it visits
is reached by the rule that the pass works on. -/
theorem visitStep_facts (v : ExtendedVisitor) (image : ProcessImage) (st : VisitState)
    (hinv : EdgeInv v st) :
    (∀ st1, visitStep v image st = .next st1 → EdgeInv v st1)
      ∧ (∀ c1, (visitStep v image st).state.visits = st.visits ++ [c1] →
          ∃ rule, v._rules[stepRuleIndex st]? = some rule
            ∧ ExtensionBy v image st rule c1 (visitStep v image st)) := by
  unfold visitStep stepRuleIndex
  split
  · rename_i hdone
    simp only []
    split
    · split
      · exact ⟨fun st1 h => (by cases h), fun c1 h => absurd h (visits_ne_append _ _)⟩
      · rename_i ctx rest hctx
        unfold resumeContext
        simp only []
        split
        · exact ⟨fun st1 h => (by cases h), fun c1 h => absurd h (visits_ne_append _ _)⟩
        · split
          · exact ⟨fun st1 h => (by cases h), fun c1 h => absurd h (visits_ne_append _ _)⟩
          · refine ⟨fun st1 h => ?_, fun c1 h => absurd h (visits_ne_append _ _)⟩
            cases h
            refine ⟨hinv.2 ctx (by rw [hctx]; exact List.mem_cons_self _ _), ?_⟩
            intro x hx
            exact hinv.2 x (by rw [hctx]; exact List.mem_cons_of_mem _ hx)
    · have hinv1 : EdgeInv v
          { st with ruleIndex := (st.ruleIndex + 1) % SIZE_LIMIT,
                    ruleCheckProgress := .NEW_RULE } :=
        ⟨candidatesFrom_idle _ _ _ _ _ (Or.inl rfl), hinv.2⟩
      obtain ⟨e1, e2⟩ := applyRule_facts v image _ hinv1 (by simp)
      refine ⟨e1, fun c1 h => ?_⟩
      obtain ⟨rule, h1, h2⟩ := e2 c1 h
      exact ⟨rule, h1, h2⟩
  · rename_i hdone
    exact applyRule_facts v image st hinv hdone

/-- The pass k + 1 of the loop of Visit is made from the state that k passes leave. -/
theorem visitLoop_succ (v : ExtendedVisitor) (image : ProcessImage) (k : Nat) :
    ∀ st0 : VisitState, visitLoop v image (k + 1) st0
      = match visitLoop v image k st0 with
        | .next st => visitStep v image st
        | r => r := by
  induction k with
  | zero =>
    intro st0
    simp only [visitLoop]
    cases visitStep v image st0 <;> rfl
  | succ n ih =>
    intro st0
    rw [visitLoop]
    cases hs : visitStep v image st0 with
    | next st1 =>
      simp only []
      rw [ih st1]
      conv_rhs => rw [visitLoop, hs]
    | done st1 =>
      simp only []
      conv_rhs => rw [visitLoop, hs]
    | fault st1 =>
      simp only []
      conv_rhs => rw [visitLoop, hs]

/-- A call of Visit that enters its loop runs the loop from the state visitStart. -/
theorem Visit_eq_loop (v : ExtendedVisitor) (image : ProcessImage) (fuel seed : Nat)
    (log : VisitLog) (ruleIndex ruleIndexLimit : Nat) (hen : v._isEnabled = true)
    (hnew : log.visited.contains seed = false) (h0 : v._stateToBase[0]? = some ruleIndex)
    (h1 : v._stateToBase[1]? = some ruleIndexLimit) :
    v.Visit image fuel seed log
      = visitLoop v image fuel (visitStart seed ruleIndex ruleIndexLimit log) := by
  unfold ExtendedVisitor.Visit
  simp only [hen, hnew, h0, h1, Bool.not_true, Bool.false_eq_true, if_false]
  rfl

/-- A call of Visit whose loop is still running has entered the loop. -/
theorem Visit_next (v : ExtendedVisitor) (image : ProcessImage) (k seed : Nat)
    (log : VisitLog) (st : VisitState) (h : v.Visit image k seed log = .next st) :
    v._isEnabled = true ∧ log.visited.contains seed = false
      ∧ ∃ ruleIndex ruleIndexLimit, v._stateToBase[0]? = some ruleIndex
          ∧ v._stateToBase[1]? = some ruleIndexLimit
          ∧ ∀ fuel, v.Visit image fuel seed log
              = visitLoop v image fuel (visitStart seed ruleIndex ruleIndexLimit log) := by
  unfold ExtendedVisitor.Visit at h
  simp only [] at h
  split at h
  · cases h
  · rename_i hen
    split at h
    · cases h
    · rename_i hnew
      split at h
      · rename_i r0 r1 h0 h1
        have hen1 : v._isEnabled = true := by simpa using hen
        have hnew1 : log.visited.contains seed = false := by simpa using hnew
        exact ⟨hen1, hnew1, r0, r1, h0, h1,
          fun fuel => Visit_eq_loop v image fuel seed log r0 r1 hen1 hnew1 h0 h1⟩
      · cases h

/-- The pass k + 1 of a call of Visit is made from the state that k passes leave. -/
theorem Visit_succ (v : ExtendedVisitor) (image : ProcessImage) (k seed : Nat)
    (log : VisitLog) (st : VisitState) (h : v.Visit image k seed log = .next st) :
    v.Visit image (k + 1) seed log = visitStep v image st := by
  obtain ⟨_, _, r0, r1, _, _, hloop⟩ := Visit_next v image k seed log st h
  rw [hloop] at h
  rw [hloop, visitLoop_succ, h]

/-- What holds when Visit enters its loop and is kept by every pass holds at the start
of every pass. -/
theorem Visit_invariant (v : ExtendedVisitor) (image : ProcessImage) (seed : Nat)
    (log : VisitLog) (P : VisitState → Prop)
    (hstart : ∀ ruleIndex ruleIndexLimit, v._stateToBase[0]? = some ruleIndex →
      v._stateToBase[1]? = some ruleIndexLimit → log.visited.contains seed = false →
      P (visitStart seed ruleIndex ruleIndexLimit log))
    (hstep : ∀ st st1, P st → visitStep v image st = .next st1 → P st1) :
    ∀ (k : Nat) (st : VisitState), v.Visit image k seed log = .next st → P st := by
  intro k
  induction k with
  | zero =>
    intro st h
    obtain ⟨_, hnew, r0, r1, h0, h1, hloop⟩ := Visit_next v image 0 seed log st h
    rw [hloop] at h
    simp only [visitLoop, StepResult.next.injEq] at h
    rw [← h]
    exact hstart r0 r1 h0 h1 hnew
  | succ n ih =>
    intro st h
    obtain ⟨_, _, r0, r1, _, _, hloop⟩ := Visit_next v image (n + 1) seed log st h
    cases hn : v.Visit image n seed log with
    | next st0 =>
      rw [Visit_succ v image n seed log st0 hn] at h
      exact hstep st0 st (ih st0 hn) h
    | done st0 =>
      rw [hloop] at hn h
      rw [visitLoop_succ, hn] at h
      cases h
    | fault st0 =>
      rw [hloop] at hn h
      rw [visitLoop_succ, hn] at h
      cases h

/-- The invariant on the candidates holds at the start of every pass of Visit. -/
theorem Visit_edgeInv (v : ExtendedVisitor) (image : ProcessImage) (k seed : Nat)
    (log : VisitLog) (st : VisitState) (h : v.Visit image k seed log = .next st) :
    EdgeInv v st := by
  refine Visit_invariant v image seed log (EdgeInv v) ?_ ?_ k st h
  · intro r0 r1 _ _ _
    refine ⟨candidatesFrom_idle _ _ _ _ _ (Or.inl rfl), ?_⟩
    intro c hc
    simp [visitStart] at hc
  · intro st0 st1 hinv hs
    exact (visitStep_facts v image st0 hinv).1 st1 hs

/-- In every pass of a call of Visit that visits a candidate, the candidate is reached by
the rule that the pass works on. -/
theorem Visit_extension (v : ExtendedVisitor) (image : ProcessImage) (k seed : Nat)
    (log : VisitLog) (st : VisitState) (c : Nat)
    (hrun : v.Visit image k seed log = .next st)
    (hext : (v.Visit image (k + 1) seed log).state.visits = st.visits ++ [c]) :
    ∃ rule, v._rules[stepRuleIndex st]? = some rule
      ∧ ExtensionBy v image st rule c (v.Visit image (k + 1) seed log) := by
  rw [Visit_succ v image k seed log st hrun] at hext ⊢
  exact (visitStep_facts v image st (Visit_edgeInv v image k seed log st hrun)).2 c hext

/-- A specification for extensions that must be leaked follows outgoing references. -/
theorem parseRule_leaked (st : ParseState) (r : Line)
    (h : ∀ spec ∈ st.specifications,
      spec._extensionMustBeLeaked = true → spec._referenceIsOutgoing = true) :
    ∀ spec ∈ (parseRule st r).specifications,
      spec._extensionMustBeLeaked = true → spec._referenceIsOutgoing = true := by
  unfold parseRule
  split
  · exact h
  · rename_i m hm
    simp only []
    intro spec hspec
    rcases List.mem_append.mp hspec with hs | hs
    · apply h
      revert hs
      split <;> split <;> exact id
    · simp only [List.mem_singleton] at hs
      rw [hs]
      simp only []
      intro hl
      rw [hl, Bool.or_true]

theorem parseLoop_leaked (rs : List Line) : ∀ st : ParseState,
    (∀ spec ∈ st.specifications,
      spec._extensionMustBeLeaked = true → spec._referenceIsOutgoing = true) →
    ∀ spec ∈ (rs.foldl parseRule st).specifications,
      spec._extensionMustBeLeaked = true → spec._referenceIsOutgoing = true := by
  induction rs with
  | nil => intro st h; exact h
  | cons r rs ih =>
    intro st h
    rw [List.foldl_cons]
    exact ih _ (parseRule_leaked st r h)

theorem assignBaseStates_leaked (labels : List (Line × Nat)) (specs : List Specification) :
    ∀ stb : List Nat,
    (∀ spec ∈ specs, spec._extensionMustBeLeaked = true → spec._referenceIsOutgoing = true) →
    ∀ spec ∈ (assignBaseStates labels specs stb).1,
      spec._extensionMustBeLeaked = true → spec._referenceIsOutgoing = true := by
  induction specs with
  | nil => intro stb _ spec hs; simp [assignBaseStates] at hs
  | cons a rest ih =>
    intro stb h
    unfold assignBaseStates
    simp only []
    have hrest := fun stb1 => ih stb1 (fun spec hs => h spec (List.mem_cons_of_mem _ hs))
    have ha := h a (List.mem_cons_self _ _)
    split
    · intro spec hs
      rcases List.mem_cons.mp hs with rfl | hs
      · exact ha
      · exact hrest _ spec hs
    · intro spec hs
      rcases List.mem_cons.mp hs with rfl | hs
      · exact ha
      · exact hrest _ spec hs

theorem acceptedRules_leaked (context : Context) (image : ProcessImage) :
    ∀ spec ∈ acceptedRules context image,
      spec._extensionMustBeLeaked = true → spec._referenceIsOutgoing = true := by
  unfold acceptedRules orderRules
  simp only []
  apply assignBaseStates_leaked
  unfold ExtendedVisitor.parseArguments
  simp only []
  apply parseLoop_leaked
  intro spec hs
  simp [ParseState.initial] at hs

/-- Every rule of a visitor that its constructor made for extensions that must be leaked,
which are those written with "~>", follows outgoing references. -/
theorem new_rules_leaked (context : Context) (image : ProcessImage) (allow : Bool)
    (v : ExtendedVisitor) (hv : ExtendedVisitor.new context image allow = some v) :
    ∀ rule ∈ v._rules,
      rule._extensionMustBeLeaked = true → rule._referenceIsOutgoing = true := by
  have hcompile : ∀ rule ∈ (ExtendedVisitor.compile context image allow)._rules,
      rule._extensionMustBeLeaked = true → rule._referenceIsOutgoing = true := by
    rw [compile_rules]
    intro rule hr
    obtain ⟨i, _, rfl⟩ := List.mem_map.mp hr
    simp only [Rule.ofSpecification]
    rw [List.getD_eq_getElem?_getD]
    cases hg : (acceptedRules context image)[(orderRules
        (ExtendedVisitor.parseArguments context image).1).2.2.getD i 0]? with
    | none =>
      intro hl
      simp [Specification.initial] at hl
    | some spec =>
      exact acceptedRules_leaked context image spec (List.getElem?_mem hg)
  unfold ExtendedVisitor.new at hv
  split at hv
  · cases hv
    intro rule hr
    simp [ExtendedVisitor.initial] at hr
  · simp only [] at hv
    split at hv
    · split at hv
      · cases hv
      · split at hv
        · cases hv
          exact hcompile
        · cases hv
          exact hcompile
    · cases hv
      exact hcompile

theorem mem_edgesOf (v : ExtendedVisitor) (rule : Rule) (m c : Nat)
    (h : c ∈ edgesOf v rule m) :
    ∃ g, v._graph = some g
      ∧ c ∈ (if rule._referenceIsOutgoing then g.GetOutgoing m else g.GetIncoming m) := by
  unfold edgesOf at h
  cases hg : v._graph with
  | none => rw [hg] at h; cases h
  | some g => rw [hg] at h; exact ⟨g, rfl, h⟩

/-- An extension through a rule written with "~>" is leaked.  For a visitor that the
constructor made, in every pass k + 1 of every call of Visit that passes a candidate c to
the visitor, the rule that the pass works on exists, and when it is a rule for extensions
that must be leaked (written with "~>") it follows outgoing references, the graph exists,
IsLeaked holds for c, and c is an outgoing edge of the member in the graph or, for a rule
with an offset in the member, the allocation of the address in the word that line 358
reads at the sum of the address of the member and the offset, which wraps around at the
size of the address space and is then no address of the member. -/
theorem leaked_rule_extends_to_leaked (context : Context) (image : ProcessImage)
    (allow : Bool) (v : ExtendedVisitor)
    (hv : ExtendedVisitor.new context image allow = some v) (k seed : Nat) (log : VisitLog)
    (st : VisitState) (c : Nat) (hrun : v.Visit image k seed log = .next st)
    (hext : (v.Visit image (k + 1) seed log).state.visits = st.visits ++ [c]) :
    ∃ rule ma, v._rules[stepRuleIndex st]? = some rule
      ∧ image.allocations[st.memberIndex]? = some ma
      ∧ (v.Visit image (k + 1) seed log).state.memberIndex = c
      ∧ (rule._extensionMustBeLeaked = true →
          rule._referenceIsOutgoing = true
            ∧ ∃ g, v._graph = some g ∧ g.IsLeaked c = true
              ∧ (c ∈ g.GetOutgoing st.memberIndex
                  ∨ (rule._useOffsetInMember = true
                      ∧ c = image.AllocationIndexOf
                          (image.offsetAt
                            ((ma.Address + rule._offsetInMember) % image.offsetLimit))))) := by
  obtain ⟨rule, hrule, ma, ca, hma, hca, hpass, hnot, hmem, hstate, hsrc⟩ :=
    Visit_extension v image k seed log st c hrun hext
  refine ⟨rule, ma, hrule, hma, hmem, ?_⟩
  intro hl
  have hout := new_rules_leaked context image allow v hv rule (List.getElem?_mem hrule) hl
  obtain ⟨g, hg, hleak⟩ := (candidatePasses_true v image rule _ ma c ca hpass).1 hl
  refine ⟨hout, g, hg, hleak, ?_⟩
  rcases hsrc with h | ⟨_, h2, h3⟩
  · obtain ⟨g1, hg1, hc⟩ := mem_edgesOf v rule _ c h
    rw [hg] at hg1
    cases hg1
    rw [if_pos hout] at hc
    exact Or.inl hc
  · exact Or.inr ⟨h2, h3⟩

set_option maxRecDepth 100000 in
theorem leaked_rule_extends_to_leaked_witness :
    leakedVisitor.Visit markedImage 1 0 ⟨[], [], []⟩
        = .next (leakedVisitor.Visit markedImage 1 0 ⟨[], [], []⟩).state
      ∧ (leakedVisitor.Visit markedImage 2 0 ⟨[], [], []⟩).state.visits = [0, 2]
      ∧ ∃ rule ma,
          leakedVisitor._rules[stepRuleIndex
            (leakedVisitor.Visit markedImage 1 0 ⟨[], [], []⟩).state]? = some rule
          ∧ markedImage.allocations[
              (leakedVisitor.Visit markedImage 1 0 ⟨[], [], []⟩).state.memberIndex]? = some ma
          ∧ (leakedVisitor.Visit markedImage (1 + 1) 0 ⟨[], [], []⟩).state.memberIndex = 2
          ∧ (rule._extensionMustBeLeaked = true →
              rule._referenceIsOutgoing = true
                ∧ ∃ g, leakedVisitor._graph = some g ∧ g.IsLeaked 2 = true
                  ∧ (2 ∈ g.GetOutgoing
                        (leakedVisitor.Visit markedImage 1 0 ⟨[], [], []⟩).state.memberIndex
                      ∨ (rule._useOffsetInMember = true
                          ∧ 2 = markedImage.AllocationIndexOf
                              (markedImage.offsetAt
                                ((ma.Address + rule._offsetInMember)
                                  % markedImage.offsetLimit))))) :=
  ⟨by decide, by decide,
    leaked_rule_extends_to_leaked (contextOf ["list", "used", "/extend", "~>"]) markedImage
      false leakedVisitor (Option.some_get _).symm 1 0 ⟨[], [], []⟩
      (leakedVisitor.Visit markedImage 1 0 ⟨[], [], []⟩).state 2 (by decide) (by decide)⟩

/-- C24: with skipTaintedReferences true, Visit never extends across a tainted edge.  In
every pass k + 1 of every call of Visit that passes a candidate c to the visitor, the
predicate on tainted edges exists and, for an outgoing rule, does not hold of the edge
from the member to c, and for an incoming rule does not hold of the edge from c to the
member, which is an incoming edge of the member in the graph. -/
theorem tainted_edges_not_followed (v : ExtendedVisitor) (image : ProcessImage)
    (k seed : Nat) (log : VisitLog) (st : VisitState) (c : Nat)
    (hskip : v._skipTaintedReferences = true)
    (hrun : v.Visit image k seed log = .next st)
    (hext : (v.Visit image (k + 1) seed log).state.visits = st.visits ++ [c]) :
    ∃ rule tainted, v._rules[stepRuleIndex st]? = some rule
      ∧ image.GetEdgeIsTainted = some tainted
      ∧ (v.Visit image (k + 1) seed log).state.memberIndex = c
      ∧ (rule._referenceIsOutgoing = true → tainted st.memberIndex c = false)
      ∧ (rule._referenceIsOutgoing = false →
          tainted c st.memberIndex = false
            ∧ ∃ g, v._graph = some g ∧ c ∈ g.GetIncoming st.memberIndex) := by
  obtain ⟨rule, hrule, ma, ca, hma, hca, hpass, hnot, hmem, hstate, hsrc⟩ :=
    Visit_extension v image k seed log st c hrun hext
  obtain ⟨tainted, ht, hfalse⟩ :=
    (candidatePasses_true v image rule _ ma c ca hpass).2.2.2.2.1 hskip
  refine ⟨rule, tainted, hrule, ht, hmem, ?_, ?_⟩
  · intro hout
    rw [if_pos hout] at hfalse
    exact hfalse
  · intro hin
    rw [hin] at hfalse
    refine ⟨by simpa using hfalse, ?_⟩
    rcases hsrc with h | ⟨h1, _, _⟩
    · obtain ⟨g, hg, hc⟩ := mem_edgesOf v rule _ c h
      rw [hin] at hc
      exact ⟨g, hg, by simpa using hc⟩
    · rw [hin] at h1
      cases h1

set_option maxRecDepth 100000 in
theorem tainted_edges_not_followed_witness :
    untaintedVisitor._skipTaintedReferences = true
      ∧ (untaintedVisitor.Visit markedImage 2 0 ⟨[], [], []⟩).state.visits = [0, 2]
      ∧ ∃ rule tainted,
          untaintedVisitor._rules[stepRuleIndex
            (untaintedVisitor.Visit markedImage 1 0 ⟨[], [], []⟩).state]? = some rule
          ∧ markedImage.GetEdgeIsTainted = some tainted
          ∧ (untaintedVisitor.Visit markedImage (1 + 1) 0 ⟨[], [], []⟩).state.memberIndex = 2
          ∧ (rule._referenceIsOutgoing = true →
              tainted (untaintedVisitor.Visit markedImage 1 0 ⟨[], [], []⟩).state.memberIndex 2
                = false)
          ∧ (rule._referenceIsOutgoing = false →
              tainted 2 (untaintedVisitor.Visit markedImage 1 0 ⟨[], [], []⟩).state.memberIndex
                  = false
                ∧ ∃ g, untaintedVisitor._graph = some g
                  ∧ 2 ∈ g.GetIncoming
                      (untaintedVisitor.Visit markedImage 1 0 ⟨[], [], []⟩).state.memberIndex) :=
  ⟨by decide, by decide,
    tainted_edges_not_followed untaintedVisitor markedImage 1 0 ⟨[], [], []⟩
      (untaintedVisitor.Visit markedImage 1 0 ⟨[], [], []⟩).state 2 (by decide) (by decide)
      (by decide)⟩

end Allocations

namespace Allocations

open Commands

theorem skipLoop_spec (p : Nat → Bool) (N : Nat) :
    ∀ (fuel i : Nat), i ≤ N → N - i < fuel →
      ∃ j, Iterators.skipLoop p N fuel i = some j ∧ i ≤ j ∧ j ≤ N
        ∧ (List.range' i (N - i)).filter p
            = (if j = N then [] else j :: (List.range' (j + 1) (N - (j + 1))).filter p) := by
  intro fuel
  induction fuel with
  | zero => intro i _ h; omega
  | succ fuel ih =>
    intro i hi hf
    unfold Iterators.skipLoop
    by_cases hN : i = N
    · subst hN
      refine ⟨i, by simp, le_refl _, le_refl _, by simp⟩
    · have hlt : i < N := by omega
      have hr : List.range' i (N - i) = i :: List.range' (i + 1) (N - (i + 1)) := by
        have : N - i = (N - (i + 1)) + 1 := by omega
        rw [this, List.range'_succ]
      cases hp : p i with
      | true =>
        refine ⟨i, by simp [hp], le_refl _, hi, ?_⟩
        rw [if_neg hN, hr, List.filter_cons_of_pos (by simpa using hp)]
      | false =>
        obtain ⟨j, hj, h1, h2, h3⟩ := ih (i + 1) (by omega) (by omega)
        refine ⟨j, by simp [hp, hN, hj], by omega, h2, ?_⟩
        rw [hr, List.filter_cons_of_neg (by simp [hp]), h3]

theorem take_append_replicate_succ (l : List Nat) (N k : Nat) :
    (l ++ List.replicate (k + 1) N).take k = (l ++ List.replicate k N).take k := by
  rw [List.take_append_eq_append_take, List.take_append_eq_append_take, List.take_replicate,
    List.take_replicate]
  congr 2
  omega

theorem external_nextCalls (g : Iterators.AnchorGraph) (N fuel : Nat) (hf : N < fuel) :
    ∀ (k i : Nat), i ≤ N →
      Iterators.ExternalAnchorPoints.nextCalls fuel k ⟨i, N, g⟩
        = some (((List.range' i (N - i)).filter g.IsExternalAnchorPoint
            ++ List.replicate k N).take k) := by
  intro k
  induction k with
  | zero => intro i _; simp [Iterators.ExternalAnchorPoints.nextCalls]
  | succ k ih =>
    intro i hi
    obtain ⟨j, hj, h1, h2, h3⟩ := skipLoop_spec g.IsExternalAnchorPoint N fuel i hi (by omega)
    unfold Iterators.ExternalAnchorPoints.nextCalls Iterators.ExternalAnchorPoints.Next
    simp only [hj]
    by_cases hN : j = N
    · rw [if_pos hN] at h3
      simp only [hN, ne_eq, not_true_eq_false, if_false]
      rw [ih N (le_refl _), h3]
      simp [List.replicate_succ]
    · rw [if_neg hN] at h3
      simp only [ne_eq, hN, not_false_eq_true, if_true]
      rw [ih (j + 1) (by omega), h3]
      simp only [Option.map_some', List.cons_append, List.take_succ_cons]
      rw [take_append_replicate_succ]

theorem threadOnly_nextCalls (g : Iterators.AnchorGraph) (N fuel : Nat) (hf : N < fuel) :
    ∀ (k i : Nat), i ≤ N →
      Iterators.ThreadOnlyAnchorPoints.nextCalls fuel k ⟨i, N, g⟩
        = some (((List.range' i (N - i)).filter g.IsThreadOnlyAnchorPoint
            ++ List.replicate k N).take k) := by
  intro k
  induction k with
  | zero => intro i _; simp [Iterators.ThreadOnlyAnchorPoints.nextCalls]
  | succ k ih =>
    intro i hi
    obtain ⟨j, hj, h1, h2, h3⟩ := skipLoop_spec g.IsThreadOnlyAnchorPoint N fuel i hi (by omega)
    unfold Iterators.ThreadOnlyAnchorPoints.nextCalls Iterators.ThreadOnlyAnchorPoints.Next
    simp only [hj]
    by_cases hN : j = N
    · rw [if_pos hN] at h3
      simp only [hN, ne_eq, not_true_eq_false, if_false]
      rw [ih N (le_refl _), h3]
      simp [List.replicate_succ]
    · rw [if_neg hN] at h3
      simp only [ne_eq, hN, not_false_eq_true, if_true]
      rw [ih (j + 1) (by omega), h3]
      simp only [Option.map_some', List.cons_append, List.take_succ_cons]
      rw [take_append_replicate_succ]

theorem filter_range_facts (p : Nat → Bool) (N : Nat) :
    (∀ i, i ∈ (List.range N).filter p ↔ i < N ∧ p i = true)
      ∧ ((List.range N).filter p).Sorted (fun a b => a < b) := by
  refine ⟨fun i => by simp [List.mem_filter], ?_⟩
  exact List.Pairwise.filter _ (List.pairwise_lt_range N)

/-- C25: for an anchor point iterator (ExternalAnchorPoints, ThreadOnlyAnchorPoints) over
N allocations, the values returned by the first k calls of Next, for every k, are the
first k values of the list of the indices below N for which the predicate of the graph
(IsExternalAnchorPoint, IsThreadOnlyAnchorPoint) holds, in ascending order, followed by N
for every later call; that list holds exactly the indices below N that satisfy the
predicate and is strictly ascending, so that each index is returned once.  Fuel above N
is enough for every call to return. -/
theorem anchor_points_in_ascending_order (g : Iterators.AnchorGraph) (N fuel k : Nat)
    (hf : N < fuel) :
    Iterators.ExternalAnchorPoints.MakeIterator (some g) N
        = some (Iterators.ExternalAnchorPoints.new N g)
      ∧ (Iterators.ExternalAnchorPoints.new N g).nextCalls fuel k
          = some (((List.range N).filter g.IsExternalAnchorPoint ++ List.replicate k N).take k)
      ∧ (∀ i, i ∈ (List.range N).filter g.IsExternalAnchorPoint
            ↔ i < N ∧ g.IsExternalAnchorPoint i = true)
      ∧ ((List.range N).filter g.IsExternalAnchorPoint).Sorted (fun a b => a < b)
      ∧ Iterators.ThreadOnlyAnchorPoints.MakeIterator (some g) N
          = some (Iterators.ThreadOnlyAnchorPoints.new N g)
      ∧ (Iterators.ThreadOnlyAnchorPoints.new N g).nextCalls fuel k
          = some (((List.range N).filter g.IsThreadOnlyAnchorPoint
              ++ List.replicate k N).take k)
      ∧ (∀ i, i ∈ (List.range N).filter g.IsThreadOnlyAnchorPoint
            ↔ i < N ∧ g.IsThreadOnlyAnchorPoint i = true)
      ∧ ((List.range N).filter g.IsThreadOnlyAnchorPoint).Sorted (fun a b => a < b) := by
  have e := external_nextCalls g N fuel hf k 0 (Nat.zero_le _)
  have t := threadOnly_nextCalls g N fuel hf k 0 (Nat.zero_le _)
  rw [Nat.sub_zero, ← List.range_eq_range'] at e t
  exact ⟨rfl, e, (filter_range_facts _ N).1, (filter_range_facts _ N).2, rfl, t,
    (filter_range_facts _ N).1, (filter_range_facts _ N).2⟩

theorem anchor_points_in_ascending_order_witness :
    (Iterators.ExternalAnchorPoints.new 5 Iterators.sampleAnchorGraph).nextCalls 6 4
        = some [1, 3, 5, 5]
      ∧ (Iterators.ThreadOnlyAnchorPoints.new 5 Iterators.sampleAnchorGraph).nextCalls 6 4
        = some [0, 4, 5, 5] :=
  have h := anchor_points_in_ascending_order Iterators.sampleAnchorGraph 5 6 4 (by decide)
  ⟨h.2.1.trans (by decide), h.2.2.2.2.2.1.trans (by decide)⟩

end Allocations

namespace Allocations

open Commands

theorem incomingLoop_spec (image : ProcessImage) (N : Nat) :
    ∀ (l : List Nat), (∀ i ∈ l, i < image.NumAllocations) →
      ∃ next rest, Iterators.incomingLoop image N l = some (next, rest)
        ∧ (∀ i ∈ rest, i < image.NumAllocations)
        ∧ ((l.filter (Iterators.usedAt image) = [] ∧ next = N ∧ rest = [])
            ∨ (l.filter (Iterators.usedAt image)
                = next :: rest.filter (Iterators.usedAt image))) := by
  intro l
  induction l with
  | nil => intro _; exact ⟨N, [], rfl, by simp, Or.inl ⟨rfl, rfl, rfl⟩⟩
  | cons a l ih =>
    intro h
    have ha : a < image.allocations.length := h a (List.mem_cons_self _ _)
    have hl : ∀ i ∈ l, i < image.NumAllocations := fun i hi => h i (List.mem_cons_of_mem _ hi)
    unfold Iterators.incomingLoop
    rw [List.getElem?_eq_getElem ha]
    have hu : Iterators.usedAt image a = (image.allocations[a]).IsUsed := by
      unfold Iterators.usedAt
      rw [List.getElem?_eq_getElem ha]
    cases hused : (image.allocations[a]).IsUsed with
    | true =>
      refine ⟨a, l, by simp [hused], hl, Or.inr ?_⟩
      rw [List.filter_cons_of_pos (by rw [hu, hused])]
    | false =>
      obtain ⟨next, rest, h1, h2, h3⟩ := ih hl
      refine ⟨next, rest, by simpa [hused] using h1, h2, ?_⟩
      rw [List.filter_cons_of_neg (by rw [hu, hused]; simp)]
      exact h3

theorem incoming_nextCalls (image : ProcessImage) (N t : Nat) :
    ∀ (k : Nat) (l : List Nat), (∀ i ∈ l, i < image.NumAllocations) →
      Iterators.Incoming.nextCalls image k ⟨t, N, l⟩
        = some ((l.filter (Iterators.usedAt image) ++ List.replicate k N).take k) := by
  intro k
  induction k with
  | zero => intro l _; simp [Iterators.Incoming.nextCalls]
  | succ k ih =>
    intro l hl
    obtain ⟨next, rest, h1, h2, h3⟩ := incomingLoop_spec image N l hl
    unfold Iterators.Incoming.nextCalls Iterators.Incoming.Next
    simp only [h1]
    rw [ih rest h2]
    rcases h3 with ⟨e1, e2, e3⟩ | e
    · rw [e1, e2, e3]
      simp [List.replicate_succ]
    · rw [e]
      simp only [Option.map_some', List.cons_append, List.take_succ_cons]
      rw [take_append_replicate_succ]

/-- C26: Incoming::Factory::MakeIterator returns no iterator and writes the third
positional followed by " is not part of an allocation." to the error stream when the
third positional parses as an address for which AllocationIndexOf returns the number of
allocations; and whenever it returns an iterator, there are at least 3 positionals, the
third parses as a hexadecimal address for which AllocationIndexOf returns the index of an
allocation (not the number of allocations), the graph exists, and the iterator is the one
the constructor makes for that index. -/
theorem MakeIterator_needs_address_in_allocation (context : Context) (image : ProcessImage) :
    (∀ address, context.ParsePositional image.offsetLimit 2 = some address →
        image.AllocationIndexOf address = image.NumAllocations →
        Iterators.Incoming.MakeIterator context image
          = (none, context._error.write
              (context.Positional 2 ++ bytesOf " is not part of an allocation." ++ [NEWLINE])))
      ∧ (∀ it, (Iterators.Incoming.MakeIterator context image).1 = some it →
          3 ≤ context.GetNumPositionals
            ∧ ∃ address graph, context.ParsePositional image.offsetLimit 2 = some address
              ∧ image.AllocationIndexOf address ≠ image.NumAllocations
              ∧ image.GetAllocationGraph = some graph
              ∧ it = Iterators.Incoming.new graph (image.AllocationIndexOf address)
                  image.NumAllocations) := by
  constructor
  · intro address hparse hindex
    have hn : ¬ context.GetNumPositionals < 3 := by
      intro hlt
      unfold Context.ParsePositional at hparse
      unfold Context.GetNumPositionals at hlt
      rw [List.getElem?_eq_none (by omega)] at hparse
      cases hparse
    unfold Iterators.Incoming.MakeIterator
    simp only [hn, if_false, hparse, hindex, if_true]
  · intro it h
    unfold Iterators.Incoming.MakeIterator at h
    by_cases hn : context.GetNumPositionals < 3
    · simp [hn] at h
    · simp only [hn, if_false] at h
      cases hparse : context.ParsePositional image.offsetLimit 2 with
      | none => simp [hparse] at h
      | some address =>
        simp only [hparse] at h
        by_cases hindex : image.AllocationIndexOf address = image.NumAllocations
        · simp [hindex] at h
        · simp only [hindex, if_false] at h
          cases hg : image.GetAllocationGraph with
          | none => simp [hg] at h
          | some graph =>
            simp only [hg, Option.some.injEq] at h
            exact ⟨by omega, address, graph, rfl, hindex, rfl, h.symm⟩

set_option maxRecDepth 100000 in
theorem MakeIterator_needs_address_in_allocation_witness :
    Iterators.Incoming.MakeIterator (contextOf ["list", "incoming", "0xdeadbeef"])
        Iterators.referencedImage
      = (none, ⟨[], false, [bytesOf "0xdeadbeef is not part of an allocation." ++ [NEWLINE]]⟩)
    ∧ (Iterators.Incoming.MakeIterator (contextOf ["list", "incoming", "1000"])
        Iterators.referencedImage).1 = some ⟨0, 4, [3, 2, 1]⟩ :=
  ⟨((MakeIterator_needs_address_in_allocation (contextOf ["list", "incoming", "0xdeadbeef"])
      Iterators.referencedImage).1 0xdeadbeef (by decide) (by decide)).trans (by decide),
    by decide⟩

/-- C27: for the Incoming iterator built for the allocation t of a directory of N
allocations, the values returned by the first k calls of Next, for every k, are the first
k values of the list of the used allocations of the incoming list of t, in the order of
that list, followed by N for every later call; every value returned is N or the index of
a used allocation.  The indices in the incoming list are indices of allocations of the
directory. -/
theorem incoming_returns_used_in_order (image : ProcessImage) (graph : Graph) (t k : Nat)
    (hvalid : ∀ i ∈ graph.GetIncoming t, i < image.NumAllocations) :
    (Iterators.Incoming.new graph t image.NumAllocations).nextCalls image k
        = some (((graph.GetIncoming t).filter (Iterators.usedAt image)
            ++ List.replicate k image.NumAllocations).take k)
      ∧ (∀ i, i ∈ (graph.GetIncoming t).filter (Iterators.usedAt image)
          ↔ i ∈ graph.GetIncoming t
            ∧ ∃ allocation, image.allocations[i]? = some allocation
                ∧ allocation.IsUsed = true)
      ∧ ∀ results, (Iterators.Incoming.new graph t image.NumAllocations).nextCalls image k
            = some results →
          ∀ r ∈ results, r = image.NumAllocations
            ∨ ∃ allocation, image.allocations[r]? = some allocation
                ∧ allocation.IsUsed = true := by
  have hcalls := incoming_nextCalls image image.NumAllocations t k (graph.GetIncoming t) hvalid
  have hused : ∀ i, Iterators.usedAt image i = true
      ↔ ∃ allocation, image.allocations[i]? = some allocation ∧ allocation.IsUsed = true := by
    intro i
    unfold Iterators.usedAt
    cases image.allocations[i]? <;> simp
  refine ⟨hcalls, fun i => by rw [List.mem_filter, hused], ?_⟩
  intro results hres r hr
  have hc : (Iterators.Incoming.new graph t image.NumAllocations).nextCalls image k
      = some (((graph.GetIncoming t).filter (Iterators.usedAt image)
            ++ List.replicate k image.NumAllocations).take k) := hcalls
  rw [hc] at hres
  cases hres
  rcases List.mem_append.mp (List.mem_of_mem_take hr) with h | h
  · exact Or.inr ((hused r).mp (List.mem_filter.mp h).2)
  · exact Or.inl (List.eq_of_mem_replicate h)

theorem incoming_returns_used_in_order_witness :
    (Iterators.Incoming.new
        { GetOutgoing := fun i => if i = 0 then [] else [0],
          GetIncoming := fun i => if i = 0 then [3, 2, 1] else [],
          IsLeaked := fun _ => false } 0 4).nextCalls Iterators.referencedImage 4
      = some [3, 1, 4, 4] :=
  (incoming_returns_used_in_order Iterators.referencedImage
      { GetOutgoing := fun i => if i = 0 then [] else [0],
        GetIncoming := fun i => if i = 0 then [3, 2, 1] else [],
        IsLeaked := fun _ => false } 0 4 (by decide)).1.trans (by decide)

end Allocations

namespace Python

open Commands Allocations

theorem firstBlock_false (env : FinderEnv) (fuel : Nat) (f : BlockAllocationFinder)
    (hempty : env.memory.ReadU32 f._pool 0 = 0
      ∨ env.sub env._poolSize (env.memory.ReadU32 (env.add f._pool 0x2c) 0 % env.limit)
          = env._poolSize) :
    ∃ f1, AdvanceToFirstBlockOfPool env fuel f = .ok (false, f1)
      ∧ f1._pool = f._pool ∧ f1._poolsLimit = f._poolsLimit
      ∧ f1._itActiveIndices = f._itActiveIndices := by
  unfold AdvanceToFirstBlockOfPool
  by_cases h0 : env.memory.ReadU32 f._pool 0 = 0
  · exact ⟨f, by rw [if_pos h0], rfl, rfl, rfl⟩
  · have hsize := hempty.resolve_left h0
    let blockSize :=
      env.sub env._poolSize (env.memory.ReadU32 (env.add f._pool 0x2c) 0 % env.limit)
    refine ⟨{ f with _blockSize := blockSize }, ?_, rfl, rfl, rfl⟩
    rw [if_neg h0]
    simp only [hsize, if_true, blockSize]

/-- C28: when a pool holds no blocks (the 32-bit count at the start of the pool is 0, or
the size field gives a block size equal to the pool size), the finder reports the whole
pool as one allocation with the address of the pool, the size of a pool and used = false,
and the next Advance reports no block of that pool: it goes to the pool that follows,
where the first allocation of that pool is found, or, after the last pool of the arena,
finds no further allocation in the arena. -/
theorem pool_without_blocks_is_one_free_allocation (env : FinderEnv) (fuel : Nat)
    (f : BlockAllocationFinder) (hactive : f.Finished env = false)
    (hempty : env.memory.ReadU32 f._pool 0 = 0
      ∨ env.sub env._poolSize (env.memory.ReadU32 (env.add f._pool 0x2c) 0 % env.limit)
          = env._poolSize) :
    ∃ f1, AdvanceToFirstAllocationForPool env fuel f = .ok f1
      ∧ f1._pool = f._pool ∧ f1.NextAddress = f._pool ∧ f1.NextSize = env._poolSize
      ∧ f1.NextIsUsed = false ∧ f1.Finished env = false
      ∧ (env.add f._pool env._poolSize < f._poolsLimit →
          f1.Advance env fuel
            = AdvanceToFirstAllocationForPool env fuel
                { f1 with _pool := env.add f._pool env._poolSize })
      ∧ (¬ env.add f._pool env._poolSize < f._poolsLimit →
          AdvanceToNextAllocationOfArena env fuel f1
            = .ok (false, { f1 with _pool := env.add f._pool env._poolSize })) := by
  obtain ⟨f0, h0, hpool, hlimit, hit⟩ := firstBlock_false env fuel f hempty
  have hfin : f0._itActiveIndices ≠ env._activeIndices.length := by
    rw [hit]
    simpa [BlockAllocationFinder.Finished] using hactive
  refine ⟨{ f0 with _allocationAddress := f0._pool, _allocationSize := env._poolSize,
                    _allocationIsUsed := false }, ?_, hpool, hpool, rfl, rfl, ?_, ?_, ?_⟩
  · unfold AdvanceToFirstAllocationForPool
    rw [h0]
  · simpa [BlockAllocationFinder.Finished] using hfin
  · intro hnext
    unfold BlockAllocationFinder.Advance AdvanceToNextAllocationOfArena
    simp only [ne_eq, not_true_eq_false, if_false, hfin, not_false_eq_true, if_true, hpool,
      hlimit, hnext]
    generalize AdvanceToFirstAllocationForPool env fuel _ = r
    cases r <;> rfl
  · intro hlast
    unfold AdvanceToNextAllocationOfArena
    simp only [ne_eq, not_true_eq_false, if_false, hpool, hlimit, hlast]

set_option maxRecDepth 100000 in
theorem pool_without_blocks_is_one_free_allocation_witness :
    ∃ f1, AdvanceToFirstAllocationForPool corruptHeaderEnv 0 unusedPoolFinder = .ok f1
      ∧ f1._pool = 0x201000 ∧ f1.NextAddress = 0x201000 ∧ f1.NextSize = 0x1000
      ∧ f1.NextIsUsed = false ∧ f1.Finished corruptHeaderEnv = false
      ∧ (0x202000 < 0x240000 →
          f1.Advance corruptHeaderEnv 0
            = AdvanceToFirstAllocationForPool corruptHeaderEnv 0 { f1 with _pool := 0x202000 })
      ∧ (¬ 0x202000 < 0x240000 →
          AdvanceToNextAllocationOfArena corruptHeaderEnv 0 f1
            = .ok (false, { f1 with _pool := 0x202000 })) :=
  pool_without_blocks_is_one_free_allocation corruptHeaderEnv 0 unusedPoolFinder (by decide)
    (Or.inl (by decide))

end Python

namespace Allocations

open Commands

theorem extendTo_traversal (v : ExtendedVisitor) (image : ProcessImage) (rule : Rule)
    (ma : Allocation) (c : Nat) (ca : Allocation) (st : VisitState) :
    extendTo v.traversal image rule ma c ca st = extendTo v image rule ma c ca st := rfl

theorem takeCandidate_traversal (v : ExtendedVisitor) (image : ProcessImage) (rule : Rule)
    (ma : Allocation) (st : VisitState) :
    takeCandidate v.traversal image rule ma st = takeCandidate v image rule ma st := rfl

theorem followOffset_traversal (v : ExtendedVisitor) (image : ProcessImage) (rule : Rule)
    (ma : Allocation) (st : VisitState) :
    followOffset v.traversal image rule ma st = followOffset v image rule ma st := rfl

theorem followEdges_traversal (v : ExtendedVisitor) (image : ProcessImage) (rule : Rule)
    (ma : Allocation) (st : VisitState) :
    followEdges v.traversal image rule ma st = followEdges v image rule ma st := rfl

theorem applyRule_traversal (v : ExtendedVisitor) (image : ProcessImage) (st : VisitState) :
    applyRule v.traversal image st = applyRule v image st := rfl

theorem resumeContext_traversal (v : ExtendedVisitor) (c : ExtensionContext)
    (rest : List ExtensionContext) (st : VisitState) :
    resumeContext v.traversal c rest st = resumeContext v c rest st := rfl

theorem visitStep_traversal (v : ExtendedVisitor) (image : ProcessImage) (st : VisitState) :
    visitStep v.traversal image st = visitStep v image st := rfl

theorem visitLoop_traversal (v : ExtendedVisitor) (image : ProcessImage) (fuel : Nat) :
    ∀ st, visitLoop v.traversal image fuel st = visitLoop v image fuel st := by
  induction fuel with
  | zero => intro st; rfl
  | succ n ih =>
    intro st
    rw [visitLoop, visitLoop, visitStep_traversal]
    cases visitStep v image st with
    | next st1 => exact ih st1
    | done st1 => rfl
    | fault st1 => rfl

theorem Visit_traversal (v : ExtendedVisitor) (image : ProcessImage) (fuel seed : Nat)
    (log : VisitLog) : v.traversal.Visit image fuel seed log = v.Visit image fuel seed log := by
  unfold ExtendedVisitor.Visit
  simp only [visitLoop_traversal]
  rfl

theorem extendTo_after (p : List Nat) (o : List OutputItem) (v : ExtendedVisitor)
    (image : ProcessImage) (rule : Rule) (ma : Allocation) (c : Nat) (ca : Allocation)
    (m s r n lim : Nat) (pn : List Nat) (prog : RuleCheckProgress)
    (ctxs : List ExtensionContext) (vd vs : List Nat) (out : List OutputItem) :
    extendTo v image rule ma c ca ⟨m, s, r, n, lim, pn, prog, ctxs, vd, p ++ vs, o ++ out⟩
      = (extendTo v image rule ma c ca ⟨m, s, r, n, lim, pn, prog, ctxs, vd, vs, out⟩).after
          p o := by
  unfold extendTo
  simp only []
  split
  · simp only [StepResult.after, VisitState.after]
  · split
    · simp only [StepResult.after, VisitState.after]
    · simp only [StepResult.after, VisitState.after]
    · split
      · cases v._commentExtensions <;> simp [StepResult.after, VisitState.after, List.append_assoc]
      · split
        · cases v._commentExtensions <;>
            simp [StepResult.after, VisitState.after, List.append_assoc]
        · cases v._commentExtensions <;>
            simp [StepResult.after, VisitState.after, List.append_assoc]

theorem takeCandidate_after (p : List Nat) (o : List OutputItem) (v : ExtendedVisitor)
    (image : ProcessImage) (rule : Rule) (ma : Allocation)
    (m s r n lim : Nat) (pn : List Nat) (prog : RuleCheckProgress)
    (ctxs : List ExtensionContext) (vd vs : List Nat) (out : List OutputItem) :
    takeCandidate v image rule ma ⟨m, s, r, n, lim, pn, prog, ctxs, vd, p ++ vs, o ++ out⟩
      = (takeCandidate v image rule ma ⟨m, s, r, n, lim, pn, prog, ctxs, vd, vs, out⟩).after
          p o := by
  unfold takeCandidate countCandidates
  simp only []
  by_cases h : prog = .NO_EDGES_CHECKED
  · subst h
    simp only [if_true, true_and]
    by_cases hz : pn.length = 0
    · rw [if_pos hz, if_pos hz]
      simp only [StepResult.after, VisitState.after]
    · rw [if_neg hz, if_neg hz]
      generalize pn.length = len
      cases pn with
      | nil => simp only [StepResult.after, VisitState.after]
      | cons c rest =>
        simp only []
        cases image.allocations[c]? with
        | none => simp only [StepResult.after, VisitState.after]
        | some ca =>
          simp only []
          exact extendTo_after p o v image rule ma c ca _ _ _ _ _ _ _ _ _ _ _
  · simp only [h, if_false, false_and]
    cases pn with
    | nil => simp only [StepResult.after, VisitState.after]
    | cons c rest =>
      simp only []
      cases image.allocations[c]? with
      | none => simp only [StepResult.after, VisitState.after]
      | some ca =>
        simp only []
        exact extendTo_after p o v image rule ma c ca _ _ _ _ _ _ _ _ _ _ _

theorem followOffset_after (p : List Nat) (o : List OutputItem) (v : ExtendedVisitor)
    (image : ProcessImage) (rule : Rule) (ma : Allocation)
    (m s r n lim : Nat) (pn : List Nat) (prog : RuleCheckProgress)
    (ctxs : List ExtensionContext) (vd vs : List Nat) (out : List OutputItem) :
    followOffset v image rule ma ⟨m, s, r, n, lim, pn, prog, ctxs, vd, p ++ vs, o ++ out⟩
      = (followOffset v image rule ma ⟨m, s, r, n, lim, pn, prog, ctxs, vd, vs, out⟩).after
          p o := by
  unfold followOffset
  simp only []
  split
  · simp only [StepResult.after, VisitState.after]
  · split
    · simp only [StepResult.after, VisitState.after]
    · cases image.allocations[image.AllocationIndexOf
          (image.offsetAt ((ma.Address + rule._offsetInMember) % image.offsetLimit))]? with
      | none => simp only [StepResult.after, VisitState.after]
      | some ca =>
        simp only []
        split
        · simp only [StepResult.after, VisitState.after]
        · exact extendTo_after p o v image rule ma _ ca _ _ _ _ _ _ _ _ _ _ _

theorem followEdges_after (p : List Nat) (o : List OutputItem) (v : ExtendedVisitor)
    (image : ProcessImage) (rule : Rule) (ma : Allocation)
    (m s r n lim : Nat) (pn : List Nat) (prog : RuleCheckProgress)
    (ctxs : List ExtensionContext) (vd vs : List Nat) (out : List OutputItem) :
    followEdges v image rule ma ⟨m, s, r, n, lim, pn, prog, ctxs, vd, p ++ vs, o ++ out⟩
      = (followEdges v image rule ma ⟨m, s, r, n, lim, pn, prog, ctxs, vd, vs, out⟩).after
          p o := by
  unfold followEdges
  cases v._graph with
  | none => simp only [StepResult.after, VisitState.after]
  | some g =>
    simp only []
    exact takeCandidate_after p o v image rule ma _ _ _ _ _ _ _ _ _ _ _

theorem applyRule_after (p : List Nat) (o : List OutputItem) (v : ExtendedVisitor)
    (image : ProcessImage)
    (m s r n lim : Nat) (pn : List Nat) (prog : RuleCheckProgress)
    (ctxs : List ExtensionContext) (vd vs : List Nat) (out : List OutputItem) :
    applyRule v image ⟨m, s, r, n, lim, pn, prog, ctxs, vd, p ++ vs, o ++ out⟩
      = (applyRule v image ⟨m, s, r, n, lim, pn, prog, ctxs, vd, vs, out⟩).after p o := by
  unfold applyRule
  simp only []
  cases v._rules[r]? with
  | none => simp only [StepResult.after, VisitState.after]
  | some rule =>
    cases image.allocations[m]? with
    | none => simp only [StepResult.after, VisitState.after]
    | some ma =>
      simp only []
      split
      · split
        · simp only [StepResult.after, VisitState.after]
        · split
          · exact followOffset_after p o v image rule ma _ _ _ _ _ _ _ _ _ _ _
          · exact followEdges_after p o v image rule ma _ _ _ _ _ _ _ _ _ _ _
      · exact takeCandidate_after p o v image rule ma _ _ _ _ _ _ _ _ _ _ _

theorem resumeContext_after (p : List Nat) (o : List OutputItem) (v : ExtendedVisitor)
    (c : ExtensionContext) (rest : List ExtensionContext)
    (m s r n lim : Nat) (pn : List Nat) (prog : RuleCheckProgress)
    (ctxs : List ExtensionContext) (vd vs : List Nat) (out : List OutputItem) :
    resumeContext v c rest ⟨m, s, r, n, lim, pn, prog, ctxs, vd, p ++ vs, o ++ out⟩
      = (resumeContext v c rest ⟨m, s, r, n, lim, pn, prog, ctxs, vd, vs, out⟩).after p o := by
  unfold resumeContext
  simp only []
  cases v._rules[c._ruleIndex]? with
  | none => simp only [StepResult.after, VisitState.after]
  | some rule =>
    simp only []
    cases v._stateToBase[rule._baseState + 1]? <;>
      simp only [StepResult.after, VisitState.after]

theorem visitStep_after (p : List Nat) (o : List OutputItem) (v : ExtendedVisitor)
    (image : ProcessImage)
    (m s r n lim : Nat) (pn : List Nat) (prog : RuleCheckProgress)
    (ctxs : List ExtensionContext) (vd vs : List Nat) (out : List OutputItem) :
    visitStep v image ⟨m, s, r, n, lim, pn, prog, ctxs, vd, p ++ vs, o ++ out⟩
      = (visitStep v image ⟨m, s, r, n, lim, pn, prog, ctxs, vd, vs, out⟩).after p o := by
  unfold visitStep
  simp only []
  split
  · split
    · cases ctxs with
      | nil => simp only [StepResult.after, VisitState.after]
      | cons c rest =>
        simp only []
        exact resumeContext_after p o v c rest _ _ _ _ _ _ _ _ _ _ _
    · exact applyRule_after p o v image _ _ _ _ _ _ _ _ _ _ _
  · exact applyRule_after p o v image _ _ _ _ _ _ _ _ _ _ _

theorem visitLoop_after (p : List Nat) (o : List OutputItem) (v : ExtendedVisitor)
    (image : ProcessImage) (fuel : Nat) :
    ∀ st : VisitState,
      visitLoop v image fuel
          ⟨st.memberIndex, st.state, st.ruleIndex, st.numCandidatesLeft, st.ruleIndexLimit,
            st.pNextCandidate, st.ruleCheckProgress, st.extensionContexts, st.visited,
            p ++ st.visits, o ++ st.output⟩
        = (visitLoop v image fuel st).after p o := by
  induction fuel with
  | zero => intro st; rfl
  | succ n ih =>
    intro st
    rw [visitLoop, visitLoop]
    have h := visitStep_after p o v image st.memberIndex st.state st.ruleIndex
      st.numCandidatesLeft st.ruleIndexLimit st.pNextCandidate st.ruleCheckProgress
      st.extensionContexts st.visited st.visits st.output
    rw [h]
    cases visitStep v image st with
    | next st1 => exact ih st1
    | done st1 => rfl
    | fault st1 => rfl

/-- A loop of Visit that has returned returns the same with more fuel. -/
theorem visitLoop_done_mono (v : ExtendedVisitor) (image : ProcessImage) (k : Nat) :
    ∀ (fuel : Nat) (st b : VisitState), visitLoop v image fuel st = .done b →
      visitLoop v image (fuel + k) st = .done b := by
  intro fuel
  induction fuel with
  | zero => intro st b h; cases h
  | succ n ih =>
    intro st b h
    have e : n + 1 + k = (n + k) + 1 := by omega
    rw [e, visitLoop]
    rw [visitLoop] at h
    cases hs : visitStep v image st with
    | next st1 =>
      rw [hs] at h
      exact ih st1 b h
    | done st1 =>
      rw [hs] at h
      exact h
    | fault st1 =>
      rw [hs] at h
      cases h

/-- Two loops of Visit from the same state that have returned have returned the same. -/
theorem visitLoop_done_unique (v : ExtendedVisitor) (image : ProcessImage) (f1 f2 : Nat)
    (st b1 b2 : VisitState) (h1 : visitLoop v image f1 st = .done b1)
    (h2 : visitLoop v image f2 st = .done b2) : b1 = b2 := by
  have e1 := visitLoop_done_mono v image f2 f1 st b1 h1
  have e2 := visitLoop_done_mono v image f1 f2 st b2 h2
  rw [Nat.add_comm] at e2
  rw [e1] at e2
  exact StepResult.done.inj e2

theorem after_done (p : List Nat) (o : List OutputItem) (r : StepResult) (st : VisitState)
    (h : r.after p o = .done st) :
    ∃ b, r = .done b ∧ st.visits = p ++ b.visits ∧ st.visited = b.visited := by
  cases r with
  | next b => cases h
  | done b =>
    simp only [StepResult.after, StepResult.done.injEq] at h
    subst h
    exact ⟨b, rfl, rfl, rfl⟩
  | fault b => cases h

/-- A call of Visit that returns has made its calls of visitor.Visit after those of the
log, and they are those of the same call for an empty history. -/
theorem Visit_done_after (v : ExtendedVisitor) (image : ProcessImage) (fuel seed : Nat)
    (log : VisitLog) (st : VisitState) (h : v.Visit image fuel seed log = .done st) :
    ∃ b, v.Visit image fuel seed ⟨log.visited, [], []⟩ = .done b
      ∧ st.visits = log.visits ++ b.visits ∧ st.visited = b.visited := by
  unfold ExtendedVisitor.Visit at h ⊢
  simp only [] at h ⊢
  split at h
  · rename_i hen
    rw [if_pos hen]
    cases h
    exact ⟨_, rfl, rfl, rfl⟩
  · rename_i hen
    rw [if_neg hen]
    split at h
    · rename_i hvis
      rw [if_pos hvis]
      cases h
      exact ⟨_, rfl, (List.append_nil _).symm, rfl⟩
    · rename_i hvis
      rw [if_neg hvis]
      split at h
      · rename_i r0 r1 h0 h1
        have e := visitLoop_after log.visits log.output v image fuel
          ⟨seed, 0, r0, 0, r1, [], .NEW_RULE, [], seed :: log.visited, [seed], []⟩
        simp only [List.append_nil] at e
        rw [List.nil_append]
        rw [e] at h
        exact after_done _ _ _ _ h
      · cases h

theorem traversal_eq (v1 v2 : ExtendedVisitor) (henabled : v1._isEnabled = v2._isEnabled)
    (hgraph : v1._graph = v2._graph) (hrules : v1._rules = v2._rules)
    (hbase : v1._stateToBase = v2._stateToBase)
    (hcomment : v1._commentExtensions = v2._commentExtensions)
    (htainted : v1._skipTaintedReferences = v2._skipTaintedReferences)
    (hunfavored : v1._skipUnfavoredReferences = v2._skipUnfavoredReferences)
    (hlabels : v1._stateLabels = v2._stateLabels) : v1.traversal = v2.traversal := by
  cases v1
  cases v2
  simp only at henabled hgraph hrules hbase hcomment htainted hunfavored hlabels
  subst henabled hgraph hrules hbase hcomment htainted hunfavored hlabels
  rfl

theorem Visit_done_unique (v : ExtendedVisitor) (image : ProcessImage) (f1 f2 seed : Nat)
    (log : VisitLog) (b1 b2 : VisitState) (h1 : v.Visit image f1 seed log = .done b1)
    (h2 : v.Visit image f2 seed log = .done b2) : b1 = b2 := by
  unfold ExtendedVisitor.Visit at h1 h2
  simp only [] at h1 h2
  split at h1
  · rename_i hen
    rw [if_pos hen] at h2
    rw [← StepResult.done.inj h1, ← StepResult.done.inj h2]
  · rename_i hen
    rw [if_neg hen] at h2
    split at h1
    · rename_i hvis
      rw [if_pos hvis] at h2
      rw [← StepResult.done.inj h1, ← StepResult.done.inj h2]
    · rename_i hvis
      rw [if_neg hvis] at h2
      split at h1
      · rename_i r0 r1 hb0 hb1
        simp only [hb0, hb1] at h2
        exact visitLoop_done_unique v image f1 f2 _ b1 b2 h1 h2
      · cases h1

/-- C29: the traversal of Visit is determined by the process image (directory, graph,
address map and edge predicates), the rules with their states, the options, the visited
set and the seed.  Two calls of Visit that return, for visitors that agree on the rules,
the graph and the options and for logs with the same visited set, pass the same sequence
of allocation indices to the wrapped visitor and leave the same visited set, whatever
the earlier calls of the wrapped visitor, the output written before, the error streams
and the bounds on the number of passes are. -/
theorem Visit_deterministic (v1 v2 : ExtendedVisitor) (image : ProcessImage)
    (fuel1 fuel2 seed : Nat) (log1 log2 : VisitLog) (st1 st2 : VisitState)
    (henabled : v1._isEnabled = v2._isEnabled) (hgraph : v1._graph = v2._graph)
    (hrules : v1._rules = v2._rules) (hbase : v1._stateToBase = v2._stateToBase)
    (hcomment : v1._commentExtensions = v2._commentExtensions)
    (htainted : v1._skipTaintedReferences = v2._skipTaintedReferences)
    (hunfavored : v1._skipUnfavoredReferences = v2._skipUnfavoredReferences)
    (hlabels : v1._stateLabels = v2._stateLabels) (hvisited : log1.visited = log2.visited)
    (h1 : v1.Visit image fuel1 seed log1 = .done st1)
    (h2 : v2.Visit image fuel2 seed log2 = .done st2) :
    ∃ added, st1.visits = log1.visits ++ added ∧ st2.visits = log2.visits ++ added
      ∧ st1.visited = st2.visited := by
  have hv := traversal_eq v1 v2 henabled hgraph hrules hbase hcomment htainted hunfavored
    hlabels
  rw [← Visit_traversal, hv] at h1
  rw [← Visit_traversal] at h2
  obtain ⟨b1, e1, e2, e3⟩ := Visit_done_after _ image fuel1 seed log1 st1 h1
  obtain ⟨b2, g1, g2, g3⟩ := Visit_done_after _ image fuel2 seed log2 st2 h2
  rw [hvisited] at e1
  have hb := Visit_done_unique _ image fuel1 fuel2 seed _ b1 b2 e1 g1
  subst hb
  exact ⟨b1.visits, e2, g2, e3.trans g3.symm⟩

set_option maxRecDepth 100000 in
theorem Visit_deterministic_witness :
    ∃ added, (outgoingVisitor.Visit cycleImage 20 0 ⟨[3], [3], []⟩).state.visits = [3] ++ added
      ∧ ({ outgoingVisitor with _hasErrors := true }.Visit cycleImage 30 0
            ⟨[3], [7, 7, 3], []⟩).state.visits = [7, 7, 3] ++ added
      ∧ (outgoingVisitor.Visit cycleImage 20 0 ⟨[3], [3], []⟩).state.visited
          = ({ outgoingVisitor with _hasErrors := true }.Visit cycleImage 30 0
              ⟨[3], [7, 7, 3], []⟩).state.visited :=
  Visit_deterministic outgoingVisitor { outgoingVisitor with _hasErrors := true } cycleImage
    20 30 0 ⟨[3], [3], []⟩ ⟨[3], [7, 7, 3], []⟩ _ _ rfl rfl rfl rfl rfl rfl rfl rfl rfl
    (by decide) (by decide)

end Allocations

namespace Allocations

open Commands

theorem candidatePasses_plain (v : ExtendedVisitor) (image : ProcessImage) (graph : Graph)
    (rule : Rule) (hv : SingleOutgoingRule v graph) (hrule : PlainOutgoingRule rule)
    (m : Nat) (ma : Allocation) (c : Nat) (ca : Allocation) :
    candidatePasses v image rule m ma c ca = some ca.IsUsed := by
  obtain ⟨_, _, _, _, ht, hu, _⟩ := hv
  obtain ⟨h1, h2, h3, h4, _, _, _, hx⟩ := hrule
  unfold candidatePasses offsetsReject
  simp only [h2, h3, h4, ht, hu, hx c, Bool.false_eq_true, if_false, Bool.not_true,
    Bool.or_false, Bool.false_and, Bool.not_eq_true']
  cases ca.IsUsed <;> rfl

theorem one_mod_SIZE_LIMIT : (0 + 1) % SIZE_LIMIT = 1 := by decide

theorem extendTo_plain (v : ExtendedVisitor) (image : ProcessImage) (graph : Graph)
    (rule : Rule) (hv : SingleOutgoingRule v graph) (hrule : PlainOutgoingRule rule)
    (ma : Allocation) (c : Nat) (ca : Allocation) (s : VisitState)
    (hr : s.ruleIndex = 0) (hl : s.ruleIndexLimit = 1) :
    ∃ st1, extendTo v image rule ma c ca s = .next st1
      ∧ (((c ∈ s.visited ∨ ca.IsUsed = false) ∧ st1 = s)
        ∨ (c ∉ s.visited ∧ ca.IsUsed = true ∧ st1.memberIndex = c
            ∧ st1.visited = c :: s.visited ∧ st1.visits = s.visits ++ [c]
            ∧ st1.ruleCheckProgress = .NEW_RULE ∧ st1.ruleIndex = 0 ∧ st1.ruleIndexLimit = 1
            ∧ st1.extensionContexts
                = (if s.ruleCheckProgress = .RULE_DONE then s.extensionContexts
                   else ⟨s.memberIndex, s.ruleIndex, s.numCandidatesLeft, s.ruleCheckProgress,
                          s.pNextCandidate⟩ :: s.extensionContexts))) := by
  have hpass := candidatePasses_plain v image graph rule hv hrule s.memberIndex ma c ca
  obtain ⟨_, _, hbase, hcom, _, _, _⟩ := hv
  obtain ⟨_, _, _, _, _, hnew, _, _⟩ := hrule
  unfold extendTo
  simp only [hcom, hpass, hnew, hbase, hr, hl, one_mod_SIZE_LIMIT, Bool.not_false,
    Bool.true_and, Bool.false_and, Bool.false_eq_true, if_false]
  cases hc : s.visited.contains c with
  | true =>
    have hm : c ∈ s.visited := by simpa using hc
    exact ⟨s, by simp, Or.inl ⟨Or.inl hm, rfl⟩⟩
  | false =>
    have hm : c ∉ s.visited := by simpa using hc
    cases hu : ca.IsUsed with
    | false => exact ⟨s, by simp, Or.inl ⟨Or.inr rfl, rfl⟩⟩
    | true =>
      refine ⟨_, by simp; rfl, Or.inr ⟨hm, rfl, ?_⟩⟩
      by_cases hp : s.ruleCheckProgress = .RULE_DONE
      · simp [hp]
      · simp [hp]

theorem pred_mod_SIZE_LIMIT (n : Nat) (h : n + 1 < SIZE_LIMIT) :
    (n + 1 + SIZE_LIMIT - 1) % SIZE_LIMIT = n := by
  have hS : SIZE_LIMIT = 18446744073709551616 := by decide
  rw [hS] at h ⊢
  omega

theorem takeCandidate_plain (v : ExtendedVisitor) (image : ProcessImage) (graph : Graph)
    (rule : Rule) (hv : SingleOutgoingRule v graph) (hrule : PlainOutgoingRule rule)
    (ma : Allocation) (c : Nat) (rest : List Nat) (ca : Allocation) (s : VisitState)
    (hr : s.ruleIndex = 0) (hl : s.ruleIndexLimit = 1) (hpn : s.pNextCandidate = c :: rest)
    (hlen : rest.length + 1 < SIZE_LIMIT) (hca : image.allocations[c]? = some ca)
    (hprog : s.ruleCheckProgress = .NO_EDGES_CHECKED
      ∨ (s.ruleCheckProgress = .IN_PROGRESS ∧ s.numCandidatesLeft = rest.length + 1)) :
    ∃ st1, takeCandidate v image rule ma s = .next st1
      ∧ st1.ruleIndex = 0 ∧ st1.ruleIndexLimit = 1
      ∧ (((c ∈ s.visited ∨ ca.IsUsed = false) ∧ st1.memberIndex = s.memberIndex
            ∧ st1.extensionContexts = s.extensionContexts
            ∧ st1.visited = s.visited ∧ st1.visits = s.visits
            ∧ st1.pNextCandidate = rest ∧ st1.numCandidatesLeft = rest.length
            ∧ st1.ruleCheckProgress = (if rest = [] then .RULE_DONE else .IN_PROGRESS))
        ∨ (c ∉ s.visited ∧ ca.IsUsed = true ∧ st1.memberIndex = c
            ∧ st1.visited = c :: s.visited ∧ st1.visits = s.visits ++ [c]
            ∧ st1.ruleCheckProgress = .NEW_RULE
            ∧ st1.extensionContexts
                = (if rest = [] then s.extensionContexts
                   else ⟨s.memberIndex, 0, rest.length, .IN_PROGRESS, rest⟩
                      :: s.extensionContexts))) := by
  obtain ⟨m, st, r, n, lim, pn, prog, ctxs, vd, vs, out⟩ := s
  simp only at hr hl hpn hprog
  subst hr hl hpn
  have hn := pred_mod_SIZE_LIMIT rest.length hlen
  have hprogress : (if rest.length = 0 then RuleCheckProgress.RULE_DONE
      else RuleCheckProgress.IN_PROGRESS)
      = (if rest = [] then RuleCheckProgress.RULE_DONE else RuleCheckProgress.IN_PROGRESS) := by
    cases rest <;> simp
  have hstep : takeCandidate v image rule ma
        ⟨m, st, 0, n, 1, c :: rest, prog, ctxs, vd, vs, out⟩
      = extendTo v image rule ma c ca
          ⟨m, st, 0, rest.length, 1, rest,
            if rest = [] then .RULE_DONE else .IN_PROGRESS, ctxs, vd, vs, out⟩ := by
    unfold takeCandidate countCandidates
    rcases hprog with h | ⟨h, hnum⟩
    · subst h
      simp only [if_true, List.length_cons, Nat.add_one_ne_zero, and_false, if_false, hca, hn,
        hprogress]
    · subst h hnum
      simp only [reduceCtorEq, if_false, false_and, hca, hn, hprogress]
  rw [hstep]
  obtain ⟨st1, h1, h2⟩ := extendTo_plain v image graph rule hv hrule ma c ca
    ⟨m, st, 0, rest.length, 1, rest, if rest = [] then .RULE_DONE else .IN_PROGRESS, ctxs, vd,
      vs, out⟩ rfl rfl
  refine ⟨st1, h1, ?_⟩
  rcases h2 with ⟨hskip, heq⟩ | ⟨a1, a2, a3, a4, a5, a6, a7, a8, a9⟩
  · subst heq
    exact ⟨rfl, rfl, Or.inl ⟨hskip, rfl, rfl, rfl, rfl, rfl, rfl, rfl⟩⟩
  · refine ⟨a7, a8, Or.inr ⟨a1, a2, a3, a4, a5, a6, ?_⟩⟩
    rw [a9]
    cases rest <;> simp

theorem not_used_of (image : ProcessImage) (c : Nat) (ca : Allocation)
    (hca : image.allocations[c]? = some ca) (h : ca.IsUsed = false) :
    ¬ usedAllocation image c := by
  rintro ⟨a, ha, hu⟩
  rw [hca] at ha
  cases ha
  rw [h] at hu
  cases hu

theorem plain_candidate (v : ExtendedVisitor) (image : ProcessImage) (graph : Graph)
    (rule : Rule) (hv : SingleOutgoingRule v graph) (hrule : PlainOutgoingRule rule)
    (hedges : ∀ i c, c ∈ graph.GetOutgoing i → c < image.NumAllocations)
    (hdeg : ∀ i, (graph.GetOutgoing i).length < SIZE_LIMIT)
    (ma : Allocation) (c : Nat) (rest : List Nat) (st s : VisitState)
    (hr : s.ruleIndex = 0) (hl : s.ruleIndexLimit = 1) (hpn : s.pNextCandidate = c :: rest)
    (hsuffix : c :: rest <:+ graph.GetOutgoing st.memberIndex)
    (hprog : s.ruleCheckProgress = .NO_EDGES_CHECKED
      ∨ (s.ruleCheckProgress = .IN_PROGRESS ∧ s.numCandidatesLeft = rest.length + 1))
    (hm : s.memberIndex = st.memberIndex) (hctx : s.extensionContexts = st.extensionContexts)
    (hvd : s.visited = st.visited) (hvs : s.visits = st.visits)
    (hnd : st.ruleCheckProgress ≠ .RULE_DONE)
    (hpending : pendingCandidates graph st = c :: rest) :
    PlainStep image graph st (takeCandidate v image rule ma s) := by
  have hcN : c < image.allocations.length :=
    hedges st.memberIndex c (hsuffix.subset (List.mem_cons_self _ _))
  have hca : image.allocations[c]? = some (image.allocations[c]) :=
    List.getElem?_eq_getElem hcN
  have hlen : rest.length + 1 < SIZE_LIMIT := by
    have h1 := hsuffix.length_le
    have h2 := hdeg st.memberIndex
    simp only [List.length_cons] at h1
    omega
  obtain ⟨st1, h1, h2, h3, h4⟩ := takeCandidate_plain v image graph rule hv hrule ma c rest
    _ s hr hl hpn hlen hca hprog
  rw [h1]
  refine Or.inr ⟨st1, rfl, h2, h3, Or.inr (Or.inr ⟨hnd, c, rest, hpending, ?_⟩)⟩
  rw [hm, hctx, hvd, hvs] at h4
  rcases h4 with ⟨hskip, a⟩ | ⟨b1, b2, b⟩
  · refine Or.inl ⟨?_, a⟩
    rcases hskip with h | h
    · exact Or.inl h
    · exact Or.inr (not_used_of image c _ hca h)
  · exact Or.inr ⟨b1, ⟨_, hca, b2⟩, b⟩

theorem plain_step (v : ExtendedVisitor) (image : ProcessImage) (graph : Graph)
    (hv : SingleOutgoingRule v graph)
    (hedges : ∀ i c, c ∈ graph.GetOutgoing i → c < image.NumAllocations)
    (hdeg : ∀ i, (graph.GetOutgoing i).length < SIZE_LIMIT)
    (st : VisitState) (hshape : PlainShape image graph st) :
    PlainStep image graph st (visitStep v image st) := by
  have hv0 := hv
  obtain ⟨_, hgraph, hbase, _, _, _, rule, hrules, hrule⟩ := hv
  have hrule0 := hrule
  obtain ⟨hout, _, hoff, _, hb, _, hmc, _⟩ := hrule
  obtain ⟨hr, hl, hm, hne, hin, hctx⟩ := hshape
  have hma : image.allocations[st.memberIndex]? = some (image.allocations[st.memberIndex]) :=
    List.getElem?_eq_getElem hm
  have hrule1 : v._rules[st.ruleIndex]? = some rule := by rw [hr, hrules]; rfl
  unfold visitStep
  cases hp : st.ruleCheckProgress with
  | RULE_DONE =>
    simp only [if_true, hr, hl, one_mod_SIZE_LIMIT]
    cases hc : st.extensionContexts with
    | nil => exact Or.inl ⟨_, rfl, hp, hc, rfl, rfl⟩
    | cons ctx rest =>
      obtain ⟨c1, _, _, _, _, _⟩ := hctx ctx (by rw [hc]; exact List.mem_cons_self _ _)
      simp only [resumeContext, c1, hrules, hb, hbase, List.getElem?_cons_zero,
        List.getElem?_cons_succ]
      exact Or.inr ⟨_, rfl, rfl, rfl, Or.inl ⟨hp, ctx, rest, hc, rfl, rfl, rfl, rfl, rfl, rfl,
        rfl⟩⟩
  | NEW_RULE =>
    simp only [reduceCtorEq, if_false]
    unfold applyRule
    rw [hrule1, hma]
    simp only [hp, if_true, memberRejected, hmc, hoff, Bool.not_true, Bool.false_and,
      Bool.or_false, Bool.false_eq_true, if_false, Bool.and_false, followEdges, hgraph, hout]
    have hpend : pendingCandidates graph st = graph.GetOutgoing st.memberIndex := by
      unfold pendingCandidates
      rw [hp]
    cases hedge : graph.GetOutgoing st.memberIndex with
    | nil =>
      have htake : ∀ ma, takeCandidate v image rule ma
            { st with pNextCandidate := [], ruleCheckProgress := .NO_EDGES_CHECKED }
          = .next { st with numCandidatesLeft := 0, pNextCandidate := [],
                            ruleCheckProgress := .RULE_DONE } := by
        intro ma
        unfold takeCandidate countCandidates
        simp
      rw [htake]
      exact Or.inr ⟨_, rfl, hr, hl,
        Or.inr (Or.inl ⟨hp, by rw [hpend, hedge], rfl, rfl, rfl, rfl, rfl⟩)⟩
    | cons c rest =>
      have hnd : st.ruleCheckProgress ≠ .RULE_DONE := by rw [hp]; simp
      exact plain_candidate v image graph rule hv0 hrule0 hedges hdeg _ c rest st _ hr hl rfl
        (by simp [hedge]) (Or.inl rfl) rfl rfl rfl rfl hnd
        (by rw [hpend, hedge])
  | IN_PROGRESS =>
    simp only [reduceCtorEq, if_false]
    unfold applyRule
    rw [hrule1, hma]
    simp only [hp, reduceCtorEq, if_false]
    obtain ⟨h1, h2, h3⟩ := hin hp
    have hpend : pendingCandidates graph st = st.pNextCandidate := by
      unfold pendingCandidates
      rw [hp]
    cases hpn : st.pNextCandidate with
    | nil => exact absurd hpn h1
    | cons c rest =>
      rw [hpn] at h2 h3
      have hnd : st.ruleCheckProgress ≠ .RULE_DONE := by rw [hp]; simp
      exact plain_candidate v image graph rule hv0 hrule0 hedges hdeg _ c rest st st hr hl hpn
        h3 (Or.inr ⟨hp, by simpa using h2⟩) rfl rfl rfl rfl hnd (by rw [hpend, hpn])
  | NO_EDGES_CHECKED => exact absurd hp hne

theorem pending_suffix (image : ProcessImage) (graph : Graph) (st : VisitState)
    (h : PlainShape image graph st) :
    pendingCandidates graph st <:+ graph.GetOutgoing st.memberIndex := by
  obtain ⟨_, _, _, _, hin, _⟩ := h
  unfold pendingCandidates
  cases hp : st.ruleCheckProgress with
  | NEW_RULE => exact List.suffix_refl _
  | IN_PROGRESS => exact (hin hp).2.2
  | RULE_DONE => exact List.nil_suffix
  | NO_EDGES_CHECKED => exact List.nil_suffix

theorem filter_sum_mono (f : Nat → Nat) (p q : Nat → Bool)
    (h : ∀ u, p u = true → q u = true) :
    ∀ l : List Nat, ((l.filter p).map f).sum ≤ ((l.filter q).map f).sum := by
  intro l
  induction l with
  | nil => simp
  | cons x l ih =>
    simp only [List.filter_cons]
    cases hp : p x with
    | false =>
      cases hq : q x with
      | false => simpa using ih
      | true =>
        simp only [Bool.false_eq_true, if_false, if_true, List.map_cons, List.sum_cons]
        omega
    | true =>
      rw [h x hp]
      simp only [if_true, List.map_cons, List.sum_cons]
      omega

theorem filter_sum_drop (f : Nat → Nat) (p q : Nat → Bool)
    (h : ∀ u, p u = true → q u = true) (c : Nat) (hp : p c = false) (hq : q c = true) :
    ∀ l : List Nat, c ∈ l →
      ((l.filter p).map f).sum + f c ≤ ((l.filter q).map f).sum := by
  intro l
  induction l with
  | nil => intro h; cases h
  | cons x l ih =>
    intro hmem
    simp only [List.filter_cons]
    by_cases hxc : x = c
    · subst hxc
      rw [hp, hq]
      simp only [Bool.false_eq_true, if_false, if_true, List.map_cons, List.sum_cons]
      have := filter_sum_mono f p q h l
      omega
    · have hin : c ∈ l := by
        rcases List.mem_cons.mp hmem with h1 | h1
        · exact absurd h1.symm hxc
        · exact h1
      have := ih hin
      cases hpx : p x with
      | false =>
        cases hqx : q x with
        | false => simpa using this
        | true =>
          simp only [Bool.false_eq_true, if_false, if_true, List.map_cons, List.sum_cons]
          omega
      | true =>
        rw [h x hpx]
        simp only [if_true, List.map_cons, List.sum_cons]
        omega

theorem unvisitedWeight_cons (graph : Graph) (N : Nat) (visited : List Nat) (c : Nat)
    (hc : c ∉ visited) (hN : c < N) :
    unvisitedWeight graph N (c :: visited) + ((graph.GetOutgoing c).length + 2)
      ≤ unvisitedWeight graph N visited := by
  refine filter_sum_drop (fun u => (graph.GetOutgoing u).length + 2) _ _ ?_ c ?_ ?_
    (List.range N) (List.mem_range.mpr hN)
  · intro u hu
    have h1 : u ∉ c :: visited := by simpa using hu
    have h2 : u ∉ visited := fun h => h1 (List.mem_cons_of_mem _ h)
    simpa using h2
  · simp
  · simpa using hc

theorem pending_new (graph : Graph) (st : VisitState)
    (h : st.ruleCheckProgress = .NEW_RULE) :
    pendingCandidates graph st = graph.GetOutgoing st.memberIndex := by
  unfold pendingCandidates
  rw [h]

theorem pending_in_progress (graph : Graph) (st : VisitState)
    (h : st.ruleCheckProgress = .IN_PROGRESS) :
    pendingCandidates graph st = st.pNextCandidate := by
  unfold pendingCandidates
  rw [h]

theorem pending_done (graph : Graph) (st : VisitState)
    (h : st.ruleCheckProgress = .RULE_DONE) : pendingCandidates graph st = [] := by
  unfold pendingCandidates
  rw [h]

theorem pending_after_candidate (graph : Graph) (st1 : VisitState) (rest : List Nat)
    (h1 : st1.pNextCandidate = rest)
    (h2 : st1.ruleCheckProgress = (if rest = [] then .RULE_DONE else .IN_PROGRESS)) :
    pendingCandidates graph st1 = rest
      ∧ st1.ruleCheckProgress ≠ .NEW_RULE ∧ st1.ruleCheckProgress ≠ .NO_EDGES_CHECKED
      ∧ (st1.ruleCheckProgress = .IN_PROGRESS → rest ≠ []) := by
  by_cases hr : rest = []
  · rw [if_pos hr] at h2
    refine ⟨by rw [pending_done graph st1 h2, hr], by rw [h2]; simp, by rw [h2]; simp, ?_⟩
    rw [h2]
    intro h
    cases h
  · rw [if_neg hr] at h2
    exact ⟨by rw [pending_in_progress graph st1 h2, h1], by rw [h2]; simp, by rw [h2]; simp,
      fun _ => hr⟩

/-- A pass of the loop that does not return keeps the invariant and lowers the measure. -/
theorem plainInv_next (image : ProcessImage) (graph : Graph) (seed : Nat)
    (hedges : ∀ i c, c ∈ graph.GetOutgoing i → c < image.NumAllocations)
    (st st1 : VisitState) (hinv : PlainInv image graph seed st)
    (hstep : PlainStep image graph st (.next st1)) :
    PlainInv image graph seed st1
      ∧ visitMeasure graph image.NumAllocations st1
          < visitMeasure graph image.NumAllocations st := by
  obtain ⟨hshape, hmem, hctxmem, hseed, hsound, hcomp⟩ := hinv
  have hsuf := pending_suffix image graph st hshape
  obtain ⟨hr, hl, hm, hne, hin, hctx⟩ := hshape
  rcases hstep with ⟨b, hb, _⟩ | ⟨s1, hs1, hr1, hl1, hcase⟩
  · cases hb
  · cases hs1
    rcases hcase with ⟨hp, ctx, rest, hc, e1, e2, e3, e4, e5, e6, e7⟩
      | ⟨hp, hpend, e1, e2, e3, e4, e5⟩ | ⟨hp, c, rest, hpend, hcand⟩
    · -- the context on top of the stack is resumed
      obtain ⟨c1, c2, c3, c4, c5, c6⟩ := hctx ctx (by rw [hc]; exact List.mem_cons_self _ _)
      have hp1 : st1.ruleCheckProgress = .IN_PROGRESS := e3.trans c2
      have hpend1 : pendingCandidates graph st1 = ctx._pNextCandidate := by
        rw [pending_in_progress graph st1 hp1, e4]
      have hpend0 := pending_done graph st hp
      refine ⟨⟨⟨hr1, hl1, by rw [e2]; exact c6, by rw [hp1]; simp, fun _ => ?_, ?_⟩, ?_, ?_, ?_,
        ?_, ?_⟩, ?_⟩
      · exact ⟨by rw [e4]; exact c3, by rw [e5, e4]; exact c4, by rw [e4, e2]; exact c5⟩
      · intro ctx1 h1
        exact hctx ctx1 (by rw [hc]; exact List.mem_cons_of_mem _ (by rw [← e1]; exact h1))
      · rw [e2, e6]
        exact hctxmem ctx (by rw [hc]; exact List.mem_cons_self _ _)
      · intro ctx1 h1
        rw [e6]
        exact hctxmem ctx1 (by rw [hc]; exact List.mem_cons_of_mem _ (by rw [← e1]; exact h1))
      · rw [e6]; exact hseed
      · rw [e6]; exact hsound
      · intro a ha b hb hu
        rw [e6] at ha ⊢
        rcases hcomp a ha b hb hu with h | ⟨_, h⟩ | ⟨ctx1, h1, h2, h3⟩
        · exact Or.inl h
        · rw [hpend0] at h
          cases h
        · rw [hc] at h1
          rcases List.mem_cons.mp h1 with h | h
          · subst h
            exact Or.inr (Or.inl ⟨by rw [e2, h2], by rw [hpend1]; exact h3⟩)
          · exact Or.inr (Or.inr ⟨ctx1, by rw [e1]; exact h, h2, h3⟩)
      · unfold visitMeasure
        rw [e6, hpend1, hpend0, hp, hp1, hc, e1]
        simp only [contextWeight, List.map_cons, List.sum_cons, List.length_nil, reduceCtorEq,
          if_false]
        omega
    · -- the member has no outgoing edge
      have hpend1 := pending_done graph st1 e1
      refine ⟨⟨⟨hr1, hl1, by rw [e2]; exact hm, by rw [e1]; simp, fun h => ?_, ?_⟩, ?_, ?_, ?_,
        ?_, ?_⟩, ?_⟩
      · rw [e1] at h
        cases h
      · rw [e3]; exact hctx
      · rw [e2, e4]; exact hmem
      · rw [e3, e4]; exact hctxmem
      · rw [e4]; exact hseed
      · rw [e4]; exact hsound
      · intro a ha b hb hu
        rw [e4] at ha ⊢
        rcases hcomp a ha b hb hu with h | ⟨_, h⟩ | ⟨ctx1, h1, h2, h3⟩
        · exact Or.inl h
        · rw [hpend] at h
          cases h
        · exact Or.inr (Or.inr ⟨ctx1, by rw [e3]; exact h1, h2, h3⟩)
      · unfold visitMeasure
        rw [e4, hpend1, hpend, hp, e1, e3]
        simp
    · rw [hpend] at hsuf
      have hcmem : c ∈ graph.GetOutgoing st.memberIndex :=
        hsuf.subset (List.mem_cons_self _ _)
      have hrest : rest <:+ graph.GetOutgoing st.memberIndex :=
        List.IsSuffix.trans (List.suffix_cons _ _) hsuf
      have htop : (if st.ruleCheckProgress = RuleCheckProgress.NEW_RULE then 2 else 1) ≥ 1 := by
        split <;> omega
      rcases hcand with ⟨hskip, e1, e2, e3, e4, e5, e6, e7⟩ | ⟨hnew, hused, e1, e2, e3, e4, e5⟩
      · -- the candidate is skipped
        obtain ⟨hpend1, hn1, hn2, hn3⟩ := pending_after_candidate graph st1 rest e5 e7
        refine ⟨⟨⟨hr1, hl1, by rw [e1]; exact hm, hn2, fun h => ?_, ?_⟩, ?_, ?_, ?_, ?_, ?_⟩, ?_⟩
        · exact ⟨by rw [e5]; exact hn3 h, by rw [e6, e5], by rw [e5, e1]; exact hrest⟩
        · rw [e2]; exact hctx
        · rw [e1, e3]; exact hmem
        · rw [e2, e3]; exact hctxmem
        · rw [e3]; exact hseed
        · rw [e3]; exact hsound
        · intro a ha b hb hu
          rw [e3] at ha ⊢
          rcases hcomp a ha b hb hu with h | ⟨h0, h⟩ | ⟨ctx1, h1, h2, h3⟩
          · exact Or.inl h
          · rw [hpend] at h
            rcases List.mem_cons.mp h with h | h
            · subst h
              rcases hskip with hv | hv
              · exact Or.inl hv
              · exact absurd hu hv
            · exact Or.inr (Or.inl ⟨by rw [e1]; exact h0, by rw [hpend1]; exact h⟩)
          · exact Or.inr (Or.inr ⟨ctx1, by rw [e2]; exact h1, h2, h3⟩)
        · unfold visitMeasure
          rw [e3, hpend1, hpend, e2, if_neg hn1]
          simp only [List.length_cons]
          omega
      · -- the candidate is visited
        have hcN : c < image.NumAllocations := hedges _ c hcmem
        have hpend1 := pending_new graph st1 e4
        have hreach : Reachable image graph seed c := by
          obtain ⟨ca, hca, hu⟩ := hused
          exact Reachable.edge st.memberIndex c ca (hsound _ hmem) hcmem hca hu
        refine ⟨⟨⟨hr1, hl1, by rw [e1]; exact hcN, by rw [e4]; simp, fun h => ?_, ?_⟩, ?_, ?_,
          ?_, ?_, ?_⟩, ?_⟩
        · rw [e4] at h
          cases h
        · intro ctx1 h1
          rw [e5] at h1
          by_cases hre : rest = []
          · rw [if_pos hre] at h1
            exact hctx ctx1 h1
          · rw [if_neg hre] at h1
            rcases List.mem_cons.mp h1 with h | h
            · subst h
              exact ⟨rfl, rfl, hre, rfl, hrest, hm⟩
            · exact hctx ctx1 h
        · rw [e1, e2]
          exact List.mem_cons_self _ _
        · intro ctx1 h1
          rw [e5] at h1
          rw [e2]
          by_cases hre : rest = []
          · rw [if_pos hre] at h1
            exact List.mem_cons_of_mem _ (hctxmem ctx1 h1)
          · rw [if_neg hre] at h1
            rcases List.mem_cons.mp h1 with h | h
            · subst h
              exact List.mem_cons_of_mem _ hmem
            · exact List.mem_cons_of_mem _ (hctxmem ctx1 h)
        · rw [e2]
          exact List.mem_cons_of_mem _ hseed
        · intro i hi
          rw [e2] at hi
          rcases List.mem_cons.mp hi with h | h
          · rw [h]; exact hreach
          · exact hsound i h
        · intro a ha b hb hu
          rw [e2] at ha ⊢
          by_cases hac : a = c
          · exact Or.inr (Or.inl ⟨by rw [e1]; exact hac, by rw [hpend1, e1, ← hac]; exact hb⟩)
          · have ha1 : a ∈ st.visited := by
              rcases List.mem_cons.mp ha with h | h
              · exact absurd h hac
              · exact h
            rcases hcomp a ha1 b hb hu with h | ⟨h0, h⟩ | ⟨ctx1, h1, h2, h3⟩
            · exact Or.inl (List.mem_cons_of_mem _ h)
            · rw [hpend] at h
              rcases List.mem_cons.mp h with h | h
              · exact Or.inl (by rw [h]; exact List.mem_cons_self _ _)
              · have hre : rest ≠ [] := by
                  intro hre
                  rw [hre] at h
                  cases h
                refine Or.inr (Or.inr ⟨⟨st.memberIndex, 0, rest.length, .IN_PROGRESS, rest⟩,
                  ?_, h0.symm, h⟩)
                rw [e5, if_neg hre]
                exact List.mem_cons_self _ _
            · refine Or.inr (Or.inr ⟨ctx1, ?_, h2, h3⟩)
              rw [e5]
              by_cases hre : rest = []
              · rw [if_pos hre]; exact h1
              · rw [if_neg hre]; exact List.mem_cons_of_mem _ h1
        · have hw := unvisitedWeight_cons graph image.NumAllocations st.visited c hnew hcN
          unfold visitMeasure
          rw [e2, hpend1, hpend, e1, e4, e5, if_pos rfl]
          simp only [List.length_cons]
          by_cases hre : rest = []
          · rw [if_pos hre]
            omega
          · rw [if_neg hre]
            simp only [contextWeight, List.map_cons, List.sum_cons]
            simp only [contextWeight] at *
            omega

/-- When the loop returns, the visited set holds exactly the reachable allocations. -/
theorem plainInv_done (image : ProcessImage) (graph : Graph) (seed : Nat) (st : VisitState)
    (hinv : PlainInv image graph seed st) (hp : st.ruleCheckProgress = .RULE_DONE)
    (hc : st.extensionContexts = []) :
    ∀ i, i ∈ st.visited ↔ Reachable image graph seed i := by
  obtain ⟨_, _, _, hseed, hsound, hcomp⟩ := hinv
  intro i
  refine ⟨hsound i, fun h => ?_⟩
  induction h with
  | start => exact hseed
  | edge a b ca _ hb hca hu ih =>
    rcases hcomp a ih b hb ⟨ca, hca, hu⟩ with h | ⟨_, h⟩ | ⟨ctx, h, _⟩
    · exact h
    · rw [pending_done graph st hp] at h
      cases h
    · rw [hc] at h
      cases h

/-- With fuel above the measure, the loop of Visit returns, and the visited set then
holds exactly the reachable allocations. -/
theorem plain_loop (v : ExtendedVisitor) (image : ProcessImage) (graph : Graph) (seed : Nat)
    (hv : SingleOutgoingRule v graph)
    (hedges : ∀ i c, c ∈ graph.GetOutgoing i → c < image.NumAllocations)
    (hdeg : ∀ i, (graph.GetOutgoing i).length < SIZE_LIMIT) :
    ∀ (n : Nat) (st : VisitState), PlainInv image graph seed st →
      visitMeasure graph image.NumAllocations st < n →
      ∃ b, visitLoop v image n st = .done b
        ∧ ∀ i, i ∈ b.visited ↔ Reachable image graph seed i := by
  intro n
  induction n with
  | zero => intro st _ h; omega
  | succ n ih =>
    intro st hinv hlt
    have hs := plain_step v image graph hv hedges hdeg st hinv.1
    rw [visitLoop]
    cases hres : visitStep v image st with
    | next st1 =>
      rw [hres] at hs
      obtain ⟨hinv1, hlt1⟩ := plainInv_next image graph seed hedges st st1 hinv hs
      exact ih st1 hinv1 (by omega)
    | done b =>
      rw [hres] at hs
      rcases hs with ⟨b1, hb, hp, hc, e1, _⟩ | ⟨s1, hs1, _⟩
      · cases hb
        refine ⟨b, rfl, fun i => ?_⟩
        rw [e1]
        exact plainInv_done image graph seed st hinv hp hc i
      · cases hs1
    | fault b =>
      rw [hres] at hs
      rcases hs with ⟨b1, hb, _⟩ | ⟨s1, hs1, _⟩
      · cases hb
      · cases hs1

theorem unvisitedWeight_nil (graph : Graph) (N : Nat) :
    unvisitedWeight graph N [] = traversalBound graph N := by
  unfold unvisitedWeight traversalBound
  simp

/-- C30: with the single rule "->" (both checkers accept every allocation), the options
for comments and for skipping references off and an empty visited set at the start,
Visit(seed) returns when it may make more passes than the graph has outgoing edges plus
twice the number of allocations, and the calls of visitor.Visit that it has made are the
call for the seed followed by calls for distinct allocations, which together with the
seed are exactly the allocations reachable from the seed by a path of outgoing edges
whose nodes after the seed are all used allocations.  The seed and the targets of the
edges are indices of allocations of the directory, and an edge list is shorter than
2^64. -/
theorem outgoing_rule_visits_reachable (v : ExtendedVisitor) (image : ProcessImage)
    (graph : Graph) (seed fuel : Nat) (log : VisitLog) (hv : SingleOutgoingRule v graph)
    (hseed : seed < image.NumAllocations)
    (hedges : ∀ i c, c ∈ graph.GetOutgoing i → c < image.NumAllocations)
    (hdeg : ∀ i, (graph.GetOutgoing i).length < SIZE_LIMIT)
    (hempty : log.visited = [])
    (hfuel : traversalBound graph image.NumAllocations < fuel) :
    ∃ st rest, v.Visit image fuel seed log = .done st
      ∧ st.visits = log.visits ++ seed :: rest ∧ (seed :: rest).Nodup
      ∧ ∀ i, i ∈ seed :: rest ↔ Reachable image graph seed i := by
  have hen := hv.1
  have hbase := hv.2.2.1
  have hnew : log.visited.contains seed = false := by rw [hempty]; rfl
  have hloop := Visit_eq_loop v image fuel seed log 0 1 hen hnew (by rw [hbase]; rfl)
    (by rw [hbase]; rfl)
  have hinv : PlainInv image graph seed (visitStart seed 0 1 log) := by
    refine ⟨⟨rfl, rfl, hseed, by simp [visitStart], fun h => ?_, fun ctx h => ?_⟩, ?_, ?_, ?_, ?_,
      ?_⟩
    · simp [visitStart] at h
    · simp [visitStart] at h
    · simp [visitStart]
    · intro ctx h
      simp [visitStart] at h
    · simp [visitStart]
    · intro i hi
      simp only [visitStart, hempty, List.mem_singleton] at hi
      rw [hi]
      exact Reachable.start
    · intro a ha b hb _
      simp only [visitStart, hempty, List.mem_singleton] at ha
      refine Or.inr (Or.inl ⟨by rw [ha]; rfl, ?_⟩)
      rw [pending_new graph _ rfl, ← ha]
      exact hb
  have hmeasure : visitMeasure graph image.NumAllocations (visitStart seed 0 1 log) < fuel := by
    have hw := unvisitedWeight_cons graph image.NumAllocations [] seed (by simp) hseed
    rw [unvisitedWeight_nil] at hw
    have hp := pending_new graph (visitStart seed 0 1 log) rfl
    unfold visitMeasure
    rw [hp]
    simp only [visitStart, hempty, contextWeight, List.map_nil, List.sum_nil, if_true]
    omega
  obtain ⟨b, hb, hvis⟩ := plain_loop v image graph seed hv hedges hdeg fuel _ hinv hmeasure
  have hvo := visitLoop_visitedOnce v image fuel (visitStart seed 0 1 log)
  rw [hb] at hvo
  obtain ⟨added, h1, h2, h3, h4⟩ := hvo
  refine ⟨b, added, by rw [hloop, hb], ?_, ?_, ?_⟩
  · simpa [StepResult.state, StepResult.log, VisitState.log, visitStart] using h1
  · refine List.nodup_cons.mpr ⟨fun h => ?_, h2⟩
    exact h3 seed h (by simp [VisitState.log, visitStart])
  · intro i
    rw [← hvis i]
    have := h4 i
    simp only [StepResult.state, StepResult.log, VisitState.log, visitStart, hempty,
      List.mem_singleton] at this
    rw [this, List.mem_cons]

set_option maxRecDepth 100000 in
theorem plain_parseArguments (image : ProcessImage) :
    ExtendedVisitor.parseArguments plainContext image
      = (parseRule (ParseState.initial plainContext._error false) (bytesOf "->"),
          false, false, false) := by
  unfold ExtendedVisitor.parseArguments
  cases image.GetEdgeIsTainted.isSome <;> cases image.GetEdgeIsFavored.isSome <;> rfl

set_option maxRecDepth 100000 in
theorem plain_orderRules :
    orderRules (parseRule (ParseState.initial plainContext._error false) (bytesOf "->"))
      = ([Specification.initial], [0, 1], [0]) := by
  decide

set_option maxRecDepth 100000 in
theorem plain_parsed :
    (parseRule (ParseState.initial plainContext._error false) (bytesOf "->"))._hasErrors
      = false := by
  decide

theorem plain_compile (image : ProcessImage) (allow : Bool)
    (hsig : (image.makeSignatureChecker []).UnrecognizedSignature = false)
    (hpat : (image.makeSignatureChecker []).UnrecognizedPattern = false) :
    (ExtendedVisitor.compile plainContext image allow)._hasErrors = false
      ∧ (ExtendedVisitor.compile plainContext image allow)._rules
          = [Rule.ofSpecification image Specification.initial]
      ∧ (ExtendedVisitor.compile plainContext image allow)._stateToBase = [0, 1]
      ∧ (ExtendedVisitor.compile plainContext image allow)._commentExtensions = false
      ∧ (ExtendedVisitor.compile plainContext image allow)._skipTaintedReferences = false
      ∧ (ExtendedVisitor.compile plainContext image allow)._skipUnfavoredReferences = false := by
  have hrules : (List.range [Specification.initial].length).map (fun i =>
      Rule.ofSpecification image
        (([Specification.initial] : List Specification).getD (([0] : List Nat).getD i 0)
          Specification.initial))
      = [Rule.ofSpecification image Specification.initial] := rfl
  have hchecked : ∀ e : Error,
      checkRule allow (Rule.ofSpecification image Specification.initial) (e, false)
        = (e, false) := by
    intro e
    unfold checkRule
    simp [Rule.ofSpecification, Specification.initial, hsig, hpat]
  unfold ExtendedVisitor.compile
  simp only [plain_parseArguments, plain_orderRules, hrules, plain_parsed, List.foldl_cons,
    List.foldl_nil, hchecked]
  exact ⟨trivial, trivial, trivial, trivial, trivial, trivial⟩

/-- The constructor makes of the command line list used /extend -> an enabled visitor
with the single plain outgoing rule, when the graph exists and the checker of the empty
signature has no unrecognized name and accepts every allocation. -/
theorem single_rule_visitor (image : ProcessImage) (graph : Graph) (allow : Bool)
    (hg : image.GetAllocationGraph = some graph)
    (hsig : (image.makeSignatureChecker []).UnrecognizedSignature = false)
    (hpat : (image.makeSignatureChecker []).UnrecognizedPattern = false)
    (hcheck : ∀ i, (image.makeSignatureChecker []).Check i = true) :
    ∃ v, ExtendedVisitor.new plainContext image allow = some v
      ∧ SingleOutgoingRule v graph := by
  obtain ⟨h1, h2, h3, h4, h5, h6⟩ := plain_compile image allow hsig hpat
  have hnum : plainContext.GetNumArguments (bytesOf "extend") ≠ 0 := by decide
  unfold ExtendedVisitor.new
  rw [if_neg hnum]
  generalize ExtendedVisitor.compile plainContext image allow = v1 at h1 h2 h3 h4 h5 h6
  simp only [h1, h2, Bool.not_false, if_true, List.getElem?_cons_zero]
  have hb : (Rule.ofSpecification image Specification.initial)._baseState = 0 := rfl
  simp only [hb, ne_eq, not_true_eq_false, if_false]
  exact ⟨_, rfl, rfl, hg, h3, h4, h5, h6, Rule.ofSpecification image Specification.initial,
    rfl, rfl, rfl, rfl, rfl, rfl, rfl, hcheck, hcheck⟩

theorem plainVisitor_single : SingleOutgoingRule plainVisitor cycleGraph := by
  obtain ⟨v, hnew, hv⟩ := single_rule_visitor cycleImage cycleGraph false rfl rfl rfl
    (fun _ => rfl)
  have h : some plainVisitor = some v := by
    rw [← hnew]
    exact Option.some_get _
  rw [Option.some.inj h]
  exact hv

theorem cycle_edges : ∀ i c, c ∈ cycleGraph.GetOutgoing i → c < cycleImage.NumAllocations := by
  intro i c h
  have hN : cycleImage.NumAllocations = 4 := rfl
  rw [hN]
  unfold cycleGraph at h
  simp only at h
  split at h
  · simp at h
    omega
  · split at h
    · simp at h
      omega
    · split at h
      · simp at h
        omega
      · cases h

theorem cycle_degrees : ∀ i, (cycleGraph.GetOutgoing i).length < SIZE_LIMIT := by
  intro i
  have hS : SIZE_LIMIT = 18446744073709551616 := by decide
  rw [hS]
  unfold cycleGraph
  simp only
  split
  · simp
  · split
    · simp
    · split <;> simp

set_option maxRecDepth 100000 in
theorem outgoing_rule_visits_reachable_witness :
    (plainVisitor.Visit cycleImage 13 0 ⟨[], [], []⟩).state.visits = [0, 1, 2]
      ∧ ∃ st rest, plainVisitor.Visit cycleImage 13 0 ⟨[], [], []⟩ = .done st
          ∧ st.visits = [] ++ 0 :: rest ∧ (0 :: rest).Nodup
          ∧ ∀ i, i ∈ 0 :: rest ↔ Reachable cycleImage cycleGraph 0 i :=
  ⟨by decide,
    outgoing_rule_visits_reachable plainVisitor cycleImage cycleGraph 0 13 ⟨[], [], []⟩
      plainVisitor_single (by decide) cycle_edges cycle_degrees rfl (by decide)⟩

end Allocations

namespace Commands

set_option maxRecDepth 100000 in
theorem escapedChar_spec : ∀ b, b < 256 →
    escapedChar b
      = (if isPlainByte b then [b]
         else [BACKSLASH, 0x78, hexDigit (b / 16), hexDigit (b % 16)]) := by
  decide

set_option maxRecDepth 100000 in
theorem escapedChar_plain : ∀ b, b < 256 → ∀ x ∈ escapedChar b, isPlainByte x = true := by
  decide

/-- C34: for every sequence of bytes given to ShowEscapedAscii, the text written is the
concatenation, in order, of what is written for each byte: the byte itself when it is in
' ' .. '~' or is a tab, a carriage return or a newline, and else the four characters
backslash, x and the hexadecimal digits of the high and of the low four bits of the byte;
every byte written is in ' ' .. '~' or is a tab, a carriage return or a newline, and the
text goes to the stream on top of the stack. -/
theorem ShowEscapedAscii_writes_plain_bytes (out : Output) (chars : Line)
    (hbytes : ∀ b ∈ chars, b < 256) :
    out.ShowEscapedAscii chars
        = out.write ((chars.map (fun b =>
            if isPlainByte b then [b]
            else [BACKSLASH, 0x78, hexDigit (b / 16), hexDigit (b % 16)])).flatten)
      ∧ (∀ x ∈ escapedAscii chars, isPlainByte x = true)
      ∧ (out.ShowEscapedAscii chars).written
          = out.written ++ [(out._outputStack.head?, escapedAscii chars)] := by
  have hmap : chars.map escapedChar = chars.map (fun b =>
      if isPlainByte b then [b]
      else [BACKSLASH, 0x78, hexDigit (b / 16), hexDigit (b % 16)]) :=
    List.map_congr_left (fun b hb => escapedChar_spec b (hbytes b hb))
  refine ⟨?_, ?_, rfl⟩
  · unfold Output.ShowEscapedAscii escapedAscii
    rw [hmap]
  · intro x hx
    unfold escapedAscii at hx
    obtain ⟨l, hl, hxl⟩ := List.mem_flatten.mp hx
    obtain ⟨b, hb, rfl⟩ := List.mem_map.mp hl
    exact escapedChar_plain b (hbytes b hb) x hxl

set_option maxRecDepth 100000 in
theorem ShowEscapedAscii_writes_plain_bytes_witness :
    (∀ x ∈ escapedAscii [0x41, 0x09, 0x00, 0x7f, 0xc2, 0xa0, 0x7e, 0x0a],
        isPlainByte x = true)
      ∧ escapedAscii [0x41, 0x09, 0x00, 0x7f, 0xc2, 0xa0, 0x7e, 0x0a]
        = bytesOf "A" ++ [0x09] ++ [BACKSLASH] ++ bytesOf "x00" ++ [BACKSLASH] ++ bytesOf "x7f"
            ++ [BACKSLASH] ++ bytesOf "xc2" ++ [BACKSLASH] ++ bytesOf "xa0~" ++ [0x0a] :=
  ⟨(ShowEscapedAscii_writes_plain_bytes ⟨[], []⟩
      [0x41, 0x09, 0x00, 0x7f, 0xc2, 0xa0, 0x7e, 0x0a] (by decide)).2.1, by decide⟩

end Commands

namespace Commands

/-- On the line trailingC2Line, a pass of the loop of lines 119-139 that starts a token at
the position of the byte 0xc2 adds an empty token and leaves the position where it is. -/
theorem tokenLoop_trailing_c2_step (fuel n : Nat) (tokens : Tokens) :
    tokenLoop trailingC2Line fuel (n + 1) 1 tokens
      = tokenLoop trailingC2Line fuel n 1 (tokens ++ [[]]) := by
  cases fuel <;> rfl

theorem tokenLoop_trailing_c2_none (fuel : Nat) :
    ∀ (n : Nat) (tokens : Tokens), tokenLoop trailingC2Line fuel n 1 tokens = none := by
  intro n
  induction n with
  | zero => intro tokens; rfl
  | succ n ih =>
    intro tokens
    rw [tokenLoop_trailing_c2_step]
    exact ih _

theorem tokenLoop_trailing_c2_first (fuel n : Nat) :
    tokenLoop trailingC2Line fuel (n + 1) 0 []
      = tokenLoop trailingC2Line fuel n 1 [[0x61]] := by
  cases fuel <;> rfl

/-- C36 fails on the code: for the line that consists of the letter a and the byte 0xc2,
the loop of lines 119-139 of GetTokens does not finish, whatever the number of passes
allowed: after the token a, every pass starts at the byte 0xc2, adds an empty token and
stays there, so that GetTokens gives no result for any bound. -/
theorem GetTokens_loops_on_trailing_c2 :
    (∀ fuel, Input.GetTokens fuel ⟨[], [[trailingC2Line]]⟩ = none)
      ∧ (∀ fuel n, tokenLoop trailingC2Line fuel (n + 1) 0 []
          = tokenLoop trailingC2Line fuel n 1 [[0x61]])
      ∧ ∀ fuel n tokens, tokenLoop trailingC2Line fuel (n + 1) 1 tokens
          = tokenLoop trailingC2Line fuel n 1 (tokens ++ [[]]) := by
  refine ⟨?_, tokenLoop_trailing_c2_first, tokenLoop_trailing_c2_step⟩
  intro fuel
  have h : processLine fuel [] trailingC2Line = none := by
    have e : processLine fuel [] trailingC2Line
        = match tokenLoop trailingC2Line fuel fuel 0 [] with
          | none => none
          | some tokens1 => some (true, tokens1) := by
      cases fuel <;> rfl
    rw [e]
    cases fuel with
    | zero => rfl
    | succ k => rw [tokenLoop_trailing_c2_first, tokenLoop_trailing_c2_none]
  simp only [Input.GetTokens, readLoop, h]

end Commands

namespace Python

open Commands Allocations

theorem new_first_pool (env : FinderEnv) (fuel index arena : Nat)
    (hindex : env._activeIndices[0]? = some index)
    (harena : env.memory.ReadOffset
      (env.add env._arenaStructArray (env.mul env._arenaStructSize index)) = .ok arena) :
    BlockAllocationFinder.new env fuel
      = AdvanceToFirstAllocationForPool env fuel
          { _itActiveIndices := 0,
            _blockUsedInPool :=
              List.replicate ((env.sub env._poolSize 0x30) / env.sizeofOffset) true,
            _arena := arena,
            _firstPool := env.alignDown (env.add arena (env.sub env._poolSize 1)) env._poolSize,
            _poolsLimit := env.alignDown (env.add arena env._arenaSize) env._poolSize,
            _pool := env.alignDown (env.add arena (env.sub env._poolSize 1)) env._poolSize,
            _blockSize := 0, _block := 0, _blockIndex := 0, _blocksLimit := 0,
            _allocationAddress := 0, _allocationSize := 0, _allocationIsUsed := false,
            cerr := [] } := by
  unfold BlockAllocationFinder.new
  simp only [hindex, harena]
  rfl

/-- When the count of a pool is not 0 and the block size computed from the field at
offset 0x2c is 0, AdvanceToFirstBlockOfPool divides by 0 at line 173. -/
theorem firstBlock_divides_by_zero (env : FinderEnv) (fuel : Nat) (f : BlockAllocationFinder)
    (hcount : env.memory.ReadU32 f._pool 0 ≠ 0)
    (hzero : env.sub env._poolSize (env.memory.ReadU32 (env.add f._pool 0x2c) 0 % env.limit)
      = 0)
    (hpool : env._poolSize ≠ 0) :
    AdvanceToFirstBlockOfPool env fuel f = .error .divisionByZero := by
  unfold AdvanceToFirstBlockOfPool
  rw [if_neg hcount]
  simp only [hzero]
  rw [if_neg (fun h => hpool h.symm)]
  simp

/-- When the walk of the free list of a pool does not end, AdvanceToFirstBlockOfPool
does not end. -/
theorem firstBlock_walk_error (env : FinderEnv) (fuel : Nat) (f : BlockAllocationFinder)
    (bs : Nat) (e : Fault) (v1 v2 : List Bool)
    (hcount : env.memory.ReadU32 f._pool 0 ≠ 0)
    (hbs : env.sub env._poolSize (env.memory.ReadU32 (env.add f._pool 0x2c) 0 % env.limit)
      = bs)
    (hne : bs ≠ env._poolSize) (hne0 : bs ≠ 0)
    (hcorrupt :
      (decide (env.memory.ReadU32 (env.add f._pool (4 * env.sizeofOffset + 2 * 4)) 0
            % env.limit < 0x30)
        || decide ((env.sub (env.memory.ReadU32
              (env.add f._pool (4 * env.sizeofOffset + 2 * 4)) 0 % env.limit) 0x30) / bs
            > (env.sub env._poolSize 0x30) / bs)
        || decide (env.memory.ReadU32 (env.add f._pool (4 * env.sizeofOffset + 2 * 4)) 0
              % env.limit
            ≠ env.add 0x30 (env.mul ((env.sub (env.memory.ReadU32
                (env.add f._pool (4 * env.sizeofOffset + 2 * 4)) 0 % env.limit) 0x30) / bs)
                bs))) = false)
    (hs1 : setUsedRange true ((env.sub (env.memory.ReadU32
          (env.add f._pool (4 * env.sizeofOffset + 2 * 4)) 0 % env.limit) 0x30) / bs) 0
        f._blockUsedInPool = .ok v1)
    (hs2 : setUsedRange false ((env.sub env._poolSize 0x30) / bs
          - (env.sub (env.memory.ReadU32
              (env.add f._pool (4 * env.sizeofOffset + 2 * 4)) 0 % env.limit) 0x30) / bs)
        ((env.sub (env.memory.ReadU32
          (env.add f._pool (4 * env.sizeofOffset + 2 * 4)) 0 % env.limit) 0x30) / bs) v1
        = .ok v2)
    (hwalk : walkFreeList env f._pool (env.add f._pool 0x30) bs
        (env.add (env.add f._pool 0x30) (env.mul bs ((env.sub env._poolSize 0x30) / bs))) fuel
        (env.memory.ReadOffsetOr (env.add f._pool 8) 0) v2 f.cerr = .error e) :
    AdvanceToFirstBlockOfPool env fuel f = .error e := by
  unfold AdvanceToFirstBlockOfPool
  rw [if_neg hcount]
  simp only [hbs]
  rw [if_neg hne, if_neg hne0]
  simp only [hcorrupt, Bool.false_eq_true, if_false, hs1, hs2, hwalk]

theorem setUsedRange_overrun (b : Bool) :
    ∀ (count i : Nat) (v : List Bool), 0 < count → v.length < i + count →
      setUsedRange b count i v = .error .vectorIndexOutOfRange := by
  intro count
  induction count with
  | zero => intro i v h; omega
  | succ n ih =>
    intro i v _ hlen
    unfold setUsedRange
    by_cases hi : i < v.length
    · rw [setUsed_ok v i b hi]
      simp only
      exact ih (i + 1) (v.set i b) (by omega) (by rw [List.length_set]; omega)
    · simp [setUsed, hi]

/-- When the loops of lines 192-197 leave the vector of flags, AdvanceToFirstBlockOfPool
has undefined behaviour. -/
theorem firstBlock_flags_error (env : FinderEnv) (fuel : Nat) (f : BlockAllocationFinder)
    (bs : Nat) (e : Fault) (v1 : List Bool)
    (hcount : env.memory.ReadU32 f._pool 0 ≠ 0)
    (hbs : env.sub env._poolSize (env.memory.ReadU32 (env.add f._pool 0x2c) 0 % env.limit)
      = bs)
    (hne : bs ≠ env._poolSize) (hne0 : bs ≠ 0)
    (hcorrupt :
      (decide (env.memory.ReadU32 (env.add f._pool (4 * env.sizeofOffset + 2 * 4)) 0
            % env.limit < 0x30)
        || decide ((env.sub (env.memory.ReadU32
              (env.add f._pool (4 * env.sizeofOffset + 2 * 4)) 0 % env.limit) 0x30) / bs
            > (env.sub env._poolSize 0x30) / bs)
        || decide (env.memory.ReadU32 (env.add f._pool (4 * env.sizeofOffset + 2 * 4)) 0
              % env.limit
            ≠ env.add 0x30 (env.mul ((env.sub (env.memory.ReadU32
                (env.add f._pool (4 * env.sizeofOffset + 2 * 4)) 0 % env.limit) 0x30) / bs)
                bs))) = false)
    (hs1 : setUsedRange true ((env.sub (env.memory.ReadU32
          (env.add f._pool (4 * env.sizeofOffset + 2 * 4)) 0 % env.limit) 0x30) / bs) 0
        f._blockUsedInPool = .ok v1)
    (hs2 : setUsedRange false ((env.sub env._poolSize 0x30) / bs
          - (env.sub (env.memory.ReadU32
              (env.add f._pool (4 * env.sizeofOffset + 2 * 4)) 0 % env.limit) 0x30) / bs)
        ((env.sub (env.memory.ReadU32
          (env.add f._pool (4 * env.sizeofOffset + 2 * 4)) 0 % env.limit) 0x30) / bs) v1
        = .error e) :
    AdvanceToFirstBlockOfPool env fuel f = .error e := by
  unfold AdvanceToFirstBlockOfPool
  rw [if_neg hcount]
  simp only [hbs]
  rw [if_neg hne, if_neg hne0]
  simp only [hcorrupt, Bool.false_eq_true, if_false, hs1, hs2]

theorem firstAllocation_error (env : FinderEnv) (fuel : Nat) (f : BlockAllocationFinder)
    (e : Fault) (h : AdvanceToFirstBlockOfPool env fuel f = .error e) :
    AdvanceToFirstAllocationForPool env fuel f = .error e := by
  unfold AdvanceToFirstAllocationForPool
  rw [h]

set_option maxRecDepth 100000 in
/-- C39 fails on the code: with the value of the pool size at offset 0x2c of the header
of a pool in use, the block size is 0 and AdvanceToFirstBlockOfPool divides by it (line
173), for every bound on the walk of the free list; with the value 0xffc there the block
size is 4, the pool has room for 1012 blocks and the loop of line 195 writes past the 506
flags of the vector. -/
theorem block_size_field_unchecked :
    (∀ fuel, BlockAllocationFinder.new zeroBlockEnv fuel = .error .divisionByZero)
      ∧ zeroBlockEnv.sub zeroBlockEnv._poolSize
          (zeroBlockEnv.memory.ReadU32 (zeroBlockEnv.add 0x200000 0x2c) 0 % zeroBlockEnv.limit)
          = 0
      ∧ (∀ fuel, BlockAllocationFinder.new tinyBlockEnv fuel = .error .vectorIndexOutOfRange)
      ∧ (tinyBlockEnv.sub tinyBlockEnv._poolSize 0x30) / tinyBlockEnv.sizeofOffset = 506
      ∧ (tinyBlockEnv.sub tinyBlockEnv._poolSize 0x30)
          / (tinyBlockEnv.sub tinyBlockEnv._poolSize
              (tinyBlockEnv.memory.ReadU32 (tinyBlockEnv.add 0x200000 0x2c) 0
                % tinyBlockEnv.limit)) = 1012 := by
  refine ⟨fun fuel => ?_, by decide, fun fuel => ?_, by rfl, by rfl⟩
  · rw [new_first_pool zeroBlockEnv fuel 0 0x200000 (by decide) rfl]
    exact firstAllocation_error zeroBlockEnv fuel _ _
      (firstBlock_divides_by_zero zeroBlockEnv fuel _ (by decide) (by decide) (by decide))
  · rw [new_first_pool tinyBlockEnv fuel 0 0x200000 (by decide) rfl]
    exact firstAllocation_error tinyBlockEnv fuel _ _
      (firstBlock_flags_error tinyBlockEnv fuel
        { _itActiveIndices := 0, _blockUsedInPool := List.replicate 506 true,
          _arena := 0x200000, _firstPool := 0x200000, _poolsLimit := 0x240000,
          _pool := 0x200000, _blockSize := 0, _block := 0, _blockIndex := 0,
          _blocksLimit := 0, _allocationAddress := 0, _allocationSize := 0,
          _allocationIsUsed := false, cerr := [] }
        4 .vectorIndexOutOfRange (List.replicate 506 true) (by decide) (by rfl) (by decide)
        (by decide) (by rfl) (by rfl)
        (setUsedRange_overrun false 1012 0 (List.replicate 506 true) (by decide)
          (by simp)))

theorem cyclic_walk (pool : Nat) (cerr : List OutputItem) :
    ∀ (fuel : Nat) (v : List Bool), 2 ≤ v.length →
      walkFreeList cyclicFreeListEnv pool 0x200030 0x100 0x200f30 fuel 0x200030 v cerr
          = .error .outOfFuel
        ∧ walkFreeList cyclicFreeListEnv pool 0x200030 0x100 0x200f30 fuel 0x200130 v cerr
          = .error .outOfFuel := by
  intro fuel
  induction fuel with
  | zero =>
    intro v _
    constructor <;> (unfold walkFreeList; simp)
  | succ n ih =>
    intro v hv
    have h0 : cyclicFreeListEnv.sub 0x200030 0x200030 / 0x100 = 0 := by decide
    have h1 : cyclicFreeListEnv.sub 0x200130 0x200030 / 0x100 = 1 := by decide
    have r0 : cyclicFreeListEnv.memory.ReadOffsetOr 0x200030 0 = 0x200130 := by decide
    have r1 : cyclicFreeListEnv.memory.ReadOffsetOr 0x200130 0 = 0x200030 := by decide
    constructor
    · unfold walkFreeList
      simp only [h0, r0, setUsed_ok v 0 false (by omega)]
      simpa using (ih (v.set 0 false) (by simpa using hv)).2
    · unfold walkFreeList
      simp only [h1, r1, setUsed_ok v 1 false (by omega)]
      simpa using (ih (v.set 1 false) (by simpa using hv)).1

set_option maxRecDepth 100000 in
/-- C40 fails on the code: in an image whose free list goes from the first block of a
pool to the second and back to the first, the walk of lines 198-207 does not end,
whatever the number of entries it may visit, and so the constructor of the finder does
not return. -/
theorem free_list_cycle_never_ends :
    (∀ fuel, BlockAllocationFinder.new cyclicFreeListEnv fuel = .error .outOfFuel)
      ∧ (∀ (fuel : Nat) (v : List Bool) (cerr : List OutputItem), 2 ≤ v.length →
          walkFreeList cyclicFreeListEnv 0x200000 0x200030 0x100 0x200f30 fuel 0x200030 v cerr
            = .error .outOfFuel)
      ∧ cyclicFreeListEnv.memory.ReadOffsetOr 0x200008 0 = 0x200030
      ∧ cyclicFreeListEnv.memory.ReadOffsetOr 0x200030 0 = 0x200130
      ∧ cyclicFreeListEnv.memory.ReadOffsetOr 0x200130 0 = 0x200030 := by
  refine ⟨fun fuel => ?_, fun fuel v cerr hv => (cyclic_walk 0x200000 cerr fuel v hv).1,
    by decide, by decide, by decide⟩
  rw [new_first_pool cyclicFreeListEnv fuel 0 0x200000 (by decide) rfl]
  obtain ⟨v1, s1, l1, _⟩ := setUsedRange_ok true 2 0 (List.replicate 506 true) (by decide)
  obtain ⟨v2, s2, l2, _⟩ := setUsedRange_ok false 13 2 v1 (by rw [l1]; decide)
  have hlen : 2 ≤ v2.length := by rw [l2, l1]; decide
  exact firstAllocation_error cyclicFreeListEnv fuel _ _
    (firstBlock_walk_error cyclicFreeListEnv fuel
      { _itActiveIndices := 0, _blockUsedInPool := List.replicate 506 true,
        _arena := 0x200000, _firstPool := 0x200000, _poolsLimit := 0x240000,
        _pool := 0x200000, _blockSize := 0, _block := 0, _blockIndex := 0, _blocksLimit := 0,
        _allocationAddress := 0, _allocationSize := 0, _allocationIsUsed := false, cerr := [] }
      0x100 .outOfFuel v1 v2 (by decide) (by decide) (by decide) (by decide) (by decide) s1 s2
      (cyclic_walk 0x200000 [] fuel v2 hlen).1)

end Python

namespace Allocations

open Commands

theorem parseRule_states (st : ParseState) (r : Line)
    (h1 : ∀ e ∈ st.labelToStateNumber, e.2 < st.labelToStateNumber.length)
    (h6 : st._stateLabels.length = st.labelToStateNumber.length)
    (h7 : ∀ spec ∈ st.specifications, spec._newState < st.labelToStateNumber.length) :
    (parseRule st r)._stateLabels.length = (parseRule st r).labelToStateNumber.length
    ∧ ∀ spec ∈ (parseRule st r).specifications,
        spec._newState < (parseRule st r).labelToStateNumber.length := by
  unfold parseRule
  split
  · exact ⟨h6, h7⟩
  · rename_i m hm
    simp only []
    generalize hst1 : (if (decide ((m 3).length > 0) && (parseHexSizeT (m 3)).isNone) = true then
        ({ st with
          error := st.error.write (bytesOf "Offset in member " ++ [QUOTE] ++ m 3
            ++ bytesOf " is not well formed as hexadecimal." ++ [NEWLINE]),
          _hasErrors := true } : ParseState)
      else st) = st1
    have hs1 : st1.specifications = st.specifications
        ∧ st1.labelToStateNumber = st.labelToStateNumber
        ∧ st1._stateLabels = st._stateLabels := by
      rw [← hst1]; split <;> exact ⟨rfl, rfl, rfl⟩
    generalize hst2 : (if (decide ((m 10).length > 0) && (parseHexSizeT (m 10)).isNone) = true then
        ({ st1 with
          error := st1.error.write (bytesOf "Offset in extension " ++ [QUOTE]
            ++ m 10 ++ bytesOf " is not well formed as hexadecimal."
            ++ [NEWLINE]),
          _hasErrors := true } : ParseState)
      else st1) = st2
    have hs2 : st2.specifications = st.specifications
        ∧ st2.labelToStateNumber = st.labelToStateNumber
        ∧ st2._stateLabels = st._stateLabels := by
      rw [← hst2]
      split
      · exact ⟨hs1.1, hs1.2.1, hs1.2.2⟩
      · exact hs1
    rw [hs2.1, hs2.2.1, hs2.2.2]
    cases hf : (st.labelToStateNumber.lookup (m 12)) with
    | some x =>
      simp only [hf, Option.isSome_some, if_true, Option.getD_some]
      refine ⟨h6, ?_⟩
      intro spec hspec
      rcases List.mem_append.mp hspec with h | h
      · exact h7 spec h
      · simp only [List.mem_singleton] at h
        rw [h]
        exact h1 _ (lookup_mem _ _ _ hf)
    | none =>
      simp only [hf, Option.isSome_none, Bool.false_eq_true, if_false, List.length_append,
        List.length_singleton, Option.getD_none]
      refine ⟨by omega, ?_⟩
      intro spec hspec
      rcases List.mem_append.mp hspec with h | h
      · have := h7 spec h; omega
      · simp only [List.mem_singleton] at h
        rw [h]
        simp

theorem parseLoop_states (rs : List Line) : ∀ (st : ParseState),
    (∀ e ∈ st.labelToStateNumber, e.2 < st.labelToStateNumber.length) →
    (∀ spec ∈ st.specifications, spec._baseState = 0) →
    0 < st.labelToStateNumber.length →
    st._stateLabels.length = st.labelToStateNumber.length →
    (∀ spec ∈ st.specifications, spec._newState < st.labelToStateNumber.length) →
    (rs.foldl parseRule st)._stateLabels.length
        = (rs.foldl parseRule st).labelToStateNumber.length
    ∧ ∀ spec ∈ (rs.foldl parseRule st).specifications,
        spec._newState < (rs.foldl parseRule st).labelToStateNumber.length := by
  induction rs with
  | nil =>
    intro st _ _ _ h6 h7
    exact ⟨h6, h7⟩
  | cons r rs ih =>
    intro st h1 h2 h4 h6 h7
    obtain ⟨p1, p2, _, p4, _⟩ := parseRule_invariant st r st.specifications.length h1 h2
      (Nat.le_refl _) h4
    obtain ⟨p6, p7⟩ := parseRule_states st r h1 h6 h7
    simp only [List.foldl_cons]
    exact ih (parseRule st r) p1 p2 p4 p6 p7

theorem parseArguments_states (context : Context) (image : ProcessImage) :
    (ExtendedVisitor.parseArguments context image).1._stateLabels.length
        = (ExtendedVisitor.parseArguments context image).1.labelToStateNumber.length
    ∧ ∀ spec ∈ (ExtendedVisitor.parseArguments context image).1.specifications,
        spec._newState
          < (ExtendedVisitor.parseArguments context image).1.labelToStateNumber.length := by
  unfold ExtendedVisitor.parseArguments
  simp only []
  exact parseLoop_states _ _ (by simp [ParseState.initial]) (by simp [ParseState.initial])
    (by simp [ParseState.initial]) (by simp [ParseState.initial])
    (by simp [ParseState.initial])

theorem assignBaseStates_newState (labels : List (Line × Nat)) (M : Nat)
    (specs : List Specification) : ∀ stb : List Nat,
    (∀ spec ∈ specs, spec._newState < M) →
    ∀ spec ∈ (assignBaseStates labels specs stb).1, spec._newState < M := by
  induction specs with
  | nil => intro stb _ spec hs; simp [assignBaseStates] at hs
  | cons a rest ih =>
    intro stb h
    unfold assignBaseStates
    simp only []
    have hrest := fun stb1 => ih stb1 (fun spec hs => h spec (List.mem_cons_of_mem _ hs))
    have ha := h a (List.mem_cons_self _ _)
    split
    · intro spec hs
      rcases List.mem_cons.mp hs with rfl | hs
      · exact ha
      · exact hrest _ spec hs
    · intro spec hs
      rcases List.mem_cons.mp hs with rfl | hs
      · exact ha
      · exact hrest _ spec hs

theorem countP_lt_mono (bs : List Nat) (s t : Nat) (h : s ≤ t) :
    bs.countP (fun b => decide (b < s)) ≤ bs.countP (fun b => decide (b < t)) := by
  apply List.countP_mono_left
  intro b _ hb
  simp only [decide_eq_true_eq] at hb ⊢
  omega

theorem countP_lt_all (bs : List Nat) (M : Nat) (h : ∀ b ∈ bs, b < M) :
    bs.countP (fun b => decide (b < M)) = bs.length := by
  rw [List.countP_eq_length]
  intro b hb
  simpa using h b hb

/-- The position of every rule: among n specifications with the base states bs, every
index below n is the rule position of a specification. -/
theorem rulePosition_surj (bs : List Nat) (k : Nat) (hk : k < bs.length) :
    ∃ i, i < bs.length ∧ rulePosition bs i = k := by
  let f : Fin bs.length → Fin bs.length :=
    fun i => ⟨rulePosition bs i.1, rulePosition_lt_length bs i.1 i.2⟩
  have hinj : Function.Injective f := by
    intro a b hab
    have h1 : rulePosition bs a.1 = rulePosition bs b.1 := congrArg Fin.val hab
    apply Fin.ext
    rcases Nat.lt_trichotomy a.1 b.1 with h | h | h
    · exact absurd h1 (rulePosition_ne bs a.1 b.1 h b.2)
    · exact h
    · exact absurd h1.symm (rulePosition_ne bs b.1 a.1 h a.2)
  obtain ⟨i, hi⟩ := (Finite.injective_iff_surjective.mp hinj) ⟨k, hk⟩
  exact ⟨i.1, i.2, congrArg Fin.val hi⟩

/-- The tables that lines 145-181 of the constructor leave behind when no error was
found for at least one /extend argument. -/
theorem compile_tables (context : Context) (image : ProcessImage) (allow : Bool)
    (hnum : context.GetNumArguments (bytesOf "extend") ≠ 0)
    (hsize : context.GetNumArguments (bytesOf "extend") < SIZE_LIMIT)
    (herr : (ExtendedVisitor.compile context image allow)._hasErrors = false) :
    TablesOk (ExtendedVisitor.compile context image allow)
        (ExtendedVisitor.compile context image allow)._stateLabels.length
      ∧ (ExtendedVisitor.compile context image allow)._rules.length
          = context.GetNumArguments (bytesOf "extend") := by
  obtain ⟨p1, p2, p3, p4, p5⟩ := parseArguments_invariant context image
  obtain ⟨p6, p7⟩ := parseArguments_states context image
  have hlen := p5 (compile_hasErrors context image allow herr)
  have hstb : (ExtendedVisitor.compile context image allow)._stateToBase
      = (orderRules (ExtendedVisitor.parseArguments context image).1).2.1 := rfl
  have hlab : (ExtendedVisitor.compile context image allow)._stateLabels
      = (ExtendedVisitor.parseArguments context image).1._stateLabels := rfl
  have hnew : ∀ spec ∈ (orderRules (ExtendedVisitor.parseArguments context image).1).1,
      spec._newState
        < (ExtendedVisitor.parseArguments context image).1.labelToStateNumber.length := by
    unfold orderRules
    simp only []
    exact assignBaseStates_newState _ _ _ _ p7
  unfold TablesOk
  rw [compile_rules, hstb, hlab, p6]
  have hS : acceptedRules context image
      = (orderRules (ExtendedVisitor.parseArguments context image).1).1 := rfl
  rw [hS]
  generalize ExtendedVisitor.parseArguments context image = parsed at p1 p2 p3 p4 p5 hlen hnew ⊢
  obtain ⟨p, flags⟩ := parsed
  simp only [] at p1 p2 p3 p4 p5 hlen hnew ⊢
  obtain ⟨o1, o2, o3, o4, o5, o6, o7⟩ := orderRules_spec p p1 p2 (by omega) (by omega) p4
  generalize orderRules p = ordered at o1 o2 o3 o4 o5 o6 o7 hnew ⊢
  obtain ⟨S, stb, R⟩ := ordered
  simp only [] at o1 o2 o3 o4 o5 o6 o7 hnew ⊢
  have hbl : (S.map (fun spec => spec._baseState)).length = S.length := by simp
  have hall : ∀ b ∈ S.map (fun spec => spec._baseState), b < p.labelToStateNumber.length := by
    intro b hb
    obtain ⟨spec, hs, rfl⟩ := List.mem_map.mp hb
    exact o2 spec hs
  refine ⟨⟨p4, o3, by simp; omega, ?_, ?_, ?_, ?_⟩, by simp; omega⟩
  · intro s t hst ht
    rw [o4 s (by omega), o4 t ht]
    exact countP_lt_mono _ s t hst
  · rw [o4 0 (by omega)]
    simp
  · rw [o4 _ (Nat.le_refl _), countP_lt_all _ _ hall]
    simp
  · intro k rule hrule
    have hk : k < S.length := by
      by_contra hk
      rw [List.getElem?_eq_none (by simp; omega)] at hrule
      cases hrule
    simp only [List.getElem?_map, List.getElem?_range hk, Option.map_some',
      Option.some.injEq] at hrule
    obtain ⟨i, hi, hpos⟩ := rulePosition_surj (S.map (fun spec => spec._baseState)) k
      (by omega)
    have hRk : R.getD k 0 = i := by
      rw [← hpos]
      exact o6 i (by omega)
    rw [hRk] at hrule
    have hmem := getD_mem S i Specification.initial (by omega)
    have hb := getD_map_base S i (by omega)
    have hrange := rulePosition_range (S.map (fun spec => spec._baseState)) i (by omega)
    rw [hb, hpos] at hrange
    have hbase := o2 _ hmem
    subst hrule
    simp only [Rule.ofSpecification]
    refine ⟨hbase, hnew _ hmem, ?_, ?_⟩
    · rw [o4 _ (by omega)]
      exact hrange.1
    · rw [o4 _ (by omega)]
      exact hrange.2

/-- What the constructor leaves behind when it enables the visitor: there was an /extend
argument, lines 56-224 found no error, the first rule has the base state 0, and the
visitor is the one of line 224 with the graph of the process image. -/
theorem new_enabled (context : Context) (image : ProcessImage) (allow : Bool)
    (v : ExtendedVisitor) (hv : ExtendedVisitor.new context image allow = some v)
    (hen : v._isEnabled = true) :
    context.GetNumArguments (bytesOf "extend") ≠ 0
      ∧ (ExtendedVisitor.compile context image allow)._hasErrors = false
      ∧ v = { ExtendedVisitor.compile context image allow with
                _isEnabled := true, _graph := image.GetAllocationGraph,
                _hasErrors := image.GetAllocationGraph.isNone }
      ∧ ∃ rule0, (ExtendedVisitor.compile context image allow)._rules[0]? = some rule0
          ∧ rule0._baseState = 0 := by
  unfold ExtendedVisitor.new at hv
  by_cases hnum : context.GetNumArguments (bytesOf "extend") = 0
  · rw [if_pos hnum] at hv
    simp only [Option.some.injEq] at hv
    subst hv
    simp [ExtendedVisitor.initial] at hen
  · rw [if_neg hnum] at hv
    simp only [] at hv
    cases herr : (ExtendedVisitor.compile context image allow)._hasErrors
    · simp only [herr, Bool.not_false, if_true] at hv
      cases hr : (ExtendedVisitor.compile context image allow)._rules[0]? with
      | none => rw [hr] at hv; cases hv
      | some rule0 =>
        rw [hr] at hv
        simp only [] at hv
        by_cases hb : rule0._baseState = 0
        · simp only [hb, ne_eq, not_true_eq_false, if_false, Option.some.injEq] at hv
          exact ⟨hnum, rfl, hv.symm, rule0, rfl, hb⟩
        · simp only [ne_eq, hb, not_false_eq_true, if_true, Option.some.injEq] at hv
          subst hv
          rw [compile_isEnabled] at hen
          cases hen
    · simp only [herr, Bool.not_true, Bool.false_eq_true, if_false, Option.some.injEq] at hv
      subst hv
      rw [compile_isEnabled] at hen
      cases hen

/-- A construction without errors for at least one /extend argument enables the
visitor. -/
theorem new_without_errors (context : Context) (image : ProcessImage) (allow : Bool)
    (v : ExtendedVisitor) (hv : ExtendedVisitor.new context image allow = some v)
    (hnum : context.GetNumArguments (bytesOf "extend") ≠ 0) (herr : v._hasErrors = false) :
    v._isEnabled = true := by
  unfold ExtendedVisitor.new at hv
  rw [if_neg hnum] at hv
  simp only [] at hv
  cases hc : (ExtendedVisitor.compile context image allow)._hasErrors
  · simp only [hc, Bool.not_false, if_true] at hv
    cases hr : (ExtendedVisitor.compile context image allow)._rules[0]? with
    | none => rw [hr] at hv; cases hv
    | some rule0 =>
      rw [hr] at hv
      simp only [] at hv
      by_cases hb : rule0._baseState = 0
      · simp only [hb, ne_eq, not_true_eq_false, if_false, Option.some.injEq] at hv
        subst hv
        rfl
      · simp only [ne_eq, hb, not_false_eq_true, if_true, Option.some.injEq] at hv
        subst hv
        cases herr
  · simp only [hc, Bool.not_true, Bool.false_eq_true, if_false, Option.some.injEq] at hv
    subst hv
    rw [hc] at herr
    cases herr

/-- The tables of a visitor that its constructor enables: they are in order, and the
range of the base state is not empty. -/
theorem enabled_tables (context : Context) (image : ProcessImage) (allow : Bool)
    (v : ExtendedVisitor) (hv : ExtendedVisitor.new context image allow = some v)
    (hen : v._isEnabled = true)
    (hsize : context.GetNumArguments (bytesOf "extend") < SIZE_LIMIT) :
    TablesOk v v._stateLabels.length ∧ 0 < v._stateToBase.getD 1 0
      ∧ v._rules.length = context.GetNumArguments (bytesOf "extend")
      ∧ context.GetNumArguments (bytesOf "extend") ≠ 0
      ∧ v._graph = image.GetAllocationGraph
      ∧ v._hasErrors = image.GetAllocationGraph.isNone := by
  obtain ⟨hnum, herr, hveq, rule0, hr0, hb0⟩ := new_enabled context image allow v hv hen
  obtain ⟨ht, hlen⟩ := compile_tables context image allow hnum hsize herr
  have h1 : v._rules = (ExtendedVisitor.compile context image allow)._rules := by rw [hveq]
  have h2 : v._stateToBase = (ExtendedVisitor.compile context image allow)._stateToBase := by
    rw [hveq]
  have h3 : v._stateLabels = (ExtendedVisitor.compile context image allow)._stateLabels := by
    rw [hveq]
  have h4 : v._graph = image.GetAllocationGraph := by rw [hveq]
  have h5 : v._hasErrors = image.GetAllocationGraph.isNone := by rw [hveq]
  unfold TablesOk at ht ⊢
  rw [h1, h2, h3]
  refine ⟨ht, ?_, hlen, hnum, h4, h5⟩
  have := (ht.2.2.2.2.2.2 0 rule0 hr0).2.2.2
  rw [hb0] at this
  exact this

/-- The skip options of a visitor that its constructor made are on only when the process
image has the edge predicate. -/
theorem new_skip_options (context : Context) (image : ProcessImage) (allow : Bool)
    (v : ExtendedVisitor) (hv : ExtendedVisitor.new context image allow = some v) :
    (v._skipTaintedReferences = true → image.GetEdgeIsTainted.isSome = true)
      ∧ (v._skipUnfavoredReferences = true → image.GetEdgeIsFavored.isSome = true) := by
  have hc : (ExtendedVisitor.compile context image allow)._skipTaintedReferences = true →
      image.GetEdgeIsTainted.isSome = true := by
    unfold ExtendedVisitor.compile ExtendedVisitor.parseArguments
    simp only []
    cases image.GetEdgeIsTainted.isSome
    · simp
    · simp
  have hd : (ExtendedVisitor.compile context image allow)._skipUnfavoredReferences = true →
      image.GetEdgeIsFavored.isSome = true := by
    unfold ExtendedVisitor.compile ExtendedVisitor.parseArguments
    simp only []
    cases image.GetEdgeIsFavored.isSome
    · simp
    · simp
  unfold ExtendedVisitor.new at hv
  split at hv
  · simp only [Option.some.injEq] at hv
    subst hv
    simp [ExtendedVisitor.initial]
  · simp only [] at hv
    split at hv
    · split at hv
      · cases hv
      · split at hv
        · simp only [Option.some.injEq] at hv
          subst hv
          exact ⟨hc, hd⟩
        · simp only [Option.some.injEq] at hv
          subst hv
          exact ⟨hc, hd⟩
    · simp only [Option.some.injEq] at hv
      subst hv
      exact ⟨hc, hd⟩

/-- C31, amended: after a construction without errors for at least one /extend argument
the compiled rules are grouped by state.  _stateToBase has one entry for each state and
one more; for every state s the rules at the indices from _stateToBase[s] up to
_stateToBase[s + 1] are exactly the rules whose base state is s; _stateToBase does not
decrease, _stateToBase[0] is 0 and the last entry is the number of rules; every rule has
a base state among the states. -/
theorem rules_grouped_by_state (context : Context) (image : ProcessImage) (allow : Bool)
    (v : ExtendedVisitor) (hv : ExtendedVisitor.new context image allow = some v)
    (hnum : context.GetNumArguments (bytesOf "extend") ≠ 0)
    (hsize : context.GetNumArguments (bytesOf "extend") < SIZE_LIMIT)
    (herr : v.HasErrors = false) :
    v._stateToBase.length = v._stateLabels.length + 1
      ∧ (∀ s k rule, s < v._stateLabels.length → v._rules[k]? = some rule →
          ((v._stateToBase.getD s 0 ≤ k ∧ k < v._stateToBase.getD (s + 1) 0)
            ↔ rule._baseState = s))
      ∧ (∀ s t, s ≤ t → t ≤ v._stateLabels.length →
          v._stateToBase.getD s 0 ≤ v._stateToBase.getD t 0)
      ∧ v._stateToBase[0]? = some 0
      ∧ v._stateToBase.getLast? = some v._rules.length
      ∧ ∀ rule ∈ v._rules, rule._baseState < v._stateLabels.length := by
  have hen := new_without_errors context image allow v hv hnum herr
  obtain ⟨⟨t1, t2, t3, t4, t5, t6, t7⟩, -⟩ := enabled_tables context image allow v hv hen hsize
  refine ⟨t2, ?_, t4, ?_, ?_, ?_⟩
  · intro s k rule hs hrule
    obtain ⟨r1, _, r3, r4⟩ := t7 k rule hrule
    constructor
    · rintro ⟨h1, h2⟩
      rcases Nat.lt_trichotomy rule._baseState s with h | h | h
      · have := t4 (rule._baseState + 1) s (by omega) (by omega)
        omega
      · exact h
      · have := t4 (s + 1) rule._baseState (by omega) (by omega)
        omega
    · rintro rfl
      exact ⟨r3, r4⟩
  · rw [List.getElem?_eq_getElem (by omega)]
    rw [List.getD_eq_getElem?_getD, List.getElem?_eq_getElem (by omega)] at t5
    simpa using t5
  · rw [List.getLast?_eq_getElem?, t2]
    simp only [Nat.add_sub_cancel]
    rw [List.getD_eq_getElem?_getD, List.getElem?_eq_getElem (by omega)] at t6
    rw [List.getElem?_eq_getElem (by omega)]
    simpa using t6
  · intro rule hrule
    obtain ⟨k, hk⟩ := List.getElem?_of_mem hrule
    exact (t7 k rule hk).1

set_option maxRecDepth 100000 in
theorem rules_grouped_by_state_witness :
    orderVisitor._stateToBase = [0, 2, 3]
      ∧ orderVisitor._rules.map (fun rule => rule._baseState) = [0, 0, 1]
      ∧ orderVisitor._stateToBase[0]? = some 0
      ∧ orderVisitor._stateToBase.getLast? = some orderVisitor._rules.length :=
  ⟨by decide, by decide,
    (rules_grouped_by_state orderContext (plainProcessImage (some emptyGraph)) false
      orderVisitor (Option.some_get _).symm (by decide) (by decide) (by decide)).2.2.2.1,
    by decide⟩

set_option maxRecDepth 100000 in
/-- C31 fails on the code: a construction without an /extend argument returns at line 54
without errors and with an empty _stateToBase, which has no entry 0 and no last entry. -/
theorem no_tables_without_extend_arguments :
    (ExtendedVisitor.new noExtendContext (plainProcessImage (some emptyGraph)) false).map
        (fun v => (v.HasErrors, v.IsEnabled, v._rules.length, v._stateToBase,
          v._stateToBase[0]?, v._stateToBase.getLast?))
      = some (false, false, 0, [], none, none) := by
  rfl

end Allocations

namespace Allocations

open Commands

set_option maxRecDepth 100000 in
/-- C32 fails on the code: the rule "@fffffffffffffffc->" is accepted with the member
offset 2^64 - 4; for a member of 0x20 bytes the sum of line 343 wraps around to 4, so the
member is not skipped although the offset plus the size of an Offset is past its end, and
line 358 reads the word at 0xffc, below the member at 0x1000, and visits the allocation
that it refers to. -/
theorem member_offset_check_wraps :
    wrapVisitor._rules.map (fun rule =>
        (rule._referenceIsOutgoing, rule._useOffsetInMember, rule._offsetInMember))
      = [(true, true, 0xfffffffffffffffc)]
    ∧ wrapVisitor.IsEnabled = true ∧ wrapVisitor.HasErrors = false
    ∧ wrapImage.allocations[0]? = some ⟨0x1000, 0x20, true⟩
    ∧ ¬ (0xfffffffffffffffc + wrapImage.sizeofOffset ≤ 0x20)
    ∧ (wrapVisitor._rules.map (fun rule =>
        memberRejected wrapImage rule 0 ⟨0x1000, 0x20, true⟩)) = [false]
    ∧ (0x1000 + 0xfffffffffffffffc) % wrapImage.offsetLimit = 0xffc
    ∧ wrapImage.offsetAt 0xffc = 0x2000
    ∧ (match wrapVisitor.Visit wrapImage 3 0 ⟨[], [], []⟩ with
        | .done st => some st.visits
        | _ => none) = some [0, 1] := by
  decide

end Allocations

namespace Allocations

open Commands

theorem candidatePasses_isSome (v : ExtendedVisitor) (image : ProcessImage)
    (h : PredicatesPresent v image) (rule : Rule) (m : Nat) (ma : Allocation) (c : Nat)
    (ca : Allocation) : candidatePasses v image rule m ma c ca ≠ none := by
  obtain ⟨hg, ht, hf⟩ := h
  obtain ⟨g, hg1⟩ := Option.isSome_iff_exists.mp hg
  obtain ⟨b1, hb1⟩ : ∃ b, (if rule._extensionMustBeLeaked then
      v._graph.map (fun g => !g.IsLeaked c) else some false) = some b := by
    rw [hg1]; split <;> simp
  obtain ⟨b2, hb2⟩ : ∃ b, (if v._skipTaintedReferences then
      image.GetEdgeIsTainted.map (fun tainted =>
        if rule._referenceIsOutgoing then tainted m c else tainted c m)
      else some false) = some b := by
    cases hs1 : v._skipTaintedReferences
    · simp
    · obtain ⟨tn, htn⟩ := Option.isSome_iff_exists.mp (ht hs1)
      rw [htn]; simp
  obtain ⟨b3, hb3⟩ : ∃ b, (if v._skipUnfavoredReferences then
      image.GetEdgeIsFavored.map (fun favored =>
        if rule._referenceIsOutgoing then
          image.SupportsFavoredReferences c && !favored m c
        else image.SupportsFavoredReferences m && !favored c m)
      else some false) = some b := by
    cases hs2 : v._skipUnfavoredReferences
    · simp
    · obtain ⟨fav, hfav⟩ := Option.isSome_iff_exists.mp (hf hs2)
      rw [hfav]; simp
  unfold candidatePasses
  rw [hb1, hb2, hb3]
  cases b1 <;> cases b2 <;> cases b3 <;> simp only [] <;> repeat (first | split | simp)

theorem candidatePasses_withComments (v : ExtendedVisitor) (b : Bool) (image : ProcessImage)
    (rule : Rule) (m : Nat) (ma : Allocation) (c : Nat) (ca : Allocation) :
    candidatePasses (v.withComments b) image rule m ma c ca
      = candidatePasses v image rule m ma c ca := rfl

theorem extendTo_silent (v : ExtendedVisitor) (image : ProcessImage)
    (hp : PredicatesPresent v image) (rule : Rule) (ma : Allocation) (c : Nat) (ca : Allocation)
    (m s r n lim : Nat) (pn : List Nat) (prog : RuleCheckProgress)
    (ctxs : List ExtensionContext) (vd vs : List Nat) (out1 out2 : List OutputItem) :
    (extendTo (v.withComments true) image rule ma c ca
        ⟨m, s, r, n, lim, pn, prog, ctxs, vd, vs, out1⟩).silent
      = (extendTo (v.withComments false) image rule ma c ca
        ⟨m, s, r, n, lim, pn, prog, ctxs, vd, vs, out2⟩).silent := by
  have hpass := candidatePasses_isSome v image hp rule m ma c ca
  unfold extendTo
  simp only [candidatePasses_withComments]
  cases hcp : candidatePasses v image rule m ma c ca with
  | none => exact absurd hcp hpass
  | some b =>
    cases b
    · cases hvis : vd.contains c <;>
        simp [ExtendedVisitor.withComments, StepResult.silent, VisitState.silent, hvis]
    · cases hvis : vd.contains c
      · simp only [ExtendedVisitor.withComments, Bool.not_true, Bool.false_and, Bool.true_and,
          Bool.not_false, Bool.and_false, Bool.false_eq_true, if_false, if_true]
        cases v._stateToBase[rule._newState]? <;> cases v._stateToBase[rule._newState + 1]? <;>
          simp [StepResult.silent, VisitState.silent]
      · simp [ExtendedVisitor.withComments, StepResult.silent, VisitState.silent, hvis]

theorem takeCandidate_silent (v : ExtendedVisitor) (image : ProcessImage)
    (hp : PredicatesPresent v image) (rule : Rule) (ma : Allocation)
    (m s r n lim : Nat) (pn : List Nat) (prog : RuleCheckProgress)
    (ctxs : List ExtensionContext) (vd vs : List Nat) (out1 out2 : List OutputItem) :
    (takeCandidate (v.withComments true) image rule ma
        ⟨m, s, r, n, lim, pn, prog, ctxs, vd, vs, out1⟩).silent
      = (takeCandidate (v.withComments false) image rule ma
        ⟨m, s, r, n, lim, pn, prog, ctxs, vd, vs, out2⟩).silent := by
  unfold takeCandidate countCandidates
  simp only []
  by_cases h : prog = .NO_EDGES_CHECKED
  · subst h
    simp only [if_true, true_and]
    by_cases hz : pn.length = 0
    · rw [if_pos hz, if_pos hz]
      simp only [StepResult.silent, VisitState.silent]
    · rw [if_neg hz, if_neg hz]
      generalize pn.length = len
      cases pn with
      | nil => simp only [StepResult.silent, VisitState.silent]
      | cons c rest =>
        simp only []
        cases image.allocations[c]? with
        | none => simp only [StepResult.silent, VisitState.silent]
        | some ca =>
          simp only []
          exact extendTo_silent v image hp rule ma c ca _ _ _ _ _ _ _ _ _ _ _ _
  · simp only [h, if_false, false_and]
    cases pn with
    | nil => simp only [StepResult.silent, VisitState.silent]
    | cons c rest =>
      simp only []
      cases image.allocations[c]? with
      | none => simp only [StepResult.silent, VisitState.silent]
      | some ca =>
        simp only []
        exact extendTo_silent v image hp rule ma c ca _ _ _ _ _ _ _ _ _ _ _ _

theorem followOffset_silent (v : ExtendedVisitor) (image : ProcessImage)
    (hp : PredicatesPresent v image) (rule : Rule) (ma : Allocation)
    (m s r n lim : Nat) (pn : List Nat) (prog : RuleCheckProgress)
    (ctxs : List ExtensionContext) (vd vs : List Nat) (out1 out2 : List OutputItem) :
    (followOffset (v.withComments true) image rule ma
        ⟨m, s, r, n, lim, pn, prog, ctxs, vd, vs, out1⟩).silent
      = (followOffset (v.withComments false) image rule ma
        ⟨m, s, r, n, lim, pn, prog, ctxs, vd, vs, out2⟩).silent := by
  unfold followOffset
  simp only []
  split
  · simp only [StepResult.silent, VisitState.silent]
  · split
    · simp only [StepResult.silent, VisitState.silent]
    · cases image.allocations[image.AllocationIndexOf
          (image.offsetAt ((ma.Address + rule._offsetInMember) % image.offsetLimit))]? with
      | none => simp only [StepResult.silent, VisitState.silent]
      | some ca =>
        simp only []
        split
        · simp only [StepResult.silent, VisitState.silent]
        · exact extendTo_silent v image hp rule ma _ ca _ _ _ _ _ _ _ _ _ _ _ _

theorem followEdges_silent (v : ExtendedVisitor) (image : ProcessImage)
    (hp : PredicatesPresent v image) (rule : Rule) (ma : Allocation)
    (m s r n lim : Nat) (pn : List Nat) (prog : RuleCheckProgress)
    (ctxs : List ExtensionContext) (vd vs : List Nat) (out1 out2 : List OutputItem) :
    (followEdges (v.withComments true) image rule ma
        ⟨m, s, r, n, lim, pn, prog, ctxs, vd, vs, out1⟩).silent
      = (followEdges (v.withComments false) image rule ma
        ⟨m, s, r, n, lim, pn, prog, ctxs, vd, vs, out2⟩).silent := by
  unfold followEdges
  have e1 : (v.withComments true)._graph = v._graph := rfl
  have e2 : (v.withComments false)._graph = v._graph := rfl
  rw [e1, e2]
  cases v._graph with
  | none => simp only [StepResult.silent, VisitState.silent]
  | some g =>
    simp only []
    exact takeCandidate_silent v image hp rule ma _ _ _ _ _ _ _ _ _ _ _ _

theorem applyRule_silent (v : ExtendedVisitor) (image : ProcessImage)
    (hp : PredicatesPresent v image)
    (m s r n lim : Nat) (pn : List Nat) (prog : RuleCheckProgress)
    (ctxs : List ExtensionContext) (vd vs : List Nat) (out1 out2 : List OutputItem) :
    (applyRule (v.withComments true) image
        ⟨m, s, r, n, lim, pn, prog, ctxs, vd, vs, out1⟩).silent
      = (applyRule (v.withComments false) image
        ⟨m, s, r, n, lim, pn, prog, ctxs, vd, vs, out2⟩).silent := by
  unfold applyRule
  have e1 : (v.withComments true)._rules = v._rules := rfl
  have e2 : (v.withComments false)._rules = v._rules := rfl
  rw [e1, e2]
  simp only []
  cases v._rules[r]? with
  | none => simp only [StepResult.silent, VisitState.silent]
  | some rule =>
    cases image.allocations[m]? with
    | none => simp only [StepResult.silent, VisitState.silent]
    | some ma =>
      simp only []
      split
      · split
        · simp only [StepResult.silent, VisitState.silent]
        · split
          · exact followOffset_silent v image hp rule ma _ _ _ _ _ _ _ _ _ _ _ _
          · exact followEdges_silent v image hp rule ma _ _ _ _ _ _ _ _ _ _ _ _
      · exact takeCandidate_silent v image hp rule ma _ _ _ _ _ _ _ _ _ _ _ _

theorem resumeContext_silent (v : ExtendedVisitor) (c : ExtensionContext)
    (rest : List ExtensionContext)
    (m s r n lim : Nat) (pn : List Nat) (prog : RuleCheckProgress)
    (ctxs : List ExtensionContext) (vd vs : List Nat) (out1 out2 : List OutputItem) :
    (resumeContext (v.withComments true) c rest
        ⟨m, s, r, n, lim, pn, prog, ctxs, vd, vs, out1⟩).silent
      = (resumeContext (v.withComments false) c rest
        ⟨m, s, r, n, lim, pn, prog, ctxs, vd, vs, out2⟩).silent := by
  unfold resumeContext
  have e1 : (v.withComments true)._rules = v._rules := rfl
  have e2 : (v.withComments false)._rules = v._rules := rfl
  have e3 : (v.withComments true)._stateToBase = v._stateToBase := rfl
  have e4 : (v.withComments false)._stateToBase = v._stateToBase := rfl
  rw [e1, e2, e3, e4]
  simp only []
  cases v._rules[c._ruleIndex]? with
  | none => simp only [StepResult.silent, VisitState.silent]
  | some rule =>
    simp only []
    cases v._stateToBase[rule._baseState + 1]? <;>
      simp only [StepResult.silent, VisitState.silent]

theorem visitStep_silent (v : ExtendedVisitor) (image : ProcessImage)
    (hp : PredicatesPresent v image)
    (m s r n lim : Nat) (pn : List Nat) (prog : RuleCheckProgress)
    (ctxs : List ExtensionContext) (vd vs : List Nat) (out1 out2 : List OutputItem) :
    (visitStep (v.withComments true) image
        ⟨m, s, r, n, lim, pn, prog, ctxs, vd, vs, out1⟩).silent
      = (visitStep (v.withComments false) image
        ⟨m, s, r, n, lim, pn, prog, ctxs, vd, vs, out2⟩).silent := by
  unfold visitStep
  simp only []
  split
  · split
    · cases ctxs with
      | nil => simp only [StepResult.silent, VisitState.silent]
      | cons c rest =>
        simp only []
        exact resumeContext_silent v c rest _ _ _ _ _ _ _ _ _ _ _ _
    · exact applyRule_silent v image hp _ _ _ _ _ _ _ _ _ _ _ _
  · exact applyRule_silent v image hp _ _ _ _ _ _ _ _ _ _ _ _

theorem silent_eq (st1 st2 : VisitState) (h : st1.silent = st2.silent) :
    ∃ out, st1 = ⟨st2.memberIndex, st2.state, st2.ruleIndex, st2.numCandidatesLeft,
      st2.ruleIndexLimit, st2.pNextCandidate, st2.ruleCheckProgress, st2.extensionContexts,
      st2.visited, st2.visits, out⟩ := by
  obtain ⟨m, s, r, n, lim, pn, prog, ctxs, vd, vs, out1⟩ := st1
  obtain ⟨m2, s2, r2, n2, lim2, pn2, prog2, ctxs2, vd2, vs2, out2⟩ := st2
  simp only [VisitState.silent, VisitState.mk.injEq] at h
  obtain ⟨h1, h2, h3, h4, h5, h6, h7, h8, h9, h10, _⟩ := h
  subst h1 h2 h3 h4 h5 h6 h7 h8 h9 h10
  exact ⟨out1, rfl⟩

theorem visitLoop_silent (v : ExtendedVisitor) (image : ProcessImage)
    (hp : PredicatesPresent v image) (fuel : Nat) :
    ∀ st1 st2 : VisitState, st1.silent = st2.silent →
      (visitLoop (v.withComments true) image fuel st1).silent
        = (visitLoop (v.withComments false) image fuel st2).silent := by
  induction fuel with
  | zero =>
    intro st1 st2 h
    simp only [visitLoop, StepResult.silent, h]
  | succ k ih =>
    intro st1 st2 h
    obtain ⟨out1, h1⟩ := silent_eq st1 st2 h
    subst h1
    obtain ⟨m, s, r, n, lim, pn, prog, ctxs, vd, vs, out2⟩ := st2
    have hstep := visitStep_silent v image hp m s r n lim pn prog ctxs vd vs out1 out2
    simp only [visitLoop]
    cases h1 : visitStep (v.withComments true) image
        ⟨m, s, r, n, lim, pn, prog, ctxs, vd, vs, out1⟩ <;>
      cases h2 : visitStep (v.withComments false) image
        ⟨m, s, r, n, lim, pn, prog, ctxs, vd, vs, out2⟩ <;>
      rw [h1, h2] at hstep <;>
      simp only [StepResult.silent, StepResult.next.injEq, StepResult.done.injEq,
        StepResult.fault.injEq, reduceCtorEq] at hstep
    · exact ih _ _ hstep
    · simp only [StepResult.silent, hstep]
    · simp only [StepResult.silent, hstep]

theorem Visit_silent (v : ExtendedVisitor) (image : ProcessImage)
    (hp : PredicatesPresent v image) (fuel seed : Nat) (log : VisitLog) :
    ((v.withComments true).Visit image fuel seed log).silent
      = ((v.withComments false).Visit image fuel seed log).silent := by
  unfold ExtendedVisitor.Visit
  have e1 : (v.withComments true)._isEnabled = v._isEnabled := rfl
  have e2 : (v.withComments false)._isEnabled = v._isEnabled := rfl
  have e3 : (v.withComments true)._stateToBase = v._stateToBase := rfl
  have e4 : (v.withComments false)._stateToBase = v._stateToBase := rfl
  rw [e1, e2, e3, e4]
  split
  · simp only [StepResult.silent, VisitState.silent]
  · split
    · simp only [StepResult.silent, VisitState.silent]
    · cases v._stateToBase[0]? with
      | none => simp only [StepResult.silent, VisitState.silent]
      | some r0 =>
        cases v._stateToBase[1]? with
        | none => simp only [StepResult.silent, VisitState.silent]
        | some r1 =>
          simp only []
          exact visitLoop_silent v image hp fuel _ _ rfl

theorem silent_returned (r1 r2 : StepResult) (h : r1.silent = r2.silent) :
    r1.returned = r2.returned := by
  cases r1 <;> cases r2 <;>
    simp only [StepResult.silent, StepResult.next.injEq, StepResult.done.injEq,
      StepResult.fault.injEq, reduceCtorEq] at h <;>
    simp only [StepResult.returned]
  rename_i a b
  have h1 : a.silent.visits = b.silent.visits := by rw [h]
  have h2 : a.silent.visited = b.silent.visited := by rw [h]
  simp only [VisitState.silent] at h1 h2
  rw [h1, h2]

/-- C35: the commentExtensions option does not change what is visited.  For every
directory, graph, rule set, skip options, visited set at the start and seed, the call of
Visit with _commentExtensions true and the call with _commentExtensions false make the
same passes through the loop: after any number of passes they are in the same state but
for the output, so one of them returns when the other does, and then the calls of
visitor.Visit made, in order, and the visited set are the same.  The graph exists and an
edge predicate exists when its skip option is on, as in every visitor that its
constructor enables without errors. -/
theorem commentExtensions_keeps_visits (v : ExtendedVisitor) (image : ProcessImage)
    (fuel seed : Nat) (log : VisitLog) (hp : PredicatesPresent v image) :
    ((v.withComments true).Visit image fuel seed log).silent
        = ((v.withComments false).Visit image fuel seed log).silent
      ∧ ((v.withComments true).Visit image fuel seed log).returned
        = ((v.withComments false).Visit image fuel seed log).returned
      ∧ ∀ st, (v.withComments true).Visit image fuel seed log = .done st →
          ∃ st1, (v.withComments false).Visit image fuel seed log = .done st1
            ∧ st1.visits = st.visits ∧ st1.visited = st.visited := by
  have h := Visit_silent v image hp fuel seed log
  refine ⟨h, silent_returned _ _ h, fun st hst => ?_⟩
  have hr := silent_returned _ _ h
  rw [hst] at hr
  cases h2 : (v.withComments false).Visit image fuel seed log with
  | done st1 =>
    rw [h2] at hr
    simp only [StepResult.returned, Option.some.injEq, Prod.mk.injEq] at hr
    exact ⟨st1, rfl, hr.1.symm, hr.2.symm⟩
  | next st1 => rw [h2] at hr; simp [StepResult.returned] at hr
  | fault st1 => rw [h2] at hr; simp [StepResult.returned] at hr

set_option maxRecDepth 100000 in
theorem commentExtensions_keeps_visits_witness :
    PredicatesPresent plainVisitor cycleImage
      ∧ ((plainVisitor.withComments true).Visit cycleImage 13 0 ⟨[], [], []⟩).returned
        = some ([0, 1, 2], [2, 1, 0])
      ∧ ((plainVisitor.withComments true).Visit cycleImage 13 0 ⟨[], [], []⟩).state.output
        ≠ ((plainVisitor.withComments false).Visit cycleImage 13 0 ⟨[], [], []⟩).state.output
      ∧ ((plainVisitor.withComments true).Visit cycleImage 13 0 ⟨[], [], []⟩).returned
        = ((plainVisitor.withComments false).Visit cycleImage 13 0 ⟨[], [], []⟩).returned :=
  ⟨⟨by decide, by decide, by decide⟩, by decide, by decide,
    (commentExtensions_keeps_visits plainVisitor cycleImage 13 0 ⟨[], [], []⟩
      ⟨by decide, by decide, by decide⟩).2.1⟩

end Allocations

namespace Allocations

open Commands

theorem tables_limit (v : ExtendedVisitor) (M : Nat) (ht : TablesOk v M) (s : Nat)
    (hs : s + 1 < v._stateToBase.length) :
    v._stateToBase.getD (s + 1) 0 ≤ v._rules.length := by
  obtain ⟨t1, t2, t3, t4, t5, t6, t7⟩ := ht
  rw [← t6]
  exact t4 (s + 1) M (by omega) (Nat.le_refl _)

theorem getElem?_getD (l : List Nat) (i x : Nat) (h : l[i]? = some x) : l.getD i 0 = x := by
  rw [List.getD_eq_getElem?_getD, h]
  rfl

theorem ready_ruleInv (v : ExtendedVisitor) (st : VisitState)
    (h : Ready v st.state st.ruleIndex st.ruleIndexLimit st.extensionContexts) :
    RuleInv v st :=
  ⟨h.1, h.2.1, fun _ => h.2.2.1, fun _ => h.2.2.1, h.2.2.2⟩

theorem extendTo_ruleInv (v : ExtendedVisitor) (image : ProcessImage) (M : Nat)
    (ht : TablesOk v M) (hpos : 0 < v._stateToBase.getD 1 0) (rule : Rule)
    (hnew : rule._newState < M) (ma : Allocation) (c : Nat) (ca : Allocation)
    (m s r n lim : Nat) (pn : List Nat) (prog : RuleCheckProgress)
    (ctxs : List ExtensionContext) (vd vs : List Nat) (out : List OutputItem)
    (h : Ready v s r lim ctxs) :
    ∀ st1, extendTo v image rule ma c ca ⟨m, s, r, n, lim, pn, prog, ctxs, vd, vs, out⟩
      = .next st1 → RuleInv v st1 := by
  have hinv : RuleInv v ⟨m, s, r, n, lim, pn, prog, ctxs, vd, vs, out⟩ := ready_ruleInv v _ h
  have hR := tables_limit v M ht s h.1
  obtain ⟨h1, h2, h3, h4⟩ := h
  simp only [] at h1 h2 h3 h4 hR
  obtain ⟨t1, t2, t3, t4, t5, t6, t7⟩ := ht
  intro st1 hst
  unfold extendTo at hst
  simp only [] at hst
  split at hst
  · cases hst; exact hinv
  · split at hst
    · cases hst
    · cases hst; exact hinv
    · split at hst
      · cases hst; exact hinv
      · split at hst
        · rename_i r0 lim0 hr0 hl0
          have e0 := getElem?_getD _ _ _ hr0
          have e1 := getElem?_getD _ _ _ hl0
          have hmono := t4 rule._newState (rule._newState + 1) (by omega) (by omega)
          rw [e0, e1] at hmono
          have hle := t4 (rule._newState + 1) M (by omega) (Nat.le_refl _)
          rw [e1, t6] at hle
          have hctx : ∀ x ∈ (if prog ≠ .RULE_DONE ∨ (r + 1) % SIZE_LIMIT ≠ lim then
              ({ _memberIndex := m, _ruleIndex := r, _numCandidatesLeft := n,
                 _ruleCheckProgress := prog, _pNextCandidate := pn } : ExtensionContext)
                :: ctxs
              else ctxs), x._ruleIndex < v._rules.length := by
            intro x hx
            split at hx
            · rcases List.mem_cons.mp hx with rfl | hx
              · simp only []; omega
              · exact h4 x hx
            · exact h4 x hx
          cases hst
          refine ⟨by simp only []; omega, by simp only []; exact e1.symm, ?_, ?_, hctx⟩
          · simp only []
            intro hp
            by_cases hne : r0 = lim0
            · simp [hne] at hp
            · simp only [ne_eq, hne, not_false_eq_true, if_true]
              omega
          · simp only []
            intro hp
            by_cases hne : r0 = lim0
            · simp only [ne_eq, hne, not_true_eq_false, if_false]
              have h1le : 1 ≤ lim0 := by
                by_cases hz : rule._newState = 0
                · rw [hz] at e0 e1
                  simp only [Nat.zero_add] at e1
                  omega
                · have := t4 1 (rule._newState) (by omega) (by omega)
                  rw [e0] at this
                  omega
              have hlt : lim0 < SIZE_LIMIT := by omega
              have : (lim0 + SIZE_LIMIT - 1) % SIZE_LIMIT = lim0 - 1 := by
                have : lim0 + SIZE_LIMIT - 1 = (lim0 - 1) + SIZE_LIMIT := by omega
                rw [this, Nat.add_mod_right, Nat.mod_eq_of_lt (by omega)]
              rw [this]
              omega
            · simp [hne] at hp
        · cases hst

theorem takeCandidate_ruleInv (v : ExtendedVisitor) (image : ProcessImage) (M : Nat)
    (ht : TablesOk v M) (hpos : 0 < v._stateToBase.getD 1 0) (rule : Rule)
    (hnew : rule._newState < M) (ma : Allocation)
    (m s r n lim : Nat) (pn : List Nat) (prog : RuleCheckProgress)
    (ctxs : List ExtensionContext) (vd vs : List Nat) (out : List OutputItem)
    (h : Ready v s r lim ctxs) :
    ∀ st1, takeCandidate v image rule ma ⟨m, s, r, n, lim, pn, prog, ctxs, vd, vs, out⟩
      = .next st1 → RuleInv v st1 := by
  intro st1 hst
  unfold takeCandidate countCandidates at hst
  simp only [] at hst
  by_cases hp : prog = .NO_EDGES_CHECKED
  · subst hp
    simp only [if_true, true_and] at hst
    by_cases hz : pn.length = 0
    · rw [if_pos hz] at hst
      cases hst
      exact ready_ruleInv v _ h
    · rw [if_neg hz] at hst
      cases pn with
      | nil => cases hst
      | cons c rest =>
        simp only [] at hst
        cases hca : image.allocations[c]? with
        | none => rw [hca] at hst; cases hst
        | some ca =>
          rw [hca] at hst
          exact extendTo_ruleInv v image M ht hpos rule hnew ma c ca _ _ _ _ _ _ _ _ _ _ _ h
            st1 hst
  · simp only [hp, if_false, false_and] at hst
    cases pn with
    | nil => cases hst
    | cons c rest =>
      simp only [] at hst
      cases hca : image.allocations[c]? with
      | none => rw [hca] at hst; cases hst
      | some ca =>
        rw [hca] at hst
        exact extendTo_ruleInv v image M ht hpos rule hnew ma c ca _ _ _ _ _ _ _ _ _ _ _ h
          st1 hst

theorem followOffset_ruleInv (v : ExtendedVisitor) (image : ProcessImage) (M : Nat)
    (ht : TablesOk v M) (hpos : 0 < v._stateToBase.getD 1 0) (rule : Rule)
    (hnew : rule._newState < M) (ma : Allocation)
    (m s r n lim : Nat) (pn : List Nat) (prog : RuleCheckProgress)
    (ctxs : List ExtensionContext) (vd vs : List Nat) (out : List OutputItem)
    (h : Ready v s r lim ctxs) :
    ∀ st1, followOffset v image rule ma ⟨m, s, r, n, lim, pn, prog, ctxs, vd, vs, out⟩
      = .next st1 → RuleInv v st1 := by
  intro st1 hst
  unfold followOffset at hst
  simp only [] at hst
  split at hst
  · cases hst; exact ready_ruleInv v _ h
  · split at hst
    · cases hst; exact ready_ruleInv v _ h
    · split at hst
      · cases hst
      · split at hst
        · cases hst; exact ready_ruleInv v _ h
        · exact extendTo_ruleInv v image M ht hpos rule hnew ma _ _ _ _ _ _ _ _ _ _ _ _ _ h
            st1 hst

theorem followEdges_ruleInv (v : ExtendedVisitor) (image : ProcessImage) (M : Nat)
    (ht : TablesOk v M) (hpos : 0 < v._stateToBase.getD 1 0) (rule : Rule)
    (hnew : rule._newState < M) (ma : Allocation)
    (m s r n lim : Nat) (pn : List Nat) (prog : RuleCheckProgress)
    (ctxs : List ExtensionContext) (vd vs : List Nat) (out : List OutputItem)
    (h : Ready v s r lim ctxs) :
    ∀ st1, followEdges v image rule ma ⟨m, s, r, n, lim, pn, prog, ctxs, vd, vs, out⟩
      = .next st1 → RuleInv v st1 := by
  intro st1 hst
  unfold followEdges at hst
  split at hst
  · cases hst
  · simp only [] at hst
    exact takeCandidate_ruleInv v image M ht hpos rule hnew ma _ _ _ _ _ _ _ _ _ _ _ h st1 hst

theorem applyRule_ruleInv (v : ExtendedVisitor) (image : ProcessImage) (M : Nat)
    (ht : TablesOk v M) (hpos : 0 < v._stateToBase.getD 1 0)
    (m s r n lim : Nat) (pn : List Nat) (prog : RuleCheckProgress)
    (ctxs : List ExtensionContext) (vd vs : List Nat) (out : List OutputItem)
    (h : Ready v s r lim ctxs) :
    ∀ st1, applyRule v image ⟨m, s, r, n, lim, pn, prog, ctxs, vd, vs, out⟩
      = .next st1 → RuleInv v st1 := by
  intro st1 hst
  unfold applyRule at hst
  simp only [] at hst
  split at hst
  · rename_i rule ma hrule hma
    have hnew := (ht.2.2.2.2.2.2 r rule hrule).2.1
    split at hst
    · split at hst
      · cases hst
        exact ready_ruleInv v ⟨m, s, r, n, lim, pn, .RULE_DONE, ctxs, vd, vs, out⟩ h
      · split at hst
        · exact followOffset_ruleInv v image M ht hpos rule hnew ma _ _ _ _ _ _ _ _ _ _ _ h
            st1 hst
        · exact followEdges_ruleInv v image M ht hpos rule hnew ma _ _ _ _ _ _ _ _ _ _ _ h
            st1 hst
    · exact takeCandidate_ruleInv v image M ht hpos rule hnew ma _ _ _ _ _ _ _ _ _ _ _ h
        st1 hst
  · cases hst

theorem resumeContext_ruleInv (v : ExtendedVisitor) (M : Nat) (ht : TablesOk v M)
    (c : ExtensionContext) (rest : List ExtensionContext)
    (m s r n lim : Nat) (pn : List Nat) (prog : RuleCheckProgress)
    (ctxs : List ExtensionContext) (vd vs : List Nat) (out : List OutputItem)
    (hrest : ∀ x ∈ rest, x._ruleIndex < v._rules.length) :
    ∀ st1, resumeContext v c rest ⟨m, s, r, n, lim, pn, prog, ctxs, vd, vs, out⟩
      = .next st1 → RuleInv v st1 := by
  intro st1 hst
  unfold resumeContext at hst
  simp only [] at hst
  split at hst
  · cases hst
  · rename_i rule hrule
    split at hst
    · cases hst
    · rename_i lim1 hlim
      obtain ⟨r1, r2, r3, r4⟩ := ht.2.2.2.2.2.2 _ rule hrule
      have e1 := getElem?_getD _ _ _ hlim
      cases hst
      apply ready_ruleInv
      refine ⟨?_, e1.symm, ?_, hrest⟩
      · simp only []
        have := ht.2.1
        omega
      · simp only []
        omega

theorem visitStep_ruleInv (v : ExtendedVisitor) (image : ProcessImage) (M : Nat)
    (ht : TablesOk v M) (hpos : 0 < v._stateToBase.getD 1 0) (st : VisitState)
    (h : RuleInv v st) :
    ∀ st1, visitStep v image st = .next st1 → RuleInv v st1 := by
  obtain ⟨m, s, r, n, lim, pn, prog, ctxs, vd, vs, out⟩ := st
  have hR := tables_limit v M ht s h.1
  obtain ⟨h1, h2, h3, h4, h5⟩ := h
  simp only [] at h1 h2 h3 h4 h5 hR
  intro st1 hst
  unfold visitStep at hst
  simp only [] at hst
  split at hst
  · rename_i hp
    have hle := h4 hp
    have hmod : (r + 1) % SIZE_LIMIT = r + 1 := Nat.mod_eq_of_lt (by have := ht.2.2.1; omega)
    split at hst
    · cases ctxs with
      | nil => cases hst
      | cons c rest =>
        simp only [] at hst
        exact resumeContext_ruleInv v M ht c rest _ _ _ _ _ _ _ _ _ _ _
          (fun x hx => h5 x (List.mem_cons_of_mem _ hx)) st1 hst
    · rename_i hne
      rw [hmod] at hne hst
      exact applyRule_ruleInv v image M ht hpos _ _ _ _ _ _ _ _ _ _ _
        ⟨h1, h2, by omega, h5⟩ st1 hst
  · rename_i hp
    exact applyRule_ruleInv v image M ht hpos _ _ _ _ _ _ _ _ _ _ _ ⟨h1, h2, h3 hp, h5⟩ st1 hst

theorem visitStart_ruleInv (v : ExtendedVisitor) (M : Nat) (ht : TablesOk v M)
    (hpos : 0 < v._stateToBase.getD 1 0) (seed r0 lim0 : Nat) (log : VisitLog)
    (h0 : v._stateToBase[0]? = some r0) (h1 : v._stateToBase[1]? = some lim0) :
    RuleInv v (visitStart seed r0 lim0 log) := by
  have e0 := getElem?_getD _ _ _ h0
  have e1 := getElem?_getD _ _ _ h1
  obtain ⟨t1, t2, t3, t4, t5, t6, t7⟩ := ht
  refine ⟨?_, ?_, ?_, ?_, ?_⟩
  · simp only [visitStart]; omega
  · simp only [visitStart]; exact e1.symm
  · intro _; simp only [visitStart]; omega
  · intro hp; simp [visitStart] at hp
  · intro c hc; simp [visitStart] at hc

/-- The invariant on the rule index holds at the start of every pass of the loop of
Visit, for a visitor whose tables are in order. -/
theorem Visit_ruleInv (v : ExtendedVisitor) (image : ProcessImage) (M : Nat)
    (ht : TablesOk v M) (hpos : 0 < v._stateToBase.getD 1 0) (seed : Nat) (log : VisitLog) :
    ∀ (k : Nat) (st : VisitState), v.Visit image k seed log = .next st → RuleInv v st :=
  Visit_invariant v image seed log (RuleInv v)
    (fun r0 lim0 h0 h1 _ => visitStart_ruleInv v M ht hpos seed r0 lim0 log h0 h1)
    (fun st st1 h hstep => visitStep_ruleInv v image M ht hpos st h st1 hstep)

theorem ruleInv_read (v : ExtendedVisitor) (M : Nat) (ht : TablesOk v M) (st : VisitState)
    (h : RuleInv v st) : ∀ i, ruleIndexRead st = some i → i < v._rules.length := by
  have hR := tables_limit v M ht st.state h.1
  obtain ⟨h1, h2, h3, h4, h5⟩ := h
  intro i hi
  unfold ruleIndexRead at hi
  split at hi
  · rename_i hp
    have hle := h4 hp
    have hmod : (st.ruleIndex + 1) % SIZE_LIMIT = st.ruleIndex + 1 :=
      Nat.mod_eq_of_lt (by have := ht.2.2.1; omega)
    split at hi
    · split at hi
      · cases hi
      · rename_i c rest hc
        cases hi
        exact h5 c (by rw [hc]; exact List.mem_cons_self _ _)
    · rename_i hne
      cases hi
      rw [hmod] at hne ⊢
      omega
  · rename_i hp
    cases hi
    have := h3 hp
    omega

/-- A pass of the loop of Visit reads the rule array at the index ruleIndexRead: with no
rule at that index the pass has undefined behaviour. -/
theorem visitStep_reads (v : ExtendedVisitor) (image : ProcessImage) (st : VisitState)
    (i : Nat) (hi : ruleIndexRead st = some i) (hnone : v._rules[i]? = none) :
    ∃ st1, visitStep v image st = .fault st1 := by
  unfold ruleIndexRead at hi
  unfold visitStep
  split at hi
  · rename_i hp
    rw [if_pos hp]
    simp only []
    split at hi
    · rename_i he
      rw [if_pos he]
      split at hi
      · cases hi
      · rename_i c rest hc
        cases hi
        rw [hc]
        simp only [resumeContext, hnone]
        exact ⟨_, rfl⟩
    · rename_i hne
      rw [if_neg hne]
      cases hi
      simp only [applyRule, hnone]
      exact ⟨_, rfl⟩
  · rename_i hp
    rw [if_neg hp]
    cases hi
    simp only [applyRule, hnone]
    exact ⟨_, rfl⟩

/-- C38: whenever the engine is enabled, every index used to read the rule array is in
range.  The constructor returns for every command line, so line 226 reads the rule 0
only when a rule exists; for a visitor that the constructor enables, there is a rule,
every state s from 1 on has _stateToBase[s] at least 1, so that the step back of line 541
leaves an index with its successor at most the limit, and in every pass of every call of
Visit the index at which the rule array is read, after a step to the next rule or after
a context is restored, is below the number of rules. -/
theorem rule_indices_in_range (context : Context) (image : ProcessImage) (allow : Bool)
    (hsize : context.GetNumArguments (bytesOf "extend") < SIZE_LIMIT) :
    (∃ v, ExtendedVisitor.new context image allow = some v)
      ∧ ∀ v, ExtendedVisitor.new context image allow = some v → v.IsEnabled = true →
          0 < v._rules.length
          ∧ (∀ s, 1 ≤ s → s < v._stateToBase.length → 1 ≤ v._stateToBase.getD s 0)
          ∧ ∀ (seed k : Nat) (log : VisitLog) (st : VisitState),
              v.Visit image k seed log = .next st →
              (st.ruleCheckProgress = .RULE_DONE → st.ruleIndex + 1 ≤ st.ruleIndexLimit)
              ∧ st.ruleIndexLimit ≤ v._rules.length
              ∧ ∀ i, ruleIndexRead st = some i → i < v._rules.length := by
  constructor
  · by_cases hnum : context.GetNumArguments (bytesOf "extend") = 0
    · exact ⟨_, by unfold ExtendedVisitor.new; rw [if_pos hnum]⟩
    · cases herr : (ExtendedVisitor.compile context image allow)._hasErrors
      · obtain ⟨ht, hlen⟩ := compile_tables context image allow hnum hsize herr
        have hpos : 0 < (ExtendedVisitor.compile context image allow)._rules.length := by
          omega
        unfold ExtendedVisitor.new
        rw [if_neg hnum]
        simp only [herr, Bool.not_false, if_true]
        rw [List.getElem?_eq_getElem hpos]
        simp only []
        split
        · exact ⟨_, rfl⟩
        · exact ⟨_, rfl⟩
      · unfold ExtendedVisitor.new
        rw [if_neg hnum]
        simp only [herr, Bool.not_true, Bool.false_eq_true, if_false]
        exact ⟨_, rfl⟩
  · intro v hv hen
    obtain ⟨ht, hpos, hlen, hnum, -⟩ := enabled_tables context image allow v hv hen hsize
    refine ⟨by omega, ?_, ?_⟩
    · intro s h1 hs
      have := ht.2.2.2.1 1 s h1 (by have := ht.2.1; omega)
      omega
    · intro seed k log st hrun
      have hinv := Visit_ruleInv v image _ ht hpos seed log k st hrun
      refine ⟨hinv.2.2.2.1, ?_, ruleInv_read v _ ht st hinv⟩
      rw [hinv.2.1]
      exact tables_limit v _ ht st.state hinv.1

set_option maxRecDepth 100000 in
theorem rule_indices_in_range_witness :
    plainContext.GetNumArguments (bytesOf "extend") < SIZE_LIMIT
      ∧ plainVisitor.Visit cycleImage 4 0 ⟨[], [], []⟩
          = .next (plainVisitor.Visit cycleImage 4 0 ⟨[], [], []⟩).state
      ∧ ruleIndexRead (plainVisitor.Visit cycleImage 4 0 ⟨[], [], []⟩).state = some 0
      ∧ ∀ i, ruleIndexRead (plainVisitor.Visit cycleImage 4 0 ⟨[], [], []⟩).state = some i →
          i < plainVisitor._rules.length :=
  ⟨by decide, by decide, by decide,
    (((rule_indices_in_range plainContext cycleImage false (by decide)).2 plainVisitor
      (Option.some_get _).symm (by decide)).2.2 0 4 ⟨[], [], []⟩ _ (by decide)).2.2⟩

end Allocations

namespace Allocations

open Commands

theorem later_le (R r w : Nat) : (R - (r + 1)) * w ≤ R * w :=
  Nat.mul_le_mul_right _ (Nat.sub_le _ _)

theorem later_add (R r w : Nat) (h : r < R) : (R - (r + 1)) * w + w ≤ R * w := by
  have h1 : (R - (r + 1)) * w + w = (R - (r + 1) + 1) * w := by rw [Nat.succ_mul]
  rw [h1]
  exact Nat.mul_le_mul_right _ (by omega)

theorem later_succ (R r w : Nat) (h : r + 1 < R) :
    (R - (r + 1)) * w = (R - (r + 1 + 1)) * w + w := by
  have h1 : R - (r + 1) = (R - (r + 1 + 1)) + 1 := by omega
  rw [h1, Nat.succ_mul]

theorem unvisitedWork_cons (v : ExtendedVisitor) (N : Nat) (visited : List Nat) (c : Nat)
    (hc : visited.contains c = false) (hN : c < N) :
    unvisitedWork v N (c :: visited) + (v._rules.length * edgeWeight (visitorGraph v) c + 1)
      ≤ unvisitedWork v N visited := by
  refine filter_sum_drop (fun u => v._rules.length * edgeWeight (visitorGraph v) u + 1) _ _ ?_
    c ?_ ?_ (List.range N) (List.mem_range.mpr hN)
  · intro u hu
    have h1 : u ∉ c :: visited := by simpa using hu
    have h2 : u ∉ visited := fun h => h1 (List.mem_cons_of_mem _ h)
    simpa using h2
  · simp
  · simpa using hc

theorem progressWork_start (v : ExtendedVisitor) (c r : Nat) (prog : RuleCheckProgress)
    (pn : List Nat) (hprog : prog = .NEW_RULE ∨ prog = .RULE_DONE)
    (hr : prog = .NEW_RULE → r < v._rules.length) :
    progressWork v c r prog pn ≤ v._rules.length * edgeWeight (visitorGraph v) c + 1 := by
  unfold progressWork laterWork
  rcases hprog with h | h
  · subst h
    have := later_add v._rules.length r (edgeWeight (visitorGraph v) c) (hr rfl)
    simp only []
    omega
  · subst h
    have := later_le v._rules.length r (edgeWeight (visitorGraph v) c)
    simp only []
    omega

theorem extendTo_count (v : ExtendedVisitor) (image : ProcessImage) (M : Nat)
    (ht : TablesOk v M) (hpos : 0 < v._stateToBase.getD 1 0) (rule : Rule)
    (hnew : rule._newState < M) (ma : Allocation) (c : Nat) (ca : Allocation)
    (m s r n lim : Nat) (pn : List Nat) (prog : RuleCheckProgress)
    (ctxs : List ExtensionContext) (vd vs : List Nat) (out : List OutputItem)
    (hca : image.allocations[c]? = some ca)
    (h : Ready v s r lim ctxs)
    (hprog : prog = .IN_PROGRESS ∨ prog = .RULE_DONE)
    (hcand : CandidatesOk v prog n pn r)
    (hframes : ∀ f ∈ ctxs, FrameOk v f) :
    ∀ st1, extendTo v image rule ma c ca ⟨m, s, r, n, lim, pn, prog, ctxs, vd, vs, out⟩
        = .next st1 →
      CountInv v st1
        ∧ passBound v image.allocations.length st1
            ≤ unvisitedWork v image.allocations.length vd + progressWork v m r prog pn
              + stackWork v ctxs
        ∧ Pushed ctxs m r lim st1.extensionContexts := by
  intro st1 hst
  have hinv1 := extendTo_ruleInv v image M ht hpos rule hnew ma c ca m s r n lim pn prog ctxs
    vd vs out h st1 hst
  have hlimR := tables_limit v M ht st1.state hinv1.1
  have hR := tables_limit v M ht s h.1
  have hcN : c < image.allocations.length := by
    by_contra hc
    rw [List.getElem?_eq_none (by omega)] at hca
    cases hca
  have hstay : CountInv v ⟨m, s, r, n, lim, pn, prog, ctxs, vd, vs, out⟩ :=
    ⟨by rcases hprog with hp | hp <;> simp [hp], hcand, hframes⟩
  have hprogNE : prog ≠ .NO_EDGES_CHECKED := hstay.1
  obtain ⟨g1, g2, g3, g4⟩ := h
  have hSL := ht.2.2.1
  unfold extendTo at hst
  simp only [] at hst
  split at hst
  · cases hst
    exact ⟨hstay, Nat.le_refl _, Or.inl rfl⟩
  · split at hst
    · cases hst
    · cases hst
      exact ⟨hstay, Nat.le_refl _, Or.inl rfl⟩
    · split at hst
      · cases hst
        exact ⟨⟨hprogNE, hcand, hframes⟩, Nat.le_refl _, Or.inl rfl⟩
      · rename_i hnc1 _ _ hnc2
        have hvis : vd.contains c = false := by
          cases hav : vd.contains c
          · rfl
          · exfalso
            cases hce : v._commentExtensions
            · rw [hce, hav] at hnc1; exact hnc1 rfl
            · rw [hce, hav] at hnc2; exact hnc2 rfl
        split at hst
        · rename_i r0 lim0 hr0 hl0
          cases hst
          obtain ⟨i1, i2, i3, i4, i5⟩ := hinv1
          simp only [] at i1 i2 i3 i4 i5 hlimR
          have hU := unvisitedWork_cons v image.allocations.length vd c hvis hcN
          have hpush : Pushed ctxs m r lim (if prog ≠ .RULE_DONE ∨ (r + 1) % SIZE_LIMIT ≠ lim
              then ({ _memberIndex := m, _ruleIndex := r, _numCandidatesLeft := n,
                      _ruleCheckProgress := prog, _pNextCandidate := pn } : ExtensionContext)
                :: ctxs
              else ctxs) := by
            split
            · rename_i hcond
              refine Or.inr ⟨_, rfl, rfl, rfl, ?_⟩
              rcases hprog with hp | hp
              · exact Or.inl ⟨hp, (hcand hp).1, (hcand hp).2.1⟩
              · refine Or.inr ⟨hp, ?_⟩
                rcases hcond with hc | hc
                · exact absurd hp hc
                · rw [Nat.mod_eq_of_lt (by omega)] at hc
                  omega
            · exact Or.inl rfl
          have hS : stackWork v (if prog ≠ .RULE_DONE ∨ (r + 1) % SIZE_LIMIT ≠ lim
              then ({ _memberIndex := m, _ruleIndex := r, _numCandidatesLeft := n,
                      _ruleCheckProgress := prog, _pNextCandidate := pn } : ExtensionContext)
                :: ctxs
              else ctxs) ≤ progressWork v m r prog pn + stackWork v ctxs := by
            split
            · simp [stackWork, contextWork]
            · omega
          have hF : ∀ f ∈ (if prog ≠ .RULE_DONE ∨ (r + 1) % SIZE_LIMIT ≠ lim
              then ({ _memberIndex := m, _ruleIndex := r, _numCandidatesLeft := n,
                      _ruleCheckProgress := prog, _pNextCandidate := pn } : ExtensionContext)
                :: ctxs
              else ctxs), FrameOk v f := by
            intro f hf
            split at hf
            · rcases List.mem_cons.mp hf with rfl | hf
              · exact ⟨hprog, hcand⟩
              · exact hframes f hf
            · exact hframes f hf
          have hW := progressWork_start v c
            (if r0 ≠ lim0 then r0 else (r0 + SIZE_LIMIT - 1) % SIZE_LIMIT)
            (if r0 ≠ lim0 then .NEW_RULE else .RULE_DONE) pn
            (by split <;> simp)
            (by
              intro hp
              have := i3 (by rw [hp]; simp)
              omega)
          refine ⟨⟨?_, ?_, hF⟩, ?_, hpush⟩
          · simp only []
            split <;> simp
          · simp only []
            intro hp
            split at hp <;> cases hp
          · simp only [passBound]
            omega
        · cases hst

theorem pred_mod (k : Nat) (h : k + 1 < SIZE_LIMIT) :
    (k + 1 + SIZE_LIMIT - 1) % SIZE_LIMIT = k := by
  have : k + 1 + SIZE_LIMIT - 1 = k + SIZE_LIMIT := by omega
  rw [this, Nat.add_mod_right, Nat.mod_eq_of_lt (by omega)]

theorem taken_candidates (v : ExtendedVisitor) (r c : Nat) (rest : List Nat)
    (hlen : (c :: rest).length < SIZE_LIMIT) (hedge : EdgeRuleAt v r) (n1 : Nat)
    (hn1 : ((c :: rest).length + SIZE_LIMIT - 1) % SIZE_LIMIT = n1) :
    ((if n1 = 0 then RuleCheckProgress.RULE_DONE else RuleCheckProgress.IN_PROGRESS)
          = .IN_PROGRESS
        ∨ (if n1 = 0 then RuleCheckProgress.RULE_DONE else RuleCheckProgress.IN_PROGRESS)
          = .RULE_DONE)
      ∧ CandidatesOk v (if n1 = 0 then .RULE_DONE else .IN_PROGRESS) n1 rest r
      ∧ ∀ m, progressWork v m r (if n1 = 0 then .RULE_DONE else .IN_PROGRESS) rest
          ≤ laterWork v m r + rest.length + 1 := by
  simp only [List.length_cons] at hlen hn1
  rw [pred_mod rest.length hlen] at hn1
  subst hn1
  refine ⟨?_, ?_, ?_⟩
  · split
    · exact Or.inr rfl
    · exact Or.inl rfl
  · intro hp
    split at hp
    · cases hp
    · rename_i hne
      refine ⟨?_, rfl, by omega, hedge⟩
      intro hnil
      rw [hnil] at hne
      exact hne rfl
  · intro m
    unfold progressWork
    by_cases hz : rest.length = 0
    · simp only [hz, if_true]
      omega
    · simp only [hz, if_false]
      omega

theorem takeCandidate_count (v : ExtendedVisitor) (image : ProcessImage) (M : Nat)
    (ht : TablesOk v M) (hpos : 0 < v._stateToBase.getD 1 0) (rule : Rule)
    (hnew : rule._newState < M) (ma : Allocation)
    (m s r n lim : Nat) (pn : List Nat) (prog : RuleCheckProgress)
    (ctxs : List ExtensionContext) (vd vs : List Nat) (out : List OutputItem)
    (h : Ready v s r lim ctxs)
    (hentry : (prog = .NO_EDGES_CHECKED ∧ pn.length < SIZE_LIMIT ∧ EdgeRuleAt v r)
      ∨ (prog = .IN_PROGRESS ∧ CandidatesOk v prog n pn r))
    (hframes : ∀ f ∈ ctxs, FrameOk v f) :
    ∀ st1, takeCandidate v image rule ma ⟨m, s, r, n, lim, pn, prog, ctxs, vd, vs, out⟩
        = .next st1 →
      CountInv v st1
        ∧ passBound v image.allocations.length st1 + 1
            ≤ unvisitedWork v image.allocations.length vd + progressWork v m r prog pn
              + stackWork v ctxs
        ∧ Pushed ctxs m r lim st1.extensionContexts := by
  intro st1 hst
  unfold takeCandidate countCandidates at hst
  simp only [] at hst
  rcases hentry with ⟨hp, hlen, hedge⟩ | ⟨hp, hc⟩
  · subst hp
    simp only [if_true, true_and] at hst
    by_cases hz : pn.length = 0
    · rw [if_pos hz] at hst
      cases hst
      refine ⟨⟨by simp, by unfold CandidatesOk; simp, hframes⟩, ?_, Or.inl rfl⟩
      simp only [passBound, progressWork]
      omega
    · rw [if_neg hz] at hst
      cases pn with
      | nil => cases hst
      | cons c rest =>
        simp only [] at hst
        cases hca : image.allocations[c]? with
        | none => rw [hca] at hst; cases hst
        | some ca =>
          rw [hca] at hst
          simp only [] at hst
          generalize hn1 : ((c :: rest).length + SIZE_LIMIT - 1) % SIZE_LIMIT = n1 at hst
          obtain ⟨k1, k2, k3⟩ := taken_candidates v r c rest hlen hedge n1 hn1
          obtain ⟨a1, a2, a3⟩ := extendTo_count v image M ht hpos rule hnew ma c ca _ _ _ _ _ _ _
            _ _ _ _ hca h k1 k2 hframes st1 hst
          refine ⟨a1, ?_, a3⟩
          have := k3 m
          simp only [progressWork, List.length_cons] at a2 ⊢
          simp only [progressWork] at this
          omega
  · have hpn := hc hp
    subst hp
    simp only [reduceCtorEq, if_false, false_and] at hst
    cases pn with
    | nil => exact absurd rfl hpn.1
    | cons c rest =>
      simp only [] at hst
      cases hca : image.allocations[c]? with
      | none => rw [hca] at hst; cases hst
      | some ca =>
        rw [hca] at hst
        simp only [] at hst
        obtain ⟨-, hn, hlen, hedge⟩ := hpn
        subst hn
        generalize hn1 : ((c :: rest).length + SIZE_LIMIT - 1) % SIZE_LIMIT = n1 at hst
        obtain ⟨k1, k2, k3⟩ := taken_candidates v r c rest hlen hedge n1 hn1
        obtain ⟨a1, a2, a3⟩ := extendTo_count v image M ht hpos rule hnew ma c ca _ _ _ _ _ _ _
          _ _ _ _ hca h k1 k2 hframes st1 hst
        refine ⟨a1, ?_, a3⟩
        have := k3 m
        simp only [progressWork, List.length_cons] at a2 ⊢
        simp only [progressWork] at this
        omega

theorem followOffset_count (v : ExtendedVisitor) (image : ProcessImage) (M : Nat)
    (ht : TablesOk v M) (hpos : 0 < v._stateToBase.getD 1 0) (rule : Rule)
    (hnew : rule._newState < M) (ma : Allocation)
    (m s r n lim : Nat) (pn : List Nat) (prog : RuleCheckProgress)
    (ctxs : List ExtensionContext) (vd vs : List Nat) (out : List OutputItem)
    (h : Ready v s r lim ctxs)
    (hframes : ∀ f ∈ ctxs, FrameOk v f) :
    ∀ st1, followOffset v image rule ma ⟨m, s, r, n, lim, pn, prog, ctxs, vd, vs, out⟩
        = .next st1 →
      CountInv v st1
        ∧ passBound v image.allocations.length st1 + 1
            ≤ unvisitedWork v image.allocations.length vd + progressWork v m r .NEW_RULE pn
              + stackWork v ctxs
        ∧ Pushed ctxs m r lim st1.extensionContexts := by
  intro st1 hst
  have hdone : CountInv v ⟨m, s, r, n, lim, pn, .RULE_DONE, ctxs, vd, vs, out⟩
      ∧ passBound v image.allocations.length
            ⟨m, s, r, n, lim, pn, .RULE_DONE, ctxs, vd, vs, out⟩ + 1
          ≤ unvisitedWork v image.allocations.length vd + progressWork v m r .NEW_RULE pn
            + stackWork v ctxs
      ∧ Pushed ctxs m r lim ctxs := by
    refine ⟨⟨by simp, by unfold CandidatesOk; simp, hframes⟩, ?_, Or.inl rfl⟩
    simp only [passBound, progressWork, edgeWeight]
    omega
  unfold followOffset at hst
  simp only [] at hst
  split at hst
  · cases hst; exact hdone
  · split at hst
    · cases hst; exact hdone
    · split at hst
      · cases hst
      · rename_i ca hca
        split at hst
        · cases hst; exact hdone
        · obtain ⟨a1, a2, a3⟩ := extendTo_count v image M ht hpos rule hnew ma _ ca _ _ _ _ _ _ _
            _ _ _ _ hca h (Or.inr rfl) (by unfold CandidatesOk; simp) hframes st1 hst
          refine ⟨a1, ?_, a3⟩
          simp only [progressWork, edgeWeight] at a2 ⊢
          omega

theorem followEdges_count (v : ExtendedVisitor) (image : ProcessImage) (M : Nat)
    (ht : TablesOk v M) (hpos : 0 < v._stateToBase.getD 1 0) (rule : Rule)
    (hnew : rule._newState < M) (ma : Allocation)
    (m s r n lim : Nat) (pn : List Nat) (prog : RuleCheckProgress)
    (ctxs : List ExtensionContext) (vd vs : List Nat) (out : List OutputItem)
    (h : Ready v s r lim ctxs)
    (hshort : ∀ i, ((visitorGraph v).GetOutgoing i).length < SIZE_LIMIT
      ∧ ((visitorGraph v).GetIncoming i).length < SIZE_LIMIT)
    (hedge : EdgeRuleAt v r)
    (hframes : ∀ f ∈ ctxs, FrameOk v f) :
    ∀ st1, followEdges v image rule ma ⟨m, s, r, n, lim, pn, prog, ctxs, vd, vs, out⟩
        = .next st1 →
      CountInv v st1
        ∧ passBound v image.allocations.length st1 + 1
            ≤ unvisitedWork v image.allocations.length vd + progressWork v m r .NEW_RULE pn
              + stackWork v ctxs
        ∧ Pushed ctxs m r lim st1.extensionContexts := by
  intro st1 hst
  unfold followEdges at hst
  split at hst
  · cases hst
  · rename_i graph hg
    have hvg : visitorGraph v = graph := by simp [visitorGraph, hg]
    rw [hvg] at hshort
    simp only [] at hst
    have hlen : (if rule._referenceIsOutgoing = true then graph.GetOutgoing m
        else graph.GetIncoming m).length < SIZE_LIMIT := by
      split
      · exact (hshort m).1
      · exact (hshort m).2
    have hle : (if rule._referenceIsOutgoing = true then graph.GetOutgoing m
        else graph.GetIncoming m).length + 1 ≤ edgeWeight graph m := by
      unfold edgeWeight
      split <;> omega
    obtain ⟨a1, a2, a3⟩ := takeCandidate_count v image M ht hpos rule hnew ma _ _ _ _ _ _ _ _ _
      _ _ h (Or.inl ⟨rfl, hlen, hedge⟩) hframes st1 hst
    refine ⟨a1, ?_, a3⟩
    simp only [progressWork, hvg] at a2 ⊢
    omega

theorem applyRule_count (v : ExtendedVisitor) (image : ProcessImage) (M : Nat)
    (ht : TablesOk v M) (hpos : 0 < v._stateToBase.getD 1 0)
    (m s r n lim : Nat) (pn : List Nat) (prog : RuleCheckProgress)
    (ctxs : List ExtensionContext) (vd vs : List Nat) (out : List OutputItem)
    (h : Ready v s r lim ctxs)
    (hshort : ∀ i, ((visitorGraph v).GetOutgoing i).length < SIZE_LIMIT
      ∧ ((visitorGraph v).GetIncoming i).length < SIZE_LIMIT)
    (hprog : prog = .NEW_RULE ∨ prog = .IN_PROGRESS)
    (hcand : CandidatesOk v prog n pn r)
    (hframes : ∀ f ∈ ctxs, FrameOk v f) :
    ∀ st1, applyRule v image ⟨m, s, r, n, lim, pn, prog, ctxs, vd, vs, out⟩ = .next st1 →
      CountInv v st1
        ∧ passBound v image.allocations.length st1 + 1
            ≤ unvisitedWork v image.allocations.length vd + progressWork v m r prog pn
              + stackWork v ctxs
        ∧ Pushed ctxs m r lim st1.extensionContexts := by
  intro st1 hst
  unfold applyRule at hst
  simp only [] at hst
  split at hst
  · rename_i rule ma hrule hma
    have hnew := (ht.2.2.2.2.2.2 r rule hrule).2.1
    split at hst
    · rename_i hp
      subst hp
      split at hst
      · cases hst
        refine ⟨⟨by simp, by unfold CandidatesOk; simp, hframes⟩, ?_, Or.inl rfl⟩
        simp only [passBound, progressWork, edgeWeight]
        omega
      · split at hst
        · exact followOffset_count v image M ht hpos rule hnew ma _ _ _ _ _ _ _ _ _ _ _ h
            hframes st1 hst
        · rename_i hoff
          exact followEdges_count v image M ht hpos rule hnew ma _ _ _ _ _ _ _ _ _ _ _ h
            hshort ⟨rule, hrule, by simpa using hoff⟩ hframes st1 hst
    · rename_i hp
      have hp1 : prog = .IN_PROGRESS := by
        rcases hprog with h1 | h1
        · exact absurd h1 hp
        · exact h1
      exact takeCandidate_count v image M ht hpos rule hnew ma _ _ _ _ _ _ _ _ _ _ _ h
        (Or.inr ⟨hp1, hcand⟩) hframes st1 hst
  · cases hst

theorem resumeContext_count (v : ExtendedVisitor) (N : Nat)
    (c : ExtensionContext) (rest : List ExtensionContext)
    (m s r n lim : Nat) (pn : List Nat) (prog : RuleCheckProgress)
    (ctxs : List ExtensionContext) (vd vs : List Nat) (out : List OutputItem)
    (hc : FrameOk v c) (hrest : ∀ f ∈ rest, FrameOk v f) :
    ∀ st1, resumeContext v c rest ⟨m, s, r, n, lim, pn, prog, ctxs, vd, vs, out⟩
        = .next st1 →
      CountInv v st1
        ∧ passBound v N st1 = unvisitedWork v N vd + contextWork v c + stackWork v rest
        ∧ st1.extensionContexts = rest := by
  intro st1 hst
  unfold resumeContext at hst
  simp only [] at hst
  split at hst
  · cases hst
  · split at hst
    · cases hst
    · cases hst
      refine ⟨⟨?_, hc.2, hrest⟩, rfl, rfl⟩
      simp only []
      rcases hc.1 with h1 | h1 <;> rw [h1] <;> simp

theorem visitStep_count (v : ExtendedVisitor) (image : ProcessImage) (M : Nat)
    (ht : TablesOk v M) (hpos : 0 < v._stateToBase.getD 1 0)
    (hshort : ∀ i, ((visitorGraph v).GetOutgoing i).length < SIZE_LIMIT
      ∧ ((visitorGraph v).GetIncoming i).length < SIZE_LIMIT)
    (st : VisitState) (hrule : RuleInv v st) (hcount : CountInv v st) :
    ∀ st1, visitStep v image st = .next st1 →
      CountInv v st1
        ∧ passBound v image.allocations.length st1 + 1 ≤ passBound v image.allocations.length st
        ∧ StackStep st st1 := by
  obtain ⟨m, s, r, n, lim, pn, prog, ctxs, vd, vs, out⟩ := st
  have hR := tables_limit v M ht s hrule.1
  obtain ⟨h1, h2, h3, h4, h5⟩ := hrule
  obtain ⟨c1, c2, c3⟩ := hcount
  simp only [] at h1 h2 h3 h4 h5 hR c1 c2 c3
  have hSL := ht.2.2.1
  intro st1 hst
  unfold visitStep at hst
  simp only [] at hst
  split at hst
  · rename_i hp
    subst hp
    have hle := h4 rfl
    have hmod : (r + 1) % SIZE_LIMIT = r + 1 := Nat.mod_eq_of_lt (by omega)
    split at hst
    · cases ctxs with
      | nil => cases hst
      | cons c rest =>
        simp only [] at hst
        obtain ⟨a1, a2, a3⟩ := resumeContext_count v image.allocations.length c rest _ _ _ _ _
          _ _ _ _ _ _ (c3 c (List.mem_cons_self _ _))
          (fun f hf => c3 f (List.mem_cons_of_mem _ hf)) st1 hst
        refine ⟨a1, ?_, Or.inl ⟨c, by simp only []; rw [a3]⟩⟩
        rw [a2]
        simp only [passBound, progressWork, stackWork, List.map_cons, List.sum_cons]
        omega
    · rename_i hne
      rw [hmod] at hne hst
      obtain ⟨a1, a2, a3⟩ := applyRule_count v image M ht hpos _ _ _ _ _ _ _ _ _ _ _
        ⟨h1, h2, by omega, h5⟩ hshort (Or.inl rfl) (by unfold CandidatesOk; simp) c3 st1 hst
      refine ⟨a1, ?_, Or.inr ?_⟩
      · have := later_succ v._rules.length r (edgeWeight (visitorGraph v) m) (by omega)
        simp only [passBound, progressWork, laterWork] at a2 ⊢
        omega
      · simp only [stepRuleIndex, if_true, hmod]
        exact a3
  · rename_i hp
    have hprog : prog = .NEW_RULE ∨ prog = .IN_PROGRESS := by
      cases prog
      · exact Or.inl rfl
      · exact absurd rfl c1
      · exact Or.inr rfl
      · exact absurd rfl hp
    obtain ⟨a1, a2, a3⟩ := applyRule_count v image M ht hpos _ _ _ _ _ _ _ _ _ _ _
      ⟨h1, h2, h3 hp, h5⟩ hshort hprog c2 c3 st1 hst
    refine ⟨a1, a2, Or.inr ?_⟩
    simp only [stepRuleIndex, hp, if_false]
    exact a3

theorem visitStart_countInv (v : ExtendedVisitor) (seed r0 lim0 : Nat) (log : VisitLog) :
    CountInv v (visitStart seed r0 lim0 log) := by
  refine ⟨by simp [visitStart], ?_, ?_⟩
  · unfold CandidatesOk
    simp [visitStart]
  · intro c hc
    simp [visitStart] at hc

/-- The invariants on the rule index and on the candidates hold at the start of every
pass of the loop of Visit, for a visitor whose tables are in order and a graph whose edge
lists are shorter than 2^64. -/
theorem Visit_countInv (v : ExtendedVisitor) (image : ProcessImage) (M : Nat)
    (ht : TablesOk v M) (hpos : 0 < v._stateToBase.getD 1 0)
    (hshort : ∀ i, ((visitorGraph v).GetOutgoing i).length < SIZE_LIMIT
      ∧ ((visitorGraph v).GetIncoming i).length < SIZE_LIMIT)
    (seed : Nat) (log : VisitLog) :
    ∀ (k : Nat) (st : VisitState), v.Visit image k seed log = .next st →
      RuleInv v st ∧ CountInv v st :=
  Visit_invariant v image seed log (fun st => RuleInv v st ∧ CountInv v st)
    (fun r0 lim0 h0 h1 _ =>
      ⟨visitStart_ruleInv v M ht hpos seed r0 lim0 log h0 h1,
        visitStart_countInv v seed r0 lim0 log⟩)
    (fun st st1 h hstep =>
      ⟨visitStep_ruleInv v image M ht hpos st h.1 st1 hstep,
        (visitStep_count v image M ht hpos hshort st h.1 h.2 st1 hstep).1⟩)

theorem visitorGraph_short (v : ExtendedVisitor) (image : ProcessImage)
    (hg : v._graph = image.GetAllocationGraph)
    (hshort : ∀ g, image.GetAllocationGraph = some g →
      ∀ i, (g.GetOutgoing i).length < SIZE_LIMIT ∧ (g.GetIncoming i).length < SIZE_LIMIT) :
    ∀ i, ((visitorGraph v).GetOutgoing i).length < SIZE_LIMIT
      ∧ ((visitorGraph v).GetIncoming i).length < SIZE_LIMIT := by
  intro i
  unfold visitorGraph
  cases hgr : v._graph with
  | none => simp [emptyGraph, SIZE_LIMIT]
  | some g =>
    simp only [Option.getD_some]
    exact hshort g (by rw [← hg, hgr]) i

/-- With a single rule, which is an outgoing rule with an offset in the member, the stack
of contexts is empty at the start of every pass of the loop of Visit. -/
theorem Visit_stack_empty (v : ExtendedVisitor) (image : ProcessImage) (M : Nat)
    (ht : TablesOk v M) (hpos : 0 < v._stateToBase.getD 1 0)
    (hshort : ∀ i, ((visitorGraph v).GetOutgoing i).length < SIZE_LIMIT
      ∧ ((visitorGraph v).GetIncoming i).length < SIZE_LIMIT)
    (hone : v._rules.length = 1)
    (hoff : ∀ rule ∈ v._rules,
      rule._referenceIsOutgoing = true ∧ rule._useOffsetInMember = true)
    (seed : Nat) (log : VisitLog) :
    ∀ (k : Nat) (st : VisitState), v.Visit image k seed log = .next st →
      (RuleInv v st ∧ CountInv v st) ∧ st.extensionContexts = [] := by
  apply Visit_invariant v image seed log
    (fun st => (RuleInv v st ∧ CountInv v st) ∧ st.extensionContexts = [])
  · intro r0 lim0 h0 h1 _
    exact ⟨⟨visitStart_ruleInv v M ht hpos seed r0 lim0 log h0 h1,
      visitStart_countInv v seed r0 lim0 log⟩, rfl⟩
  · intro st st1 h hstep
    obtain ⟨⟨hr, hc⟩, he⟩ := h
    obtain ⟨a1, _, a3⟩ := visitStep_count v image M ht hpos hshort st hr hc st1 hstep
    refine ⟨⟨visitStep_ruleInv v image M ht hpos st hr st1 hstep, a1⟩, ?_⟩
    rcases a3 with ⟨c, hpop⟩ | hsame | ⟨c, hpush, _, _, hwork⟩
    · rw [he] at hpop
      cases hpop
    · rw [hsame, he]
    · exfalso
      have hmem : c ∈ st1.extensionContexts := by rw [hpush]; exact List.mem_cons_self _ _
      rcases hwork with ⟨hp, _, _⟩ | ⟨_, hlt⟩
      · obtain ⟨rule, hrule, hfalse⟩ := ((a1.2.2 c hmem).2 hp).2.2.2
        obtain ⟨o1, o2⟩ := hoff rule (List.getElem?_mem hrule)
        rw [o1, o2] at hfalse
        cases hfalse
      · have hlim := tables_limit v M ht st.state hr.1
        rw [← hr.2.1, hone] at hlim
        omega

/-- C33: during Visit a context is pushed for the current member only when that member
still has untried candidates for the current rule or untried rules in the current state.
When a pass of the loop, from the state st, leaves one more context on the stack, the
context is for the member and the rule index of the pass, and either the candidates left
in it are a non-empty end of the edge list of the member for the rule, as many as
_numCandidatesLeft says, or the rule is done and the next rule index is below the limit
of the state; no pass pushes more than one context.  So with a single rule, which is an
outgoing rule with an offset in the member, the stack is empty at the start of every
pass.  The visitor is one that its constructor enabled, and an edge list is shorter than
2^64. -/
theorem frames_pushed_only_with_work (context : Context) (image : ProcessImage)
    (allow : Bool) (v : ExtendedVisitor)
    (hv : ExtendedVisitor.new context image allow = some v) (hen : v.IsEnabled = true)
    (hsize : context.GetNumArguments (bytesOf "extend") < SIZE_LIMIT)
    (hshort : ∀ g, image.GetAllocationGraph = some g →
      ∀ i, (g.GetOutgoing i).length < SIZE_LIMIT ∧ (g.GetIncoming i).length < SIZE_LIMIT)
    (seed k : Nat) (log : VisitLog) (st : VisitState)
    (hrun : v.Visit image k seed log = .next st) :
    (∀ st1 c, v.Visit image (k + 1) seed log = .next st1 →
        st1.extensionContexts = c :: st.extensionContexts →
        c._memberIndex = st.memberIndex ∧ c._ruleIndex = stepRuleIndex st
          ∧ st.ruleIndexLimit = v._stateToBase.getD (st.state + 1) 0
          ∧ ((c._ruleCheckProgress = .IN_PROGRESS ∧ c._pNextCandidate ≠ []
                ∧ c._numCandidatesLeft = c._pNextCandidate.length
                ∧ ∃ rule, v._rules[c._ruleIndex]? = some rule
                    ∧ c._pNextCandidate <:+ edgesOf v rule c._memberIndex)
            ∨ (c._ruleCheckProgress = .RULE_DONE
                ∧ stepRuleIndex st + 1 < st.ruleIndexLimit)))
      ∧ (∀ st1, v.Visit image (k + 1) seed log = .next st1 →
          st1.extensionContexts.length ≤ st.extensionContexts.length + 1)
      ∧ (v._rules.length = 1 →
          (∀ rule ∈ v._rules,
            rule._referenceIsOutgoing = true ∧ rule._useOffsetInMember = true) →
          st.extensionContexts = []) := by
  obtain ⟨ht, hpos, -, -, hg, -⟩ := enabled_tables context image allow v hv hen hsize
  have hs := visitorGraph_short v image hg hshort
  obtain ⟨hr, hc⟩ := Visit_countInv v image _ ht hpos hs seed log k st hrun
  have hsucc := Visit_succ v image k seed log st hrun
  refine ⟨?_, ?_, ?_⟩
  · intro st1 c hrun1 hctx
    rw [hsucc] at hrun1
    obtain ⟨a1, _, a3⟩ := visitStep_count v image _ ht hpos hs st hr hc st1 hrun1
    have hedge := (Visit_edgeInv v image (k + 1) seed log st1 (by rw [hsucc]; exact hrun1)).2
    rcases a3 with ⟨c1, hpop⟩ | hsame | ⟨c1, hpush, hm, hi, hwork⟩
    · have := congrArg List.length hpop
      have h2 := congrArg List.length hctx
      simp only [List.length_cons] at this h2
      omega
    · have h2 := congrArg List.length (hsame.symm.trans hctx)
      simp only [List.length_cons] at h2
      omega
    · rw [hpush] at hctx
      simp only [List.cons.injEq, and_true] at hctx
      subst hctx
      refine ⟨hm, hi, hr.2.1, ?_⟩
      rcases hwork with ⟨hp, hne, hn⟩ | ⟨hp, hlt⟩
      · refine Or.inl ⟨hp, hne, hn, ?_⟩
        exact hedge c1 (by rw [hpush]; exact List.mem_cons_self _ _) (Or.inl hp)
      · exact Or.inr ⟨hp, hlt⟩
  · intro st1 hrun1
    rw [hsucc] at hrun1
    obtain ⟨_, _, a3⟩ := visitStep_count v image _ ht hpos hs st hr hc st1 hrun1
    rcases a3 with ⟨c1, hpop⟩ | hsame | ⟨c1, hpush, _⟩
    · rw [hpop]
      simp only [List.length_cons]
      omega
    · rw [hsame]
      omega
    · rw [hpush]
      simp
  · intro hone hoff
    exact (Visit_stack_empty v image _ ht hpos hs hone hoff seed log k st hrun).2

set_option maxRecDepth 100000 in
theorem frames_pushed_only_with_work_witness :
    chainVisitor._rules.map (fun rule =>
        (rule._referenceIsOutgoing, rule._useOffsetInMember, rule._offsetInMember))
      = [(true, true, 8)]
    ∧ (match chainVisitor.Visit chainImage 4 0 ⟨[], [], []⟩ with
        | .done st => some st.visits
        | _ => none) = some [0, 1, 2]
    ∧ (chainVisitor.Visit chainImage 2 0 ⟨[], [], []⟩).state.memberIndex = 2
    ∧ (chainVisitor.Visit chainImage 2 0 ⟨[], [], []⟩).state.extensionContexts = [] :=
  ⟨by decide, by decide, by decide,
    (frames_pushed_only_with_work chainContext chainImage false chainVisitor
      (Option.some_get _).symm (by decide) (by decide)
      (fun g hg i => by
        have h : g = emptyGraph := (Option.some.inj hg).symm
        subst h
        exact ⟨by simp [emptyGraph, SIZE_LIMIT], by simp [emptyGraph, SIZE_LIMIT]⟩)
      0 2 ⟨[], [], []⟩ (chainVisitor.Visit chainImage 2 0 ⟨[], [], []⟩).state
      (by decide)).2.2 (by decide)
      (by
        intro rule hrule
        have h : chainVisitor._rules.map (fun rule =>
            (rule._referenceIsOutgoing, rule._useOffsetInMember)) = [(true, true)] := by
          decide
        have hm := List.mem_map_of_mem
          (fun rule : Rule => (rule._referenceIsOutgoing, rule._useOffsetInMember)) hrule
        rw [h] at hm
        simp only [List.mem_singleton, Prod.mk.injEq] at hm
        exact hm)⟩

end Allocations

namespace Allocations

open Commands

theorem extendTo_safe (v : ExtendedVisitor) (image : ProcessImage) (M : Nat)
    (ht : TablesOk v M) (hok : ImageOk v image) (rule : Rule)
    (hnew : rule._newState < M) (ma : Allocation) (c : Nat) (ca : Allocation)
    (m s r n lim : Nat) (pn : List Nat) (prog : RuleCheckProgress)
    (ctxs : List ExtensionContext) (vd vs : List Nat) (out : List OutputItem)
    (hca : image.allocations[c]? = some ca)
    (hinv : RangeInv image ⟨m, s, r, n, lim, pn, prog, ctxs, vd, vs, out⟩) :
    (∀ b, extendTo v image rule ma c ca ⟨m, s, r, n, lim, pn, prog, ctxs, vd, vs, out⟩
        ≠ .fault b)
      ∧ ∀ st1, extendTo v image rule ma c ca ⟨m, s, r, n, lim, pn, prog, ctxs, vd, vs, out⟩
          = .next st1 → RangeInv image st1 := by
  have hpass := candidatePasses_isSome v image hok.1 rule m ma c ca
  have hcN : c < image.allocations.length := by
    by_contra hc
    rw [List.getElem?_eq_none (by omega)] at hca
    cases hca
  obtain ⟨hm, hpn, hfr⟩ := hinv
  simp only [] at hm hpn hfr
  have hlen := ht.2.1
  obtain ⟨x0, hs0⟩ : ∃ x, v._stateToBase[rule._newState]? = some x :=
    ⟨_, List.getElem?_eq_getElem (by omega)⟩
  obtain ⟨x1, hs1⟩ : ∃ x, v._stateToBase[rule._newState + 1]? = some x :=
    ⟨_, List.getElem?_eq_getElem (by omega)⟩
  unfold extendTo
  simp only []
  split
  · exact ⟨fun b hb => (by cases hb), fun st1 hst => (by cases hst; exact ⟨hm, hpn, hfr⟩)⟩
  · split
    · rename_i hnone
      exact absurd hnone hpass
    · exact ⟨fun b hb => (by cases hb), fun st1 hst => (by cases hst; exact ⟨hm, hpn, hfr⟩)⟩
    · split
      · exact ⟨fun b hb => (by cases hb), fun st1 hst => (by cases hst; exact ⟨hm, hpn, hfr⟩)⟩
      · rw [hs0, hs1]
        simp only []
        refine ⟨fun b hb => (by cases hb), fun st1 hst => ?_⟩
        cases hst
        refine ⟨hcN, ?_, ?_⟩
        · intro hp
          simp only [] at hp
          split at hp <;> cases hp
        · intro f hf
          simp only [] at hf
          split at hf
          · rcases List.mem_cons.mp hf with rfl | hf
            · exact ⟨hm, hpn⟩
            · exact hfr f hf
          · exact hfr f hf

theorem takeCandidate_safe (v : ExtendedVisitor) (image : ProcessImage) (M : Nat)
    (ht : TablesOk v M) (hok : ImageOk v image) (rule : Rule)
    (hnew : rule._newState < M) (ma : Allocation)
    (m s r n lim : Nat) (pn : List Nat) (prog : RuleCheckProgress)
    (ctxs : List ExtensionContext) (vd vs : List Nat) (out : List OutputItem)
    (hm : m < image.allocations.length)
    (hfr : ∀ f ∈ ctxs, f._memberIndex < image.allocations.length
      ∧ CandidatesInRange image.allocations.length f._ruleCheckProgress f._pNextCandidate)
    (hall : ∀ x ∈ pn, x < image.allocations.length)
    (hentry : prog = .NO_EDGES_CHECKED ∨ (prog = .IN_PROGRESS ∧ pn ≠ [])) :
    (∀ b, takeCandidate v image rule ma ⟨m, s, r, n, lim, pn, prog, ctxs, vd, vs, out⟩
        ≠ .fault b)
      ∧ ∀ st1, takeCandidate v image rule ma ⟨m, s, r, n, lim, pn, prog, ctxs, vd, vs, out⟩
          = .next st1 → RangeInv image st1 := by
  unfold takeCandidate countCandidates
  simp only []
  rcases hentry with hp | ⟨hp, hne⟩
  · subst hp
    simp only [if_true, true_and]
    by_cases hz : pn.length = 0
    · rw [if_pos hz]
      refine ⟨fun b hb => (by cases hb), fun st1 hst => ?_⟩
      cases hst
      exact ⟨hm, fun hp => (by cases hp), hfr⟩
    · rw [if_neg hz]
      cases pn with
      | nil => exact absurd rfl hz
      | cons c rest =>
        simp only []
        have hc := hall c (List.mem_cons_self _ _)
        rw [List.getElem?_eq_getElem hc]
        simp only []
        exact extendTo_safe v image M ht hok rule hnew ma c _ _ _ _ _ _ _ _ _ _ _ _
          (List.getElem?_eq_getElem hc)
          ⟨hm, fun _ x hx => hall x (List.mem_cons_of_mem _ hx), hfr⟩
  · subst hp
    simp only [reduceCtorEq, if_false, false_and]
    cases pn with
    | nil => exact absurd rfl hne
    | cons c rest =>
      simp only []
      have hc := hall c (List.mem_cons_self _ _)
      rw [List.getElem?_eq_getElem hc]
      simp only []
      exact extendTo_safe v image M ht hok rule hnew ma c _ _ _ _ _ _ _ _ _ _ _ _
        (List.getElem?_eq_getElem hc)
        ⟨hm, fun _ x hx => hall x (List.mem_cons_of_mem _ hx), hfr⟩

theorem followOffset_safe (v : ExtendedVisitor) (image : ProcessImage) (M : Nat)
    (ht : TablesOk v M) (hok : ImageOk v image) (rule : Rule)
    (hnew : rule._newState < M) (ma : Allocation)
    (m s r n lim : Nat) (pn : List Nat) (prog : RuleCheckProgress)
    (ctxs : List ExtensionContext) (vd vs : List Nat) (out : List OutputItem)
    (hm : m < image.allocations.length)
    (hfr : ∀ f ∈ ctxs, f._memberIndex < image.allocations.length
      ∧ CandidatesInRange image.allocations.length f._ruleCheckProgress f._pNextCandidate) :
    (∀ b, followOffset v image rule ma ⟨m, s, r, n, lim, pn, prog, ctxs, vd, vs, out⟩
        ≠ .fault b)
      ∧ ∀ st1, followOffset v image rule ma ⟨m, s, r, n, lim, pn, prog, ctxs, vd, vs, out⟩
          = .next st1 → RangeInv image st1 := by
  have hdone : RangeInv image ⟨m, s, r, n, lim, pn, .RULE_DONE, ctxs, vd, vs, out⟩ :=
    ⟨hm, fun hp => (by cases hp), hfr⟩
  unfold followOffset
  simp only []
  split
  · exact ⟨fun b hb => (by cases hb), fun st1 hst => (by cases hst; exact hdone)⟩
  · split
    · exact ⟨fun b hb => (by cases hb), fun st1 hst => (by cases hst; exact hdone)⟩
    · rename_i hne
      have hle := hok.2.2 (image.offsetAt ((ma.Address + rule._offsetInMember)
        % image.offsetLimit))
      have hlt : image.AllocationIndexOf (image.offsetAt
          ((ma.Address + rule._offsetInMember) % image.offsetLimit))
          < image.allocations.length := by
        unfold ProcessImage.NumAllocations at hne
        omega
      rw [List.getElem?_eq_getElem hlt]
      simp only []
      split
      · exact ⟨fun b hb => (by cases hb), fun st1 hst => (by cases hst; exact hdone)⟩
      · exact extendTo_safe v image M ht hok rule hnew ma _ _ _ _ _ _ _ _ _ _ _ _ _
          (List.getElem?_eq_getElem hlt) hdone

theorem followEdges_safe (v : ExtendedVisitor) (image : ProcessImage) (M : Nat)
    (ht : TablesOk v M) (hok : ImageOk v image) (rule : Rule)
    (hnew : rule._newState < M) (ma : Allocation)
    (m s r n lim : Nat) (pn : List Nat) (prog : RuleCheckProgress)
    (ctxs : List ExtensionContext) (vd vs : List Nat) (out : List OutputItem)
    (hm : m < image.allocations.length)
    (hfr : ∀ f ∈ ctxs, f._memberIndex < image.allocations.length
      ∧ CandidatesInRange image.allocations.length f._ruleCheckProgress f._pNextCandidate) :
    (∀ b, followEdges v image rule ma ⟨m, s, r, n, lim, pn, prog, ctxs, vd, vs, out⟩
        ≠ .fault b)
      ∧ ∀ st1, followEdges v image rule ma ⟨m, s, r, n, lim, pn, prog, ctxs, vd, vs, out⟩
          = .next st1 → RangeInv image st1 := by
  obtain ⟨g, hg⟩ := Option.isSome_iff_exists.mp hok.1.1
  have hvg : visitorGraph v = g := by simp [visitorGraph, hg]
  have hedges := hok.2.1
  rw [hvg] at hedges
  unfold followEdges
  rw [hg]
  simp only []
  apply takeCandidate_safe v image M ht hok rule hnew ma _ _ _ _ _ _ _ _ _ _ _ hm hfr _
    (Or.inl rfl)
  intro x hx
  split at hx
  · exact hedges m x (Or.inl hx)
  · exact hedges m x (Or.inr hx)

theorem applyRule_safe (v : ExtendedVisitor) (image : ProcessImage) (M : Nat)
    (ht : TablesOk v M) (hok : ImageOk v image)
    (m s r n lim : Nat) (pn : List Nat) (prog : RuleCheckProgress)
    (ctxs : List ExtensionContext) (vd vs : List Nat) (out : List OutputItem)
    (hr : r < v._rules.length)
    (hprog : prog = .NEW_RULE ∨ (prog = .IN_PROGRESS ∧ pn ≠ []))
    (hinv : RangeInv image ⟨m, s, r, n, lim, pn, prog, ctxs, vd, vs, out⟩) :
    (∀ b, applyRule v image ⟨m, s, r, n, lim, pn, prog, ctxs, vd, vs, out⟩ ≠ .fault b)
      ∧ ∀ st1, applyRule v image ⟨m, s, r, n, lim, pn, prog, ctxs, vd, vs, out⟩
          = .next st1 → RangeInv image st1 := by
  obtain ⟨hm, hpn, hfr⟩ := hinv
  simp only [] at hm hpn hfr
  obtain ⟨rule, hrule⟩ : ∃ rule, v._rules[r]? = some rule :=
    ⟨_, List.getElem?_eq_getElem hr⟩
  obtain ⟨ma, hma⟩ : ∃ ma, image.allocations[m]? = some ma :=
    ⟨_, List.getElem?_eq_getElem hm⟩
  have hnew := (ht.2.2.2.2.2.2 r rule hrule).2.1
  unfold applyRule
  simp only []
  rw [hrule, hma]
  simp only []
  split
  · split
    · refine ⟨fun b hb => (by cases hb), fun st1 hst => ?_⟩
      cases hst
      exact ⟨hm, fun hp => (by cases hp), hfr⟩
    · split
      · exact followOffset_safe v image M ht hok rule hnew ma _ _ _ _ _ _ _ _ _ _ _ hm hfr
      · exact followEdges_safe v image M ht hok rule hnew ma _ _ _ _ _ _ _ _ _ _ _ hm hfr
  · rename_i hp
    rcases hprog with h1 | ⟨h1, hne⟩
    · exact absurd h1 hp
    · exact takeCandidate_safe v image M ht hok rule hnew ma _ _ _ _ _ _ _ _ _ _ _ hm hfr
        (hpn h1) (Or.inr ⟨h1, hne⟩)

theorem resumeContext_safe (v : ExtendedVisitor) (image : ProcessImage) (M : Nat)
    (ht : TablesOk v M) (c : ExtensionContext) (rest : List ExtensionContext)
    (m s r n lim : Nat) (pn : List Nat) (prog : RuleCheckProgress)
    (ctxs : List ExtensionContext) (vd vs : List Nat) (out : List OutputItem)
    (hc : c._ruleIndex < v._rules.length)
    (hcr : c._memberIndex < image.allocations.length
      ∧ CandidatesInRange image.allocations.length c._ruleCheckProgress c._pNextCandidate)
    (hfr : ∀ f ∈ rest, f._memberIndex < image.allocations.length
      ∧ CandidatesInRange image.allocations.length f._ruleCheckProgress f._pNextCandidate) :
    (∀ b, resumeContext v c rest ⟨m, s, r, n, lim, pn, prog, ctxs, vd, vs, out⟩ ≠ .fault b)
      ∧ ∀ st1, resumeContext v c rest ⟨m, s, r, n, lim, pn, prog, ctxs, vd, vs, out⟩
          = .next st1 → RangeInv image st1 := by
  obtain ⟨rule, hrule⟩ : ∃ rule, v._rules[c._ruleIndex]? = some rule :=
    ⟨_, List.getElem?_eq_getElem hc⟩
  have hbase := (ht.2.2.2.2.2.2 _ rule hrule).1
  have hlen := ht.2.1
  obtain ⟨x1, hs1⟩ : ∃ x, v._stateToBase[rule._baseState + 1]? = some x :=
    ⟨_, List.getElem?_eq_getElem (by omega)⟩
  unfold resumeContext
  simp only []
  rw [hrule]
  simp only []
  rw [hs1]
  simp only []
  refine ⟨fun b hb => (by cases hb), fun st1 hst => ?_⟩
  cases hst
  exact ⟨hcr.1, hcr.2, hfr⟩

theorem visitStep_safe (v : ExtendedVisitor) (image : ProcessImage) (M : Nat)
    (ht : TablesOk v M) (hok : ImageOk v image) (st : VisitState)
    (hrule : RuleInv v st) (hcount : CountInv v st) (hrange : RangeInv image st) :
    (∀ b, visitStep v image st ≠ .fault b)
      ∧ ∀ st1, visitStep v image st = .next st1 → RangeInv image st1 := by
  obtain ⟨m, s, r, n, lim, pn, prog, ctxs, vd, vs, out⟩ := st
  have hR := tables_limit v M ht s hrule.1
  obtain ⟨h1, h2, h3, h4, h5⟩ := hrule
  obtain ⟨c1, c2, c3⟩ := hcount
  obtain ⟨g1, g2, g3⟩ := hrange
  simp only [] at h1 h2 h3 h4 h5 hR c1 c2 c3 g1 g2 g3
  have hSL := ht.2.2.1
  unfold visitStep
  simp only []
  split
  · rename_i hp
    subst hp
    have hle := h4 rfl
    have hmod : (r + 1) % SIZE_LIMIT = r + 1 := Nat.mod_eq_of_lt (by omega)
    split
    · cases ctxs with
      | nil => exact ⟨fun b hb => (by cases hb), fun st1 hst => (by cases hst)⟩
      | cons c rest =>
        simp only []
        exact resumeContext_safe v image M ht c rest _ _ _ _ _ _ _ _ _ _ _
          (h5 c (List.mem_cons_self _ _)) (g3 c (List.mem_cons_self _ _))
          (fun f hf => g3 f (List.mem_cons_of_mem _ hf))
    · rename_i hne
      rw [hmod] at hne ⊢
      exact applyRule_safe v image M ht hok _ _ _ _ _ _ _ _ _ _ _ (by omega) (Or.inl rfl)
        ⟨g1, fun hp => (by cases hp), g3⟩
  · rename_i hp
    have hprog : prog = .NEW_RULE ∨ (prog = .IN_PROGRESS ∧ pn ≠ []) := by
      cases prog
      · exact Or.inl rfl
      · exact absurd rfl c1
      · exact Or.inr ⟨rfl, (c2 rfl).1⟩
      · exact absurd rfl hp
    have := h3 hp
    exact applyRule_safe v image M ht hok _ _ _ _ _ _ _ _ _ _ _ (by omega) hprog ⟨g1, g2, g3⟩

/-- With more passes allowed than the bound passBound of a state in which the invariants
hold, the loop of Visit returns. -/
theorem bounded_loop (v : ExtendedVisitor) (image : ProcessImage) (M : Nat)
    (ht : TablesOk v M) (hpos : 0 < v._stateToBase.getD 1 0) (hok : ImageOk v image)
    (hshort : ∀ i, ((visitorGraph v).GetOutgoing i).length < SIZE_LIMIT
      ∧ ((visitorGraph v).GetIncoming i).length < SIZE_LIMIT) :
    ∀ (fuel : Nat) (st : VisitState), RuleInv v st → CountInv v st → RangeInv image st →
      passBound v image.allocations.length st < fuel →
      ∃ b, visitLoop v image fuel st = .done b := by
  intro fuel
  induction fuel with
  | zero => intro st _ _ _ h; omega
  | succ k ih =>
    intro st hr hc hg hlt
    obtain ⟨hsafe, hnext⟩ := visitStep_safe v image M ht hok st hr hc hg
    rw [visitLoop]
    cases hres : visitStep v image st with
    | next st1 =>
      obtain ⟨a1, a2, _⟩ := visitStep_count v image M ht hpos hshort st hr hc st1 hres
      exact ih st1 (visitStep_ruleInv v image M ht hpos st hr st1 hres) a1 (hnext st1 hres)
        (by omega)
    | done b => exact ⟨b, rfl⟩
    | fault b => exact absurd hres (hsafe b)

theorem visitStart_rangeInv (image : ProcessImage) (seed r0 lim0 : Nat) (log : VisitLog)
    (hseed : seed < image.allocations.length) :
    RangeInv image (visitStart seed r0 lim0 log) := by
  refine ⟨hseed, ?_, ?_⟩
  · intro hp
    simp [visitStart] at hp
  · intro f hf
    simp [visitStart] at hf

/-- The image of a visitor that its constructor enabled without errors is in order for
Visit when the edges of its graph lead to allocations of the directory and
AllocationIndexOf returns the index of an allocation or the number of allocations. -/
theorem enabled_imageOk (context : Context) (image : ProcessImage) (allow : Bool)
    (v : ExtendedVisitor) (graph : Graph)
    (hv : ExtendedVisitor.new context image allow = some v)
    (hg : v._graph = image.GetAllocationGraph)
    (hgraph : image.GetAllocationGraph = some graph)
    (hedges : ∀ i c, c ∈ graph.GetOutgoing i ∨ c ∈ graph.GetIncoming i →
      c < image.NumAllocations)
    (hindex : ∀ a, image.AllocationIndexOf a ≤ image.NumAllocations) :
    ImageOk v image := by
  obtain ⟨s1, s2⟩ := new_skip_options context image allow v hv
  have hvg : visitorGraph v = graph := by simp [visitorGraph, hg, hgraph]
  refine ⟨⟨by rw [hg, hgraph]; rfl, s1, s2⟩, ?_, hindex⟩
  rw [hvg]
  exact hedges

/-- C37: for every finite directory and graph, cyclic or not, every rule set for which
the engine is enabled and every seed, the loop of Visit terminates, having invoked the
wrapped visitor at most once per allocation.  There is a number of passes such that,
whenever the loop may make at least that many, Visit returns, and the calls of
visitor.Visit that it made are calls for distinct indices that were not in the visited
set at the start.  The visitor is one that its constructor enabled for the graph of the
process image; the seed and the targets of the edges are indices of allocations of the
directory, AllocationIndexOf returns such an index or the number of allocations, and an
edge list is shorter than 2^64. -/
theorem Visit_terminates (context : Context) (image : ProcessImage) (allow : Bool)
    (v : ExtendedVisitor) (graph : Graph) (seed : Nat) (log : VisitLog)
    (hv : ExtendedVisitor.new context image allow = some v) (hen : v.IsEnabled = true)
    (hsize : context.GetNumArguments (bytesOf "extend") < SIZE_LIMIT)
    (hgraph : image.GetAllocationGraph = some graph)
    (hedges : ∀ i c, c ∈ graph.GetOutgoing i ∨ c ∈ graph.GetIncoming i →
      c < image.NumAllocations)
    (hshort : ∀ i, (graph.GetOutgoing i).length < SIZE_LIMIT
      ∧ (graph.GetIncoming i).length < SIZE_LIMIT)
    (hindex : ∀ a, image.AllocationIndexOf a ≤ image.NumAllocations)
    (hseed : seed < image.NumAllocations) :
    ∃ fuel0, ∀ fuel, fuel0 ≤ fuel →
      ∃ st, v.Visit image fuel seed log = .done st ∧ VisitedOnce log st.log := by
  obtain ⟨ht, hpos, -, -, hg, -⟩ := enabled_tables context image allow v hv hen hsize
  have hok := enabled_imageOk context image allow v graph hv hg hgraph hedges hindex
  have hs := visitorGraph_short v image hg
    (fun g hgg i => by
      have h : g = graph := Option.some.inj (hgg.symm.trans hgraph)
      subst h
      exact hshort i)
  have hlen := ht.2.1
  obtain ⟨r0, h0⟩ : ∃ x, v._stateToBase[0]? = some x :=
    ⟨_, List.getElem?_eq_getElem (by omega)⟩
  obtain ⟨lim0, h1⟩ : ∃ x, v._stateToBase[1]? = some x :=
    ⟨_, List.getElem?_eq_getElem (by have := ht.1; omega)⟩
  have honce : ∀ fuel st, v.Visit image fuel seed log = .done st → VisitedOnce log st.log := by
    intro fuel st hst
    have := Visit_visitedOnce v image fuel seed log hen
    rw [hst] at this
    exact this
  cases hvis : log.visited.contains seed with
  | true =>
    refine ⟨0, fun fuel _ => ?_⟩
    have hdone : ∃ st, v.Visit image fuel seed log = .done st := by
      unfold ExtendedVisitor.Visit
      have hen1 : v._isEnabled = true := hen
      simp only [hen1, hvis, Bool.not_true, Bool.false_eq_true, if_false, if_true]
      exact ⟨_, rfl⟩
    obtain ⟨st, hst⟩ := hdone
    exact ⟨st, hst, honce fuel st hst⟩
  | false =>
    refine ⟨passBound v image.allocations.length (visitStart seed r0 lim0 log) + 1,
      fun fuel hfuel => ?_⟩
    obtain ⟨b, hb⟩ := bounded_loop v image _ ht hpos hok hs fuel
      (visitStart seed r0 lim0 log)
      (visitStart_ruleInv v _ ht hpos seed r0 lim0 log h0 h1)
      (visitStart_countInv v seed r0 lim0 log)
      (visitStart_rangeInv image seed r0 lim0 log hseed) (by omega)
    have hrun : v.Visit image fuel seed log = .done b := by
      rw [Visit_eq_loop v image fuel seed log r0 lim0 hen hvis h0 h1]
      exact hb
    exact ⟨b, hrun, honce fuel b hrun⟩

set_option maxRecDepth 100000 in
theorem Visit_terminates_witness :
    (match plainVisitor.Visit cycleImage 13 0 ⟨[], [], []⟩ with
      | .done st => some st.visits
      | _ => none) = some [0, 1, 2]
    ∧ ∃ fuel0, ∀ fuel, fuel0 ≤ fuel →
        ∃ st, plainVisitor.Visit cycleImage fuel 0 ⟨[], [], []⟩ = .done st
          ∧ VisitedOnce ⟨[], [], []⟩ st.log :=
  ⟨by decide,
    Visit_terminates plainContext cycleImage false plainVisitor cycleGraph 0 ⟨[], [], []⟩
      (Option.some_get _).symm (by decide) (by decide) rfl
      (fun i c h => by
        have hc : c < 3 := by
          simp only [cycleGraph] at h
          rcases h with h | h
          · split at h
            · simp at h; omega
            · split at h
              · simp at h; omega
              · split at h
                · simp at h; omega
                · simp at h
          · split at h
            · simp at h; omega
            · split at h
              · simp at h; omega
              · split at h
                · simp at h; omega
                · simp at h
        have hN : cycleImage.NumAllocations = 4 := rfl
        omega)
      (fun i => by
        simp only [cycleGraph, SIZE_LIMIT]
        constructor <;> (repeat' split) <;> simp)
      (fun a => by simp [cycleImage, plainProcessImage, ProcessImage.NumAllocations])
      (by decide)⟩

end Allocations

namespace Commands

/-- With redirection on, the line "/s v" is skipped although a Command is registered
under the name "/s": its Context has an ill-formed switch and no positional argument,
nothing is executed, nothing is written and no file is opened for redirected output. -/
theorem switch_before_command_skipped :
    slashRunner1._redirect = true
      ∧ slashPass2.context._tokens = [bytesOf "/s", bytesOf "v"]
      ∧ slashPass2.context.HasIllFormedSwitch = true
      ∧ slashPass2.context._positionalArguments = []
      ∧ slashPass2.executed = []
      ∧ slashPass2.returned = false
      ∧ slashPass2.runner._output.written = []
      ∧ slashPass2.runner._output._outputStack = [] := by
  decide

end Commands

namespace Allocations

open Commands

/-- When the sum of lines 343-344 does not wrap around, a member that the test of lines
340-344 does not skip for an outgoing rule with an offset in the member holds the whole
word at that offset. -/
theorem member_holds_offset_word (image : ProcessImage) (rule : Rule) (memberIndex : Nat)
    (memberAllocation : Allocation)
    (hrej : memberRejected image rule memberIndex memberAllocation = false)
    (huse : rule._useOffsetInMember = true) (hout : rule._referenceIsOutgoing = true)
    (hsum : rule._offsetInMember + image.sizeofOffset < SIZE_LIMIT) :
    rule._offsetInMember + image.sizeofOffset ≤ memberAllocation.Size := by
  unfold memberRejected at hrej
  rw [huse, hout] at hrej
  simp only [if_true, Bool.true_and, Bool.or_eq_false_iff, decide_eq_false_iff_not] at hrej
  rw [Nat.mod_eq_of_lt hsum] at hrej
  omega

set_option maxRecDepth 100000 in
/-- C23 fails on the code: the rule "@fffffffffffffffc~>" is accepted with the member
offset 2^64 - 4; for the member at 0x1000 of 0x20 bytes the sum of lines 343-344 wraps
around, so the member is not skipped although the offset plus the size of an Offset is
past its end, and line 358 reads the word at 0xffc, below the member.  Visit extends to
the allocation 1 that this word refers to, which is leaked, although the member has no
outgoing reference in the graph and the word is none of its bytes. -/
theorem leaked_rule_reads_outside_member :
    leakedWrapVisitor._rules.map (fun rule =>
        (rule._extensionMustBeLeaked, rule._referenceIsOutgoing, rule._useOffsetInMember,
          rule._offsetInMember))
      = [(true, true, true, 0xfffffffffffffffc)]
    ∧ leakedWrapVisitor.IsEnabled = true ∧ leakedWrapVisitor.HasErrors = false
    ∧ leakedWrapVisitor._graph.map (fun g => (g.GetOutgoing 0, g.GetIncoming 1, g.IsLeaked 1))
        = some ([], [], true)
    ∧ leakedWrapImage.allocations[0]? = some ⟨0x1000, 0x20, true⟩
    ∧ ¬ (0xfffffffffffffffc + leakedWrapImage.sizeofOffset ≤ 0x20)
    ∧ (leakedWrapVisitor._rules.map (fun rule =>
        memberRejected leakedWrapImage rule 0 ⟨0x1000, 0x20, true⟩)) = [false]
    ∧ (0x1000 + 0xfffffffffffffffc) % leakedWrapImage.offsetLimit = 0xffc
    ∧ ¬ (0x1000 ≤ 0xffc)
    ∧ leakedWrapImage.offsetAt 0xffc = 0x2000
    ∧ leakedWrapImage.AllocationIndexOf 0x2000 = 1
    ∧ (match leakedWrapVisitor.Visit leakedWrapImage 3 0 ⟨[], [], []⟩ with
        | .done st => some st.visits
        | _ => none) = some [0, 1] := by
  decide

end Allocations

end chap
